import Mathlib

/-!
# Route finder: station index and route planner

Shallow embedding of `src/Project.c`.

* C pointers to `station_t` are `Option Nat` (`none` is `NULL`), the memory holding the
  stations is a map from addresses to records (`Heap`), and `free` empties a cell.
* The singly linked lists of the program (cars of a station, work queue, printed route)
  own their cells exclusively and are embedded as Lean lists.
* Every `while`/`for` loop that follows pointers is a recursive function on a fuel
  counter; the theorems show that enough fuel always gives a result on a station index.
* C `int` is embedded as `Int`. The only arithmetic of the program is the subtraction
  `reach->distance - curr->distance` in the range tests of the two searches; it is
  reduced to 32 bits in two's complement (`wrap32`), which is what the compiled program
  computes when the difference of two distances is not representable.
* A run that dereferences `NULL` or a freed cell ends in `Except.error`.
* Reading the input (`scanf`) is not embedded: a `Command` is one parsed command, and the
  list of an `add-station` command is what the reading loop of `main` stored in the array
  `vector_autonomy` (room for 512 `int`s in the source; a command that announces more
  cars overruns the array and is outside the embedding).
* `malloc` for a station hands out the address `brk` of the state, which is then
  incremented; the addresses from `brk` on are never in use.
-/

namespace RouteFinder

/-- Ways in which a run of the program fails to return. -/
inductive Fault where
  | null
  | dangling
  | fuel
  deriving DecidableEq, Repr

/-- Record `station_t`: a node of the tree of stations. -/
structure station_t where
  distance : Int
  max_car : Int
  color : Char
  right : Option Nat
  left : Option Nat
  parent : Option Nat
  pi : Option Nat
  list_cars : List Int
  deriving DecidableEq, Repr

/-- Record `bst_t`: the holder of the root pointer. -/
structure bst_t where
  root : Option Nat
  deriving DecidableEq, Repr

/-- Memory of station records, by address. -/
abbrev Heap := Nat → Option station_t

/-- Work queue `queue_t` of station pointers, head first. -/
abbrev queue_t := List (Option Nat)

/-- Value of a C `int` expression whose exact value is `x`: reduction to 32 bits in two's
complement. -/
def wrap32 (x : Int) : Int := (x + 2147483648) % 4294967296 - 2147483648

/-- Read through a pointer (`p->...`). -/
def load (m : Heap) (p : Option Nat) : Except Fault station_t :=
  match p with
  | none => .error .null
  | some a =>
    match m a with
    | none => .error .dangling
    | some s => .ok s

/-- Write through a pointer (`p->field = ...`), as an update of the record. -/
def modify (m : Heap) (p : Option Nat) (f : station_t → station_t) : Except Fault Heap :=
  match load m p with
  | .error e => .error e
  | .ok s =>
    match p with
    | none => .error .null
    | some a => .ok (Function.update m a (some (f s)))

/-- Function `InitialiseStation`: the contents of a freshly allocated station. -/
def InitialiseStation (dist : Int) : station_t :=
  { distance := dist, color := 'w', max_car := 0, left := none, right := none,
    parent := none, pi := none, list_cars := [] }

/-- Function `InitialiseBST`. -/
def InitialiseBST : bst_t := { root := none }

/-- Function `MinimumBST`: `while (x->left != NULL) x = x->left; return x;`. -/
def MinimumBST : Nat → Heap → Option Nat → Except Fault (Option Nat)
  | 0, _, _ => .error .fuel
  | fuel + 1, m, x =>
    match load m x with
    | .error e => .error e
    | .ok s =>
      match s.left with
      | none => .ok x
      | some l => MinimumBST fuel m (some l)

/-- Function `MaximumBST`: `while (x->right != NULL) x = x->right; return x;`. -/
def MaximumBST : Nat → Heap → Option Nat → Except Fault (Option Nat)
  | 0, _, _ => .error .fuel
  | fuel + 1, m, x =>
    match load m x with
    | .error e => .error e
    | .ok s =>
      match s.right with
      | none => .ok x
      | some r => MaximumBST fuel m (some r)

/-- Loop of `PredecessorBST`: `while (y != NULL && stat == y->left) { stat = y; y = y->parent; }`,
returning `y`. -/
def PredecessorBST.climb : Nat → Heap → Option Nat → Option Nat → Except Fault (Option Nat)
  | 0, _, _, _ => .error .fuel
  | fuel + 1, m, stat, y =>
    match y with
    | none => .ok none
    | some _ =>
      match load m y with
      | .error e => .error e
      | .ok sy =>
        if stat = sy.left then
          PredecessorBST.climb fuel m y sy.parent
        else .ok y

/-- Function `PredecessorBST`. -/
def PredecessorBST (fuel : Nat) (m : Heap) (stat : Option Nat) : Except Fault (Option Nat) :=
  match load m stat with
  | .error e => .error e
  | .ok s =>
    match s.left with
    | some l => MaximumBST fuel m (some l)
    | none => PredecessorBST.climb fuel m stat s.parent

/-- Loop of `SuccessorBST`: `while (y != NULL && stat == y->right) { stat = y; y = y->parent; }`,
returning `y`. -/
def SuccessorBST.climb : Nat → Heap → Option Nat → Option Nat → Except Fault (Option Nat)
  | 0, _, _, _ => .error .fuel
  | fuel + 1, m, stat, y =>
    match y with
    | none => .ok none
    | some _ =>
      match load m y with
      | .error e => .error e
      | .ok sy =>
        if stat = sy.right then
          SuccessorBST.climb fuel m y sy.parent
        else .ok y

/-- Function `SuccessorBST`. -/
def SuccessorBST (fuel : Nat) (m : Heap) (stat : Option Nat) : Except Fault (Option Nat) :=
  match load m stat with
  | .error e => .error e
  | .ok s =>
    match s.right with
    | some r => MinimumBST fuel m (some r)
    | none => SuccessorBST.climb fuel m stat s.parent

/-- Loop of `InsertStationBST`: descends from `x` with trailing pointer `y`; returns `y`. -/
def InsertStationBST.descend : Nat → Heap → Int → Option Nat → Option Nat →
    Except Fault (Option Nat)
  | 0, _, _, _, _ => .error .fuel
  | fuel + 1, m, zd, y, x =>
    match x with
    | none => .ok y
    | some _ =>
      match load m x with
      | .error e => .error e
      | .ok sx =>
        if zd < sx.distance then InsertStationBST.descend fuel m zd x sx.left
        else InsertStationBST.descend fuel m zd x sx.right

/-- Function `InsertStationBST`. -/
def InsertStationBST (fuel : Nat) (m : Heap) (T : bst_t) (z : Option Nat) :
    Except Fault (Heap × bst_t) :=
  match load m z with
  | .error e => .error e
  | .ok sz =>
    match InsertStationBST.descend fuel m sz.distance none T.root with
    | .error e => .error e
    | .ok y =>
      match modify m z (fun s => { s with parent := y }) with
      | .error e => .error e
      | .ok m1 =>
        match y with
        | none => .ok (m1, { T with root := z })
        | some _ =>
          match load m1 y with
          | .error e => .error e
          | .ok sy =>
            if sz.distance < sy.distance then
              match modify m1 y (fun s => { s with left := z }) with
              | .error e => .error e
              | .ok m2 => .ok (m2, T)
            else
              match modify m1 y (fun s => { s with right := z }) with
              | .error e => .error e
              | .ok m2 => .ok (m2, T)

/-- Function `SearchStationBST`. -/
def SearchStationBST.loop : Nat → Heap → Int → Option Nat → Except Fault (Option Nat)
  | 0, _, _, _ => .error .fuel
  | fuel + 1, m, dist, stat =>
    match stat with
    | none => .ok none
    | some _ =>
      match load m stat with
      | .error e => .error e
      | .ok s =>
        if dist ≠ s.distance then
          if dist < s.distance then SearchStationBST.loop fuel m dist s.left
          else SearchStationBST.loop fuel m dist s.right
        else .ok stat

/-- Function `SearchStationBST`: the station at distance `dist`, or `NULL`. -/
def SearchStationBST (fuel : Nat) (m : Heap) (T : bst_t) (dist : Int) :
    Except Fault (Option Nat) :=
  SearchStationBST.loop fuel m dist T.root

/-- Function `TransplantBST`: puts `v` where `u` hangs. -/
def TransplantBST (m : Heap) (T : bst_t) (u v : Option Nat) : Except Fault (Heap × bst_t) :=
  match load m u with
  | .error e => .error e
  | .ok su =>
    match
      (match su.parent with
       | none => (.ok (m, { T with root := v }) : Except Fault (Heap × bst_t))
       | some _ =>
         match load m su.parent with
         | .error e => .error e
         | .ok sp =>
           if u = sp.left then
             match modify m su.parent (fun s => { s with left := v }) with
             | .error e => .error e
             | .ok m1 => .ok (m1, T)
           else
             match modify m su.parent (fun s => { s with right := v }) with
             | .error e => .error e
             | .ok m1 => .ok (m1, T)) with
    | .error e => .error e
    | .ok (m1, T1) =>
      match v with
      | none => .ok (m1, T1)
      | some _ =>
        -- `v->parent = u->parent`, with `u->parent` read after the writes above
        match load m1 u with
        | .error e => .error e
        | .ok su1 =>
          match modify m1 v (fun s => { s with parent := su1.parent }) with
          | .error e => .error e
          | .ok m2 => .ok (m2, T1)

/-- Library call `free` on a station. -/
def free (m : Heap) (p : Option Nat) : Except Fault Heap :=
  match load m p with
  | .error e => .error e
  | .ok _ =>
    match p with
    | none => .error .null
    | some a => .ok (Function.update m a none)

/-- Function `DemolishStationBST`. -/
def DemolishStationBST (fuel : Nat) (m : Heap) (T : bst_t) (z : Option Nat) :
    Except Fault (Heap × bst_t) :=
  match load m z with
  | .error e => .error e
  | .ok sz =>
    match sz.left with
    | none =>
      match TransplantBST m T z sz.right with
      | .error e => .error e
      | .ok (m1, T1) =>
        match free m1 z with
        | .error e => .error e
        | .ok m2 => .ok (m2, T1)
    | some _ =>
      match sz.right with
      | none =>
        match TransplantBST m T z sz.left with
        | .error e => .error e
        | .ok (m1, T1) =>
          match free m1 z with
          | .error e => .error e
          | .ok m2 => .ok (m2, T1)
      | some _ =>
        match MinimumBST fuel m sz.right with
        | .error e => .error e
        | .ok y =>
          match load m y with
          | .error e => .error e
          | .ok sy =>
            match
              (if sy.parent ≠ z then
                match TransplantBST m T y sy.right with
                | .error e => .error e
                | .ok (m1, T1) =>
                  -- `y->right = z->right; y->right->parent = y;`
                  match load m1 z with
                  | .error e => .error e
                  | .ok sz1 =>
                    match modify m1 y (fun s => { s with right := sz1.right }) with
                    | .error e => .error e
                    | .ok m2 =>
                      match load m2 y with
                      | .error e => .error e
                      | .ok sy2 =>
                        match modify m2 sy2.right (fun s => { s with parent := y }) with
                        | .error e => .error e
                        | .ok m3 => .ok (m3, T1)
              else (.ok (m, T) : Except Fault (Heap × bst_t))) with
            | .error e => .error e
            | .ok (m3, T1) =>
              match TransplantBST m3 T1 z y with
              | .error e => .error e
              | .ok (m4, T2) =>
                -- `y->left = z->left; y->left->parent = y;`
                match load m4 z with
                | .error e => .error e
                | .ok sz4 =>
                  match modify m4 y (fun s => { s with left := sz4.left }) with
                  | .error e => .error e
                  | .ok m5 =>
                    match load m5 y with
                    | .error e => .error e
                    | .ok sy5 =>
                      match modify m5 sy5.left (fun s => { s with parent := y }) with
                      | .error e => .error e
                      | .ok m6 =>
                        match free m6 z with
                        | .error e => .error e
                        | .ok m7 => .ok (m7, T2)

/-- Function `AddCar`: the new car becomes the head of the list. -/
def AddCar (list_cars : List Int) (car_autonomy : Int) : List Int :=
  car_autonomy :: list_cars

/-- Function `ScrapCar`: unlinks the first car with the given autonomy; the flag tells
whether there was one. -/
def ScrapCar : List Int → Int → List Int × Bool
  | [], _ => ([], false)
  | c :: rest, car_autonomy =>
    if c ≠ car_autonomy then
      ((c :: (ScrapCar rest car_autonomy).1), (ScrapCar rest car_autonomy).2)
    else (rest, true)

/-- Loop of `CarMaximumAutonomy`, with the running maximum. -/
def CarMaximumAutonomy.loop : Int → List Int → Int
  | max, [] => max
  | max, c :: rest => if c > max then CarMaximumAutonomy.loop c rest
                      else CarMaximumAutonomy.loop max rest

/-- Function `CarMaximumAutonomy`. -/
def CarMaximumAutonomy (list : List Int) : Int :=
  CarMaximumAutonomy.loop 0 list

/-- Loop of `AddStation` over the array of autonomies (`num_cars` is its length). -/
def AddStation.loop : station_t → List Int → station_t
  | stat, [] => stat
  | stat, v :: rest =>
    let stat1 := { stat with list_cars := AddCar stat.list_cars v }
    if v > stat1.max_car then AddStation.loop { stat1 with max_car := v } rest
    else AddStation.loop stat1 rest

/-- Function `AddStation`: fills the car list of `stat`, then inserts it in the tree. -/
def AddStation (fuel : Nat) (m : Heap) (T : bst_t) (stat : Option Nat)
    (vector_autonomy : List Int) : Except Fault (Heap × bst_t) :=
  match modify m stat (fun s => AddStation.loop s vector_autonomy) with
  | .error e => .error e
  | .ok m1 => InsertStationBST fuel m1 T stat

/-- Function `Enqueue`: insertion at the tail. -/
def Enqueue (q : queue_t) (v : Option Nat) : queue_t := q ++ [v]

/-- Function `Dequeue`: removal of the head, which is read without a check. -/
def Dequeue (q : queue_t) : Except Fault (Option Nat × queue_t) :=
  match q with
  | [] => .error .null
  | v :: rest => .ok (v, rest)

/-- One line printed by the program. -/
inductive Line where
  | added
  | not_added
  | demolished
  | not_demolished
  | scrapped
  | not_scrapped
  | no_route
  | route (distances : List Int)
  deriving DecidableEq, Repr

/-- Inner loop of `BfsDirect`:
`while (!exit && curr->max_car >= reach->distance - curr->distance) { ... }`. -/
def BfsDirect.walk (fuel : Nat) (s_a curr : Option Nat) :
    Nat → Heap → queue_t → Bool → Option Nat → Except Fault (Heap × queue_t × Bool)
  | 0, _, _, _, _ => .error .fuel
  | n + 1, m, queue, exit, reach =>
    if exit then .ok (m, queue, exit) else
    match load m curr with
    | .error e => .error e
    | .ok sc =>
      match load m reach with
      | .error e => .error e
      | .ok sr =>
        if sc.max_car ≥ wrap32 (sr.distance - sc.distance) then
          match
            (if sr.color = 'w' then
              match modify m reach (fun s => { s with color := 'g', pi := curr }) with
              | .error e => .error e
              | .ok m1 => .ok (m1, Enqueue queue reach)
            else (.ok (m, queue) : Except Fault (Heap × queue_t))) with
          | .error e => .error e
          | .ok (m1, queue1) =>
            match load m1 s_a with
            | .error e => .error e
            | .ok sa =>
              if sr.distance = sa.distance then
                BfsDirect.walk fuel s_a curr n m1 queue1 true reach
              else
                match SuccessorBST fuel m1 reach with
                | .error e => .error e
                | .ok reach1 => BfsDirect.walk fuel s_a curr n m1 queue1 exit reach1
        else .ok (m, queue, exit)

/-- Outer loop of `BfsDirect`: `while (!exit && queue->head != NULL) { ... }`. -/
def BfsDirect.search (fuel : Nat) (s_a : Option Nat) :
    Nat → Heap → queue_t → Bool → Except Fault (Heap × queue_t × Bool)
  | 0, _, _, _ => .error .fuel
  | n + 1, m, queue, exit =>
    if exit = false ∧ queue ≠ [] then
      match Dequeue queue with
      | .error e => .error e
      | .ok (curr, queue1) =>
        match SuccessorBST fuel m curr with
        | .error e => .error e
        | .ok reach =>
          match BfsDirect.walk fuel s_a curr fuel m queue1 exit reach with
          | .error e => .error e
          | .ok (m1, queue2, exit1) => BfsDirect.search fuel s_a n m1 queue2 exit1
    else .ok (m, queue, exit)

/-- Loop of `BfsDirect` that builds the auxiliary list `route` by head insertion while
following `pi` from the end station: `while (printStation->pi != NULL) { ... }`. -/
def BfsDirect.collect : Nat → Heap → Option Nat → List Int → Except Fault (List Int)
  | 0, _, _, _ => .error .fuel
  | n + 1, m, printStation, route =>
    match load m printStation with
    | .error e => .error e
    | .ok s =>
      match s.pi with
      | none => .ok route
      | some _ => BfsDirect.collect n m s.pi (s.distance :: route)

/-- Printing step of `BfsDirect`: the start, the list without its last cell, the end. -/
def BfsDirect.print (start finish : Int) (route : List Int) : Line :=
  match route with
  | [] => .no_route
  | _ :: _ => .route (start :: (route.dropLast ++ [finish]))

/-- Last loop of `BfsDirect`, which whitens the stations from `s_p` upwards:
`for (; s_p->distance <= s_a->distance;) { ...; if (s_p == NULL) break; }`. -/
def BfsDirect.reset (fuel : Nat) (s_a : Option Nat) : Nat → Heap → Option Nat → Except Fault Heap
  | 0, _, _ => .error .fuel
  | n + 1, m, s_p =>
    match load m s_p with
    | .error e => .error e
    | .ok sp =>
      match load m s_a with
      | .error e => .error e
      | .ok sa =>
        if sp.distance ≤ sa.distance then
          match modify m s_p (fun s => { s with color := 'w', pi := none }) with
          | .error e => .error e
          | .ok m1 =>
            match SuccessorBST fuel m1 s_p with
            | .error e => .error e
            | .ok none => .ok m1
            | .ok (some next) => BfsDirect.reset fuel s_a n m1 (some next)
        else .ok m

/-- Function `BfsDirect`: the memory it leaves and the line it prints. -/
def BfsDirect (fuel : Nat) (m : Heap) (s_p s_a : Option Nat) : Except Fault (Heap × Line) :=
  match modify m s_p (fun s => { s with color := 'g' }) with
  | .error e => .error e
  | .ok m1 =>
    match BfsDirect.search fuel s_a fuel m1 (Enqueue [] s_p) false with
    | .error e => .error e
    | .ok (m2, _, _) =>
      match BfsDirect.collect fuel m2 s_a [] with
      | .error e => .error e
      | .ok route =>
        match load m2 s_p with
        | .error e => .error e
        | .ok sp =>
          match load m2 s_a with
          | .error e => .error e
          | .ok sa =>
            match BfsDirect.reset fuel s_a fuel m2 s_p with
            | .error e => .error e
            | .ok m3 => .ok (m3, BfsDirect.print sp.distance sa.distance route)

/-- Conditional statement at the top of the body of the inner loop of `BfsReverse`:
`if (reach->max_car >= reach->distance - curr->distance) { ... }`. -/
def BfsReverse.visit (s_p curr : Option Nat) (m : Heap) (queue : queue_t) (exit : Bool)
    (reach : Option Nat) : Except Fault (Heap × queue_t × Bool) :=
  match load m reach with
  | .error e => .error e
  | .ok sr =>
    match load m curr with
    | .error e => .error e
    | .ok sc =>
      if sr.max_car ≥ wrap32 (sr.distance - sc.distance) then
        match
          (if sr.color = 'w' then
            match modify m reach (fun s => { s with color := 'g', pi := curr }) with
            | .error e => .error e
            | .ok m1 => .ok (m1, Enqueue queue reach)
          else (.ok (m, queue) : Except Fault (Heap × queue_t))) with
        | .error e => .error e
        | .ok (m1, queue1) =>
          match load m1 s_p with
          | .error e => .error e
          | .ok sp =>
            if sr.distance = sp.distance then .ok (m1, queue1, true)
            else .ok (m1, queue1, exit)
      else .ok (m, queue, exit)

/-- Inner loop of `BfsReverse`: `while (!exit) { ...; if (reach == NULL || ...) break; }`. -/
def BfsReverse.walk (fuel : Nat) (s_p curr : Option Nat) :
    Nat → Heap → queue_t → Bool → Option Nat → Except Fault (Heap × queue_t × Bool)
  | 0, _, _, _, _ => .error .fuel
  | n + 1, m, queue, exit, reach =>
    if exit then .ok (m, queue, exit) else
    match BfsReverse.visit s_p curr m queue exit reach with
    | .error e => .error e
    | .ok (m1, queue1, exit1) =>
      match SuccessorBST fuel m1 reach with
      | .error e => .error e
      | .ok none => .ok (m1, queue1, exit1)
      | .ok (some next) =>
        match load m1 (some next) with
        | .error e => .error e
        | .ok sn =>
          match load m1 s_p with
          | .error e => .error e
          | .ok sp =>
            if sn.distance > sp.distance then .ok (m1, queue1, exit1)
            else BfsReverse.walk fuel s_p curr n m1 queue1 exit1 (some next)

/-- Outer loop of `BfsReverse`: `while (!exit && queue->head != NULL) { ... }`. -/
def BfsReverse.search (fuel : Nat) (s_p : Option Nat) :
    Nat → Heap → queue_t → Bool → Except Fault (Heap × queue_t × Bool)
  | 0, _, _, _ => .error .fuel
  | n + 1, m, queue, exit =>
    if exit = false ∧ queue ≠ [] then
      match Dequeue queue with
      | .error e => .error e
      | .ok (curr, queue1) =>
        match SuccessorBST fuel m curr with
        | .error e => .error e
        | .ok reach =>
          match BfsReverse.walk fuel s_p curr fuel m queue1 exit reach with
          | .error e => .error e
          | .ok (m1, queue2, exit1) => BfsReverse.search fuel s_p n m1 queue2 exit1
    else .ok (m, queue, exit)

/-- Printing loop of `BfsReverse`: `while (printRoute->pi != NULL) { ... }` and the last
`printf`, with the distances printed so far in `acc`. -/
def BfsReverse.print : Nat → Heap → Option Nat → List Int → Except Fault (List Int)
  | 0, _, _, _ => .error .fuel
  | n + 1, m, printRoute, acc =>
    match load m printRoute with
    | .error e => .error e
    | .ok s =>
      match s.pi with
      | none => .ok (acc ++ [s.distance])
      | some _ => BfsReverse.print n m s.pi (acc ++ [s.distance])

/-- Last loop of `BfsReverse`, which whitens the stations from `s_p` downwards:
`for (; s_p->distance >= s_a->distance;) { ...; if (s_p == NULL) break; }`. -/
def BfsReverse.reset (fuel : Nat) (s_a : Option Nat) : Nat → Heap → Option Nat → Except Fault Heap
  | 0, _, _ => .error .fuel
  | n + 1, m, s_p =>
    match load m s_p with
    | .error e => .error e
    | .ok sp =>
      match load m s_a with
      | .error e => .error e
      | .ok sa =>
        if sp.distance ≥ sa.distance then
          match modify m s_p (fun s => { s with color := 'w', pi := none }) with
          | .error e => .error e
          | .ok m1 =>
            match PredecessorBST fuel m1 s_p with
            | .error e => .error e
            | .ok none => .ok m1
            | .ok (some prev) => BfsReverse.reset fuel s_a n m1 (some prev)
        else .ok m

/-- Function `BfsReverse`: the memory it leaves and the line it prints. -/
def BfsReverse (fuel : Nat) (m : Heap) (s_p s_a : Option Nat) : Except Fault (Heap × Line) :=
  match modify m s_a (fun s => { s with color := 'g' }) with
  | .error e => .error e
  | .ok m1 =>
    match BfsReverse.search fuel s_p fuel m1 (Enqueue [] s_a) false with
    | .error e => .error e
    | .ok (m2, _, _) =>
      match load m2 s_p with
      | .error e => .error e
      | .ok sp =>
        match
          (match sp.pi with
           | none => (.ok Line.no_route : Except Fault Line)
           | some _ =>
             match BfsReverse.print fuel m2 s_p [] with
             | .error e => .error e
             | .ok ds => .ok (Line.route ds)) with
        | .error e => .error e
        | .ok line =>
          match BfsReverse.reset fuel s_a fuel m2 s_p with
          | .error e => .error e
          | .ok m3 => .ok (m3, line)

/-- One command of the input, after parsing; `cars` of `add_station` are the autonomies
read into `vector_autonomy`, and `num_cars` is the length of the list. -/
inductive Command where
  | add_station (dist : Int) (cars : List Int)
  | demolish_station (dist : Int)
  | add_car (dist : Int) (autonomy : Int)
  | scrap_car (dist : Int) (autonomy : Int)
  | plan_route (start finish : Int)
  deriving DecidableEq, Repr

/-- State of `main` between two commands: the memory, the tree `T`, and the next address
that `malloc` hands out for a station. -/
structure State where
  mem : Heap
  T : bst_t
  brk : Nat

/-- State of `main` before the first command. -/
def State.init : State := { mem := fun _ => none, T := InitialiseBST, brk := 0 }

/-- Body of the command loop of `main` for one command. -/
def main.step (fuel : Nat) (w : State) : Command → Except Fault (State × Line)
  | .add_station dist_station cars =>
    match SearchStationBST fuel w.mem w.T dist_station with
    | .error e => .error e
    | .ok (some _) => .ok (w, .not_added)
    | .ok none =>
      let stat : Option Nat := some w.brk
      let m0 : Heap := Function.update w.mem w.brk (some (InitialiseStation dist_station))
      match AddStation fuel m0 w.T stat cars with
      | .error e => .error e
      | .ok (m1, T1) => .ok ({ mem := m1, T := T1, brk := w.brk + 1 }, .added)
  | .demolish_station dist_station =>
    match SearchStationBST fuel w.mem w.T dist_station with
    | .error e => .error e
    | .ok none => .ok (w, .not_demolished)
    | .ok (some a) =>
      match DemolishStationBST fuel w.mem w.T (some a) with
      | .error e => .error e
      | .ok (m1, T1) => .ok ({ w with mem := m1, T := T1 }, .demolished)
  | .add_car dist_station car_autonomy =>
    match SearchStationBST fuel w.mem w.T dist_station with
    | .error e => .error e
    | .ok none => .ok (w, .not_added)
    | .ok (some a) =>
      match modify w.mem (some a) (fun s =>
          let s1 := { s with list_cars := AddCar s.list_cars car_autonomy }
          if car_autonomy > s1.max_car then { s1 with max_car := car_autonomy } else s1) with
      | .error e => .error e
      | .ok m1 => .ok ({ w with mem := m1 }, .added)
  | .scrap_car dist_station car_autonomy =>
    match SearchStationBST fuel w.mem w.T dist_station with
    | .error e => .error e
    | .ok none => .ok (w, .not_scrapped)
    | .ok (some a) =>
      match load w.mem (some a) with
      | .error e => .error e
      | .ok s =>
        if (ScrapCar s.list_cars car_autonomy).2 then
          match modify w.mem (some a) (fun s =>
              let s1 := { s with list_cars := (ScrapCar s.list_cars car_autonomy).1 }
              if car_autonomy = s1.max_car then
                { s1 with max_car := CarMaximumAutonomy s1.list_cars }
              else s1) with
          | .error e => .error e
          | .ok m1 => .ok ({ w with mem := m1 }, .scrapped)
        else .ok (w, .not_scrapped)
  | .plan_route start finish =>
    match SearchStationBST fuel w.mem w.T start with
    | .error e => .error e
    | .ok stat_p =>
      match SearchStationBST fuel w.mem w.T finish with
      | .error e => .error e
      | .ok stat_a =>
        if start = finish then .ok (w, .route [start])
        else if start < finish then
          match BfsDirect fuel w.mem stat_p stat_a with
          | .error e => .error e
          | .ok (m1, line) => .ok ({ w with mem := m1 }, line)
        else
          match BfsReverse fuel w.mem stat_p stat_a with
          | .error e => .error e
          | .ok (m1, line) => .ok ({ w with mem := m1 }, line)

/-- Command loop of `main`: the final state and the lines printed, in order. -/
def main.run (fuel : Nat) : State → List Command → Except Fault (State × List Line)
  | w, [] => .ok (w, [])
  | w, c :: cs =>
    match main.step fuel w c with
    | .error e => .error e
    | .ok (w1, line) =>
      match main.run fuel w1 cs with
      | .error e => .error e
      | .ok (w2, lines) => .ok (w2, line :: lines)

/-- Shape of a tree of stations: the addresses of its nodes. -/
inductive Tree where
  | nil
  | node (l : Tree) (a : Nat) (r : Tree)
  deriving DecidableEq, Repr

/-- Addresses of a tree in symmetric order. -/
def Tree.inorder : Tree → List Nat
  | .nil => []
  | .node l a r => l.inorder ++ a :: r.inorder

/-- Number of nodes. -/
def Tree.size : Tree → Nat
  | .nil => 0
  | .node l _ r => l.size + 1 + r.size

/-- The cells of `m` reachable from pointer `p` through `left` and `right` form the tree
`t`, and the `parent` link of its root is `par` (and so on downwards). -/
def Shape (m : Heap) : Tree → Option Nat → Option Nat → Prop
  | .nil, p, _ => p = none
  | .node l a r, p, par =>
    p = some a ∧ ∃ s, m a = some s ∧ s.parent = par ∧
      Shape m l s.left (some a) ∧ Shape m r s.right (some a)

/-- Distance stored at an address (`0` when the cell is empty). -/
def distanceOf (m : Heap) (a : Nat) : Int :=
  match m a with
  | some s => s.distance
  | none => 0

/-- Cached maximum autonomy stored at an address (`0` when the cell is empty). -/
def maxCarOf (m : Heap) (a : Nat) : Int :=
  match m a with
  | some s => s.max_car
  | none => 0

/-- Station index: `root` points to a tree of shape `t` with consistent parent links whose
distances increase strictly in symmetric order. -/
def IsIndex (m : Heap) (root : Option Nat) (t : Tree) : Prop :=
  Shape m t root none ∧ (t.inorder.map (distanceOf m)).Pairwise (· < ·)

/-- Element that follows `a` in a list, `up` when `a` is the last one. -/
def nextIn : List Nat → Nat → Option Nat → Option Nat
  | [], _, up => up
  | x :: rest, a, up =>
    if x = a then (match rest with | [] => up | y :: _ => some y) else nextIn rest a up

/-- Element that precedes `a` in a list, `down` when `a` is the first one. -/
def prevIn : List Nat → Nat → Option Nat → Option Nat
  | [], _, down => down
  | x :: rest, a, down => if x = a then down else prevIn rest a (some x)

/-- A station with its search fields (`color`, `pi`) blanked. -/
def strip (s : station_t) : station_t := { s with color := 'w', pi := none }

/-- Two memories that differ at most in the search fields of their stations. -/
def SameTree (m0 m : Heap) : Prop := ∀ a, (m a).map strip = (m0 a).map strip

/-- Facts about a station index that the planner relies on: the stations `L` in
increasing order of distance, and `SuccessorBST`/`PredecessorBST` as neighbours in `L`,
whatever the search fields hold. -/
structure Road (m0 : Heap) (L : List Nat) : Prop where
  nodup : L.Nodup
  sorted : (L.map (distanceOf m0)).Pairwise (· < ·)
  alloc : ∀ a ∈ L, ∃ s, m0 a = some s
  succ : ∀ m, SameTree m0 m → ∀ i a, L[i]? = some a → ∀ f, L.length < f →
    SuccessorBST f m (some a) = .ok L[i + 1]?
  pred : ∀ m, SameTree m0 m → ∀ i a, L[i]? = some a → ∀ f, L.length < f →
    PredecessorBST f m (some a) = .ok (if i = 0 then none else L[i - 1]?)

/-- Clean search state: every station is white and has no `pi` link. -/
def Clean (m : Heap) (L : List Nat) : Prop :=
  ∀ a ∈ L, ∀ s, m a = some s → s.color = 'w' ∧ s.pi = none

/-- Test of the direct search, `x->max_car >= y->distance - x->distance`, as the program
computes it. -/
def InRange (m : Heap) (x y : Nat) : Prop :=
  wrap32 (distanceOf m y - distanceOf m x) ≤ maxCarOf m x

instance (m : Heap) (x y : Nat) : Decidable (InRange m x y) := by
  unfold InRange; infer_instance

/-- The inner walk of the direct search from `x` gets as far as `y`: every station of `L`
after `x` and up to `y` passes the test from `x`. -/
def Within (m : Heap) (L : List Nat) (x y : Nat) : Prop :=
  ∀ z ∈ L, distanceOf m x < distanceOf m z → distanceOf m z ≤ distanceOf m y → InRange m x z

/-- Memory during a direct search from position `p` when the stations at positions
`p..hi` have been discovered: the others are untouched, the start is gray, and every
other discovered station is gray with `pi` at the first station from `p` on whose
inner walk gets as far as it. -/
structure DInv (m0 m : Heap) (L : List Nat) (p hi : Nat) : Prop where
  out : ∀ a, (∀ i, L[i]? = some a → i < p ∨ hi < i) → m a = m0 a
  src : ∀ a s0, L[p]? = some a → m0 a = some s0 → m a = some { s0 with color := 'g' }
  disc : ∀ i a s0, p < i → i ≤ hi → L[i]? = some a → m0 a = some s0 →
    ∃ k b, L[k]? = some b ∧ p ≤ k ∧ k < i ∧
      m a = some { s0 with color := 'g', pi := some b } ∧ Within m0 L b a ∧
      ∀ k' b', L[k']? = some b' → p ≤ k' → k' < k → ¬ Within m0 L b' a

/-- Pointers to the stations at positions `a..b-1`, in order. -/
def seg (L : List Nat) (a b : Nat) : queue_t := (List.Ico a b).map (fun i => L[i]?)

/-- The inner walks from the stations at positions `p..c-1` get to no station beyond
position `hi`. -/
def Proc (m0 : Heap) (L : List Nat) (p c hi : Nat) : Prop :=
  ∀ k b j x, p ≤ k → k < c → L[k]? = some b → hi < j → L[j]? = some x → ¬ Within m0 L b x

/-- Legal hop of a direct route: `y` is further than `x` and
`y.distance - x.distance <= x.maxRange`. -/
def DirectHop (m : Heap) (x y : Nat) : Prop :=
  distanceOf m x < distanceOf m y ∧ distanceOf m y - distanceOf m x ≤ maxCarOf m x

/-- Legal direct route from `sp` to `sa`: stations of the index `L`, in order of travel,
each hop legal (hence strictly increasing distances). -/
def DirectRoute (m : Heap) (L : List Nat) (sp sa : Nat) (xs : List Nat) : Prop :=
  xs.head? = some sp ∧ xs.getLast? = some sa ∧ (∀ x ∈ xs, x ∈ L) ∧ xs.Chain' (DirectHop m)

/-- Station `y` is the one of smallest distance, among the stations of `L` at or after
`sp`, from which `x` is one legal hop away. -/
def FirstInRange (m : Heap) (L : List Nat) (sp y x : Nat) : Prop :=
  y ∈ L ∧ distanceOf m sp ≤ distanceOf m y ∧ DirectHop m y x ∧
    ∀ y' ∈ L, distanceOf m sp ≤ distanceOf m y' → distanceOf m y' < distanceOf m y →
      ¬ DirectHop m y' x

/-- Step of the direct search: `y` is further than `x` and the inner walk from `x` gets
as far as `y`. -/
def DirectStep (m : Heap) (L : List Nat) (x y : Nat) : Prop :=
  distanceOf m x < distanceOf m y ∧ Within m L x y

/-- Stations of the index `L` from `sp` to `sa` joined by steps of the direct search. -/
def DirectWalk (m : Heap) (L : List Nat) (sp sa : Nat) (xs : List Nat) : Prop :=
  xs.head? = some sp ∧ xs.getLast? = some sa ∧ (∀ x ∈ xs, x ∈ L) ∧
    xs.Chain' (DirectStep m L)

/-- Station `y` is the one of smallest distance, among the stations of `L` at or after
`sp`, from which `x` is one step of the direct search away. -/
def FirstStep (m : Heap) (L : List Nat) (sp y x : Nat) : Prop :=
  y ∈ L ∧ distanceOf m sp ≤ distanceOf m y ∧ DirectStep m L y x ∧
    ∀ y' ∈ L, distanceOf m sp ≤ distanceOf m y' → distanceOf m y' < distanceOf m y →
      ¬ DirectStep m L y' x

/-- Test of the reverse search, `h->max_car >= h->distance - l->distance`, as the
program computes it. -/
def RevInRange (m : Heap) (h l : Nat) : Prop :=
  wrap32 (distanceOf m h - distanceOf m l) ≤ maxCarOf m h

/-- Memory and queue during a reverse search between positions `lo` (the end station,
where the search starts) and `hi` (the start station): `D` are the positions already
taken out of the queue, `qs` those waiting in it, `lvl` the number of hops down to `lo`.
Stations outside `D` and `qs` are untouched; the others are gray, with `pi` at a station
of `D` one level lower for which the test of the search passes. -/
structure RInv (m0 m : Heap) (L : List Nat) (lo hi : Nat) (D qs : List Nat)
    (lvl : Nat → Nat) : Prop where
  out : ∀ a, (∀ i, L[i]? = some a → i ∉ D ∧ i ∉ qs) → m a = m0 a
  rng : ∀ i, i ∈ D ∨ i ∈ qs → lo ≤ i ∧ i ≤ hi
  nodup : (D ++ qs).Nodup
  src : ∀ a s0, L[lo]? = some a → m0 a = some s0 → m a = some { s0 with color := 'g' }
  src_in : lo ∈ D ∨ lo ∈ qs
  lvl0 : lvl lo = 0
  disc : ∀ i a s0, i ∈ D ∨ i ∈ qs → i ≠ lo → L[i]? = some a → m0 a = some s0 →
    ∃ k b, L[k]? = some b ∧ k ∈ D ∧ k < i ∧
      m a = some { s0 with color := 'g', pi := some b } ∧ RevInRange m0 a b ∧
      lvl i = lvl k + 1
  sorted : qs.Pairwise (fun x y => lvl x ≤ lvl y)
  done_le : ∀ d ∈ D, ∀ w ∈ qs, lvl d ≤ lvl w

/-- Every station at a position in `(d, bound)` that passes the test down to `d` has
been discovered, at most one level above `d`. -/
def RClosed (m0 : Heap) (L : List Nat) (D qs : List Nat) (lvl : Nat → Nat)
    (d bound : Nat) : Prop :=
  ∀ v a b, d < v → v < bound → L[d]? = some b → L[v]? = some a → RevInRange m0 a b →
    (v ∈ D ∨ v ∈ qs) ∧ lvl v ≤ lvl d + 1

/-- Legal hop of a reverse route: `l` is nearer than `h` and
`h.maxRange >= h.distance - l.distance`. -/
def ReverseHop (m : Heap) (h l : Nat) : Prop :=
  distanceOf m l < distanceOf m h ∧ distanceOf m h - distanceOf m l ≤ maxCarOf m h

/-- Legal reverse route from `sp` to `sa`: stations of the index `L`, in order of travel,
each hop legal (hence strictly decreasing distances). -/
def ReverseRoute (m : Heap) (L : List Nat) (sp sa : Nat) (xs : List Nat) : Prop :=
  xs.head? = some sp ∧ xs.getLast? = some sa ∧ (∀ x ∈ xs, x ∈ L) ∧ xs.Chain' (ReverseHop m)

/-- Step of the reverse search: `l` is nearer than `h` and the test of the search from
`h` down to `l` passes. -/
def ReverseStep (m : Heap) (h l : Nat) : Prop :=
  distanceOf m l < distanceOf m h ∧ RevInRange m h l

/-- Stations of the index `L` from `sp` to `sa` joined by steps of the reverse search. -/
def ReverseWalk (m : Heap) (L : List Nat) (sp sa : Nat) (xs : List Nat) : Prop :=
  xs.head? = some sp ∧ xs.getLast? = some sa ∧ (∀ x ∈ xs, x ∈ L) ∧
    xs.Chain' (ReverseStep m)

/-- Stations `{0:4, 2:2, 4:4, 6:2}` (distance:maxRange) of scenario A, as left in memory
by `add-station 2`, `add-station 0`, `add-station 4`, `add-station 6`. -/
def scenarioA : Heap := fun a =>
  match a with
  | 0 => some { distance := 2, max_car := 2, color := 'w', right := some 2, left := some 1,
                parent := none, pi := none, list_cars := [2] }
  | 1 => some { distance := 0, max_car := 4, color := 'w', right := none, left := none,
                parent := some 0, pi := none, list_cars := [4] }
  | 2 => some { distance := 4, max_car := 4, color := 'w', right := some 3, left := none,
                parent := some 0, pi := none, list_cars := [4] }
  | 3 => some { distance := 6, max_car := 2, color := 'w', right := none, left := none,
                parent := some 2, pi := none, list_cars := [2] }
  | _ => none

/-- Tree of `scenarioA`. -/
def scenarioA_tree : Tree := .node (.node .nil 1 .nil) 0 (.node .nil 2 (.node .nil 3 .nil))

/-- Stations at distances `-2000000000` (address 0, the root) and `2000000000` (address
1), both without cars, as left in memory by `add-station -2000000000 0` and
`add-station 2000000000 0`. -/
def scenarioW : Heap := fun a =>
  match a with
  | 0 => some { distance := -2000000000, max_car := 0, color := 'w', right := some 1,
                left := none, parent := none, pi := none, list_cars := [] }
  | 1 => some { distance := 2000000000, max_car := 0, color := 'w', right := none,
                left := none, parent := some 0, pi := none, list_cars := [] }
  | _ => none

/-- Tree of `scenarioW`. -/
def scenarioW_tree : Tree := .node .nil 0 (.node .nil 1 .nil)

/-- Stations `{0:1, 2:1, 4:1}` (distance:maxRange) of scenario B, as left in memory by
`add-station 0`, `add-station 2`, `add-station 4`. -/
def scenarioB : Heap := fun a =>
  match a with
  | 0 => some { distance := 0, max_car := 1, color := 'w', right := some 1, left := none,
                parent := none, pi := none, list_cars := [1] }
  | 1 => some { distance := 2, max_car := 1, color := 'w', right := some 2, left := none,
                parent := some 0, pi := none, list_cars := [1] }
  | 2 => some { distance := 4, max_car := 1, color := 'w', right := none, left := none,
                parent := some 1, pi := none, list_cars := [1] }
  | _ => none

/-- Tree of `scenarioB`. -/
def scenarioB_tree : Tree := .node .nil 0 (.node .nil 1 (.node .nil 2 .nil))

/-- Stations `{0:4, 2:4, 4:4, 6:2}` (distance:maxRange), with the two-hop routes `0 2 6`
and `0 4 6` between the same endpoints, as left in memory by `add-station 2`,
`add-station 0`, `add-station 4`, `add-station 6`. -/
def scenarioT : Heap := fun a =>
  match a with
  | 0 => some { distance := 2, max_car := 4, color := 'w', right := some 2, left := some 1,
                parent := none, pi := none, list_cars := [4] }
  | 1 => some { distance := 0, max_car := 4, color := 'w', right := none, left := none,
                parent := some 0, pi := none, list_cars := [4] }
  | 2 => some { distance := 4, max_car := 4, color := 'w', right := some 3, left := none,
                parent := some 0, pi := none, list_cars := [4] }
  | 3 => some { distance := 6, max_car := 2, color := 'w', right := none, left := none,
                parent := some 2, pi := none, list_cars := [2] }
  | _ => none

/-- State of `main` holding the stations of scenario A. -/
def stateA : State := { mem := scenarioA, T := { root := some 0 }, brk := 4 }

/-- Insertion of the node `z` with distance `zd` as a new leaf, along the path that
`InsertStationBST` follows. -/
def Tree.insert (m : Heap) (zd : Int) (z : Nat) : Tree → Tree
  | .nil => .node .nil z .nil
  | .node l a r =>
    if zd < distanceOf m a then .node (Tree.insert m zd z l) a r
    else .node l a (Tree.insert m zd z r)

/-- Node under which `InsertStationBST` hangs the new leaf (`y0` for the empty tree). -/
def Tree.insertParent (m : Heap) (zd : Int) : Tree → Option Nat → Option Nat
  | .nil, y0 => y0
  | .node l a r, _ =>
    if zd < distanceOf m a then Tree.insertParent m zd l (some a)
    else Tree.insertParent m zd r (some a)

/-- Memory after the last statements of `InsertStationBST` when the new leaf `z` goes under
the station `ya`. -/
def linkAt (m : Heap) (zd : Int) (z : Nat) (sz : station_t) (ya : Nat) : Heap :=
  let m1 := Function.update m z (some { sz with parent := some ya })
  Function.update m1 ya
    ((m1 ya).map (fun sy =>
      if zd < sy.distance then { sy with left := some z } else { sy with right := some z }))

/-- Two stations carry the same data and differ at most in their tree links. -/
def SameData (s s' : station_t) : Prop :=
  s'.distance = s.distance ∧ s'.max_car = s.max_car ∧ s'.list_cars = s.list_cars ∧
    s'.color = s.color ∧ s'.pi = s.pi

/-- The tree without its leftmost node. -/
def Tree.removeMin : Tree → Tree
  | .nil => .nil
  | .node .nil _ r => r
  | .node (.node ll b lr) a r => .node (Tree.removeMin (.node ll b lr)) a r

/-- Tree that `DemolishStationBST` leaves in place of a node with subtrees `l` and `r`: the
other subtree when one is empty, else the leftmost node of `r` over `l` and the rest of
`r`. -/
def Tree.join (l r : Tree) : Tree :=
  match l, r with
  | .nil, r => r
  | .node ll b lr, .nil => .node ll b lr
  | .node ll b lr, .node rl c rr =>
    match (Tree.node rl c rr).inorder.head? with
    | some y => .node (.node ll b lr) y (Tree.removeMin (.node rl c rr))
    | none => .node ll b lr

/-- The tree without the node `z`, as `DemolishStationBST` rebuilds it. -/
def Tree.remove (z : Nat) : Tree → Tree
  | .nil => .nil
  | .node l a r =>
    if a = z then Tree.join l r
    else if z ∈ l.inorder then .node (Tree.remove z l) a r
    else .node l a (Tree.remove z r)

/-- Pointer to the root of a tree. -/
def Tree.rootPtr : Tree → Option Nat
  | .nil => none
  | .node _ a _ => some a

/-- Memory after `v->parent = par` (nothing when `v` is `NULL`). -/
def setParent (m : Heap) (v par : Option Nat) : Heap :=
  match v with
  | none => m
  | some va => Function.update m va ((m va).map (fun s => { s with parent := par }))

/-- Memory after the child link of `pa` that holds `u` is set to `v`, as `TransplantBST`
chooses it: the left link if it equals `u`, else the right one. -/
def setChild (m : Heap) (pa : Nat) (u v : Option Nat) : Heap :=
  Function.update m pa
    ((m pa).map (fun s => if u = s.left then { s with left := v } else { s with right := v }))

/-- A station with its tree links (`left`, `right`, `parent`) blanked. -/
def unlink (s : station_t) : station_t :=
  { s with left := none, right := none, parent := none }

/-- Memory and root holder after `TransplantBST(T, z, v)` for a node `z` whose parent
link is `par`. -/
def hang (m : Heap) (T : bst_t) (par : Option Nat) (z : Nat) (v : Option Nat) : Heap × bst_t :=
  match par with
  | none => (setParent m v none, { T with root := v })
  | some pa => (setParent (setChild m pa (some z) v) v (some pa), T)

/-- What `DemolishStationBST` needs to know about the place where `z` hangs: it is the
root, or its parent `pa` is an allocated station outside the subtree of `z`. -/
def Hanging (m : Heap) (par : Option Nat) (sub : List Nat) : Prop :=
  ∀ pa, par = some pa → pa ∉ sub ∧ ∃ spa, m pa = some spa

/-- What `DemolishStationBST(T, z)` does outside the tree that replaces the subtree of
`z`: the cell of `z` is freed, the data of the other stations is kept, nothing changes
outside the subtree except the link that held `z`, which now holds `p'`. -/
structure Removed (m m' : Heap) (T T' : bst_t) (z : Nat) (sub : List Nat)
    (par p' : Option Nat) : Prop where
  freed : m' z = none
  data : ∀ b, b ≠ z → (m' b).map unlink = (m b).map unlink
  frame : ∀ b, b ∉ sub → par ≠ some b → m' b = m b
  root : par = none → T' = { T with root := p' }
  link : ∀ pa, par = some pa → T' = T ∧
    m' pa = (m pa).map (fun s => if some z = s.left then { s with left := p' }
                                 else { s with right := p' })

/-- Maximum of a fleet, `0` for the empty fleet (`maxRange()` of the specification). -/
def fleetMax (l : List Int) : Int := l.foldr max 0

/-- Cache of a station: `max_car` is the result of `CarMaximumAutonomy` on its fleet,
the greatest autonomy or `0`. -/
def Cached (s : station_t) : Prop := s.max_car = fleetMax s.list_cars

/-- Fleet of a station without negative autonomies. -/
def NonNeg (s : station_t) : Prop := ∀ c ∈ s.list_cars, 0 ≤ c

/-- The maximum of a fleet as the specification words it: the greatest range in the
fleet, and `0` when the fleet is empty. -/
def IsMaxOf (x : Int) (l : List Int) : Prop :=
  (l = [] → x = 0) ∧ (l ≠ [] → x ∈ l ∧ ∀ c ∈ l, c ≤ x)

/-- State of `main` between two commands: the tree is a station index of shape `t` and
the addresses from `brk` on are unused. -/
structure Inv (w : State) (t : Tree) : Prop where
  index : IsIndex w.mem w.T.root t
  fresh : ∀ a, w.brk ≤ a → w.mem a = none

/-- Commands that update the index: all but `plan-route`. -/
def Command.isUpdate : Command → Prop
  | .plan_route _ _ => False
  | _ => True

/-- Commands whose new autonomies are all non-negative. -/
def Command.nonneg : Command → Prop
  | .add_station _ cars => ∀ c ∈ cars, 0 ≤ c
  | .add_car _ c => 0 ≤ c
  | _ => True

/-- Commands of the witness of the ordering invariant. -/
def ordering_cmds : List Command :=
  [.add_station 4 [1], .add_station 2 [], .add_station 4 [7], .add_station 6 [2, 2],
   .demolish_station 4, .add_station 0 [], .demolish_station 5]

/-- Commands of the witness of the cache consistency. -/
def cache_cmds : List Command :=
  [.add_car 4 4, .scrap_car 4 4, .scrap_car 4 4, .scrap_car 4 1, .add_car 9 1,
   .scrap_car 0 4, .add_car 0 0]

/-- Stations at distances 4, 2, 8, 6, 10, 7 (addresses 0 to 5), as left in memory by
`add-station` in that order: the root has two children and its successor, the station at
distance 6, is the left child of its right child and has a right child itself. -/
def scenarioD : Heap := fun a =>
  match a with
  | 0 => some { distance := 4, max_car := 3, color := 'w', right := some 2, left := some 1,
                parent := none, pi := none, list_cars := [3] }
  | 1 => some { distance := 2, max_car := 0, color := 'w', right := none, left := none,
                parent := some 0, pi := none, list_cars := [] }
  | 2 => some { distance := 8, max_car := 5, color := 'w', right := some 4, left := some 3,
                parent := some 0, pi := none, list_cars := [5, 1] }
  | 3 => some { distance := 6, max_car := 2, color := 'w', right := some 5, left := none,
                parent := some 2, pi := none, list_cars := [2, 2] }
  | 4 => some { distance := 10, max_car := 1, color := 'w', right := none, left := none,
                parent := some 2, pi := none, list_cars := [1] }
  | 5 => some { distance := 7, max_car := 9, color := 'w', right := none, left := none,
                parent := some 3, pi := none, list_cars := [9] }
  | _ => none

/-- Tree of `scenarioD`. -/
def scenarioD_tree : Tree :=
  .node (.node .nil 1 .nil) 0
    (.node (.node .nil 3 (.node .nil 5 .nil)) 2 (.node .nil 4 .nil))

/-- Inner loop of `BfsDirect` (as `BfsDirect.walk`) that also records, in `log`, the
stations passed to `Enqueue`, in the order of the calls. -/
def BfsDirect.walkLog (fuel : Nat) (s_a curr : Option Nat) :
    Nat → Heap → queue_t → Bool → Option Nat → List (Option Nat) →
      Except Fault (Heap × queue_t × Bool × List (Option Nat))
  | 0, _, _, _, _, _ => .error .fuel
  | n + 1, m, queue, exit, reach, log =>
    if exit then .ok (m, queue, exit, log) else
    match load m curr with
    | .error e => .error e
    | .ok sc =>
      match load m reach with
      | .error e => .error e
      | .ok sr =>
        if sc.max_car ≥ wrap32 (sr.distance - sc.distance) then
          match
            (if sr.color = 'w' then
              match modify m reach (fun s => { s with color := 'g', pi := curr }) with
              | .error e => .error e
              | .ok m1 => .ok (m1, Enqueue queue reach, log ++ [reach])
            else (.ok (m, queue, log) :
              Except Fault (Heap × queue_t × List (Option Nat)))) with
          | .error e => .error e
          | .ok (m1, queue1, log1) =>
            match load m1 s_a with
            | .error e => .error e
            | .ok sa =>
              if sr.distance = sa.distance then
                BfsDirect.walkLog fuel s_a curr n m1 queue1 true reach log1
              else
                match SuccessorBST fuel m1 reach with
                | .error e => .error e
                | .ok reach1 => BfsDirect.walkLog fuel s_a curr n m1 queue1 exit reach1 log1
        else .ok (m, queue, exit, log)

/-- Outer loop of `BfsDirect` (as `BfsDirect.search`) with the record of the calls of
`Enqueue`. -/
def BfsDirect.searchLog (fuel : Nat) (s_a : Option Nat) :
    Nat → Heap → queue_t → Bool → List (Option Nat) →
      Except Fault (Heap × queue_t × Bool × List (Option Nat))
  | 0, _, _, _, _ => .error .fuel
  | n + 1, m, queue, exit, log =>
    if exit = false ∧ queue ≠ [] then
      match Dequeue queue with
      | .error e => .error e
      | .ok (curr, queue1) =>
        match SuccessorBST fuel m curr with
        | .error e => .error e
        | .ok reach =>
          match BfsDirect.walkLog fuel s_a curr fuel m queue1 exit reach log with
          | .error e => .error e
          | .ok (m1, queue2, exit1, log1) => BfsDirect.searchLog fuel s_a n m1 queue2 exit1 log1
    else .ok (m, queue, exit, log)

/-- Conditional statement of the inner loop of `BfsReverse` (as `BfsReverse.visit`) with
the record of the calls of `Enqueue`. -/
def BfsReverse.visitLog (s_p curr : Option Nat) (m : Heap) (queue : queue_t) (exit : Bool)
    (reach : Option Nat) (log : List (Option Nat)) :
    Except Fault (Heap × queue_t × Bool × List (Option Nat)) :=
  match load m reach with
  | .error e => .error e
  | .ok sr =>
    match load m curr with
    | .error e => .error e
    | .ok sc =>
      if sr.max_car ≥ wrap32 (sr.distance - sc.distance) then
        match
          (if sr.color = 'w' then
            match modify m reach (fun s => { s with color := 'g', pi := curr }) with
            | .error e => .error e
            | .ok m1 => .ok (m1, Enqueue queue reach, log ++ [reach])
          else (.ok (m, queue, log) :
            Except Fault (Heap × queue_t × List (Option Nat)))) with
        | .error e => .error e
        | .ok (m1, queue1, log1) =>
          match load m1 s_p with
          | .error e => .error e
          | .ok sp =>
            if sr.distance = sp.distance then .ok (m1, queue1, true, log1)
            else .ok (m1, queue1, exit, log1)
      else .ok (m, queue, exit, log)

/-- Inner loop of `BfsReverse` (as `BfsReverse.walk`) with the record of the calls of
`Enqueue`. -/
def BfsReverse.walkLog (fuel : Nat) (s_p curr : Option Nat) :
    Nat → Heap → queue_t → Bool → Option Nat → List (Option Nat) →
      Except Fault (Heap × queue_t × Bool × List (Option Nat))
  | 0, _, _, _, _, _ => .error .fuel
  | n + 1, m, queue, exit, reach, log =>
    if exit then .ok (m, queue, exit, log) else
    match BfsReverse.visitLog s_p curr m queue exit reach log with
    | .error e => .error e
    | .ok (m1, queue1, exit1, log1) =>
      match SuccessorBST fuel m1 reach with
      | .error e => .error e
      | .ok none => .ok (m1, queue1, exit1, log1)
      | .ok (some next) =>
        match load m1 (some next) with
        | .error e => .error e
        | .ok sn =>
          match load m1 s_p with
          | .error e => .error e
          | .ok sp =>
            if sn.distance > sp.distance then .ok (m1, queue1, exit1, log1)
            else BfsReverse.walkLog fuel s_p curr n m1 queue1 exit1 (some next) log1

/-- Outer loop of `BfsReverse` (as `BfsReverse.search`) with the record of the calls of
`Enqueue`. -/
def BfsReverse.searchLog (fuel : Nat) (s_p : Option Nat) :
    Nat → Heap → queue_t → Bool → List (Option Nat) →
      Except Fault (Heap × queue_t × Bool × List (Option Nat))
  | 0, _, _, _, _ => .error .fuel
  | n + 1, m, queue, exit, log =>
    if exit = false ∧ queue ≠ [] then
      match Dequeue queue with
      | .error e => .error e
      | .ok (curr, queue1) =>
        match SuccessorBST fuel m curr with
        | .error e => .error e
        | .ok reach =>
          match BfsReverse.walkLog fuel s_p curr fuel m queue1 exit reach log with
          | .error e => .error e
          | .ok (m1, queue2, exit1, log1) =>
            BfsReverse.searchLog fuel s_p n m1 queue2 exit1 log1
    else .ok (m, queue, exit, log)

/-- Result of a loop without its record of calls. -/
def dropLog (r : Heap × queue_t × Bool × List (Option Nat)) : Heap × queue_t × Bool :=
  (r.1, r.2.1, r.2.2.1)

/-- The pointer is a station that is not white. -/
def Marked (m : Heap) (p : Option Nat) : Prop :=
  ∃ a s, p = some a ∧ m a = some s ∧ s.color ≠ 'w'

/-- List of stations in which each has its `pi` link at the next one. -/
def PiPath (m : Heap) (xs : List Nat) : Prop :=
  xs.Chain' (fun a b => ∃ s, m a = some s ∧ s.pi = some b)

/-- Pointers into two indexes that are both `NULL` or both the station at one position. -/
def SamePos (L1 L2 : List Nat) (p q : Option Nat) : Prop :=
  (p = none ∧ q = none) ∨ ∃ i a b : Nat, L1[i]? = some a ∧ L2[i]? = some b ∧ p = some a ∧ q = some b

/-- Stations of two indexes with the same distance, `max_car`, colour, and `pi` position. -/
def CellRel (L1 L2 : List Nat) (s1 s2 : station_t) : Prop :=
  s1.distance = s2.distance ∧ s1.max_car = s2.max_car ∧ s1.color = s2.color ∧
    SamePos L1 L2 s1.pi s2.pi

/-- Two station indexes (memories `m01`, `m02`, stations `L1`, `L2` in increasing order of
distance) during two runs of a planner (memories `m1`, `m2`) that hold, position by
position, stations with the same distance, `max_car`, colour and `pi` position. -/
structure Twins (m01 m02 : Heap) (L1 L2 : List Nat) (m1 m2 : Heap) : Prop where
  road1 : Road m01 L1
  road2 : Road m02 L2
  len : L1.length = L2.length
  same1 : SameTree m01 m1
  same2 : SameTree m02 m2
  cell : ∀ i a b : Nat, L1[i]? = some a → L2[i]? = some b →
    ∃ s1 s2, m1 a = some s1 ∧ m2 b = some s2 ∧ CellRel L1 L2 s1 s2

/-- Two results that are the same fault, or two values related by `R`. -/
def Both {α β : Type} (R : α → β → Prop) (x : Except Fault α) (y : Except Fault β) : Prop :=
  (∃ e, x = .error e ∧ y = .error e) ∨ ∃ a b, x = .ok a ∧ y = .ok b ∧ R a b

/-- Stations `{0:4, 2:2, 4:4, 6:2}` of scenario A as left in memory by `add-station` in
increasing order of distance: the tree is a chain of right children. -/
def scenarioC : Heap := fun a =>
  match a with
  | 0 => some { distance := 0, max_car := 4, color := 'w', right := some 1, left := none,
                parent := none, pi := none, list_cars := [4] }
  | 1 => some { distance := 2, max_car := 2, color := 'w', right := some 2, left := none,
                parent := some 0, pi := none, list_cars := [2] }
  | 2 => some { distance := 4, max_car := 4, color := 'w', right := some 3, left := none,
                parent := some 1, pi := none, list_cars := [4] }
  | 3 => some { distance := 6, max_car := 2, color := 'w', right := none, left := none,
                parent := some 2, pi := none, list_cars := [2] }
  | _ => none

/-- Tree of `scenarioC`. -/
def scenarioC_tree : Tree :=
  .node .nil 0 (.node .nil 1 (.node .nil 2 (.node .nil 3 .nil)))

/-- State of `main` with the memory `scenarioC`. -/
def stateC : State := { mem := scenarioC, T := { root := some 0 }, brk := 4 }

/-! ## Theorems -/

theorem inorder_length (t : Tree) : t.inorder.length = t.size := by
  induction t with
  | nil => rfl
  | node l a r ihl ihr => simp [Tree.inorder, Tree.size, ihl, ihr]; omega

theorem nextIn_append_left (l1 l2 : List Nat) (a : Nat) (up : Option Nat) (h : a ∈ l1) :
    nextIn (l1 ++ l2) a up = nextIn l1 a (match l2 with | [] => up | y :: _ => some y) := by
  induction l1 with
  | nil => simp at h
  | cons x rest ih =>
    by_cases hx : x = a
    · subst hx
      cases rest with
      | nil => simp [nextIn]
      | cons y rest2 => simp [nextIn]
    · have : a ∈ rest := by
        rcases List.mem_cons.1 h with h | h
        · exact absurd h.symm hx
        · exact h
      simp [nextIn, hx, ih this]

theorem nextIn_append_right (l1 l2 : List Nat) (a : Nat) (up : Option Nat) (h : a ∉ l1) :
    nextIn (l1 ++ l2) a up = nextIn l2 a up := by
  induction l1 with
  | nil => rfl
  | cons x rest ih =>
    have hx : x ≠ a := fun e => h (by simp [e])
    have hr : a ∉ rest := fun e => h (by simp [e])
    simp [nextIn, hx, ih hr]

theorem shape_root_mem {m : Heap} {t : Tree} {x : Nat} {par : Option Nat}
    (h : Shape m t (some x) par) : ∃ l r, t = .node l x r := by
  cases t with
  | nil => simp [Shape] at h
  | node l a r =>
    obtain ⟨h1, _⟩ := h
    cases h1
    exact ⟨l, r, rfl⟩

theorem MinimumBST_spec (m : Heap) (t : Tree) (x : Nat) (par : Option Nat)
    (h : Shape m t (some x) par) (fuel : Nat) (hf : t.size ≤ fuel) :
    MinimumBST fuel m (some x) = .ok t.inorder.head? := by
  induction t generalizing x par fuel with
  | nil => simp [Shape] at h
  | node l a r ihl _ =>
    obtain ⟨h1, s, hs, hpar, hl, hr⟩ := h
    cases h1
    cases fuel with
    | zero => simp [Tree.size] at hf
    | succ n =>
      cases l with
      | nil =>
        simp only [Shape] at hl
        simp [MinimumBST, load, hs, hl, Tree.inorder]
      | node ll b lr =>
        have hb : s.left = some b := hl.1
        rw [hb] at hl
        have := ihl b (some a) hl n (by simp [Tree.size] at hf ⊢; omega)
        simp [MinimumBST, load, hs, hb, this, Tree.inorder]

theorem shape_nil_iff {m : Heap} {t : Tree} {par : Option Nat} (h : Shape m t none par) :
    t = .nil := by
  cases t with
  | nil => rfl
  | node l a r => simp [Shape] at h

theorem shape_ptr {m : Heap} {t : Tree} {p par : Option Nat} (h : Shape m t p par) :
    p = t.inorder.head?.bind (fun _ => p) ∧ (∀ x, p = some x → x ∈ t.inorder) := by
  cases t with
  | nil => simp only [Shape] at h; subst h; simp
  | node l a r =>
    obtain ⟨h1, _⟩ := h
    subst h1
    cases hl : l.inorder <;> simp [Tree.inorder, hl]

theorem SuccessorBST_in (m : Heap) (t : Tree) (p par up : Option Nat) (k : Nat)
    (h : Shape m t p par) (nd : t.inorder.Nodup) (hk1 : 1 ≤ k)
    (hk : ∀ f, k ≤ f → SuccessorBST.climb f m p par = .ok up) :
    ∀ a ∈ t.inorder, ∀ f, k + t.size ≤ f →
      SuccessorBST f m (some a) = .ok (nextIn t.inorder a up) := by
  induction t generalizing p par up k with
  | nil => intro a ha; simp [Tree.inorder] at ha
  | node l x r ihl ihr =>
    obtain ⟨h1, s, hs, hpar, hl, hr⟩ := h
    subst h1
    simp only [Tree.inorder] at nd ⊢
    have ndl : l.inorder.Nodup := (List.nodup_append.1 nd).1
    have ndxr : (x :: r.inorder).Nodup := (List.nodup_append.1 nd).2.1
    have ndr : r.inorder.Nodup := (List.nodup_cons.1 ndxr).2
    have hxr : x ∉ r.inorder := (List.nodup_cons.1 ndxr).1
    have hdisj : ∀ a, a ∈ l.inorder → a ∈ x :: r.inorder → False := fun a h1 h2 =>
      (List.nodup_append.1 nd).2.2 h1 h2
    intro a ha f hf
    simp only [Tree.size] at hf
    rcases List.mem_append.1 ha with hal | hxr'
    · -- `a` lies in the left subtree
      have hne : s.left ≠ s.right := by
        intro e
        cases hsl : s.left with
        | none =>
          rw [hsl] at hl
          have := shape_nil_iff hl
          subst this
          simp [Tree.inorder] at hal
        | some lx =>
          have h1 := (shape_ptr hl).2 lx hsl
          have h2 := (shape_ptr hr).2 lx (by rw [← e, hsl])
          exact hdisj lx h1 (List.mem_cons_of_mem _ h2)
      have hk' : ∀ f, 1 ≤ f → SuccessorBST.climb f m s.left (some x) = .ok (some x) := by
        intro f hf1
        obtain ⟨n, rfl⟩ : ∃ n, f = n + 1 := ⟨f - 1, by omega⟩
        simp [SuccessorBST.climb, load, hs, hne]
      have := ihl s.left (some x) (some x) 1 hl ndl (le_refl 1) hk' a hal f (by omega)
      rw [this, nextIn_append_left _ _ _ _ hal]
    · have hnl : a ∉ l.inorder := fun e => hdisj a e hxr'
      rw [nextIn_append_right _ _ _ _ hnl]
      rcases List.mem_cons.1 hxr' with hax | har
      · -- `a` is the root
        subst hax
        cases r with
        | nil =>
          simp only [Shape] at hr
          have := hk f (by omega)
          rw [← hpar] at this
          simp [SuccessorBST, load, hs, hr, this, nextIn, Tree.inorder]
        | node rl b rr =>
          have hb : s.right = some b := hr.1
          have hmin := MinimumBST_spec m (.node rl b rr) b (some a) (hb ▸ hr) f
            (by simp only [Tree.size] at hf ⊢; omega)
          simp only [SuccessorBST, load, hs, hb, hmin, nextIn, if_true]
          cases hrl : (Tree.node rl b rr).inorder with
          | nil => simp [Tree.inorder] at hrl
          | cons y ys => simp
      · -- `a` lies in the right subtree
        have hax : x ≠ a := fun e => hxr (e ▸ har)
        have hk' : ∀ f, k + 1 ≤ f → SuccessorBST.climb f m s.right (some x) = .ok up := by
          intro f hf1
          obtain ⟨n, rfl⟩ : ∃ n, f = n + 1 := ⟨f - 1, by omega⟩
          have := hk n (by omega)
          simp [SuccessorBST.climb, load, hs, hpar, this]
        have := ihr s.right (some x) up (k + 1) hr ndr (by omega) hk' a har f (by omega)
        rw [this]
        simp [nextIn, hax]

theorem SuccessorBST_spec (m : Heap) (root : Option Nat) (t : Tree)
    (h : Shape m t root none) (nd : t.inorder.Nodup) (a : Nat) (ha : a ∈ t.inorder)
    (f : Nat) (hf : t.size < f) :
    SuccessorBST f m (some a) = .ok (nextIn t.inorder a none) := by
  refine SuccessorBST_in m t root none none 1 h nd (le_refl 1) ?_ a ha f (by omega)
  intro f hf1
  obtain ⟨n, rfl⟩ : ∃ n, f = n + 1 := ⟨f - 1, by omega⟩
  simp [SuccessorBST.climb]

theorem SameTree.refl (m : Heap) : SameTree m m := fun _ => rfl

theorem SameTree.trans {m0 m1 m2 : Heap} (h1 : SameTree m0 m1) (h2 : SameTree m1 m2) :
    SameTree m0 m2 := fun a => (h2 a).trans (h1 a)

theorem SameTree.symm {m0 m1 : Heap} (h1 : SameTree m0 m1) : SameTree m1 m0 :=
  fun a => (h1 a).symm

theorem SameTree.cell_of {m0 m : Heap} (h : SameTree m0 m) {a : Nat} {s0 : station_t}
    (h0 : m0 a = some s0) :
    ∃ s, m a = some s ∧ s.distance = s0.distance ∧ s.max_car = s0.max_car ∧
      s.left = s0.left ∧ s.right = s0.right ∧ s.parent = s0.parent ∧
      s.list_cars = s0.list_cars := by
  have := h a
  rw [h0] at this
  cases hm : m a with
  | none => simp [hm] at this
  | some s =>
    refine ⟨s, rfl, ?_⟩
    simp only [hm, Option.map_some', Option.some.injEq, strip] at this
    have e := station_t.mk.inj this
    exact ⟨e.1, e.2.1, e.2.2.2.2.1, e.2.2.2.1, e.2.2.2.2.2.1, e.2.2.2.2.2.2.2⟩

theorem SameTree.update {m0 m : Heap} (h : SameTree m0 m) {a : Nat} {s : station_t}
    (hs : m a = some s) (c : Char) (π : Option Nat) :
    SameTree m0 (Function.update m a (some { s with color := c, pi := π })) := by
  intro b
  by_cases hb : b = a
  · subst hb
    rw [Function.update_same, ← h b, hs]
    rfl
  · rw [Function.update_noteq hb]
    exact h b

theorem SameTree.shape {m0 m : Heap} (h : SameTree m0 m) {t : Tree} {p par : Option Nat}
    (hs : Shape m0 t p par) : Shape m t p par := by
  induction t generalizing p par with
  | nil => exact hs
  | node l a r ihl ihr =>
    obtain ⟨h1, s0, hs0, hpar, hl, hr⟩ := hs
    obtain ⟨s, hs, _, _, el, er, ep, _⟩ := h.cell_of hs0
    exact ⟨h1, s, hs, ep.trans hpar, ihl (el ▸ hl), ihr (er ▸ hr)⟩

theorem SameTree.distanceOf {m0 m : Heap} (h : SameTree m0 m) (a : Nat) :
    distanceOf m a = distanceOf m0 a := by
  cases h0 : m0 a with
  | none =>
    have := h a
    rw [h0] at this
    cases hm : m a with
    | none => simp [RouteFinder.distanceOf, h0, hm]
    | some s => simp [hm] at this
  | some s0 =>
    obtain ⟨s, hs, e, _⟩ := h.cell_of h0
    simp [RouteFinder.distanceOf, h0, hs, e]

theorem SameTree.isIndex {m0 m : Heap} (h : SameTree m0 m) {root : Option Nat} {t : Tree}
    (hi : IsIndex m0 root t) : IsIndex m root t := by
  refine ⟨h.shape hi.1, ?_⟩
  have : List.map (RouteFinder.distanceOf m) t.inorder
      = List.map (RouteFinder.distanceOf m0) t.inorder :=
    List.map_congr_left (fun a _ => h.distanceOf a)
  rw [this]
  exact hi.2

/-- Every node of a tree of stations is an allocated cell. -/
theorem Shape.alloc_of {m : Heap} {t : Tree} {p par : Option Nat} (h : Shape m t p par) :
    ∀ a ∈ t.inorder, ∃ s, m a = some s := by
  induction t generalizing p par with
  | nil => intro a ha; simp [Tree.inorder] at ha
  | node l x r ihl ihr =>
    obtain ⟨_, s, hs, _, hl, hr⟩ := h
    intro a ha
    simp only [Tree.inorder, List.mem_append, List.mem_cons] at ha
    rcases ha with ha | rfl | ha
    · exact ihl hl a ha
    · exact ⟨s, hs⟩
    · exact ihr hr a ha

theorem IsIndex.nodup {m : Heap} {root : Option Nat} {t : Tree} (h : IsIndex m root t) :
    t.inorder.Nodup := by
  have h2 := h.2
  have : (t.inorder.map (distanceOf m)).Nodup := h2.imp (fun h => ne_of_lt h)
  exact List.Nodup.of_map _ this

theorem nextIn_getElem (L : List Nat) (nd : L.Nodup) (i : Nat) (a : Nat)
    (h : L[i]? = some a) : nextIn L a none = L[i + 1]? := by
  induction L generalizing i with
  | nil => simp at h
  | cons x rest ih =>
    cases i with
    | zero =>
      simp at h
      subst h
      cases rest <;> simp [nextIn]
    | succ j =>
      simp at h
      have hmem : a ∈ rest := List.mem_iff_getElem?.2 ⟨j, h⟩
      have hx : x ≠ a := fun e => (List.nodup_cons.1 nd).1 (e ▸ hmem)
      simp [nextIn, hx, ih (List.nodup_cons.1 nd).2 j h]

theorem sorted_getElem (m : Heap) (L : List Nat)
    (h : (L.map (distanceOf m)).Pairwise (· < ·)) (i j : Nat) (a b : Nat)
    (hi : L[i]? = some a) (hj : L[j]? = some b) (hij : i < j) :
    distanceOf m a < distanceOf m b := by
  rw [List.pairwise_map] at h
  have hi' := List.getElem?_eq_some.1 hi
  have hj' := List.getElem?_eq_some.1 hj
  obtain ⟨hil, rfl⟩ := hi'
  obtain ⟨hjl, rfl⟩ := hj'
  exact List.pairwise_iff_getElem.1 h i j hil hjl hij

theorem prevIn_append_left (l1 l2 : List Nat) (a : Nat) (down : Option Nat) (h : a ∈ l1) :
    prevIn (l1 ++ l2) a down = prevIn l1 a down := by
  induction l1 generalizing down with
  | nil => simp at h
  | cons x rest ih =>
    by_cases hx : x = a
    · simp [prevIn, hx]
    · have : a ∈ rest := by
        rcases List.mem_cons.1 h with h | h
        · exact absurd h.symm hx
        · exact h
      simp [prevIn, hx, ih _ this]

theorem prevIn_append_right (l1 l2 : List Nat) (a : Nat) (down : Option Nat) (h : a ∉ l1) :
    prevIn (l1 ++ l2) a down
      = prevIn l2 a (match l1.getLast? with | some z => some z | none => down) := by
  induction l1 generalizing down with
  | nil => rfl
  | cons x rest ih =>
    have hx : x ≠ a := fun e => h (by simp [e])
    have hr : a ∉ rest := fun e => h (by simp [e])
    show prevIn (x :: (rest ++ l2)) a down = _
    rw [prevIn, if_neg hx, ih _ hr]
    cases rest with
    | nil => rfl
    | cons y ys =>
      cases hl : (y :: ys).getLast? with
      | none => simp at hl
      | some z => simp [List.getLast?_cons_cons, hl]

theorem getLast?_append_cons (l1 l2 : List Nat) (a : Nat) :
    (l1 ++ a :: l2).getLast? = (a :: l2).getLast? :=
  List.getLast?_append_of_ne_nil l1 (by simp)

theorem MaximumBST_spec (m : Heap) (t : Tree) (x : Nat) (par : Option Nat)
    (h : Shape m t (some x) par) (fuel : Nat) (hf : t.size ≤ fuel) :
    MaximumBST fuel m (some x) = .ok t.inorder.getLast? := by
  induction t generalizing x par fuel with
  | nil => simp [Shape] at h
  | node l a r _ ihr =>
    obtain ⟨h1, s, hs, hpar, hl, hr⟩ := h
    cases h1
    cases fuel with
    | zero => simp [Tree.size] at hf
    | succ n =>
      cases r with
      | nil =>
        simp only [Shape] at hr
        simp [MaximumBST, load, hs, hr, Tree.inorder]
      | node rl b rr =>
        have hb : s.right = some b := hr.1
        rw [hb] at hr
        have := ihr b (some a) hr n (by simp [Tree.size] at hf ⊢; omega)
        have hne : (Tree.node rl b rr).inorder ≠ [] := by simp [Tree.inorder]
        have e1 : l.inorder ++ a :: (rl.inorder ++ b :: rr.inorder)
            = (l.inorder ++ a :: rl.inorder) ++ b :: rr.inorder := by simp
        simp only [MaximumBST, load, hs, hb, this, Tree.inorder]
        rw [e1, getLast?_append_cons, getLast?_append_cons]

theorem PredecessorBST_in (m : Heap) (t : Tree) (p par down : Option Nat) (k : Nat)
    (h : Shape m t p par) (nd : t.inorder.Nodup) (hk1 : 1 ≤ k)
    (hk : ∀ f, k ≤ f → PredecessorBST.climb f m p par = .ok down) :
    ∀ a ∈ t.inorder, ∀ f, k + t.size ≤ f →
      PredecessorBST f m (some a) = .ok (prevIn t.inorder a down) := by
  induction t generalizing p par down k with
  | nil => intro a ha; simp [Tree.inorder] at ha
  | node l x r ihl ihr =>
    obtain ⟨h1, s, hs, hpar, hl, hr⟩ := h
    subst h1
    simp only [Tree.inorder] at nd ⊢
    have ndl : l.inorder.Nodup := (List.nodup_append.1 nd).1
    have ndxr : (x :: r.inorder).Nodup := (List.nodup_append.1 nd).2.1
    have ndr : r.inorder.Nodup := (List.nodup_cons.1 ndxr).2
    have hxr : x ∉ r.inorder := (List.nodup_cons.1 ndxr).1
    have hdisj : ∀ a, a ∈ l.inorder → a ∈ x :: r.inorder → False := fun a h1 h2 =>
      (List.nodup_append.1 nd).2.2 h1 h2
    intro a ha f hf
    simp only [Tree.size] at hf
    rcases List.mem_append.1 ha with hal | hxr'
    · -- `a` lies in the left subtree
      have hk' : ∀ f, k + 1 ≤ f → PredecessorBST.climb f m s.left (some x) = .ok down := by
        intro f hf1
        obtain ⟨n, rfl⟩ : ∃ n, f = n + 1 := ⟨f - 1, by omega⟩
        have := hk n (by omega)
        simp [PredecessorBST.climb, load, hs, hpar, this]
      have := ihl s.left (some x) down (k + 1) hl ndl (by omega) hk' a hal f (by omega)
      rw [this, prevIn_append_left _ _ _ _ hal]
    · have hnl : a ∉ l.inorder := fun e => hdisj a e hxr'
      rw [prevIn_append_right _ _ _ _ hnl]
      rcases List.mem_cons.1 hxr' with hax | har
      · -- `a` is the root
        subst hax
        cases l with
        | nil =>
          simp only [Shape] at hl
          have := hk f (by omega)
          rw [← hpar] at this
          simp [PredecessorBST, load, hs, hl, this, prevIn, Tree.inorder]
        | node ll b lr =>
          have hb : s.left = some b := hl.1
          have hmax := MaximumBST_spec m (.node ll b lr) b (some a) (hb ▸ hl) f
            (by simp only [Tree.size] at hf ⊢; omega)
          simp only [PredecessorBST, load, hs, hb, hmax, prevIn, if_true]
          cases hrl : (Tree.node ll b lr).inorder.getLast? with
          | none => simp [Tree.inorder] at hrl
          | some y => rfl
      · -- `a` lies in the right subtree
        have hax : x ≠ a := fun e => hxr (e ▸ har)
        have hne : s.right ≠ s.left := by
          intro e
          cases hsr : s.right with
          | none =>
            rw [hsr] at hr
            have := shape_nil_iff hr
            subst this
            simp [Tree.inorder] at har
          | some rx =>
            have h1 := (shape_ptr hr).2 rx hsr
            have h2 := (shape_ptr hl).2 rx (by rw [← e, hsr])
            exact hdisj rx h2 (List.mem_cons_of_mem _ h1)
        have hk' : ∀ f, 1 ≤ f → PredecessorBST.climb f m s.right (some x) = .ok (some x) := by
          intro f hf1
          obtain ⟨n, rfl⟩ : ∃ n, f = n + 1 := ⟨f - 1, by omega⟩
          simp [PredecessorBST.climb, load, hs, hne]
        have := ihr s.right (some x) (some x) 1 hr ndr (le_refl 1) hk' a har f (by omega)
        rw [this]
        simp [prevIn, hax]

theorem PredecessorBST_spec (m : Heap) (root : Option Nat) (t : Tree)
    (h : Shape m t root none) (nd : t.inorder.Nodup) (a : Nat) (ha : a ∈ t.inorder)
    (f : Nat) (hf : t.size < f) :
    PredecessorBST f m (some a) = .ok (prevIn t.inorder a none) := by
  refine PredecessorBST_in m t root none none 1 h nd (le_refl 1) ?_ a ha f (by omega)
  intro f hf1
  obtain ⟨n, rfl⟩ : ∃ n, f = n + 1 := ⟨f - 1, by omega⟩
  simp [PredecessorBST.climb]

theorem prevIn_getElem_aux (L : List Nat) (nd : L.Nodup) (i : Nat) (a : Nat)
    (down : Option Nat) (h : L[i]? = some a) :
    prevIn L a down = if i = 0 then down else L[i - 1]? := by
  induction L generalizing i down with
  | nil => simp at h
  | cons x rest ih =>
    cases i with
    | zero =>
      simp at h
      subst h
      simp [prevIn]
    | succ j =>
      simp at h
      have hmem : a ∈ rest := List.mem_iff_getElem?.2 ⟨j, h⟩
      have hx : x ≠ a := fun e => (List.nodup_cons.1 nd).1 (e ▸ hmem)
      simp only [prevIn, hx, if_false, ih (List.nodup_cons.1 nd).2 j (some x) h]
      cases j with
      | zero => simp
      | succ j' => simp

theorem IsIndex.road {m0 : Heap} {root : Option Nat} {t : Tree} (h : IsIndex m0 root t) :
    Road m0 t.inorder where
  nodup := h.nodup
  sorted := h.2
  alloc := h.1.alloc_of
  succ := by
    intro m hm i a hia f hf
    have hi := hm.isIndex h
    have ha : a ∈ t.inorder := List.mem_iff_getElem?.2 ⟨i, hia⟩
    rw [SuccessorBST_spec m root t hi.1 hi.nodup a ha f (by rw [← inorder_length]; exact hf)]
    rw [nextIn_getElem _ hi.nodup i a hia]
  pred := by
    intro m hm i a hia f hf
    have hi := hm.isIndex h
    have ha : a ∈ t.inorder := List.mem_iff_getElem?.2 ⟨i, hia⟩
    rw [PredecessorBST_spec m root t hi.1 hi.nodup a ha f (by rw [← inorder_length]; exact hf)]
    rw [prevIn_getElem_aux _ hi.nodup i a none hia]

theorem Road.pos_unique {m0 : Heap} {L : List Nat} (hR : Road m0 L) {i j a : Nat}
    (hi : L[i]? = some a) (hj : L[j]? = some a) : i = j := by
  obtain ⟨hil, e1⟩ := List.getElem?_eq_some.1 hi
  obtain ⟨hjl, e2⟩ := List.getElem?_eq_some.1 hj
  exact (List.Nodup.getElem_inj_iff hR.nodup).1 (e1.trans e2.symm)

theorem Road.dist_lt {m0 : Heap} {L : List Nat} (hR : Road m0 L) {i j a b : Nat}
    (hi : L[i]? = some a) (hj : L[j]? = some b) (hij : i < j) :
    distanceOf m0 a < distanceOf m0 b :=
  sorted_getElem m0 L hR.sorted i j a b hi hj hij

theorem Road.dist_le {m0 : Heap} {L : List Nat} (hR : Road m0 L) {i j a b : Nat}
    (hi : L[i]? = some a) (hj : L[j]? = some b) (hij : i ≤ j) :
    distanceOf m0 a ≤ distanceOf m0 b := by
  rcases Nat.lt_or_ge i j with h | h
  · exact le_of_lt (hR.dist_lt hi hj h)
  · have : i = j := le_antisymm hij h
    subst this
    rw [hi] at hj
    cases hj
    exact le_refl _

theorem Road.pos_lt {m0 : Heap} {L : List Nat} (hR : Road m0 L) {i j a b : Nat}
    (hi : L[i]? = some a) (hj : L[j]? = some b)
    (h : distanceOf m0 a < distanceOf m0 b) : i < j := by
  by_contra hc
  have := hR.dist_le hj hi (not_lt.1 hc)
  omega

theorem Within.mono {m : Heap} {L : List Nat} {x y y' : Nat} (h : Within m L x y)
    (hy : distanceOf m y' ≤ distanceOf m y) : Within m L x y' :=
  fun z hz h1 h2 => h z hz h1 (le_trans h2 hy)

theorem DInv.load {m0 m : Heap} {L : List Nat} {p hi : Nat} (hR : Road m0 L)
    (hC : Clean m0 L) (h : DInv m0 m L p hi) {i a : Nat} (hia : L[i]? = some a) :
    ∃ s0 s, m0 a = some s0 ∧ m a = some s ∧ s.distance = s0.distance ∧
      s.max_car = s0.max_car ∧ (s.color = 'w' ↔ (i < p ∨ hi < i)) ∧
      ((i < p ∨ hi < i) → s = s0) := by
  have ha : a ∈ L := List.mem_iff_getElem?.2 ⟨i, hia⟩
  obtain ⟨s0, hs0⟩ := hR.alloc a ha
  have hc := hC a ha s0 hs0
  by_cases hout : i < p ∨ hi < i
  · have := h.out a (fun j hj => by rw [← hR.pos_unique hia hj]; exact hout)
    exact ⟨s0, s0, hs0, this.trans hs0, rfl, rfl, by simp [hc.1, hout], fun _ => rfl⟩
  · have hpi : p ≤ i ∧ i ≤ hi := by omega
    rcases Nat.eq_or_lt_of_le hpi.1 with e | e
    · subst e
      exact ⟨s0, _, hs0, h.src a s0 hia hs0, rfl, rfl, iff_of_false (by simp) hout,
        fun hh => absurd hh hout⟩
    · obtain ⟨k, b, _, _, _, hm, _⟩ := h.disc i a s0 e hpi.2 hia hs0
      exact ⟨s0, _, hs0, hm, rfl, rfl, iff_of_false (by simp) hout,
        fun hh => absurd hh hout⟩

theorem DInv.sameTree {m0 m : Heap} {L : List Nat} {p hi : Nat} (hR : Road m0 L)
    (h : DInv m0 m L p hi) : SameTree m0 m := by
  intro a
  by_cases hout : ∀ i, L[i]? = some a → i < p ∨ hi < i
  · rw [h.out a hout]
  · push_neg at hout
    obtain ⟨i, hia, h1, h2⟩ := hout
    have ha : a ∈ L := List.mem_iff_getElem?.2 ⟨i, hia⟩
    obtain ⟨s0, hs0⟩ := hR.alloc a ha
    rcases Nat.eq_or_lt_of_le h1 with e | e
    · subst e
      rw [h.src a s0 hia hs0, hs0]; rfl
    · obtain ⟨k, b, _, _, _, hm, _⟩ := h.disc i a s0 e h2 hia hs0
      rw [hm, hs0]; rfl

theorem seg_snoc (L : List Nat) (a b : Nat) (h : a ≤ b) :
    Enqueue (seg L a b) L[b]? = seg L a (b + 1) := by
  simp [Enqueue, seg, List.Ico.succ_top h]

theorem seg_cons (L : List Nat) (a b : Nat) (h : a < b) :
    seg L a b = L[a]? :: seg L (a + 1) b := by
  simp [seg, List.Ico.eq_cons h]

theorem seg_nil (L : List Nat) (a b : Nat) (h : b ≤ a) : seg L a b = [] := by
  simp [seg, List.Ico.eq_nil_of_le h]

theorem load_some {m : Heap} {a : Nat} {s : station_t} (h : m a = some s) :
    load m (some a) = .ok s := by
  simp [load, h]

theorem modify_some {m : Heap} {a : Nat} {s : station_t} (h : m a = some s)
    (g : station_t → station_t) :
    modify m (some a) g = .ok (Function.update m a (some (g s))) := by
  simp [modify, load, h]

theorem DInv.grow {m0 m : Heap} {L : List Nat} {p hi c : Nat} (hR : Road m0 L)
    (h : DInv m0 m L p hi) {ac ar : Nat} {s0 : station_t} (hpc : p ≤ c) (hchi : c ≤ hi)
    (hc : L[c]? = some ac) (hr : L[hi + 1]? = some ar) (h0 : m0 ar = some s0)
    (hin : Within m0 L ac ar) (hproc : Proc m0 L p c hi) :
    DInv m0 (Function.update m ar (some { s0 with color := 'g', pi := some ac })) L p
      (hi + 1) where
  out := by
    intro a ha
    have hne : a ≠ ar := by
      rintro rfl
      have := ha (hi + 1) hr
      omega
    rw [Function.update_noteq hne]
    exact h.out a (fun i hi' => by have := ha i hi'; omega)
  src := by
    intro a s hp hs
    have hne : a ≠ ar := by
      rintro rfl
      have := hR.pos_unique hp hr
      omega
    rw [Function.update_noteq hne]
    exact h.src a s hp hs
  disc := by
    intro i a s hpi hihi hia hs
    rcases Nat.eq_or_lt_of_le hihi with e | e
    · subst e
      rw [hr] at hia
      cases hia
      rw [h0] at hs
      cases hs
      refine ⟨c, ac, hc, hpc, by omega, by rw [Function.update_same], hin, ?_⟩
      intro k' b' hk' hpk hkc
      exact hproc k' b' (hi + 1) ar hpk hkc hk' (by omega) hr
    · have hne : a ≠ ar := by
        rintro rfl
        have := hR.pos_unique hia hr
        omega
      rw [Function.update_noteq hne]
      exact h.disc i a s hpi (by omega) hia hs

theorem BfsDirect.walk_direct {m0 : Heap} {L : List Nat} (hR : Road m0 L) (hC : Clean m0 L)
    (p e : Nat) (he : e < L.length) (f : Nat) (hf : L.length < f) (c : Nat) (hpc : p ≤ c) :
    ∀ n m hi r, DInv m0 m L p hi → c < r → r ≤ hi + 1 → r ≤ e → hi < e → c ≤ hi →
      Proc m0 L p c hi →
      (∀ k z b, L[c]? = some b → c < k → k < r → L[k]? = some z → InRange m0 b z) →
      e + 2 ≤ n + r →
      ∃ m' hi', BfsDirect.walk f L[e]? L[c]? n m (seg L (c + 1) (hi + 1)) false L[r]?
          = .ok (m', seg L (c + 1) (hi' + 1), decide (hi' = e)) ∧
        hi ≤ hi' ∧ hi' ≤ e ∧ DInv m0 m' L p hi' ∧ (hi' < e → Proc m0 L p (c + 1) hi') := by
  intro n
  induction n with
  | zero => intro m hi r _ _ _ _ _ _ _ _ hn; omega
  | succ n ih =>
    intro m hi r hD hcr hrhi hre hhie hchi hproc hpre hn
    obtain ⟨ac, hac⟩ : ∃ a, L[c]? = some a := ⟨L[c], List.getElem?_eq_getElem (by omega)⟩
    obtain ⟨ar, har⟩ : ∃ a, L[r]? = some a := ⟨L[r], List.getElem?_eq_getElem (by omega)⟩
    obtain ⟨ae, hae⟩ : ∃ a, L[e]? = some a := ⟨L[e], List.getElem?_eq_getElem (by omega)⟩
    obtain ⟨sc0, sc, hsc0, hsc, hscd, hscm, _, _⟩ := hD.load hR hC hac
    obtain ⟨sr0, sr, hsr0, hsr, hsrd, hsrm, hsrw, hsre⟩ := hD.load hR hC har
    have hdc : distanceOf m0 ac = sc.distance := by simp [distanceOf, hsc0, hscd]
    have hmc : maxCarOf m0 ac = sc.max_car := by simp [maxCarOf, hsc0, hscm]
    have hdr : distanceOf m0 ar = sr.distance := by simp [distanceOf, hsr0, hsrd]
    have hcond : sc.max_car ≥ wrap32 (sr.distance - sc.distance) ↔ InRange m0 ac ar := by
      unfold InRange; rw [hdc, hmc, hdr]
    have hpre1 : InRange m0 ac ar →
        ∀ k z b, L[c]? = some b → c < k → k < r + 1 → L[k]? = some z → InRange m0 b z := by
      intro hin k z b hb h1 h2 hz
      rw [hac] at hb
      cases hb
      rcases Nat.lt_or_ge k r with h | h
      · exact hpre k z ac hac h1 h hz
      · have : k = r := by omega
        subst this
        rw [har] at hz
        cases hz
        exact hin
    have hwin : InRange m0 ac ar → Within m0 L ac ar := by
      intro hin z hz h1 h2
      obtain ⟨k, hk⟩ := List.mem_iff_getElem?.1 hz
      have hck : c < k := hR.pos_lt hac hk h1
      have hkr : k ≤ r := by
        by_contra hcon
        have := hR.dist_lt har hk (by omega)
        omega
      exact hpre1 hin k z ac hac hck (by omega) hk
    rw [hac, har, hae]
    unfold BfsDirect.walk
    simp only [Bool.false_eq_true, if_false, load_some hsc, load_some hsr]
    by_cases hin : InRange m0 ac ar
    · rw [if_pos (hcond.2 hin)]
      by_cases hw : sr.color = 'w'
      · -- a white station: it is discovered
        have hr1 : r = hi + 1 := by
          have := hsrw.1 hw
          omega
        subst hr1
        have hsreq : sr = sr0 := hsre (Or.inr (by omega))
        subst hsreq
        have hD1 := hD.grow hR hpc hchi hac har hsr0 (hwin hin) hproc
        obtain ⟨se0, se, hse0, hse, hsed, _, _, _⟩ := hD1.load hR hC hae
        have hde : distanceOf m0 ae = se.distance := by simp [distanceOf, hse0, hsed]
        rw [if_pos hw, modify_some hsr]
        simp only [load_some hse]
        rw [← har, seg_snoc L (c + 1) (hi + 1) (by omega), har]
        by_cases hre' : hi + 1 = e
        · have : sr.distance = se.distance := by
            rw [← hdr, ← hde]
            rw [hre'] at har
            rw [har] at hae
            cases hae
            rfl
          rw [if_pos this]
          refine ⟨_, hi + 1, ?_, by omega, by omega, hD1, fun h => by omega⟩
          cases n with
          | zero => omega
          | succ n' =>
            unfold BfsDirect.walk
            simp [hre']
        · have hlt : hi + 1 < e := by omega
          have : sr.distance ≠ se.distance := by
            rw [← hdr, ← hde]
            exact ne_of_lt (hR.dist_lt har hae hlt)
          rw [if_neg this, hR.succ _ (hD1.sameTree hR) (hi + 1) ar har f hf]
          simp only []
          have hproc1 : Proc m0 L p c (hi + 1) := fun k b j x h1 h2 h3 h4 h5 =>
            hproc k b j x h1 h2 h3 (by omega) h5
          obtain ⟨m', hi', h1, h2, h3, h4, h5⟩ :=
            ih _ (hi + 1) (hi + 1 + 1) hD1 (by omega) (by omega) (by omega) hlt (by omega)
              hproc1 (hpre1 hin) (by omega)
          rw [hae, hac] at h1
          exact ⟨m', hi', h1, by omega, h3, h4, h5⟩
      · -- a gray station: nothing changes
        have hrle : r ≤ hi := by
          by_contra hc'
          exact hw (hsrw.2 (Or.inr (by omega)))
        obtain ⟨se0, se, hse0, hse, hsed, _, _, _⟩ := hD.load hR hC hae
        have hde : distanceOf m0 ae = se.distance := by simp [distanceOf, hse0, hsed]
        have : sr.distance ≠ se.distance := by
          rw [← hdr, ← hde]
          exact ne_of_lt (hR.dist_lt har hae (by omega))
        rw [if_neg hw]
        simp only [load_some hse]
        rw [if_neg this, hR.succ _ (hD.sameTree hR) r ar har f hf]
        simp only []
        have h1 := ih m hi (r + 1) hD (by omega) (by omega) (by omega) hhie hchi hproc
          (hpre1 hin) (by omega)
        rw [hae, hac] at h1
        exact h1
    · -- out of range: the walk from `curr` ends
      rw [if_neg (fun h => hin (hcond.1 h))]
      refine ⟨m, hi, ?_, le_refl _, by omega, hD, fun _ => ?_⟩
      · simp [ne_of_lt hhie]
      · intro k b j x h1 h2 h3 h4 h5
        rcases Nat.lt_or_ge k c with hk | hk
        · exact hproc k b j x h1 hk h3 h4 h5
        · have : k = c := by omega
          subst this
          rw [hac] at h3
          cases h3
          intro hx
          exact hin (hx ar (List.mem_iff_getElem?.2 ⟨r, har⟩) (hR.dist_lt hac har hcr)
            (hR.dist_le har h5 (by omega)))

theorem BfsDirect.search_direct {m0 : Heap} {L : List Nat} (hR : Road m0 L) (hC : Clean m0 L)
    (p e : Nat) (he : e < L.length) (f : Nat) (hf : L.length < f) :
    ∀ n m hi c, DInv m0 m L p hi → p ≤ c → c ≤ hi + 1 → hi < e → Proc m0 L p c hi →
      e + 2 ≤ n + c →
      ∃ m' q' hi', BfsDirect.search f L[e]? n m (seg L c (hi + 1)) false
          = .ok (m', q', decide (hi' = e)) ∧
        hi ≤ hi' ∧ hi' ≤ e ∧ DInv m0 m' L p hi' ∧ (hi' < e → Proc m0 L p (hi' + 1) hi') := by
  intro n
  induction n with
  | zero => intro m hi c _ _ _ _ _ hn; omega
  | succ n ih =>
    intro m hi c hD hpc hchi hhie hproc hn
    unfold BfsDirect.search
    rcases Nat.eq_or_lt_of_le hchi with hc | hc
    · -- empty queue
      subst hc
      refine ⟨m, [], hi, ?_, le_refl _, by omega, hD, fun _ => hproc⟩
      simp [seg_nil, ne_of_lt hhie]
    · have hchi' : c ≤ hi := by omega
      obtain ⟨ac, hac⟩ : ∃ a, L[c]? = some a := ⟨L[c], List.getElem?_eq_getElem (by omega)⟩
      rw [seg_cons L c (hi + 1) (by omega)]
      simp only [true_and, ne_eq, not_false_eq_true, if_true, Dequeue, reduceCtorEq]
      rw [hac, hR.succ m (hD.sameTree hR) c ac hac f hf]
      simp only []
      obtain ⟨m1, hi1, hw, h1, h2, h3, h4⟩ :=
        BfsDirect.walk_direct hR hC p e he f hf c hpc f m hi (c + 1) hD (by omega) (by omega)
          (by omega) hhie hchi' hproc (fun k z b _ h1 h2 => by omega) (by omega)
      rw [hac] at hw
      rw [hw]
      simp only []
      by_cases hex : hi1 = e
      · refine ⟨m1, seg L (c + 1) (hi1 + 1), hi1, ?_, h1, h2, h3, fun h => by omega⟩
        cases n with
        | zero => omega
        | succ n' =>
          unfold BfsDirect.search
          simp [hex]
      · have hlt : hi1 < e := by omega
        obtain ⟨m', q', hi', g1, g2, g3, g4, g5⟩ :=
          ih m1 hi1 (c + 1) h3 (by omega) (by omega) hlt (h4 hlt) (by omega)
        refine ⟨m', q', hi', ?_, by omega, g3, g4, g5⟩
        rw [← g1]
        simp [hex]

theorem BfsDirect.reset_direct {m0 : Heap} {L : List Nat} (hR : Road m0 L)
    (e : Nat) (he : e < L.length) (f : Nat) (hf : L.length < f) :
    ∀ n m i a, SameTree m0 m → L[i]? = some a → i ≤ e + 1 → e + 2 ≤ n + i →
      ∃ m', BfsDirect.reset f L[e]? n m (some a) = .ok m' ∧ SameTree m0 m' ∧
        (∀ b, (∀ j, L[j]? = some b → j < i ∨ e < j) → m' b = m b) ∧
        (∀ j b, i ≤ j → j ≤ e → L[j]? = some b → m' b = (m b).map strip) := by
  intro n
  induction n with
  | zero =>
    intro m i a _ hia hi1 hn
    omega
  | succ n ih =>
    intro m i a hS hia hi1 hn
    obtain ⟨ae, hae⟩ : ∃ a, L[e]? = some a := ⟨L[e], List.getElem?_eq_getElem (by omega)⟩
    obtain ⟨s0, hs0⟩ := hR.alloc a (List.mem_iff_getElem?.2 ⟨i, hia⟩)
    obtain ⟨se0, hse0⟩ := hR.alloc ae (List.mem_iff_getElem?.2 ⟨e, hae⟩)
    obtain ⟨s, hs, hsd, _⟩ := hS.cell_of hs0
    obtain ⟨se, hse, hsed, _⟩ := hS.cell_of hse0
    have hda : distanceOf m0 a = s.distance := by simp [distanceOf, hs0, hsd]
    have hde : distanceOf m0 ae = se.distance := by simp [distanceOf, hse0, hsed]
    rw [hae]
    unfold BfsDirect.reset
    simp only [load_some hs, load_some hse]
    by_cases hie : i ≤ e
    · have hle : s.distance ≤ se.distance := by
        rw [← hda, ← hde]; exact hR.dist_le hia hae hie
      rw [if_pos hle, modify_some hs]
      have hS1 := hS.update hs 'w' none
      simp only []
      rw [hR.succ _ hS1 i a hia f hf]
      have hm1 : ∀ b, b ≠ a → Function.update m a
          (some { s with color := 'w', pi := none }) b = m b :=
        fun b hb => Function.update_noteq hb _ _
      cases hnx : L[i + 1]? with
      | none =>
        have hlen : L.length ≤ i + 1 := List.getElem?_eq_none_iff.1 hnx
        refine ⟨_, rfl, hS1, ?_, ?_⟩
        · intro b hb
          apply hm1
          rintro rfl
          have := hb i hia
          omega
        · intro j b hij hje hjb
          have : j = i := by omega
          subst this
          rw [hia] at hjb
          cases hjb
          rw [Function.update_same, hs]
          rfl
      | some nx =>
        obtain ⟨m', h1, h2, h3, h4⟩ := ih _ (i + 1) nx hS1 hnx (by omega) (by omega)
        rw [hae] at h1
        refine ⟨m', h1, h2, ?_, ?_⟩
        · intro b hb
          rw [h3 b (fun j hj => by have := hb j hj; omega)]
          apply hm1
          rintro rfl
          have := hb i hia
          omega
        · intro j b hij hje hjb
          rcases Nat.eq_or_lt_of_le hij with e1 | e1
          · subst e1
            rw [hia] at hjb
            cases hjb
            rw [h3 a (fun j hj => by have := hR.pos_unique hia hj; omega)]
            rw [Function.update_same, hs]
            rfl
          · rw [h4 j b (by omega) hje hjb]
            have : b ≠ a := by
              rintro rfl
              have := hR.pos_unique hia hjb
              omega
            rw [hm1 b this]
    · have hlt : ¬ s.distance ≤ se.distance := by
        rw [← hda, ← hde]
        exact not_le.2 (hR.dist_lt hae hia (by omega))
      rw [if_neg hlt]
      refine ⟨m, rfl, hS, fun _ _ => rfl, ?_⟩
      intro j b hij hje
      omega

theorem DInv.chain {m0 m : Heap} {L : List Nat} {p hi : Nat} (hR : Road m0 L)
    (hC : Clean m0 L) (h : DInv m0 m L p hi) {sp : Nat} (hsp : L[p]? = some sp) :
    ∀ i, p ≤ i → i ≤ hi → ∀ a, L[i]? = some a →
      ∃ xs, DirectWalk m0 L sp a xs ∧ xs.Chain' (FirstStep m0 L sp) ∧
        (i = p ∨ 2 ≤ xs.length) ∧
        ∀ n acc, i + 1 ≤ n + p →
          BfsDirect.collect n m (some a) acc = .ok (xs.tail.map (distanceOf m0) ++ acc) := by
  intro i
  induction i using Nat.strong_induction_on with
  | _ i ih =>
    intro hpi hihi a hia
    have ha : a ∈ L := List.mem_iff_getElem?.2 ⟨i, hia⟩
    obtain ⟨s0, hs0⟩ := hR.alloc a ha
    have hc := hC a ha s0 hs0
    rcases Nat.eq_or_lt_of_le hpi with e | e
    · subst e
      rw [hsp] at hia
      cases hia
      refine ⟨[sp], ⟨rfl, rfl, by simpa using ha, by simp⟩, by simp, Or.inl rfl, ?_⟩
      intro n acc hn
      obtain ⟨n', rfl⟩ : ∃ n', n = n' + 1 := ⟨n - 1, by omega⟩
      unfold BfsDirect.collect
      simp [load_some (h.src sp s0 hsp hs0), hc.2]
    · obtain ⟨k, b, hkb, hpk, hki, hm, hin, hmin⟩ := h.disc i a s0 e hihi hia hs0
      obtain ⟨xs, ⟨x1, x2, x3, x4⟩, hg, _, hcol⟩ := ih k hki hpk (by omega) b hkb
      have hne : xs ≠ [] := by
        rintro rfl
        simp at x1
      have hb : b ∈ L := List.mem_iff_getElem?.2 ⟨k, hkb⟩
      have hhop : DirectStep m0 L b a := ⟨hR.dist_lt hkb hia hki, hin⟩
      refine ⟨xs ++ [a], ⟨?_, ?_, ?_, ?_⟩, ?_, Or.inr ?_, ?_⟩
      · cases xs with
        | nil => exact absurd rfl hne
        | cons y ys => simpa using x1
      · simp
      · intro x hx
        rcases List.mem_append.1 hx with hx | hx
        · exact x3 x hx
        · simp at hx
          subst hx
          exact ha
      · refine List.Chain'.append x4 (by simp) ?_
        intro x hx y hy
        rw [x2] at hx
        simp at hx hy
        subst hx hy
        exact hhop
      · refine List.Chain'.append hg (by simp) ?_
        intro x hx y hy
        rw [x2] at hx
        simp at hx hy
        subst hx hy
        refine ⟨hb, hR.dist_le hsp hkb hpk, hhop, ?_⟩
        intro y' hy' h1 h2 h3
        obtain ⟨k', hk'⟩ := List.mem_iff_getElem?.1 hy'
        have hk'k : k' < k := hR.pos_lt hk' hkb h2
        have hpk' : p ≤ k' := by
          by_contra hcon
          have := hR.dist_lt hk' hsp (by omega)
          omega
        exact hmin k' y' hk' hpk' hk'k h3.2
      · cases xs with
        | nil => exact absurd rfl hne
        | cons y ys => simp
      · intro n acc hn
        obtain ⟨n', rfl⟩ : ∃ n', n = n' + 1 := ⟨n - 1, by omega⟩
        unfold BfsDirect.collect
        simp only [load_some hm]
        rw [hcol n' _ (by omega)]
        cases xs with
        | nil => exact absurd rfl hne
        | cons y ys => simp [distanceOf, hs0]

theorem Proc.no_cross {m0 : Heap} {L : List Nat} {p hi : Nat} (hR : Road m0 L)
    (hproc : Proc m0 L p (hi + 1) hi) :
    ∀ (xs : List Nat) x i, xs.head? = some x → L[i]? = some x → p ≤ i → i ≤ hi →
      xs.Chain' (DirectStep m0 L) → (∀ z ∈ xs, z ∈ L) →
      ∀ y, xs.getLast? = some y → ∃ j, L[j]? = some y ∧ p ≤ j ∧ j ≤ hi := by
  intro xs
  induction xs with
  | nil => intro x i h; simp at h
  | cons x0 rest ih =>
    intro x i hx hix hpi hihi hch hmem y hy
    simp at hx
    subst hx
    cases rest with
    | nil =>
      simp at hy
      subst hy
      exact ⟨i, hix, hpi, hihi⟩
    | cons x1 rest1 =>
      have hhop : DirectStep m0 L x0 x1 := (List.chain'_cons.1 hch).1
      obtain ⟨j, hj⟩ := List.mem_iff_getElem?.1 (hmem x1 (by simp))
      have hij : i < j := hR.pos_lt hix hj hhop.1
      have hjhi : j ≤ hi := by
        by_contra hc
        exact hproc i x0 j x1 hpi (by omega) hix (by omega) hj hhop.2
      refine ih x1 j rfl hj (by omega) hjhi (List.chain'_cons.1 hch).2
        (fun z hz => hmem z (List.mem_cons_of_mem _ hz)) y ?_
      simpa [List.getLast?_cons_cons] using hy

theorem BfsDirect_road {m0 : Heap} {L : List Nat} (hR : Road m0 L) (hC : Clean m0 L)
    (p e : Nat) (hpe : p < e) (sp sa : Nat) (hsp : L[p]? = some sp) (hsa : L[e]? = some sa)
    (f : Nat) (hf : L.length < f) :
    ∃ line, BfsDirect f m0 (some sp) (some sa) = .ok (m0, line) ∧
      ((line = .no_route ∧ ∀ xs, ¬ DirectWalk m0 L sp sa xs) ∨
       (∃ xs, line = .route (xs.map (distanceOf m0)) ∧ DirectWalk m0 L sp sa xs ∧
          xs.Chain' (FirstStep m0 L sp))) := by
  have he : e < L.length := (List.getElem?_eq_some.1 hsa).1
  have hpm : sp ∈ L := List.mem_iff_getElem?.2 ⟨p, hsp⟩
  have hem : sa ∈ L := List.mem_iff_getElem?.2 ⟨e, hsa⟩
  obtain ⟨s0, hs0⟩ := hR.alloc sp hpm
  obtain ⟨se0, hse0⟩ := hR.alloc sa hem
  -- the start becomes gray
  have hD0 : DInv m0 (Function.update m0 sp (some { s0 with color := 'g' })) L p p := by
    refine ⟨?_, ?_, ?_⟩
    · intro a ha
      have hne : a ≠ sp := by
        rintro rfl
        have := ha p hsp
        omega
      rw [Function.update_noteq hne]
    · intro a s hp hs
      rw [hsp] at hp
      cases hp
      rw [hs0] at hs
      cases hs
      rw [Function.update_same]
    · intro i a s h1 h2
      omega
  have hq : Enqueue [] (some sp) = seg L p (p + 1) := by
    rw [seg_cons L p (p + 1) (by omega), seg_nil L (p + 1) (p + 1) (le_refl _), hsp]
    rfl
  obtain ⟨m2, q2, hi, hsearch, h1, h2, hD, hproc⟩ :=
    BfsDirect.search_direct hR hC p e he f hf f _ p p hD0 (le_refl _) (by omega) hpe
      (fun k b j x hk1 hk2 => by omega) (by omega)
  rw [hsa] at hsearch
  have hS2 := hD.sameTree hR
  obtain ⟨m3, hreset, _, hout, hin⟩ :=
    BfsDirect.reset_direct hR e he f hf f m2 p sp hS2 hsp (by omega) (by omega)
  rw [hsa] at hreset
  have hm3 : m3 = m0 := by
    funext b
    by_cases hb : ∀ j, L[j]? = some b → j < p ∨ e < j
    · rw [hout b hb]
      exact hD.out b (fun j hj => by have := hb j hj; omega)
    · push_neg at hb
      obtain ⟨j, hj, hj1, hj2⟩ := hb
      rw [hin j b hj1 hj2 hj, hS2 b]
      obtain ⟨s, hs⟩ := hR.alloc b (List.mem_iff_getElem?.2 ⟨j, hj⟩)
      have hc := hC b (List.mem_iff_getElem?.2 ⟨j, hj⟩) s hs
      rw [hs]
      simp only [Option.map_some', strip, Option.some.injEq]
      cases s
      simp only [station_t.mk.injEq, true_and, and_true] at hc ⊢
      exact ⟨hc.1.symm, hc.2.symm⟩
  subst hm3
  obtain ⟨_, sp2, hsp0, hsp2, hspd, _⟩ := hD.load hR hC hsp
  obtain ⟨_, sa2, hsa0, hsa2, hsad, _, _, hsae⟩ := hD.load hR hC hsa
  have hdp : sp2.distance = distanceOf m3 sp := by simp [distanceOf, hsp0, hspd]
  have hda : sa2.distance = distanceOf m3 sa := by simp [distanceOf, hsa0, hsad]
  unfold BfsDirect
  simp only [modify_some hs0, hq, hsearch]
  rcases Nat.eq_or_lt_of_le h2 with hhi | hhi
  · -- the end station was reached
    subst hhi
    obtain ⟨xs, hroute, hgreedy, hlen, hcol⟩ := hD.chain hR hC hsp hi (by omega) (le_refl _) sa hsa
    have hlen2 : 2 ≤ xs.length := by
      rcases hlen with h | h
      · omega
      · exact h
    rw [hcol f [] (by omega)]
    simp only [load_some hsp2, load_some hsa2, hreset, List.append_nil]
    refine ⟨_, rfl, Or.inr ⟨xs, ?_, hroute, hgreedy⟩⟩
    obtain ⟨x1, x2, _, _⟩ := hroute
    cases xs with
    | nil => simp at hlen2
    | cons y ys =>
      cases ys with
      | nil => simp at hlen2
      | cons z zs =>
        simp at x1
        subst x1
        have hlast : (z :: zs).getLast? = some sa := by
          simpa [List.getLast?_cons_cons] using x2
        have hdl : (z :: zs).dropLast ++ [sa] = z :: zs :=
          List.dropLast_append_getLast? sa hlast
        simp only [List.tail_cons, List.map_cons, BfsDirect.print, hdp, hda]
        rw [← List.map_cons, ← List.map_dropLast]
        have : List.map (distanceOf m3) (z :: zs).dropLast ++ [distanceOf m3 sa]
            = List.map (distanceOf m3) ((z :: zs).dropLast ++ [sa]) := by simp
        rw [this, hdl]
  · -- the queue ran empty before the end station was reached
    have hpi : se0.pi = none := (hC sa hem se0 hse0).2
    have hsa2' : sa2 = se0 := by
      have := hsae (Or.inr hhi)
      rw [hse0] at hsa0
      cases hsa0
      exact this
    subst hsa2'
    have hcol : BfsDirect.collect f m2 (some sa) [] = .ok [] := by
      obtain ⟨n', rfl⟩ : ∃ n', f = n' + 1 := ⟨f - 1, by omega⟩
      unfold BfsDirect.collect
      simp [load_some hsa2, hpi]
    rw [hcol]
    simp only [load_some hsp2, load_some hsa2, hreset]
    refine ⟨_, rfl, Or.inl ⟨rfl, ?_⟩⟩
    intro xs ⟨x1, x2, x3, x4⟩
    obtain ⟨j, hj, _, hjhi⟩ :=
      (hproc hhi).no_cross hR xs sp p x1 hsp (le_refl _) h1 x4 x3 sa x2
    have := hR.pos_unique hj hsa
    omega

theorem DirectWalk.start_le {m : Heap} {L : List Nat} :
    ∀ (xs : List Nat) (sp x : Nat), DirectWalk m L sp x xs → distanceOf m sp ≤ distanceOf m x := by
  intro xs
  induction xs with
  | nil => intro sp x h; simp [DirectWalk] at h
  | cons x0 rest ih =>
    intro sp x ⟨h1, h2, h3, h4⟩
    simp at h1
    subst h1
    cases rest with
    | nil =>
      simp at h2
      subst h2
      exact le_refl _
    | cons x1 rest1 =>
      have hhop : DirectStep m L x0 x1 := (List.chain'_cons.1 h4).1
      have := ih x1 x ⟨rfl, by simpa [List.getLast?_cons_cons] using h2,
        fun z hz => h3 z (List.mem_cons_of_mem _ hz), (List.chain'_cons.1 h4).2⟩
      exact le_trans (le_of_lt hhop.1) this

theorem DirectWalk.snoc_inv {m : Heap} {L : List Nat} {sp x : Nat} {xs : List Nat}
    (hne : xs ≠ []) (h : DirectWalk m L sp x (xs ++ [x])) :
    ∃ x', DirectWalk m L sp x' xs ∧ DirectStep m L x' x := by
  obtain ⟨h1, _, h3, h4⟩ := h
  obtain ⟨ys, x', rfl⟩ : ∃ ys x', xs = ys ++ [x'] := by
    rcases List.eq_nil_or_concat xs with h | ⟨ys, x', h⟩
    · exact absurd h hne
    · exact ⟨ys, x', by simpa using h⟩
  have hc := List.chain'_append.1 h4
  refine ⟨x', ⟨?_, by simp, fun z hz => h3 z (List.mem_append_left _ hz), hc.1⟩, ?_⟩
  · cases ys <;> simpa using h1
  · exact hc.2.2 x' (by simp) x (by simp)

/-- A walk in which every station is the first one from which the next is one step of
the search away has the fewest steps among the walks that end at least as far. -/
theorem greedy_le {m : Heap} {L : List Nat} {sp : Nat} :
    ∀ (n : Nat) (xs ys : List Nat) (x y : Nat), xs.length = n →
      DirectWalk m L sp x xs → xs.Chain' (FirstStep m L sp) →
      DirectWalk m L sp y ys → distanceOf m x ≤ distanceOf m y → xs.length ≤ ys.length := by
  intro n
  induction n with
  | zero =>
    intro xs ys x y hn
    simp [List.length_eq_zero.1 hn]
  | succ n ih =>
    intro xs ys x y hn hx hg hy hxy
    have hxne : xs ≠ [] := by rintro rfl; simp at hn
    have hyne : ys ≠ [] := by rintro rfl; simp [DirectWalk] at hy
    obtain ⟨xs', x0, rfl⟩ : ∃ xs' x0, xs = xs' ++ [x0] := by
      rcases List.eq_nil_or_concat xs with h | ⟨l, b, h⟩
      · exact absurd h hxne
      · exact ⟨l, b, by simpa using h⟩
    obtain ⟨ys', y0, rfl⟩ : ∃ ys' y0, ys = ys' ++ [y0] := by
      rcases List.eq_nil_or_concat ys with h | ⟨l, b, h⟩
      · exact absurd h hyne
      · exact ⟨l, b, by simpa using h⟩
    have hx0 : x0 = x := by have := hx.2.1; simpa using this
    have hy0 : y0 = y := by have := hy.2.1; simpa using this
    subst hx0 hy0
    by_cases hxs' : xs' = []
    · subst hxs'
      simp
    · obtain ⟨x', hx', hhx⟩ := hx.snoc_inv hxs'
      have hfirst : FirstStep m L sp x' x0 := by
        have hc := List.chain'_append.1 hg
        exact hc.2.2 x' (by rw [hx'.2.1]; simp) x0 (by simp)
      by_cases hys' : ys' = []
      · subst hys'
        have : y0 = sp := by have := hy.1; simpa using this
        subst this
        have := hfirst.2.1
        have := hhx.1
        omega
      · obtain ⟨y', hy', hhy⟩ := hy.snoc_inv hys'
        have hle : distanceOf m x' ≤ distanceOf m y' := by
          by_contra hc
          have hlt : distanceOf m y' < distanceOf m x' := not_le.1 hc
          have hy'L : y' ∈ L := hy'.2.2.1 y' (by
            have := hy'.2.1
            exact List.mem_of_mem_getLast? this)
          refine hfirst.2.2.2 y' hy'L (hy'.start_le) hlt ⟨?_, ?_⟩
          · have := hhx.1; omega
          · exact hhy.2.mono hxy
        have hg' : xs'.Chain' (FirstStep m L sp) := (List.chain'_append.1 hg).1
        have := ih xs' ys' x' y' (by simpa using hn) hx' hg' hy' hle
        simp
        omega

theorem RInv.load_rev {m0 m : Heap} {L : List Nat} {lo hi : Nat} {D qs : List Nat}
    {lvl : Nat → Nat} (hR : Road m0 L) (hC : Clean m0 L) (h : RInv m0 m L lo hi D qs lvl)
    {i a : Nat} (hia : L[i]? = some a) :
    ∃ s0 s, m0 a = some s0 ∧ m a = some s ∧ s.distance = s0.distance ∧
      s.max_car = s0.max_car ∧ (s.color = 'w' ↔ (i ∉ D ∧ i ∉ qs)) ∧
      ((i ∉ D ∧ i ∉ qs) → s = s0) := by
  have ha : a ∈ L := List.mem_iff_getElem?.2 ⟨i, hia⟩
  obtain ⟨s0, hs0⟩ := hR.alloc a ha
  have hc := hC a ha s0 hs0
  by_cases hout : i ∉ D ∧ i ∉ qs
  · have := h.out a (fun j hj => by rw [← hR.pos_unique hia hj]; exact hout)
    exact ⟨s0, s0, hs0, this.trans hs0, rfl, rfl, by simp [hc.1, hout], fun _ => rfl⟩
  · have hG : i ∈ D ∨ i ∈ qs := by
      by_contra hcon
      push_neg at hcon
      exact hout hcon
    by_cases e : i = lo
    · subst e
      exact ⟨s0, _, hs0, h.src a s0 hia hs0, rfl, rfl, iff_of_false (by simp) hout,
        fun hh => absurd hh hout⟩
    · obtain ⟨k, b, _, _, _, hm, _⟩ := h.disc i a s0 hG e hia hs0
      exact ⟨s0, _, hs0, hm, rfl, rfl, iff_of_false (by simp) hout,
        fun hh => absurd hh hout⟩

theorem RInv.sameTree_rev {m0 m : Heap} {L : List Nat} {lo hi : Nat} {D qs : List Nat}
    {lvl : Nat → Nat} (hR : Road m0 L) (h : RInv m0 m L lo hi D qs lvl) : SameTree m0 m := by
  intro a
  by_cases hout : ∀ i, L[i]? = some a → i ∉ D ∧ i ∉ qs
  · rw [h.out a hout]
  · push_neg at hout
    obtain ⟨i, hia, hG⟩ := hout
    have hG' : i ∈ D ∨ i ∈ qs := by
      by_cases h1 : i ∈ D
      · exact Or.inl h1
      · exact Or.inr (hG h1)
    have ha : a ∈ L := List.mem_iff_getElem?.2 ⟨i, hia⟩
    obtain ⟨s0, hs0⟩ := hR.alloc a ha
    by_cases e : i = lo
    · subst e
      rw [h.src a s0 hia hs0, hs0]; rfl
    · obtain ⟨k, b, _, _, _, hm, _⟩ := h.disc i a s0 hG' e hia hs0
      rw [hm, hs0]; rfl

theorem RInv.grow_rev {m0 m : Heap} {L : List Nat} {lo hi c r : Nat} {D0 qs : List Nat}
    {lvl : Nat → Nat} (hR : Road m0 L) (h : RInv m0 m L lo hi (c :: D0) qs lvl)
    {ac ar : Nat} {s0 : station_t} (hcr : c < r) (hrhi : r ≤ hi)
    (hc : L[c]? = some ac) (hr : L[r]? = some ar) (h0 : m0 ar = some s0)
    (hin : RevInRange m0 ar ac) (hrG : r ∉ c :: D0 ∧ r ∉ qs)
    (htop : ∀ w ∈ qs, lvl w ≤ lvl c + 1) (hbelow : ∀ d ∈ D0, lvl d ≤ lvl c) :
    RInv m0 (Function.update m ar (some { s0 with color := 'g', pi := some ac })) L lo hi
      (c :: D0) (qs ++ [r]) (Function.update lvl r (lvl c + 1)) := by
  have hlo : lo ≤ c := (h.rng c (Or.inl (by simp))).1
  have hlvl : ∀ i, i ∈ c :: D0 ∨ i ∈ qs → Function.update lvl r (lvl c + 1) i = lvl i := by
    intro i hi
    have : i ≠ r := by
      rintro rfl
      rcases hi with hi | hi
      · exact hrG.1 hi
      · exact hrG.2 hi
    rw [Function.update_noteq this]
  have hlvlr : Function.update lvl r (lvl c + 1) r = lvl c + 1 := Function.update_same _ _ _
  have hlvlc := hlvl c (Or.inl (by simp))
  refine ⟨?_, ?_, ?_, ?_, ?_, ?_, ?_, ?_, ?_⟩
  · intro a ha
    have hne : a ≠ ar := by
      rintro rfl
      have := (ha r hr).2
      simp at this
    rw [Function.update_noteq hne]
    exact h.out a (fun i hi' => ⟨(ha i hi').1, fun hq => (ha i hi').2 (by simp [hq])⟩)
  · intro i hi
    rcases hi with hi | hi
    · exact h.rng i (Or.inl hi)
    · rcases List.mem_append.1 hi with hi | hi
      · exact h.rng i (Or.inr hi)
      · simp at hi
        subst hi
        omega
  · have := h.nodup
    rw [← List.append_assoc]
    refine List.Nodup.append this (by simp) ?_
    intro x hx hx'
    simp at hx'
    subst hx'
    rcases List.mem_append.1 hx with hx | hx
    · exact hrG.1 hx
    · exact hrG.2 hx
  · intro a s hp hs
    have hne : a ≠ ar := by
      rintro rfl
      have := hR.pos_unique hp hr
      omega
    rw [Function.update_noteq hne]
    exact h.src a s hp hs
  · rcases h.src_in with h1 | h1
    · exact Or.inl h1
    · exact Or.inr (by simp [h1])
  · rw [hlvl lo h.src_in]
    exact h.lvl0
  · intro i a s hi hilo hia hs
    have hi' : (i ∈ c :: D0 ∨ i ∈ qs) ∨ i = r := by
      rcases hi with hi | hi
      · exact Or.inl (Or.inl hi)
      · rcases List.mem_append.1 hi with hi | hi
        · exact Or.inl (Or.inr hi)
        · simp at hi
          exact Or.inr hi
    rcases hi' with hi' | hi'
    · obtain ⟨k, b, hk, hkD, hki, hm, hrev, hl⟩ := h.disc i a s hi' hilo hia hs
      refine ⟨k, b, hk, hkD, hki, ?_, hrev, ?_⟩
      · have hne : a ≠ ar := by
          rintro rfl
          have := hR.pos_unique hia hr
          subst this
          rcases hi' with hi' | hi'
          · exact hrG.1 hi'
          · exact hrG.2 hi'
        rw [Function.update_noteq hne]
        exact hm
      · rw [hlvl i hi', hlvl k (Or.inl hkD)]
        exact hl
    · subst hi'
      rw [hr] at hia
      cases hia
      rw [h0] at hs
      cases hs
      refine ⟨c, ac, hc, by simp, hcr, by rw [Function.update_same], hin, ?_⟩
      rw [hlvlr, hlvlc]
  · rw [List.pairwise_append]
    refine ⟨?_, by simp, ?_⟩
    · refine h.sorted.imp_of_mem ?_
      intro x y hx hy hxy
      rw [hlvl x (Or.inr hx), hlvl y (Or.inr hy)]
      exact hxy
    · intro x hx y hy
      simp at hy
      subst hy
      rw [hlvl x (Or.inr hx), hlvlr]
      exact htop x hx
  · intro d hd w hw
    rw [hlvl d (Or.inl hd)]
    rcases List.mem_append.1 hw with hw | hw
    · rw [hlvl w (Or.inr hw)]
      exact h.done_le d hd w hw
    · simp at hw
      subst hw
      rw [hlvlr]
      rcases List.mem_cons.1 hd with hd | hd
      · subst hd
        omega
      · have := hbelow d hd
        omega

theorem BfsReverse.visit_reverse {m0 : Heap} {L : List Nat} (hR : Road m0 L)
    (hC : Clean m0 L) (lo hi : Nat) (hhi : hi < L.length) (c : Nat) (D0 : List Nat)
    (m : Heap) (qs : List Nat) (lvl : Nat → Nat) (r : Nat)
    (hI : RInv m0 m L lo hi (c :: D0) qs lvl) (hcr : c < r) (hrhi : r ≤ hi)
    (hhD : hi ∉ c :: D0) (hhq : hi ∉ qs)
    (htop : ∀ w ∈ qs, lvl w ≤ lvl c + 1) (hbelow : ∀ d ∈ D0, lvl d ≤ lvl c)
    (hcl : ∀ d ∈ D0, RClosed m0 L (c :: D0) qs lvl d (hi + 1))
    (hclc : RClosed m0 L (c :: D0) qs lvl c r) :
    ∃ m1 qs1 lvl1,
      BfsReverse.visit L[hi]? L[c]? m (qs.map (fun i => L[i]?)) false L[r]?
        = .ok (m1, qs1.map (fun i => L[i]?), decide (hi ∈ qs1)) ∧
      RInv m0 m1 L lo hi (c :: D0) qs1 lvl1 ∧
      (∀ w ∈ qs1, lvl1 w ≤ lvl1 c + 1) ∧ (∀ d ∈ D0, lvl1 d ≤ lvl1 c) ∧
      (∀ d ∈ D0, RClosed m0 L (c :: D0) qs1 lvl1 d (hi + 1)) ∧
      RClosed m0 L (c :: D0) qs1 lvl1 c (r + 1) ∧ (r < hi → hi ∉ qs1) := by
  obtain ⟨ac, hac⟩ : ∃ a, L[c]? = some a := ⟨L[c], List.getElem?_eq_getElem (by omega)⟩
  obtain ⟨ar, har⟩ : ∃ a, L[r]? = some a := ⟨L[r], List.getElem?_eq_getElem (by omega)⟩
  obtain ⟨ah, hah⟩ : ∃ a, L[hi]? = some a := ⟨L[hi], List.getElem?_eq_getElem (by omega)⟩
  obtain ⟨sc0, sc, hsc0, hsc, hscd, hscm, _, _⟩ := hI.load_rev hR hC hac
  obtain ⟨sr0, sr, hsr0, hsr, hsrd, hsrm, hsrw, hsre⟩ := hI.load_rev hR hC har
  have hdc : distanceOf m0 ac = sc.distance := by simp [distanceOf, hsc0, hscd]
  have hdr : distanceOf m0 ar = sr.distance := by simp [distanceOf, hsr0, hsrd]
  have hmr : maxCarOf m0 ar = sr.max_car := by simp [maxCarOf, hsr0, hsrm]
  have hcond : sr.max_car ≥ wrap32 (sr.distance - sc.distance) ↔ RevInRange m0 ar ac := by
    unfold RevInRange; rw [hdc, hmr, hdr]
  have hdist : ∀ (mm : Heap) (sh : station_t), SameTree m0 mm → mm ah = some sh →
      (sr.distance = sh.distance ↔ r = hi) := by
    intro mm sh hS hsh
    obtain ⟨sh0, hsh0⟩ := hR.alloc ah (List.mem_iff_getElem?.2 ⟨hi, hah⟩)
    obtain ⟨sh', hsh', hd', _⟩ := hS.cell_of hsh0
    rw [hsh] at hsh'
    cases hsh'
    have hdh : distanceOf m0 ah = sh.distance := by simp [distanceOf, hsh0, hd']
    rw [← hdr, ← hdh]
    constructor
    · intro e
      by_contra hne
      have := hR.dist_lt har hah (by omega)
      omega
    · intro e
      subst e
      rw [har] at hah
      cases hah
      rfl
  rw [hac, har, hah]
  unfold BfsReverse.visit
  simp only [load_some hsc, load_some hsr]
  by_cases hin : RevInRange m0 ar ac
  · rw [if_pos (hcond.2 hin)]
    by_cases hw : sr.color = 'w'
    · -- a white station in range: it is discovered
      have hrG := hsrw.1 hw
      have hsreq : sr = sr0 := hsre hrG
      subst hsreq
      have hI1 := hI.grow_rev hR hcr hrhi hac har hsr0 hin hrG htop hbelow
      obtain ⟨_, sh, _, hsh, _⟩ := hI1.load_rev hR hC hah
      have hlvl : ∀ i, i ∈ c :: D0 ∨ i ∈ qs →
          Function.update lvl r (lvl c + 1) i = lvl i := by
        intro i hi'
        have : i ≠ r := by
          rintro rfl
          rcases hi' with hi' | hi'
          · exact hrG.1 hi'
          · exact hrG.2 hi'
        rw [Function.update_noteq this]
      have hlvlr : Function.update lvl r (lvl c + 1) r = lvl c + 1 :=
        Function.update_same _ _ _
      have hlvlc := hlvl c (Or.inl (by simp))
      rw [if_pos hw, modify_some hsr]
      simp only [load_some hsh]
      refine ⟨_, qs ++ [r], Function.update lvl r (lvl c + 1), ?_, hI1, ?_, ?_, ?_, ?_, ?_⟩
      · have hq : Enqueue (List.map (fun i => L[i]?) qs) (some ar)
            = List.map (fun i => L[i]?) (qs ++ [r]) := by
          simp [Enqueue, har]
        rw [hq]
        by_cases hrh : r = hi
        · rw [if_pos ((hdist _ sh (hI1.sameTree_rev hR) hsh).2 hrh)]
          simp [hrh]
        · rw [if_neg (fun e => hrh ((hdist _ sh (hI1.sameTree_rev hR) hsh).1 e))]
          have : hi ∉ qs ++ [r] := by
            simp [hhq]
            omega
          simp [this]
      · intro w hw'
        rw [hlvlc]
        rcases List.mem_append.1 hw' with hw' | hw'
        · rw [hlvl w (Or.inr hw')]
          exact htop w hw'
        · simp at hw'
          subst hw'
          rw [hlvlr]
      · intro d hd
        rw [hlvlc, hlvl d (Or.inl (List.mem_cons_of_mem _ hd))]
        exact hbelow d hd
      · intro d hd v a b h1 h2 h3 h4 h5
        obtain ⟨g1, g2⟩ := hcl d hd v a b h1 h2 h3 h4 h5
        refine ⟨?_, ?_⟩
        · rcases g1 with g1 | g1
          · exact Or.inl g1
          · exact Or.inr (by simp [g1])
        · rw [hlvl v g1, hlvl d (Or.inl (List.mem_cons_of_mem _ hd))]
          exact g2
      · intro v a b h1 h2 h3 h4 h5
        rcases Nat.lt_or_ge v r with hv | hv
        · obtain ⟨g1, g2⟩ := hclc v a b h1 hv h3 h4 h5
          refine ⟨?_, ?_⟩
          · rcases g1 with g1 | g1
            · exact Or.inl g1
            · exact Or.inr (by simp [g1])
          · rw [hlvl v g1, hlvlc]
            exact g2
        · have : v = r := by omega
          subst this
          refine ⟨Or.inr (by simp), ?_⟩
          rw [hlvlr, hlvlc]
      · intro hlt
        simp [hhq]
        omega
    · -- a gray station in range: nothing changes
      have hrG : r ∈ c :: D0 ∨ r ∈ qs := by
        by_contra hcon
        push_neg at hcon
        exact hw (hsrw.2 hcon)
      have hrne : r ≠ hi := by
        rintro rfl
        rcases hrG with h | h
        · exact hhD h
        · exact hhq h
      obtain ⟨_, sh, _, hsh, _⟩ := hI.load_rev hR hC hah
      rw [if_neg hw]
      simp only [load_some hsh]
      rw [if_neg (fun e => hrne ((hdist _ sh (hI.sameTree_rev hR) hsh).1 e))]
      refine ⟨m, qs, lvl, by simp [hhq], hI, htop, hbelow, hcl, ?_, fun _ => hhq⟩
      intro v a b h1 h2 h3 h4 h5
      rcases Nat.lt_or_ge v r with hv | hv
      · exact hclc v a b h1 hv h3 h4 h5
      · have : v = r := by omega
        subst this
        refine ⟨hrG, ?_⟩
        rcases hrG with h | h
        · rcases List.mem_cons.1 h with h | h
          · omega
          · have := hbelow v h
            omega
        · exact htop v h
  · -- not in range
    rw [if_neg (fun h => hin (hcond.1 h))]
    refine ⟨m, qs, lvl, by simp [hhq], hI, htop, hbelow, hcl, ?_, fun _ => hhq⟩
    intro v a b h1 h2 h3 h4 h5
    rcases Nat.lt_or_ge v r with hv | hv
    · exact hclc v a b h1 hv h3 h4 h5
    · have : v = r := by omega
      subst this
      rw [har] at h4
      rw [hac] at h3
      cases h3
      cases h4
      exact absurd h5 hin

theorem BfsReverse.walk_reverse {m0 : Heap} {L : List Nat} (hR : Road m0 L)
    (hC : Clean m0 L) (lo hi : Nat) (hhi : hi < L.length) (f : Nat) (hf : L.length < f)
    (c : Nat) (D0 : List Nat) (hhD : hi ∉ c :: D0) :
    ∀ n m qs lvl r, RInv m0 m L lo hi (c :: D0) qs lvl → c < r → r ≤ hi → hi ∉ qs →
      (∀ w ∈ qs, lvl w ≤ lvl c + 1) → (∀ d ∈ D0, lvl d ≤ lvl c) →
      (∀ d ∈ D0, RClosed m0 L (c :: D0) qs lvl d (hi + 1)) →
      RClosed m0 L (c :: D0) qs lvl c r → hi + 2 ≤ n + r →
      ∃ m' qs' lvl',
        BfsReverse.walk f L[hi]? L[c]? n m (qs.map (fun i => L[i]?)) false L[r]?
          = .ok (m', qs'.map (fun i => L[i]?), decide (hi ∈ qs')) ∧
        RInv m0 m' L lo hi (c :: D0) qs' lvl' ∧
        (∀ w ∈ qs', lvl' w ≤ lvl' c + 1) ∧
        (∀ d ∈ c :: D0, RClosed m0 L (c :: D0) qs' lvl' d (hi + 1)) := by
  intro n
  induction n with
  | zero => intro m qs lvl r _ _ _ _ _ _ _ _ hn; omega
  | succ n ih =>
    intro m qs lvl r hI hcr hrhi hhq htop hbelow hcl hclc hn
    obtain ⟨m1, qs1, lvl1, hv, hI1, htop1, hbelow1, hcl1, hclc1, hhq1⟩ :=
      BfsReverse.visit_reverse hR hC lo hi hhi c D0 m qs lvl r hI hcr hrhi hhD hhq htop
        hbelow hcl hclc
    obtain ⟨ar, har⟩ : ∃ a, L[r]? = some a := ⟨L[r], List.getElem?_eq_getElem (by omega)⟩
    obtain ⟨ah, hah⟩ : ∃ a, L[hi]? = some a := ⟨L[hi], List.getElem?_eq_getElem (by omega)⟩
    have hS1 := hI1.sameTree_rev hR
    obtain ⟨sh0, sh, hsh0, hsh, hshd, _⟩ := hI1.load_rev hR hC hah
    have hdh : distanceOf m0 ah = sh.distance := by simp [distanceOf, hsh0, hshd]
    unfold BfsReverse.walk
    simp only [Bool.false_eq_true, if_false, hv]
    rw [har, hR.succ _ hS1 r ar har f hf]
    have hfull : r = hi → ∀ d ∈ c :: D0, RClosed m0 L (c :: D0) qs1 lvl1 d (hi + 1) := by
      intro e d hd
      subst e
      rcases List.mem_cons.1 hd with hd | hd
      · subst hd
        exact hclc1
      · exact hcl1 d hd
    cases hnx : L[r + 1]? with
    | none =>
      have hlen : L.length ≤ r + 1 := List.getElem?_eq_none_iff.1 hnx
      have hrh : r = hi := by omega
      exact ⟨m1, qs1, lvl1, rfl, hI1, htop1, hfull hrh⟩
    | some nx =>
      obtain ⟨sn0, sn, hsn0, hsn, hsnd, _⟩ := hI1.load_rev hR hC hnx
      have hdn : distanceOf m0 nx = sn.distance := by simp [distanceOf, hsn0, hsnd]
      simp only [load_some hsn, hah, load_some hsh]
      by_cases hrh : r = hi
      · have : sn.distance > sh.distance := by
          rw [← hdn, ← hdh]
          exact hR.dist_lt hah hnx (by omega)
        rw [if_pos this]
        exact ⟨m1, qs1, lvl1, rfl, hI1, htop1, hfull hrh⟩
      · have hlt : r < hi := by omega
        have : ¬ sn.distance > sh.distance := by
          rw [← hdn, ← hdh]
          exact not_lt.2 (hR.dist_le hnx hah (by omega))
        rw [if_neg this]
        have hq1 := hhq1 hlt
        have := ih m1 qs1 lvl1 (r + 1) hI1 (by omega) (by omega) hq1 htop1 hbelow1 hcl1
          hclc1 (by omega)
        rw [hah, hnx] at this
        simpa [hq1] using this

theorem RInv.pop {m0 m : Heap} {L : List Nat} {lo hi c : Nat} {D rest : List Nat}
    {lvl : Nat → Nat} (h : RInv m0 m L lo hi D (c :: rest) lvl) :
    RInv m0 m L lo hi (c :: D) rest lvl := by
  have hs := List.pairwise_cons.1 h.sorted
  refine ⟨?_, ?_, ?_, h.src, ?_, h.lvl0, ?_, hs.2, ?_⟩
  · intro a ha
    refine h.out a (fun i hi' => ?_)
    have := ha i hi'
    simp only [List.mem_cons, not_or] at this ⊢
    exact ⟨this.1.2, this.1.1, this.2⟩
  · intro i hi'
    apply h.rng
    simp only [List.mem_cons] at hi' ⊢
    tauto
  · have : (c :: D ++ rest).Perm (D ++ c :: rest) := List.perm_middle.symm
    exact this.nodup_iff.2 h.nodup
  · have := h.src_in
    simp only [List.mem_cons] at this ⊢
    tauto
  · intro i a s0 hi' hilo hia hs0
    have hG : i ∈ D ∨ i ∈ c :: rest := by
      simp only [List.mem_cons] at hi' ⊢
      tauto
    obtain ⟨k, b, h1, h2, h3⟩ := h.disc i a s0 hG hilo hia hs0
    exact ⟨k, b, h1, List.mem_cons_of_mem _ h2, h3⟩
  · intro d hd w hw
    rcases List.mem_cons.1 hd with hd | hd
    · subst hd
      exact hs.1 w hw
    · exact h.done_le d hd w (List.mem_cons_of_mem _ hw)

theorem RInv.length_le {m0 m : Heap} {L : List Nat} {lo hi : Nat} {D qs : List Nat}
    {lvl : Nat → Nat} (h : RInv m0 m L lo hi D qs lvl) :
    D.length + qs.length + lo ≤ hi + 1 := by
  have hsub : D ++ qs ⊆ List.Ico lo (hi + 1) := by
    intro x hx
    have := h.rng x (List.mem_append.1 hx)
    rw [List.Ico.mem]
    omega
  have := (List.subperm_of_subset h.nodup hsub).length_le
  have hlo := h.rng lo h.src_in
  simp at this
  omega

theorem BfsReverse.search_reverse {m0 : Heap} {L : List Nat} (hR : Road m0 L)
    (hC : Clean m0 L) (lo hi : Nat) (hhi : hi < L.length) (f : Nat) (hf : L.length < f) :
    ∀ n m D qs lvl, RInv m0 m L lo hi D qs lvl → hi ∉ D → hi ∉ qs →
      (∀ w ∈ qs, ∀ w' ∈ qs, lvl w' ≤ lvl w + 1) →
      (∀ d ∈ D, RClosed m0 L D qs lvl d (hi + 1)) → hi + 2 ≤ n + lo + D.length →
      ∃ m' D' qs' lvl' ex,
        BfsReverse.search f L[hi]? n m (qs.map (fun i => L[i]?)) false
          = .ok (m', qs'.map (fun i => L[i]?), ex) ∧
        RInv m0 m' L lo hi D' qs' lvl' ∧
        (∀ d ∈ D', RClosed m0 L D' qs' lvl' d (hi + 1)) ∧ hi ∉ D' ∧
        ((ex = true ∧ hi ∈ qs') ∨ (ex = false ∧ qs' = [])) := by
  intro n
  induction n with
  | zero =>
    intro m D qs lvl hI _ _ _ _ hn
    have := hI.length_le
    omega
  | succ n ih =>
    intro m D qs lvl hI hhD hhq hspan hcl hn
    unfold BfsReverse.search
    cases qs with
    | nil =>
      exact ⟨m, D, [], lvl, false, by simp, hI, hcl, hhD, Or.inr ⟨rfl, rfl⟩⟩
    | cons c rest =>
      have hlen := hI.length_le
      have hcr := hI.rng c (Or.inr (by simp))
      have hchi : c < hi := by
        have : c ≠ hi := by
          rintro rfl
          exact hhq (by simp)
        omega
      obtain ⟨ac, hac⟩ : ∃ a, L[c]? = some a := ⟨L[c], List.getElem?_eq_getElem (by omega)⟩
      have hI' := hI.pop
      have hhD' : hi ∉ c :: D := by
        simp only [List.mem_cons, not_or]
        exact ⟨by omega, hhD⟩
      have hhq' : hi ∉ rest := fun h => hhq (List.mem_cons_of_mem _ h)
      have htop : ∀ w ∈ rest, lvl w ≤ lvl c + 1 := fun w hw =>
        hspan c (by simp) w (List.mem_cons_of_mem _ hw)
      have hbelow : ∀ d ∈ D, lvl d ≤ lvl c := fun d hd => hI.done_le d hd c (by simp)
      have hcl' : ∀ d ∈ D, RClosed m0 L (c :: D) rest lvl d (hi + 1) := by
        intro d hd v a b h1 h2 h3 h4 h5
        obtain ⟨g1, g2⟩ := hcl d hd v a b h1 h2 h3 h4 h5
        refine ⟨?_, g2⟩
        simp only [List.mem_cons] at g1 ⊢
        tauto
      have hclc : RClosed m0 L (c :: D) rest lvl c (c + 1) := by
        intro v a b h1 h2
        omega
      obtain ⟨m1, qs1, lvl1, hw, hI1, htop1, hcl1⟩ :=
        BfsReverse.walk_reverse hR hC lo hi hhi f hf c D hhD' f m rest lvl (c + 1) hI'
          (by omega) (by omega) hhq' htop hbelow hcl' hclc (by omega)
      simp only [List.map_cons, true_and, ne_eq, not_false_eq_true, if_true, Dequeue,
        reduceCtorEq]
      rw [hac, hR.succ m (hI.sameTree_rev hR) c ac hac f hf]
      rw [hac] at hw
      simp only [hw]
      by_cases hex : hi ∈ qs1
      · refine ⟨m1, c :: D, qs1, lvl1, true, ?_, hI1, hcl1, hhD', Or.inl ⟨rfl, hex⟩⟩
        cases n with
        | zero => simp at hlen; omega
        | succ n' =>
          unfold BfsReverse.search
          simp [hex]
      · have hspan1 : ∀ w ∈ qs1, ∀ w' ∈ qs1, lvl1 w' ≤ lvl1 w + 1 := by
          intro w hw1 w' hw1'
          have h1 := htop1 w' hw1'
          have h2 := hI1.done_le c (by simp) w hw1
          omega
        obtain ⟨m', D', qs', lvl', ex, g1, g2⟩ :=
          ih m1 (c :: D) qs1 lvl1 hI1 hhD' hex hspan1 hcl1 (by simp; omega)
        refine ⟨m', D', qs', lvl', ex, ?_, g2⟩
        rw [← g1]
        simp [hex]

theorem BfsReverse.reset_reverse {m0 : Heap} {L : List Nat} (hR : Road m0 L)
    (lo : Nat) (hlo : lo < L.length) (f : Nat) (hf : L.length < f) :
    ∀ n m i a, SameTree m0 m → L[i]? = some a → lo ≤ i + 1 → i + 2 ≤ n + lo →
      ∃ m', BfsReverse.reset f L[lo]? n m (some a) = .ok m' ∧ SameTree m0 m' ∧
        (∀ b, (∀ j, L[j]? = some b → j < lo ∨ i < j) → m' b = m b) ∧
        (∀ j b, lo ≤ j → j ≤ i → L[j]? = some b → m' b = (m b).map strip) := by
  intro n
  induction n with
  | zero =>
    intro m i a _ hia hi1 hn
    omega
  | succ n ih =>
    intro m i a hS hia hi1 hn
    obtain ⟨ae, hae⟩ : ∃ a, L[lo]? = some a := ⟨L[lo], List.getElem?_eq_getElem (by omega)⟩
    obtain ⟨s0, hs0⟩ := hR.alloc a (List.mem_iff_getElem?.2 ⟨i, hia⟩)
    obtain ⟨se0, hse0⟩ := hR.alloc ae (List.mem_iff_getElem?.2 ⟨lo, hae⟩)
    obtain ⟨s, hs, hsd, _⟩ := hS.cell_of hs0
    obtain ⟨se, hse, hsed, _⟩ := hS.cell_of hse0
    have hda : distanceOf m0 a = s.distance := by simp [distanceOf, hs0, hsd]
    have hde : distanceOf m0 ae = se.distance := by simp [distanceOf, hse0, hsed]
    rw [hae]
    unfold BfsReverse.reset
    simp only [load_some hs, load_some hse]
    by_cases hie : lo ≤ i
    · have hle : s.distance ≥ se.distance := by
        rw [← hda, ← hde]; exact hR.dist_le hae hia hie
      rw [if_pos hle, modify_some hs]
      have hS1 := hS.update hs 'w' none
      simp only []
      rw [hR.pred _ hS1 i a hia f hf]
      have hm1 : ∀ b, b ≠ a → Function.update m a
          (some { s with color := 'w', pi := none }) b = m b :=
        fun b hb => Function.update_noteq hb _ _
      have hsame : Function.update m a (some { s with color := 'w', pi := none }) a
          = (m a).map strip := by
        rw [Function.update_same, hs]; rfl
      by_cases hi0 : i = 0
      · subst hi0
        refine ⟨_, by simp, hS1, ?_, ?_⟩
        · intro b hb
          apply hm1
          rintro rfl
          have := hb 0 hia
          omega
        · intro j b hij hje hjb
          have : j = 0 := by omega
          subst this
          rw [hia] at hjb
          cases hjb
          exact hsame
      · have hil : i - 1 < L.length := by
          have := (List.getElem?_eq_some.1 hia).1
          omega
        obtain ⟨pv, hpv⟩ : ∃ a, L[i - 1]? = some a := ⟨L[i - 1], List.getElem?_eq_getElem hil⟩
        obtain ⟨m', h1, h2, h3, h4⟩ := ih _ (i - 1) pv hS1 hpv (by omega) (by omega)
        rw [hae] at h1
        rw [if_neg hi0, hpv]
        refine ⟨m', h1, h2, ?_, ?_⟩
        · intro b hb
          rw [h3 b (fun j hj => by have := hb j hj; omega)]
          apply hm1
          rintro rfl
          have := hb i hia
          omega
        · intro j b hij hje hjb
          rcases Nat.eq_or_lt_of_le hje with e1 | e1
          · subst e1
            rw [hia] at hjb
            cases hjb
            rw [h3 a (fun j' hj' => by have := hR.pos_unique hia hj'; omega)]
            exact hsame
          · rw [h4 j b hij (by omega) hjb]
            have : b ≠ a := by
              rintro rfl
              have := hR.pos_unique hia hjb
              omega
            rw [hm1 b this]
    · have hlt : ¬ s.distance ≥ se.distance := by
        rw [← hda, ← hde]
        exact not_le.2 (hR.dist_lt hia hae (by omega))
      rw [if_neg hlt]
      refine ⟨m, rfl, hS, fun _ _ => rfl, ?_⟩
      intro j b hij hje
      omega

theorem RInv.chain_rev {m0 m : Heap} {L : List Nat} {lo hi : Nat} {D qs : List Nat}
    {lvl : Nat → Nat} (hR : Road m0 L) (hC : Clean m0 L) (h : RInv m0 m L lo hi D qs lvl)
    {sa : Nat} (hsa : L[lo]? = some sa) :
    ∀ i, i ∈ D ∨ i ∈ qs → ∀ a, L[i]? = some a →
      ∃ xs, ReverseWalk m0 L a sa xs ∧ xs.length = lvl i + 1 ∧
        ∀ n acc, i + 1 ≤ n + lo →
          BfsReverse.print n m (some a) acc = .ok (acc ++ xs.map (distanceOf m0)) := by
  intro i
  induction i using Nat.strong_induction_on with
  | _ i ih =>
    intro hG a hia
    have ha : a ∈ L := List.mem_iff_getElem?.2 ⟨i, hia⟩
    obtain ⟨s0, hs0⟩ := hR.alloc a ha
    have hc := hC a ha s0 hs0
    by_cases e : i = lo
    · subst e
      rw [hsa] at hia
      cases hia
      refine ⟨[sa], ⟨rfl, rfl, by simpa using ha, by simp⟩, by simp [h.lvl0], ?_⟩
      intro n acc hn
      obtain ⟨n', rfl⟩ : ∃ n', n = n' + 1 := ⟨n - 1, by omega⟩
      unfold BfsReverse.print
      simp [load_some (h.src sa s0 hsa hs0), hc.2, distanceOf, hs0]
    · obtain ⟨k, b, hkb, hkD, hki, hm, hin, hl⟩ := h.disc i a s0 hG e hia hs0
      obtain ⟨xs, ⟨x1, x2, x3, x4⟩, hlen, hpr⟩ := ih k hki (Or.inl hkD) b hkb
      have hklo := (h.rng k (Or.inl hkD)).1
      refine ⟨a :: xs, ⟨rfl, ?_, ?_, ?_⟩, by simp [hlen, hl], ?_⟩
      · cases xs with
        | nil => simp at x1
        | cons y ys => simpa [List.getLast?_cons_cons] using x2
      · intro x hx
        rcases List.mem_cons.1 hx with hx | hx
        · subst hx; exact ha
        · exact x3 x hx
      · cases xs with
        | nil => simp at x1
        | cons y ys =>
          simp at x1
          subst x1
          exact List.chain'_cons.2 ⟨⟨hR.dist_lt hkb hia hki, hin⟩, x4⟩
      · intro n acc hn
        obtain ⟨n', rfl⟩ : ∃ n', n = n' + 1 := ⟨n - 1, by omega⟩
        unfold BfsReverse.print
        simp only [load_some hm]
        rw [hpr n' _ (by omega)]
        simp [distanceOf, hs0]

theorem RInv.undiscovered {m0 m : Heap} {L : List Nat} {lo hi : Nat} {D : List Nat}
    {lvl : Nat → Nat} (hR : Road m0 L) (_h : RInv m0 m L lo hi D [] lvl)
    (hcl : ∀ d ∈ D, RClosed m0 L D [] lvl d (hi + 1)) :
    ∀ (xs : List Nat) x i, xs.head? = some x → L[i]? = some x → i ≤ hi → i ∉ D →
      xs.Chain' (ReverseStep m0) → (∀ z ∈ xs, z ∈ L) →
      ∀ y j, xs.getLast? = some y → L[j]? = some y → j ∉ D := by
  intro xs
  induction xs with
  | nil => intro x i h; simp at h
  | cons x0 rest ih =>
    intro x i hx hix hihi hiD hch hmem y j hy hjy
    simp at hx
    subst hx
    cases rest with
    | nil =>
      simp at hy
      subst hy
      rw [hR.pos_unique hjy hix]
      exact hiD
    | cons x1 rest1 =>
      have hhop : ReverseStep m0 x0 x1 := (List.chain'_cons.1 hch).1
      obtain ⟨i', hi'⟩ := List.mem_iff_getElem?.1 (hmem x1 (by simp))
      have hlt : i' < i := hR.pos_lt hi' hix hhop.1
      have hi'D : i' ∉ D := by
        intro hd
        have := (hcl i' hd i x0 x1 hlt (by omega) hi' hix hhop.2).1
        simp at this
        exact hiD this
      refine ih x1 i' rfl hi' (by omega) hi'D (List.chain'_cons.1 hch).2
        (fun z hz => hmem z (List.mem_cons_of_mem _ hz)) y j ?_ hjy
      simpa [List.getLast?_cons_cons] using hy

theorem RInv.level_le {m0 m : Heap} {L : List Nat} {lo hi k : Nat} {D qs : List Nat}
    {lvl : Nat → Nat} (hR : Road m0 L) (h : RInv m0 m L lo hi D qs lvl)
    (hcl : ∀ d ∈ D, RClosed m0 L D qs lvl d (hi + 1)) {sa : Nat} (hsa : L[lo]? = some sa)
    (hk : k ∈ D) (hlk : lvl hi = lvl k + 1) :
    ∀ (ys : List Nat) y j, ys.head? = some y → L[j]? = some y → j ≤ hi →
      ys.Chain' (ReverseStep m0) → (∀ z ∈ ys, z ∈ L) → ys.getLast? = some sa →
      ((j ∈ D ∨ j ∈ qs) ∧ lvl j + 1 ≤ ys.length) ∨ lvl hi + 1 ≤ ys.length := by
  intro ys
  induction ys with
  | nil => intro y j h; simp at h
  | cons y0 rest ih =>
    intro y j hy hjy hjhi hch hmem hlast
    simp at hy
    subst hy
    cases rest with
    | nil =>
      simp at hlast
      subst hlast
      have : j = lo := hR.pos_unique hjy hsa
      subst this
      exact Or.inl ⟨h.src_in, by simp [h.lvl0]⟩
    | cons y1 rest1 =>
      have hhop : ReverseStep m0 y0 y1 := (List.chain'_cons.1 hch).1
      obtain ⟨j', hj'⟩ := List.mem_iff_getElem?.1 (hmem y1 (by simp))
      have hlt : j' < j := hR.pos_lt hj' hjy hhop.1
      have hrec := ih y1 j' rfl hj' (by omega) (List.chain'_cons.1 hch).2
        (fun z hz => hmem z (List.mem_cons_of_mem _ hz))
        (by simpa [List.getLast?_cons_cons] using hlast)
      rcases hrec with ⟨hG, hl⟩ | hl
      · rcases hG with hd | hq
        · obtain ⟨g1, g2⟩ := hcl j' hd j y0 y1 hlt (by omega) hj' hjy hhop.2
          refine Or.inl ⟨g1, ?_⟩
          simp only [List.length_cons] at hl ⊢
          omega
        · have := h.done_le k hk j' hq
          refine Or.inr ?_
          simp only [List.length_cons] at hl ⊢
          omega
      · refine Or.inr ?_
        simp only [List.length_cons] at hl ⊢
        omega

theorem BfsReverse_road {m0 : Heap} {L : List Nat} (hR : Road m0 L) (hC : Clean m0 L)
    (lo hi : Nat) (hlohi : lo < hi) (sp sa : Nat) (hsp : L[hi]? = some sp)
    (hsa : L[lo]? = some sa) (f : Nat) (hf : L.length < f) :
    ∃ line, BfsReverse f m0 (some sp) (some sa) = .ok (m0, line) ∧
      ((line = .no_route ∧ ∀ xs, ¬ ReverseWalk m0 L sp sa xs) ∨
       (∃ xs, line = .route (xs.map (distanceOf m0)) ∧ ReverseWalk m0 L sp sa xs ∧
          ∀ ys, ReverseWalk m0 L sp sa ys → xs.length ≤ ys.length)) := by
  have hhi : hi < L.length := (List.getElem?_eq_some.1 hsp).1
  have hpm : sp ∈ L := List.mem_iff_getElem?.2 ⟨hi, hsp⟩
  have hem : sa ∈ L := List.mem_iff_getElem?.2 ⟨lo, hsa⟩
  obtain ⟨s0, hs0⟩ := hR.alloc sa hem
  obtain ⟨sp0, hsp0⟩ := hR.alloc sp hpm
  -- the end station becomes gray
  have hI0 : RInv m0 (Function.update m0 sa (some { s0 with color := 'g' })) L lo hi [] [lo]
      (fun _ => 0) := by
    refine ⟨?_, ?_, by simp, ?_, by simp, rfl, ?_, by simp, by simp⟩
    · intro a ha
      have hne : a ≠ sa := by
        rintro rfl
        have := (ha lo hsa).2
        simp at this
      rw [Function.update_noteq hne]
    · intro i hi'
      simp at hi'
      omega
    · intro a s hp hs
      rw [hsa] at hp
      cases hp
      rw [hs0] at hs
      cases hs
      rw [Function.update_same]
    · intro i a s h1 h2
      simp at h1
      exact absurd h1 h2
  have hq : Enqueue [] (some sa) = List.map (fun i => L[i]?) [lo] := by
    simp [Enqueue, hsa]
  obtain ⟨m2, D, qs, lvl, ex, hsearch, hI, hcl, hhD, hex⟩ :=
    BfsReverse.search_reverse hR hC lo hi hhi f hf f _ [] [lo] (fun _ => 0) hI0 (by simp)
      (by simp; omega) (by simp) (by simp) (by simp; omega)
  rw [hsp] at hsearch
  have hS2 := hI.sameTree_rev hR
  obtain ⟨m3, hreset, _, hout, hin⟩ :=
    BfsReverse.reset_reverse hR lo (by omega) f hf f m2 hi sp hS2 hsp (by omega) (by omega)
  rw [hsa] at hreset
  have hm3 : m3 = m0 := by
    funext b
    by_cases hb : ∀ j, L[j]? = some b → j < lo ∨ hi < j
    · rw [hout b hb]
      refine hI.out b (fun j hj => ?_)
      have h1 := hb j hj
      constructor
      · intro hd
        have := hI.rng j (Or.inl hd)
        omega
      · intro hd
        have := hI.rng j (Or.inr hd)
        omega
    · push_neg at hb
      obtain ⟨j, hj, hj1, hj2⟩ := hb
      rw [hin j b hj1 hj2 hj, hS2 b]
      obtain ⟨s, hs⟩ := hR.alloc b (List.mem_iff_getElem?.2 ⟨j, hj⟩)
      have hc := hC b (List.mem_iff_getElem?.2 ⟨j, hj⟩) s hs
      rw [hs]
      simp only [Option.map_some', strip, Option.some.injEq]
      cases s
      simp only [station_t.mk.injEq, true_and, and_true] at hc ⊢
      exact ⟨hc.1.symm, hc.2.symm⟩
  subst hm3
  unfold BfsReverse
  simp only [modify_some hs0, hq, hsearch]
  rcases hex with ⟨_, hhq⟩ | ⟨_, hqnil⟩
  · -- the start station was reached
    have hne : hi ≠ lo := by omega
    obtain ⟨k, b, hkb, hkD, hki, hm, hrev, hl⟩ := hI.disc hi sp sp0 (Or.inr hhq) hne hsp hsp0
    obtain ⟨xs, hroute, hlen, hpr⟩ := hI.chain_rev hR hC hsa hi (Or.inr hhq) sp hsp
    simp only [load_some hm, hpr f [] (by omega), hreset, List.nil_append]
    refine ⟨_, rfl, Or.inr ⟨xs, rfl, hroute, ?_⟩⟩
    intro ys ⟨y1, y2, y3, y4⟩
    have := hI.level_le hR hcl hsa hkD hl ys sp hi y1 hsp (le_refl _) y4 y3 y2
    omega
  · -- the queue ran empty before the start station was reached
    subst hqnil
    obtain ⟨_, s2, h0, hs2, _, _, _, hse⟩ := hI.load_rev hR hC hsp
    have : s2 = sp0 := by
      have := hse ⟨hhD, by simp⟩
      rw [hsp0] at h0
      cases h0
      exact this
    subst this
    have hpi : s2.pi = none := (hC sp hpm s2 hsp0).2
    simp only [load_some hs2, hpi, hreset]
    refine ⟨_, rfl, Or.inl ⟨rfl, ?_⟩⟩
    intro xs ⟨x1, x2, x3, x4⟩
    have hlo : lo ∈ D := by
      have := hI.src_in
      simpa using this
    exact hI.undiscovered hR hcl xs sp hi x1 hsp (le_refl _) hhD x4 x3 sa lo x2 hsa hlo

theorem modify_keeps {m m1 : Heap} {p : Option Nat} {g : station_t → station_t}
    (h : modify m p g = .ok m1) {sr : station_t} (hl : load m p = .ok sr)
    (hw : sr.color = 'w') :
    ∀ x s, m x = some s → s.color ≠ 'w' → m1 x = some s := by
  intro x s hx hs
  cases p with
  | none => simp [load] at hl
  | some a =>
    cases ha : m a with
    | none => simp [load, ha] at hl
    | some s' =>
      simp only [load, ha, Except.ok.injEq] at hl
      subst hl
      simp only [modify, load, ha, Except.ok.injEq] at h
      subst h
      have : x ≠ a := by
        rintro rfl
        rw [ha] at hx
        cases hx
        exact hs hw
      rw [Function.update_noteq this]
      exact hx

theorem BfsDirect.walk_keeps (fuel : Nat) (s_a curr : Option Nat) :
    ∀ n mm q ex r mm' q' ex',
      BfsDirect.walk fuel s_a curr n mm q ex r = .ok (mm', q', ex') →
      ∀ x s, mm x = some s → s.color ≠ 'w' → mm' x = some s := by
  intro n
  induction n with
  | zero => intro mm q ex r mm' q' ex' h; simp [BfsDirect.walk] at h
  | succ n ih =>
    intro mm q ex r mm' q' ex' h x s hx hs
    unfold BfsDirect.walk at h
    split at h
    · cases h; exact hx
    · split at h
      · cases h
      · rename_i sc hsc
        split at h
        · cases h
        · rename_i sr hsr
          split at h
          · split at h
            · cases h
            · rename_i m1 q1 hblk
              have hm1 : m1 x = some s := by
                split at hblk
                · rename_i hw
                  split at hblk
                  · cases hblk
                  · rename_i m1' hmod
                    cases hblk
                    exact modify_keeps hmod hsr hw x s hx hs
                · cases hblk
                  exact hx
              split at h
              · cases h
              · split at h
                · exact ih _ _ _ _ _ _ _ h x s hm1 hs
                · split at h
                  · cases h
                  · exact ih _ _ _ _ _ _ _ h x s hm1 hs
          · cases h
            exact hx

theorem BfsDirect.search_keeps (fuel : Nat) (s_a : Option Nat) :
    ∀ n mm q ex mm' q' ex',
      BfsDirect.search fuel s_a n mm q ex = .ok (mm', q', ex') →
      ∀ x s, mm x = some s → s.color ≠ 'w' → mm' x = some s := by
  intro n
  induction n with
  | zero => intro mm q ex mm' q' ex' h; simp [BfsDirect.search] at h
  | succ n ih =>
    intro mm q ex mm' q' ex' h x s hx hs
    unfold BfsDirect.search at h
    split at h
    · split at h
      · cases h
      · split at h
        · cases h
        · split at h
          · cases h
          · rename_i hw
            exact ih _ _ _ _ _ _ h x s (BfsDirect.walk_keeps fuel s_a _ _ _ _ _ _ _ _ _ hw x s hx hs) hs
    · cases h
      exact hx

theorem scenarioA_index : IsIndex scenarioA (some 0) scenarioA_tree := by
  refine ⟨?_, ?_⟩
  · simp [Shape, scenarioA_tree, scenarioA]
  · simp [scenarioA_tree, Tree.inorder, distanceOf, scenarioA]

theorem scenarioA_clean : Clean scenarioA scenarioA_tree.inorder := by
  intro a ha s hs
  simp [scenarioA_tree, Tree.inorder] at ha
  rcases ha with rfl | rfl | rfl | rfl <;> simp [scenarioA] at hs <;> subst hs <;> simp

theorem wrap32_le {x : Int} (h : 0 ≤ x) : wrap32 x ≤ x := by
  unfold wrap32
  omega

theorem wrap32_eq {x : Int} (h1 : -2147483648 ≤ x) (h2 : x < 2147483648) : wrap32 x = x := by
  unfold wrap32
  omega

/-- A legal hop is a step of the direct search. -/
theorem DirectHop.step {m : Heap} (L : List Nat) {x y : Nat} (h : DirectHop m x y) :
    DirectStep m L x y := by
  refine ⟨h.1, fun z _ h1 h2 => ?_⟩
  unfold InRange
  have := wrap32_le (x := distanceOf m z - distanceOf m x) (by omega)
  have := h.2
  omega

/-- A step of the direct search is a legal hop when the difference of the two
distances is representable. -/
theorem DirectStep.hop {m : Heap} {L : List Nat} {x y : Nat} (hy : y ∈ L)
    (hF : distanceOf m y - distanceOf m x < 2147483648) (h : DirectStep m L x y) :
    DirectHop m x y := by
  refine ⟨h.1, ?_⟩
  have h1 := h.2 y hy h.1 (le_refl _)
  have h2 := h.1
  unfold InRange at h1
  rw [wrap32_eq (by omega) hF] at h1
  exact h1

theorem chain_of_mem {P : Nat → Prop} {R S : Nat → Nat → Prop}
    (h : ∀ a, P a → ∀ b, P b → R a b → S a b) :
    ∀ xs : List Nat, (∀ x ∈ xs, P x) → xs.Chain' R → xs.Chain' S := by
  intro xs
  induction xs with
  | nil => intro _ _; exact List.chain'_nil
  | cons a rest ih =>
    intro hm hc
    cases rest with
    | nil => exact List.chain'_singleton _
    | cons b rest' =>
      have h1 := List.chain'_cons.1 hc
      exact List.chain'_cons.2 ⟨h a (hm a (by simp)) b (hm b (by simp)) h1.1,
        ih (fun x hx => hm x (List.mem_cons_of_mem _ hx)) h1.2⟩

/-- In a list whose values under `g` increase strictly from one element to the next,
every element lies between the first and the last. -/
theorem chain_bounds {g : Nat → Int} :
    ∀ (xs : List Nat) (a b : Nat), xs.head? = some a → xs.getLast? = some b →
      xs.Chain' (fun x y => g x < g y) → ∀ x ∈ xs, g a ≤ g x ∧ g x ≤ g b := by
  intro xs
  induction xs with
  | nil => intro a b h; simp at h
  | cons x0 rest ih =>
    intro a b h1 h2 hc x hx
    simp only [List.head?_cons, Option.some.injEq] at h1
    subst h1
    cases rest with
    | nil =>
      simp only [List.getLast?_singleton, Option.some.injEq] at h2
      subst h2
      simp only [List.mem_singleton] at hx
      subst hx
      exact ⟨le_refl _, le_refl _⟩
    | cons x1 rest' =>
      have hc' := List.chain'_cons.1 hc
      have h2' : (x1 :: rest').getLast? = some b := by
        simpa [List.getLast?_cons_cons] using h2
      have hall := ih x1 b rfl h2' hc'.2
      rcases List.mem_cons.1 hx with rfl | hx'
      · have := (hall x1 (by simp)).2
        exact ⟨le_refl _, by have := hc'.1; omega⟩
      · have := hall x hx'
        exact ⟨by have := hc'.1; omega, this.2⟩

theorem DirectRoute.walk {m : Heap} {L : List Nat} {sp sa : Nat} {xs : List Nat}
    (h : DirectRoute m L sp sa xs) : DirectWalk m L sp sa xs :=
  ⟨h.1, h.2.1, h.2.2.1, h.2.2.2.imp (fun _ _ hh => hh.step L)⟩

theorem DirectWalk.bounds {m : Heap} {L : List Nat} {sp sa : Nat} {xs : List Nat}
    (h : DirectWalk m L sp sa xs) :
    ∀ x ∈ xs, x ∈ L ∧ distanceOf m sp ≤ distanceOf m x ∧ distanceOf m x ≤ distanceOf m sa :=
  fun x hx => ⟨h.2.2.1 x hx,
    chain_bounds xs sp sa h.1 h.2.1 (h.2.2.2.imp (fun _ _ hh => hh.1)) x hx⟩

theorem DirectWalk.route {m : Heap} {L : List Nat} {sp sa : Nat}
    (hF : distanceOf m sa - distanceOf m sp < 2147483648) {xs : List Nat}
    (h : DirectWalk m L sp sa xs) : DirectRoute m L sp sa xs :=
  ⟨h.1, h.2.1, h.2.2.1,
    chain_of_mem (fun _ ha _ hb hh => hh.hop hb.1 (by have := ha.2.1; have := hb.2.2; omega))
      xs h.bounds h.2.2.2⟩

theorem FirstStep.legal {m : Heap} {L : List Nat} {sp sa y x : Nat} (hx : x ∈ L)
    (hxa : distanceOf m x ≤ distanceOf m sa)
    (hF : distanceOf m sa - distanceOf m sp < 2147483648) (h : FirstStep m L sp y x) :
    FirstInRange m L sp y x :=
  ⟨h.1, h.2.1, h.2.2.1.hop hx (by have := h.2.1; omega),
    fun y' hy' h1 h2 hh => h.2.2.2 y' hy' h1 h2 (hh.step L)⟩

/-- A legal hop is a step of the reverse search. -/
theorem ReverseHop.step_rev {m : Heap} {h l : Nat} (hh : ReverseHop m h l) :
    ReverseStep m h l := by
  refine ⟨hh.1, ?_⟩
  unfold RevInRange
  have := wrap32_le (x := distanceOf m h - distanceOf m l) (by have := hh.1; omega)
  have := hh.2
  omega

/-- A step of the reverse search is a legal hop when the difference of the two
distances is representable. -/
theorem ReverseStep.hop_rev {m : Heap} {h l : Nat}
    (hF : distanceOf m h - distanceOf m l < 2147483648) (hh : ReverseStep m h l) :
    ReverseHop m h l := by
  refine ⟨hh.1, ?_⟩
  have h1 := hh.2
  have h2 := hh.1
  unfold RevInRange at h1
  rw [wrap32_eq (by omega) hF] at h1
  exact h1

theorem ReverseRoute.walk_rev {m : Heap} {L : List Nat} {sp sa : Nat} {xs : List Nat}
    (h : ReverseRoute m L sp sa xs) : ReverseWalk m L sp sa xs :=
  ⟨h.1, h.2.1, h.2.2.1, h.2.2.2.imp (fun _ _ hh => hh.step_rev)⟩

theorem ReverseWalk.bounds_rev {m : Heap} {L : List Nat} {sp sa : Nat} {xs : List Nat}
    (h : ReverseWalk m L sp sa xs) :
    ∀ x ∈ xs, distanceOf m sa ≤ distanceOf m x ∧ distanceOf m x ≤ distanceOf m sp := by
  intro x hx
  have := chain_bounds (g := fun a => - distanceOf m a) xs sp sa h.1 h.2.1
    (h.2.2.2.imp (fun _ _ hh => by have := hh.1; simp only []; omega)) x hx
  simp only [] at this
  omega

theorem ReverseWalk.route_rev {m : Heap} {L : List Nat} {sp sa : Nat}
    (hF : distanceOf m sp - distanceOf m sa < 2147483648) {xs : List Nat}
    (h : ReverseWalk m L sp sa xs) : ReverseRoute m L sp sa xs :=
  ⟨h.1, h.2.1, h.2.2.1,
    chain_of_mem (fun _ ha _ hb hh => hh.hop_rev (by have := ha.2; have := hb.1; omega))
      xs h.bounds_rev h.2.2.2⟩

theorem scenarioW_index : IsIndex scenarioW (some 0) scenarioW_tree := by
  refine ⟨?_, ?_⟩
  · simp [Shape, scenarioW_tree, scenarioW]
  · simp [scenarioW_tree, Tree.inorder, distanceOf, scenarioW]

theorem scenarioW_clean : Clean scenarioW scenarioW_tree.inorder := by
  intro a ha s hs
  simp [scenarioW_tree, Tree.inorder] at ha
  rcases ha with rfl | rfl <;> simp [scenarioW] at hs <;> subst hs <;> simp

theorem scenarioB_index : IsIndex scenarioB (some 0) scenarioB_tree := by
  refine ⟨?_, ?_⟩
  · simp [Shape, scenarioB_tree, scenarioB]
  · simp [scenarioB_tree, Tree.inorder, distanceOf, scenarioB]

theorem scenarioB_clean : Clean scenarioB scenarioB_tree.inorder := by
  intro a ha s hs
  simp [scenarioB_tree, Tree.inorder] at ha
  rcases ha with rfl | rfl | rfl <;> simp [scenarioB] at hs <;> subst hs <;> simp

theorem DirectRoute.distances_inc {m : Heap} {L : List Nat} {sp sa : Nat} {xs : List Nat}
    (h : DirectRoute m L sp sa xs) :
    (xs.map (distanceOf m)).head? = some (distanceOf m sp) ∧
      (xs.map (distanceOf m)).getLast? = some (distanceOf m sa) ∧
      (xs.map (distanceOf m)).Chain' (· < ·) := by
  obtain ⟨h1, h2, _, h4⟩ := h
  refine ⟨by simp [List.head?_map, h1], by simp [List.getLast?_map, h2], ?_⟩
  rw [List.chain'_map]
  exact h4.imp (fun _ _ h => h.1)

theorem ReverseRoute.distances_dec {m : Heap} {L : List Nat} {sp sa : Nat} {xs : List Nat}
    (h : ReverseRoute m L sp sa xs) :
    (xs.map (distanceOf m)).head? = some (distanceOf m sp) ∧
      (xs.map (distanceOf m)).getLast? = some (distanceOf m sa) ∧
      (xs.map (distanceOf m)).Chain' (· > ·) := by
  obtain ⟨h1, h2, _, h4⟩ := h
  refine ⟨by simp [List.head?_map, h1], by simp [List.getLast?_map, h2], ?_⟩
  rw [List.chain'_map]
  exact h4.imp (fun _ _ h => h.1)

/-- Positions of two stations of an index, in the order of their distances. -/
theorem IsIndex.positions {m : Heap} {root : Option Nat} {t : Tree} (hI : IsIndex m root t)
    {x y : Nat} (hx : x ∈ t.inorder) (hy : y ∈ t.inorder)
    (hlt : distanceOf m x < distanceOf m y) :
    ∃ i j : Nat, i < j ∧ t.inorder[i]? = some x ∧ t.inorder[j]? = some y := by
  obtain ⟨i, hi⟩ := List.mem_iff_getElem?.1 hx
  obtain ⟨j, hj⟩ := List.mem_iff_getElem?.1 hy
  exact ⟨i, j, hI.road.pos_lt hi hj hlt, hi, hj⟩

/-- **C1** (amended) Direct planning is sound and complete when the distance between
start and end is representable: on a station index with clean search state and two
of its stations with `start.distance < end.distance` and `end.distance - start.distance`
below `2^31` (as when all distances are non-negative), `BfsDirect` returns (given
fuel above the number of stations), prints either `no route` or a route, prints a route
exactly when a legal direct route exists, and a printed route is the list of distances
of a legal direct route: stations of the index, from start to end, strictly increasing,
each hop `A -> B` with `B.distance - A.distance <= A.maxRange`. -/
theorem direct_planning_sound_complete (m : Heap) (root : Option Nat) (t : Tree)
    (sp sa fuel : Nat) (hI : IsIndex m root t) (hC : Clean m t.inorder)
    (hsp : sp ∈ t.inorder) (hsa : sa ∈ t.inorder)
    (hlt : distanceOf m sp < distanceOf m sa)
    (hF : distanceOf m sa - distanceOf m sp < 2147483648) (hf : t.size < fuel) :
    ∃ m' line, BfsDirect fuel m (some sp) (some sa) = .ok (m', line) ∧
      (line = .no_route ∨ ∃ ds, line = .route ds) ∧
      ((∃ ds, line = .route ds) ↔ ∃ xs, DirectRoute m t.inorder sp sa xs) ∧
      (∀ ds, line = .route ds →
        ∃ xs, ds = xs.map (distanceOf m) ∧ DirectRoute m t.inorder sp sa xs ∧
          ds.head? = some (distanceOf m sp) ∧ ds.getLast? = some (distanceOf m sa) ∧
          ds.Chain' (· < ·)) := by
  obtain ⟨p, e, hpe, hp, he⟩ := hI.positions hsp hsa hlt
  obtain ⟨line, hrun, hres⟩ :=
    BfsDirect_road hI.road hC p e hpe sp sa hp he fuel (by rw [inorder_length]; exact hf)
  refine ⟨m, line, hrun, ?_⟩
  rcases hres with ⟨rfl, hno⟩ | ⟨xs, rfl, hwalk, _⟩
  · refine ⟨Or.inl rfl,
      ⟨fun ⟨ds, h⟩ => (by cases h), fun ⟨xs, h⟩ => absurd h.walk (hno xs)⟩, ?_⟩
    intro ds h
    cases h
  · have hroute := hwalk.route hF
    refine ⟨Or.inr ⟨_, rfl⟩, ⟨fun _ => ⟨xs, hroute⟩, fun _ => ⟨_, rfl⟩⟩, ?_⟩
    intro ds h
    cases h
    exact ⟨xs, rfl, hroute, hroute.distances_inc⟩

/-- Instance of C1 on scenario B, stations `{0:1, 2:1, 4:1}` and `planRoute(0, 4)`, where
the program prints `no route`. -/
theorem direct_planning_sound_complete_witness :
    distanceOf scenarioB 2 - distanceOf scenarioB 0 < 2147483648 ∧
    (BfsDirect 4 scenarioB (some 0) (some 2)).map Prod.snd = .ok .no_route ∧
    ∃ m' line, BfsDirect 4 scenarioB (some 0) (some 2) = .ok (m', line) ∧
      (line = .no_route ∨ ∃ ds, line = .route ds) ∧
      ((∃ ds, line = .route ds) ↔ ∃ xs, DirectRoute scenarioB scenarioB_tree.inorder 0 2 xs) ∧
      (∀ ds, line = .route ds →
        ∃ xs, ds = xs.map (distanceOf scenarioB) ∧
          DirectRoute scenarioB scenarioB_tree.inorder 0 2 xs ∧
          ds.head? = some (distanceOf scenarioB 0) ∧
          ds.getLast? = some (distanceOf scenarioB 2) ∧ ds.Chain' (· < ·)) :=
  ⟨by decide, rfl, direct_planning_sound_complete scenarioB (some 0) scenarioB_tree 0 2 4
    scenarioB_index scenarioB_clean (by simp [scenarioB_tree, Tree.inorder])
    (by simp [scenarioB_tree, Tree.inorder]) (by simp [distanceOf, scenarioB]) (by decide)
    (by simp [scenarioB_tree, Tree.size])⟩

/-- Counterexample to C1 as stated: the stations at `-2000000000` and `2000000000`, both
without cars, form a station index with clean search state; no legal direct route leads
from the first to the second, yet `BfsDirect` prints the route
`-2000000000 2000000000`, because the difference `4000000000` of the range test is
reduced to the negative `int` `-294967296`. -/
theorem direct_planning_sound_complete_counterexample :
    IsIndex scenarioW (some 0) scenarioW_tree ∧ Clean scenarioW scenarioW_tree.inorder ∧
    distanceOf scenarioW 0 < distanceOf scenarioW 1 ∧
    (BfsDirect 3 scenarioW (some 0) (some 1)).map Prod.snd
      = .ok (.route [-2000000000, 2000000000]) ∧
    (¬ ∃ xs, DirectRoute scenarioW scenarioW_tree.inorder 0 1 xs) ∧
    ¬ DirectHop scenarioW 0 1 := by
  have hhop : ∀ y, y ∈ scenarioW_tree.inorder → ¬ DirectHop scenarioW 0 y := by
    intro y hy h
    simp only [scenarioW_tree, Tree.inorder, List.nil_append, List.cons_append,
      List.mem_cons, List.mem_singleton, List.not_mem_nil, or_false] at hy
    rcases hy with rfl | rfl
    · exact absurd h.1 (by decide)
    · exact absurd h.2 (by decide)
  refine ⟨scenarioW_index, scenarioW_clean, by decide, rfl, ?_, hhop 1 (by decide)⟩
  rintro ⟨xs, h1, h2, h3, h4⟩
  cases xs with
  | nil => simp at h1
  | cons x rest =>
    simp only [List.head?_cons, Option.some.injEq] at h1
    subst h1
    cases rest with
    | nil =>
      simp only [List.getLast?_singleton, Option.some.injEq] at h2
      cases h2
    | cons y rest' =>
      exact hhop y (h3 y (by simp)) (List.chain'_cons.1 h4).1

/-- **C2** Direct planning returns a fewest-hops route: on a station index with clean
search state and two of its stations with `start.distance < end.distance`, `BfsDirect`
returns, and when it prints a route no legal direct route from start to end has fewer
stations (a route of `k` hops lists `k + 1` stations). -/
theorem direct_planning_fewest_hops (m : Heap) (root : Option Nat) (t : Tree)
    (sp sa fuel : Nat) (hI : IsIndex m root t) (hC : Clean m t.inorder)
    (hsp : sp ∈ t.inorder) (hsa : sa ∈ t.inorder)
    (hlt : distanceOf m sp < distanceOf m sa) (hf : t.size < fuel) :
    ∃ m' line, BfsDirect fuel m (some sp) (some sa) = .ok (m', line) ∧
      ∀ ds, line = .route ds →
        ∀ ys, DirectRoute m t.inorder sp sa ys → ds.length ≤ ys.length := by
  obtain ⟨p, e, hpe, hp, he⟩ := hI.positions hsp hsa hlt
  obtain ⟨line, hrun, hres⟩ :=
    BfsDirect_road hI.road hC p e hpe sp sa hp he fuel (by rw [inorder_length]; exact hf)
  refine ⟨m, line, hrun, ?_⟩
  rcases hres with ⟨rfl, _⟩ | ⟨xs, rfl, hroute, hgreedy⟩
  · intro ds h
    cases h
  · intro ds h ys hys
    cases h
    have := greedy_le xs.length xs ys sa sa rfl hroute hgreedy hys.walk (le_refl _)
    simp only [List.length_map]
    omega

/-- Instance of C2 on scenario A, stations `{0:4, 2:2, 4:4, 6:2}` and `planRoute(0, 6)`,
where the program prints `0 4 6`. -/
theorem direct_planning_fewest_hops_witness :
    (BfsDirect 5 scenarioA (some 1) (some 3)).map Prod.snd = .ok (.route [0, 4, 6]) ∧
    ∃ m' line, BfsDirect 5 scenarioA (some 1) (some 3) = .ok (m', line) ∧
      ∀ ds, line = .route ds →
        ∀ ys, DirectRoute scenarioA scenarioA_tree.inorder 1 3 ys →
          ds.length ≤ ys.length :=
  ⟨rfl, direct_planning_fewest_hops scenarioA (some 0) scenarioA_tree 1 3 5
    scenarioA_index scenarioA_clean (by simp [scenarioA_tree, Tree.inorder])
    (by simp [scenarioA_tree, Tree.inorder]) (by simp [distanceOf, scenarioA])
    (by simp [scenarioA_tree, Tree.size])⟩

/-- **C3** (amended) Reverse planning is sound and complete when the distance between
start and end is representable: on a station index with clean search state and two
of its stations with `start.distance > end.distance` and `start.distance - end.distance`
below `2^31` (as when all distances are non-negative), `BfsReverse` returns (given
fuel above the number of stations), prints either `no route` or a route, prints a route
exactly when a legal reverse route exists, and a printed route is the list of distances
of a legal reverse route: stations of the index, from start to end, strictly decreasing,
each hop `H -> L` with `H.maxRange >= H.distance - L.distance`. -/
theorem reverse_planning_sound_complete (m : Heap) (root : Option Nat) (t : Tree)
    (sp sa fuel : Nat) (hI : IsIndex m root t) (hC : Clean m t.inorder)
    (hsp : sp ∈ t.inorder) (hsa : sa ∈ t.inorder)
    (hgt : distanceOf m sp > distanceOf m sa)
    (hF : distanceOf m sp - distanceOf m sa < 2147483648) (hf : t.size < fuel) :
    ∃ m' line, BfsReverse fuel m (some sp) (some sa) = .ok (m', line) ∧
      (line = .no_route ∨ ∃ ds, line = .route ds) ∧
      ((∃ ds, line = .route ds) ↔ ∃ xs, ReverseRoute m t.inorder sp sa xs) ∧
      (∀ ds, line = .route ds →
        ∃ xs, ds = xs.map (distanceOf m) ∧ ReverseRoute m t.inorder sp sa xs ∧
          ds.head? = some (distanceOf m sp) ∧ ds.getLast? = some (distanceOf m sa) ∧
          ds.Chain' (· > ·)) := by
  obtain ⟨lo, hi, hlohi, hlo, hhi⟩ := hI.positions hsa hsp hgt
  obtain ⟨line, hrun, hres⟩ :=
    BfsReverse_road hI.road hC lo hi hlohi sp sa hhi hlo fuel
      (by rw [inorder_length]; exact hf)
  refine ⟨m, line, hrun, ?_⟩
  rcases hres with ⟨rfl, hno⟩ | ⟨xs, rfl, hwalk, _⟩
  · refine ⟨Or.inl rfl,
      ⟨fun ⟨ds, h⟩ => (by cases h), fun ⟨xs, h⟩ => absurd h.walk_rev (hno xs)⟩, ?_⟩
    intro ds h
    cases h
  · have hroute := hwalk.route_rev hF
    refine ⟨Or.inr ⟨_, rfl⟩, ⟨fun _ => ⟨xs, hroute⟩, fun _ => ⟨_, rfl⟩⟩, ?_⟩
    intro ds h
    cases h
    exact ⟨xs, rfl, hroute, hroute.distances_dec⟩

/-- Instance of C3 on scenario A, stations `{0:4, 2:2, 4:4, 6:2}` and `planRoute(6, 0)`,
where the program prints `6 4 0`. -/
theorem reverse_planning_sound_complete_witness :
    distanceOf scenarioA 3 - distanceOf scenarioA 1 < 2147483648 ∧
    (BfsReverse 5 scenarioA (some 3) (some 1)).map Prod.snd = .ok (.route [6, 4, 0]) ∧
    ∃ m' line, BfsReverse 5 scenarioA (some 3) (some 1) = .ok (m', line) ∧
      (line = .no_route ∨ ∃ ds, line = .route ds) ∧
      ((∃ ds, line = .route ds) ↔
        ∃ xs, ReverseRoute scenarioA scenarioA_tree.inorder 3 1 xs) ∧
      (∀ ds, line = .route ds →
        ∃ xs, ds = xs.map (distanceOf scenarioA) ∧
          ReverseRoute scenarioA scenarioA_tree.inorder 3 1 xs ∧
          ds.head? = some (distanceOf scenarioA 3) ∧
          ds.getLast? = some (distanceOf scenarioA 1) ∧ ds.Chain' (· > ·)) :=
  ⟨by decide, rfl, reverse_planning_sound_complete scenarioA (some 0) scenarioA_tree 3 1 5
    scenarioA_index scenarioA_clean (by simp [scenarioA_tree, Tree.inorder])
    (by simp [scenarioA_tree, Tree.inorder]) (by simp [distanceOf, scenarioA]) (by decide)
    (by simp [scenarioA_tree, Tree.size])⟩

/-- **C4** Reverse planning returns a fewest-hops route: on a station index with clean
search state and two of its stations with `start.distance > end.distance`, `BfsReverse`
returns, and when it prints a route no legal reverse route from start to end has fewer
stations (a route of `k` hops lists `k + 1` stations). -/
theorem reverse_planning_fewest_hops (m : Heap) (root : Option Nat) (t : Tree)
    (sp sa fuel : Nat) (hI : IsIndex m root t) (hC : Clean m t.inorder)
    (hsp : sp ∈ t.inorder) (hsa : sa ∈ t.inorder)
    (hgt : distanceOf m sp > distanceOf m sa) (hf : t.size < fuel) :
    ∃ m' line, BfsReverse fuel m (some sp) (some sa) = .ok (m', line) ∧
      ∀ ds, line = .route ds →
        ∀ ys, ReverseRoute m t.inorder sp sa ys → ds.length ≤ ys.length := by
  obtain ⟨lo, hi, hlohi, hlo, hhi⟩ := hI.positions hsa hsp hgt
  obtain ⟨line, hrun, hres⟩ :=
    BfsReverse_road hI.road hC lo hi hlohi sp sa hhi hlo fuel
      (by rw [inorder_length]; exact hf)
  refine ⟨m, line, hrun, ?_⟩
  rcases hres with ⟨rfl, _⟩ | ⟨xs, rfl, _, hmin⟩
  · intro ds h
    cases h
  · intro ds h ys hys
    cases h
    have := hmin ys hys.walk_rev
    simp only [List.length_map]
    omega

/-- Instance of C4 on the stations `{0:4, 2:2, 4:4, 6:2}` and `planRoute(6, 0)`. -/
theorem reverse_planning_fewest_hops_witness :
    (BfsReverse 5 scenarioA (some 3) (some 1)).map Prod.snd = .ok (.route [6, 4, 0]) ∧
    ∃ m' line, BfsReverse 5 scenarioA (some 3) (some 1) = .ok (m', line) ∧
      ∀ ds, line = .route ds →
        ∀ ys, ReverseRoute scenarioA scenarioA_tree.inorder 3 1 ys →
          ds.length ≤ ys.length :=
  ⟨rfl, reverse_planning_fewest_hops scenarioA (some 0) scenarioA_tree 3 1 5
    scenarioA_index scenarioA_clean (by simp [scenarioA_tree, Tree.inorder])
    (by simp [scenarioA_tree, Tree.inorder]) (by simp [distanceOf, scenarioA])
    (by simp [scenarioA_tree, Tree.size])⟩

/-- Counterexample to C3 as stated: on the station index with clean search state that
holds the stations at `-2000000000` and `2000000000`, both without cars, no legal reverse
route leads from the second to the first (the start has `max_car` 0), yet `BfsReverse`
prints the route `2000000000 -2000000000`, because the difference `4000000000` of the
range test is reduced to the negative `int` `-294967296`. -/
theorem reverse_planning_sound_complete_counterexample :
    IsIndex scenarioW (some 0) scenarioW_tree ∧ Clean scenarioW scenarioW_tree.inorder ∧
    distanceOf scenarioW 1 > distanceOf scenarioW 0 ∧
    (BfsReverse 3 scenarioW (some 1) (some 0)).map Prod.snd
      = .ok (.route [2000000000, -2000000000]) ∧
    (¬ ∃ xs, ReverseRoute scenarioW scenarioW_tree.inorder 1 0 xs) ∧
    ¬ ReverseHop scenarioW 1 0 := by
  have hhop : ∀ y, y ∈ scenarioW_tree.inorder → ¬ ReverseHop scenarioW 1 y := by
    intro y hy h
    simp only [scenarioW_tree, Tree.inorder, List.nil_append, List.cons_append,
      List.mem_cons, List.mem_singleton, List.not_mem_nil, or_false] at hy
    rcases hy with rfl | rfl
    · exact absurd h.2 (by decide)
    · exact absurd h.1 (by decide)
  refine ⟨scenarioW_index, scenarioW_clean, by decide, rfl, ?_, hhop 0 (by decide)⟩
  rintro ⟨xs, h1, h2, h3, h4⟩
  cases xs with
  | nil => simp at h1
  | cons x rest =>
    simp only [List.head?_cons, Option.some.injEq] at h1
    subst h1
    cases rest with
    | nil =>
      simp only [List.getLast?_singleton, Option.some.injEq] at h2
      cases h2
    | cons y rest' =>
      exact hhop y (h3 y (by simp)) (List.chain'_cons.1 h4).1

theorem scenarioT_index : IsIndex scenarioT (some 0) scenarioA_tree := by
  refine ⟨?_, ?_⟩
  · simp [Shape, scenarioA_tree, scenarioT]
  · simp [scenarioA_tree, Tree.inorder, distanceOf, scenarioT]

theorem scenarioT_clean : Clean scenarioT scenarioA_tree.inorder := by
  intro a ha s hs
  simp [scenarioA_tree, Tree.inorder] at ha
  rcases ha with rfl | rfl | rfl | rfl <;> simp [scenarioT] at hs <;> subst hs <;> simp

theorem DInv.first {m0 m : Heap} {L : List Nat} {p hi : Nat} (hR : Road m0 L)
    (hC : Clean m0 L) (h : DInv m0 m L p hi) {sp : Nat} (hsp : L[p]? = some sp) :
    ∀ x ∈ L, ∀ s y, m x = some s → s.pi = some y →
      FirstStep m0 L sp y x ∧ ∃ i, L[i]? = some x ∧ i ≤ hi := by
  intro x hx s y hs hpi
  obtain ⟨i, hi'⟩ := List.mem_iff_getElem?.1 hx
  obtain ⟨s0, hs0⟩ := hR.alloc x hx
  have hc := hC x hx s0 hs0
  by_cases hout : i < p ∨ hi < i
  · have := h.out x (fun j hj => by rw [← hR.pos_unique hi' hj]; exact hout)
    rw [this, hs0] at hs
    cases hs
    rw [hc.2] at hpi
    cases hpi
  · rcases Nat.eq_or_lt_of_le (show p ≤ i by omega) with e | e
    · subst e
      rw [h.src x s0 hi' hs0] at hs
      cases hs
      simp only [hc.2] at hpi
      cases hpi
    · obtain ⟨k, b, hkb, hpk, hki, hm, hin, hmin⟩ := h.disc i x s0 e (by omega) hi' hs0
      rw [hm] at hs
      cases hs
      simp only [Option.some.injEq] at hpi
      subst hpi
      refine ⟨⟨List.mem_iff_getElem?.2 ⟨k, hkb⟩, hR.dist_le hsp hkb hpk,
        ⟨hR.dist_lt hkb hi' hki, hin⟩, ?_⟩, i, hi', by omega⟩
      intro y' hy' h1 h2 h3
      obtain ⟨k', hk'⟩ := List.mem_iff_getElem?.1 hy'
      have hk'k : k' < k := hR.pos_lt hk' hkb h2
      have hpk' : p ≤ k' := by
        by_contra hcon
        have := hR.dist_lt hk' hsp (by omega)
        omega
      exact hmin k' y' hk' hpk' hk'k h3.2

/-- **C5** (amended) Direct tie-break rule when the distance from start to end is
representable: in a direct search on a clean index (start and end present,
`start.distance < end.distance`, and `end.distance - start.distance` below `2^31`), after
the search loop every station `x` whose `pi` link is set has as `pi` the station `y` of
smallest distance with `start.distance <= y.distance < x.distance` and
`x.distance - y.distance <= y.maxRange`; no step of the search writes to a station that
is no longer white, so a link is never overwritten; and in the printed route every
station is the first one, from start on, that has the next station of the route in
range. -/
theorem direct_tie_break (m : Heap) (root : Option Nat) (t : Tree)
    (sp sa fuel : Nat) (hI : IsIndex m root t) (hC : Clean m t.inorder)
    (hsp : sp ∈ t.inorder) (hsa : sa ∈ t.inorder)
    (hlt : distanceOf m sp < distanceOf m sa)
    (hF : distanceOf m sa - distanceOf m sp < 2147483648) (hf : t.size < fuel) :
    ∃ m1 m2 queue exit m' line,
      modify m (some sp) (fun s => { s with color := 'g' }) = .ok m1 ∧
      BfsDirect.search fuel (some sa) fuel m1 (Enqueue [] (some sp)) false
        = .ok (m2, queue, exit) ∧
      (∀ x ∈ t.inorder, ∀ s y, m2 x = some s → s.pi = some y →
        FirstInRange m t.inorder sp y x) ∧
      (∀ curr n mm q ex r mm' q' ex',
        BfsDirect.walk fuel (some sa) curr n mm q ex r = .ok (mm', q', ex') →
        ∀ x s, mm x = some s → s.color ≠ 'w' → mm' x = some s) ∧
      BfsDirect fuel m (some sp) (some sa) = .ok (m', line) ∧
      (∀ ds, line = .route ds →
        ∃ xs, ds = xs.map (distanceOf m) ∧ DirectRoute m t.inorder sp sa xs ∧
          xs.Chain' (FirstInRange m t.inorder sp)) := by
  obtain ⟨p, e, hpe, hp, he⟩ := hI.positions hsp hsa hlt
  have hR := hI.road
  have hlen : t.inorder.length < fuel := by rw [inorder_length]; exact hf
  have hel : e < t.inorder.length := (List.getElem?_eq_some.1 he).1
  obtain ⟨s0, hs0⟩ := hR.alloc sp hsp
  have hD0 : DInv m (Function.update m sp (some { s0 with color := 'g' })) t.inorder p p := by
    refine ⟨?_, ?_, ?_⟩
    · intro a ha
      have hne : a ≠ sp := by
        rintro rfl
        have := ha p hp
        omega
      rw [Function.update_noteq hne]
    · intro a s hp' hs
      rw [hp] at hp'
      cases hp'
      rw [hs0] at hs
      cases hs
      rw [Function.update_same]
    · intro i a s h1 h2
      omega
  have hq : Enqueue [] (some sp) = seg t.inorder p (p + 1) := by
    rw [seg_cons _ p (p + 1) (by omega), seg_nil _ (p + 1) (p + 1) (le_refl _), hp]
    rfl
  obtain ⟨m2, q2, hi, hsearch, _, hhie, hD, _⟩ :=
    BfsDirect.search_direct hR hC p e hel fuel hlen fuel _ p p hD0 (le_refl _) (by omega) hpe
      (fun k b j x hk1 hk2 => by omega) (by omega)
  rw [he, ← hq] at hsearch
  obtain ⟨line, hrun, hres⟩ := BfsDirect_road hR hC p e hpe sp sa hp he fuel hlen
  refine ⟨_, m2, q2, _, m, line, modify_some hs0 _, hsearch,
    fun x hx s y hs hpi => by
      obtain ⟨hfs, i, hix, hile⟩ := hD.first hR hC hp x hx s y hs hpi
      exact hfs.legal hx (hR.dist_le hix he (by omega)) hF,
    BfsDirect.walk_keeps fuel (some sa), hrun, ?_⟩
  rcases hres with ⟨rfl, _⟩ | ⟨xs, rfl, hwalk, hgreedy⟩
  · intro ds h
    cases h
  · intro ds h
    cases h
    exact ⟨xs, rfl, hwalk.route hF,
      chain_of_mem (fun _ _ _ hb hh => hh.legal hb.1 hb.2.2 hF) xs hwalk.bounds hgreedy⟩

/-- Instance of C5 on the stations `{0:4, 2:4, 4:4, 6:2}` and `planRoute(0, 6)`: of the
two-hop routes `0 2 6` and `0 4 6` the program prints `0 2 6`. -/
theorem direct_tie_break_witness :
    distanceOf scenarioT 3 - distanceOf scenarioT 1 < 2147483648 ∧
    (BfsDirect 5 scenarioT (some 1) (some 3)).map Prod.snd = .ok (.route [0, 2, 6]) ∧
    ∃ m1 m2 queue exit m' line,
      modify scenarioT (some 1) (fun s => { s with color := 'g' }) = .ok m1 ∧
      BfsDirect.search 5 (some 3) 5 m1 (Enqueue [] (some 1)) false
        = .ok (m2, queue, exit) ∧
      (∀ x ∈ scenarioA_tree.inorder, ∀ s y, m2 x = some s → s.pi = some y →
        FirstInRange scenarioT scenarioA_tree.inorder 1 y x) ∧
      (∀ curr n mm q ex r mm' q' ex',
        BfsDirect.walk 5 (some 3) curr n mm q ex r = .ok (mm', q', ex') →
        ∀ x s, mm x = some s → s.color ≠ 'w' → mm' x = some s) ∧
      BfsDirect 5 scenarioT (some 1) (some 3) = .ok (m', line) ∧
      (∀ ds, line = .route ds →
        ∃ xs, ds = xs.map (distanceOf scenarioT) ∧
          DirectRoute scenarioT scenarioA_tree.inorder 1 3 xs ∧
          xs.Chain' (FirstInRange scenarioT scenarioA_tree.inorder 1)) :=
  ⟨by decide, rfl, direct_tie_break scenarioT (some 0) scenarioA_tree 1 3 5
    scenarioT_index scenarioT_clean (by simp [scenarioA_tree, Tree.inorder])
    (by simp [scenarioA_tree, Tree.inorder]) (by simp [distanceOf, scenarioT]) (by decide)
    (by simp [scenarioA_tree, Tree.size])⟩

/-- Counterexample to C5 as stated: in the direct search from the station at
`-2000000000` to the station at `2000000000` (clean index, both without cars) the end
station receives the start station as `pi`, although
`2000000000 - (-2000000000) = 4000000000` exceeds the `max_car` 0 of the start station:
the link is not at a station that has the end station in range. -/
theorem direct_tie_break_counterexample :
    IsIndex scenarioW (some 0) scenarioW_tree ∧ Clean scenarioW scenarioW_tree.inorder ∧
    distanceOf scenarioW 0 < distanceOf scenarioW 1 ∧
    ((modify scenarioW (some 0) (fun s => { s with color := 'g' })).bind (fun m1 =>
        BfsDirect.search 3 (some 1) 3 m1 (Enqueue [] (some 0)) false)).map
      (fun r => (r.1 1).map (fun s => s.pi)) = .ok (some (some 0)) ∧
    ¬ FirstInRange scenarioW scenarioW_tree.inorder 0 0 1 := by
  refine ⟨scenarioW_index, scenarioW_clean, by decide, rfl, ?_⟩
  intro h
  exact absurd h.2.2.1.2 (by decide)

theorem SearchStationBST.loop_search (m : Heap) (d : Int) :
    ∀ (t : Tree) (p par : Option Nat), Shape m t p par →
      (t.inorder.map (distanceOf m)).Pairwise (· < ·) → ∀ fuel, t.size < fuel →
      ∃ res, SearchStationBST.loop fuel m d p = .ok res ∧
        (∀ a, res = some a → a ∈ t.inorder ∧ distanceOf m a = d) ∧
        (res = none → ∀ a ∈ t.inorder, distanceOf m a ≠ d) := by
  intro t
  induction t with
  | nil =>
    intro p par h _ fuel hf
    simp only [Shape] at h
    subst h
    obtain ⟨n, rfl⟩ : ∃ n, fuel = n + 1 := ⟨fuel - 1, by omega⟩
    exact ⟨none, by simp [SearchStationBST.loop], by simp, by simp [Tree.inorder]⟩
  | node l x r ihl ihr =>
    intro p par h hs fuel hf
    obtain ⟨h1, s, hsx, _, hl, hr⟩ := h
    subst h1
    simp only [Tree.size] at hf
    obtain ⟨n, rfl⟩ : ∃ n, fuel = n + 1 := ⟨fuel - 1, by omega⟩
    simp only [Tree.inorder, List.map_append, List.map_cons, List.pairwise_append,
      List.pairwise_cons, List.mem_map, List.mem_cons, forall_exists_index, and_imp,
      forall_apply_eq_imp_iff₂, forall_eq_or_imp] at hs
    obtain ⟨hsl, ⟨hxr, hsr⟩, hlx⟩ := hs
    have hdx : distanceOf m x = s.distance := by simp [distanceOf, hsx]
    unfold SearchStationBST.loop
    simp only [load, hsx]
    by_cases hd : d = s.distance
    · refine ⟨some x, by simp [hd], ?_, by simp⟩
      intro a ha
      cases ha
      exact ⟨by simp [Tree.inorder], by rw [hdx, hd]⟩
    · by_cases hlt : d < s.distance
      · obtain ⟨res, h1, h2, h3⟩ := ihl _ _ hl hsl n (by omega)
        refine ⟨res, by simp [hd, hlt, h1], ?_, ?_⟩
        · intro a ha
          exact ⟨by simp [Tree.inorder, (h2 a ha).1], (h2 a ha).2⟩
        · intro hn a ha
          simp only [Tree.inorder, List.mem_append, List.mem_cons] at ha
          rcases ha with ha | rfl | ha
          · exact h3 hn a ha
          · rw [hdx]; exact fun e => hd e.symm
          · have := hxr a ha
            omega
      · obtain ⟨res, h1, h2, h3⟩ := ihr _ _ hr hsr n (by omega)
        refine ⟨res, by simp [hd, hlt, h1], ?_, ?_⟩
        · intro a ha
          exact ⟨by simp [Tree.inorder, (h2 a ha).1], (h2 a ha).2⟩
        · intro hn a ha
          simp only [Tree.inorder, List.mem_append, List.mem_cons] at ha
          rcases ha with ha | rfl | ha
          · have := (hlx a ha).1
            omega
          · rw [hdx]; exact fun e => hd e.symm
          · exact h3 hn a ha

/-- On a station index `SearchStationBST` returns the station at the distance asked for,
or `NULL` when there is none. -/
theorem SearchStationBST_spec {m : Heap} {T : bst_t} {t : Tree} (hI : IsIndex m T.root t)
    (d : Int) (fuel : Nat) (hf : t.size < fuel) :
    ∃ res, SearchStationBST fuel m T d = .ok res ∧
      (∀ a, res = some a → a ∈ t.inorder ∧ distanceOf m a = d) ∧
      (res = none → ∀ a ∈ t.inorder, distanceOf m a ≠ d) :=
  SearchStationBST.loop_search m d t T.root none hI.1 hI.2 fuel hf

/-- **C6** (the code departs from the claim) Planning with an absent endpoint: at
`plan-route` the two pointers returned by `SearchStationBST` are passed on unchecked, and
with a `NULL` among them `BfsDirect` and `BfsReverse` dereference it: on the empty index
`plan-route 1 2` and `plan-route 2 1` fault, and on the stations `{0, 2, 4, 6}` so do
`plan-route 0 5` and `plan-route 5 0`, for every amount of fuel; `plan-route 5 5` prints
the route `5` although no station is at distance 5. -/
theorem plan_route_absent_endpoint :
    (∀ fuel, main.step (fuel + 1) State.init (.plan_route 1 2) = .error .null) ∧
    (∀ fuel, main.step (fuel + 1) State.init (.plan_route 2 1) = .error .null) ∧
    (∀ fuel, (main.step (fuel + 5) stateA (.plan_route 0 5)).map Prod.snd = .error .null) ∧
    (∀ fuel, (main.step (fuel + 5) stateA (.plan_route 5 0)).map Prod.snd = .error .null) ∧
    (main.step 5 stateA (.plan_route 5 5)).map Prod.snd = .ok (.route [5]) := by
  refine ⟨fun fuel => rfl, fun fuel => rfl, ?_, ?_, rfl⟩
  · intro fuel
    rfl
  · intro fuel
    rfl

/-- **C7** Planning reflexivity: on a station index, `plan-route d d` prints exactly the
one-station route `d` and leaves the whole state (memory, tree, every search field) as it
was; neither search function is run. This holds in particular for the distance `d` of
every station of the index. -/
theorem plan_route_reflexive (w : State) (t : Tree) (d : Int) (fuel : Nat)
    (hI : IsIndex w.mem w.T.root t) (hf : t.size < fuel) :
    main.step fuel w (.plan_route d d) = .ok (w, .route [d]) := by
  obtain ⟨res, hres, _⟩ := SearchStationBST_spec hI d fuel hf
  simp [main.step, hres]

/-- Instance of C7: `plan-route 4 4` on the stations `{0, 2, 4, 6}`. -/
theorem plan_route_reflexive_witness :
    main.step 5 stateA (.plan_route 4 4) = .ok (stateA, .route [4]) :=
  plan_route_reflexive stateA scenarioA_tree 4 5 scenarioA_index
    (by simp [scenarioA_tree, Tree.size])

theorem Shape.frame {m m' : Heap} {t : Tree} {p par : Option Nat}
    (hf : ∀ a ∈ t.inorder, m' a = m a) (h : Shape m t p par) : Shape m' t p par := by
  induction t generalizing p par with
  | nil => exact h
  | node l a r ihl ihr =>
    obtain ⟨h1, s, hs, hpar, hl, hr⟩ := h
    refine ⟨h1, s, by rw [hf a (by simp [Tree.inorder])]; exact hs, hpar, ?_, ?_⟩
    · exact ihl (fun b hb => hf b (by simp [Tree.inorder, hb])) hl
    · exact ihr (fun b hb => hf b (by simp [Tree.inorder, hb])) hr

theorem InsertStationBST.descend_spec (m : Heap) (zd : Int) :
    ∀ (t : Tree) (p par y0 : Option Nat), Shape m t p par → ∀ fuel, t.size < fuel →
      InsertStationBST.descend fuel m zd y0 p = .ok (Tree.insertParent m zd t y0) := by
  intro t
  induction t with
  | nil =>
    intro p par y0 h fuel hf
    simp only [Shape] at h
    subst h
    obtain ⟨n, rfl⟩ : ∃ n, fuel = n + 1 := ⟨fuel - 1, by omega⟩
    simp [InsertStationBST.descend, Tree.insertParent]
  | node l a r ihl ihr =>
    intro p par y0 h fuel hf
    obtain ⟨h1, s, hs, _, hl, hr⟩ := h
    subst h1
    simp only [Tree.size] at hf
    obtain ⟨n, rfl⟩ : ∃ n, fuel = n + 1 := ⟨fuel - 1, by omega⟩
    have hd : distanceOf m a = s.distance := by simp [distanceOf, hs]
    unfold InsertStationBST.descend
    simp only [load, hs, Tree.insertParent, hd]
    by_cases hlt : zd < s.distance
    · simp only [hlt, if_true]
      exact ihl _ _ _ hl n (by omega)
    · simp only [hlt, if_false]
      exact ihr _ _ _ hr n (by omega)

theorem Tree.insertParent_mem (m : Heap) (zd : Int) :
    ∀ (t : Tree) (y0 : Option Nat), t ≠ .nil →
      ∃ ya, Tree.insertParent m zd t y0 = some ya ∧ ya ∈ t.inorder := by
  intro t
  induction t with
  | nil => intro y0 h; exact absurd rfl h
  | node l a r ihl ihr =>
    intro y0 _
    simp only [Tree.insertParent]
    by_cases hlt : zd < distanceOf m a
    · simp only [hlt, if_true]
      cases l with
      | nil => exact ⟨a, rfl, by simp [Tree.inorder]⟩
      | node ll b lr =>
        obtain ⟨ya, h1, h2⟩ := ihl (some a) (by simp)
        exact ⟨ya, h1, List.mem_append_left _ h2⟩
    · simp only [hlt, if_false]
      cases r with
      | nil => exact ⟨a, rfl, by simp [Tree.inorder]⟩
      | node rl b rr =>
        obtain ⟨ya, h1, h2⟩ := ihr (some a) (by simp)
        exact ⟨ya, h1, List.mem_append_right _ (List.mem_cons_of_mem _ h2)⟩

theorem Tree.insert_mem (m : Heap) (zd : Int) (z : Nat) :
    ∀ (t : Tree) (x : Nat), x ∈ (Tree.insert m zd z t).inorder ↔ x = z ∨ x ∈ t.inorder := by
  intro t
  induction t with
  | nil => intro x; simp [Tree.insert, Tree.inorder]
  | node l a r ihl ihr =>
    intro x
    simp only [Tree.insert]
    by_cases hlt : zd < distanceOf m a
    · simp only [hlt, if_true, Tree.inorder, List.mem_append, List.mem_cons, ihl]
      tauto
    · simp only [hlt, if_false, Tree.inorder, List.mem_append, List.mem_cons, ihr]
      tauto

theorem linkAt_z (m : Heap) (zd : Int) (z : Nat) (sz : station_t) (ya : Nat) (h : ya ≠ z) :
    linkAt m zd z sz ya z = some { sz with parent := some ya } := by
  unfold linkAt
  simp [Function.update_noteq h.symm]

theorem linkAt_ya (m : Heap) (zd : Int) (z : Nat) (sz : station_t) (ya : Nat) (h : ya ≠ z)
    {sy : station_t} (hy : m ya = some sy) :
    linkAt m zd z sz ya ya
      = some (if zd < sy.distance then { sy with left := some z }
              else { sy with right := some z }) := by
  unfold linkAt
  simp [Function.update_noteq h, hy]

theorem linkAt_other (m : Heap) (zd : Int) (z : Nat) (sz : station_t) (ya : Nat) (b : Nat)
    (hz : b ≠ z) (hy : b ≠ ya) : linkAt m zd z sz ya b = m b := by
  unfold linkAt
  simp [Function.update_noteq hz, Function.update_noteq hy]

theorem linkAt_shape (m : Heap) (zd : Int) (z : Nat) (sz : station_t)
    (hl0 : sz.left = none) (hr0 : sz.right = none) :
    ∀ (t : Tree) (p par : Option Nat), Shape m t p par → t ≠ .nil → t.inorder.Nodup →
      z ∉ t.inorder → ∀ ya, Tree.insertParent m zd t par = some ya →
      Shape (linkAt m zd z sz ya) (Tree.insert m zd z t) p par := by
  intro t
  induction t with
  | nil => intro p par _ h; exact absurd rfl h
  | node l a r ihl ihr =>
    intro p par h _ nd hz ya hya
    obtain ⟨h1, s, hs, hpar, hl, hr⟩ := h
    subst h1
    simp only [Tree.inorder] at nd hz
    have ndl : l.inorder.Nodup := (List.nodup_append.1 nd).1
    have ndxr : (a :: r.inorder).Nodup := (List.nodup_append.1 nd).2.1
    have ndr : r.inorder.Nodup := (List.nodup_cons.1 ndxr).2
    have har : a ∉ r.inorder := (List.nodup_cons.1 ndxr).1
    have hdisj : ∀ b, b ∈ l.inorder → b ∈ a :: r.inorder → False := fun b h1 h2 =>
      (List.nodup_append.1 nd).2.2 h1 h2
    have hal : a ∉ l.inorder := fun h => hdisj a h (by simp)
    have hza : a ≠ z := fun e => hz (by simp [e])
    have hzl : z ∉ l.inorder := fun h => hz (by simp [h])
    have hzr : z ∉ r.inorder := fun h => hz (by simp [h])
    have hd : distanceOf m a = s.distance := by simp [distanceOf, hs]
    simp only [Tree.insertParent, Tree.insert] at hya ⊢
    by_cases hlt : zd < distanceOf m a
    · simp only [hlt, if_true] at hya ⊢
      cases l with
      | nil =>
        simp only [Tree.insertParent, Option.some.injEq] at hya
        subst hya
        simp only [Shape] at hl
        refine ⟨rfl, _, linkAt_ya m zd z sz a hza hs, ?_, ?_, ?_⟩
        · rw [← hd, if_pos hlt]
          exact hpar
        · rw [← hd, if_pos hlt]
          refine ⟨rfl, _, linkAt_z m zd z sz a hza, rfl, ?_, ?_⟩
          · simpa [Shape] using hl0
          · simpa [Shape] using hr0
        · rw [← hd, if_pos hlt]
          refine Shape.frame (fun b hb => ?_) hr
          exact linkAt_other m zd z sz a b (fun e => hzr (e ▸ hb)) (fun e => har (e ▸ hb))
      | node ll b lr =>
        obtain ⟨ya', hya', hmem⟩ := Tree.insertParent_mem m zd (.node ll b lr) (some a)
          (by simp)
        rw [hya] at hya'
        cases hya'
        have hyaz : ya ≠ z := fun e => hzl (e ▸ hmem)
        have hyaa : a ≠ ya := fun e => hal (e ▸ hmem)
        have := ihl _ _ hl (by simp) ndl hzl ya hya
        refine ⟨rfl, s, ?_, hpar, this, ?_⟩
        · rw [linkAt_other m zd z sz ya a hza hyaa]
          exact hs
        · refine Shape.frame (fun c hc => ?_) hr
          exact linkAt_other m zd z sz ya c (fun e => hzr (e ▸ hc))
            (fun e => hdisj c (e ▸ hmem) (List.mem_cons_of_mem _ hc))
    · simp only [hlt, if_false] at hya ⊢
      cases r with
      | nil =>
        simp only [Tree.insertParent, Option.some.injEq] at hya
        subst hya
        simp only [Shape] at hr
        refine ⟨rfl, _, linkAt_ya m zd z sz a hza hs, ?_, ?_, ?_⟩
        · rw [← hd, if_neg hlt]
          exact hpar
        · rw [← hd, if_neg hlt]
          refine Shape.frame (fun b hb => ?_) hl
          exact linkAt_other m zd z sz a b (fun e => hzl (e ▸ hb)) (fun e => hal (e ▸ hb))
        · rw [← hd, if_neg hlt]
          refine ⟨rfl, _, linkAt_z m zd z sz a hza, rfl, ?_, ?_⟩
          · simpa [Shape] using hl0
          · simpa [Shape] using hr0
      | node rl b rr =>
        obtain ⟨ya', hya', hmem⟩ := Tree.insertParent_mem m zd (.node rl b rr) (some a)
          (by simp)
        rw [hya] at hya'
        cases hya'
        have hyaz : ya ≠ z := fun e => hzr (e ▸ hmem)
        have hyaa : a ≠ ya := fun e => har (e ▸ hmem)
        have := ihr _ _ hr (by simp) ndr hzr ya hya
        refine ⟨rfl, s, ?_, hpar, ?_, this⟩
        · rw [linkAt_other m zd z sz ya a hza hyaa]
          exact hs
        · refine Shape.frame (fun c hc => ?_) hl
          exact linkAt_other m zd z sz ya c (fun e => hzl (e ▸ hc))
            (fun e => hdisj c hc (e ▸ List.mem_cons_of_mem _ hmem))

theorem Tree.insert_sorted (m : Heap) (zd : Int) (z : Nat) (k : Nat → Int) (hkz : k z = zd) :
    ∀ (t : Tree), (t.inorder.map (distanceOf m)).Pairwise (· < ·) →
      (∀ a ∈ t.inorder, distanceOf m a ≠ zd) → (∀ a ∈ t.inorder, k a = distanceOf m a) →
      ((Tree.insert m zd z t).inorder.map k).Pairwise (· < ·) := by
  intro t
  induction t with
  | nil => intro _ _ _; simp [Tree.insert, Tree.inorder]
  | node l a r ihl ihr =>
    intro hs hne hk
    simp only [Tree.inorder, List.map_append, List.map_cons, List.pairwise_append,
      List.pairwise_cons, List.mem_map, List.mem_cons, forall_exists_index, and_imp,
      forall_apply_eq_imp_iff₂, forall_eq_or_imp] at hs
    obtain ⟨hsl, ⟨hxr, hsr⟩, hlx⟩ := hs
    have hka : k a = distanceOf m a := hk a (by simp [Tree.inorder])
    have hkl : ∀ b ∈ l.inorder, k b = distanceOf m b := fun b hb =>
      hk b (by simp [Tree.inorder, hb])
    have hkr : ∀ b ∈ r.inorder, k b = distanceOf m b := fun b hb =>
      hk b (by simp [Tree.inorder, hb])
    have hnea : distanceOf m a ≠ zd := hne a (by simp [Tree.inorder])
    simp only [Tree.insert]
    by_cases hlt : zd < distanceOf m a
    · simp only [hlt, if_true, Tree.inorder, List.map_append, List.map_cons,
        List.pairwise_append, List.pairwise_cons, List.mem_map, List.mem_cons,
        forall_exists_index, and_imp, forall_apply_eq_imp_iff₂, forall_eq_or_imp]
      refine ⟨ihl hsl (fun b hb => hne b (by simp [Tree.inorder, hb])) hkl, ⟨?_, ?_⟩, ?_⟩
      · intro b hb
        rw [hka, hkr b hb]
        exact hxr b hb
      · rw [List.pairwise_map] at hsr ⊢
        exact hsr.imp_of_mem (fun {x y} hx hy h => by rw [hkr x hx, hkr y hy]; exact h)
      · intro b hb
        rcases (Tree.insert_mem m zd z l b).1 hb with rfl | hb
        · refine ⟨by rw [hkz, hka]; exact hlt, fun c hc => ?_⟩
          rw [hkz, hkr c hc]
          exact lt_trans hlt (hxr c hc)
        · refine ⟨by rw [hkl b hb, hka]; exact (hlx b hb).1, fun c hc => ?_⟩
          rw [hkl b hb, hkr c hc]
          exact (hlx b hb).2 c hc
    · have hgt : distanceOf m a < zd := lt_of_le_of_ne (not_lt.1 hlt) hnea
      simp only [hlt, if_false, Tree.inorder, List.map_append, List.map_cons,
        List.pairwise_append, List.pairwise_cons, List.mem_map, List.mem_cons,
        forall_exists_index, and_imp, forall_apply_eq_imp_iff₂, forall_eq_or_imp]
      refine ⟨?_, ⟨?_, ihr hsr (fun b hb => hne b (by simp [Tree.inorder, hb])) hkr⟩, ?_⟩
      · rw [List.pairwise_map] at hsl ⊢
        exact hsl.imp_of_mem (fun {x y} hx hy h => by rw [hkl x hx, hkl y hy]; exact h)
      · intro b hb
        rcases (Tree.insert_mem m zd z r b).1 hb with rfl | hb
        · rw [hkz, hka]; exact hgt
        · rw [hka, hkr b hb]; exact hxr b hb
      · intro b hb
        refine ⟨by rw [hkl b hb, hka]; exact (hlx b hb).1, fun c hc => ?_⟩
        rcases (Tree.insert_mem m zd z r c).1 hc with rfl | hc
        · rw [hkl b hb, hkz]
          exact lt_trans (hlx b hb).1 hgt
        · rw [hkl b hb, hkr c hc]
          exact (hlx b hb).2 c hc

theorem InsertStationBST_spec {m : Heap} {T : bst_t} {t : Tree} (hI : IsIndex m T.root t)
    {z : Nat} {sz : station_t} (hz : m z = some sz) (hl0 : sz.left = none)
    (hr0 : sz.right = none) (hzt : z ∉ t.inorder)
    (hne : ∀ a ∈ t.inorder, distanceOf m a ≠ sz.distance) (fuel : Nat) (hf : t.size < fuel) :
    ∃ m' T', InsertStationBST fuel m T (some z) = .ok (m', T') ∧
      IsIndex m' T'.root (Tree.insert m sz.distance z t) ∧
      (∀ b, m b = none → m' b = none) ∧
      (∀ b s, m b = some s → ∃ s', m' b = some s' ∧ SameData s s') := by
  have hdesc := InsertStationBST.descend_spec m sz.distance t T.root none none hI.1 fuel hf
  unfold InsertStationBST
  simp only [load_some hz, hdesc, modify_some hz]
  cases t with
  | nil =>
    simp only [Tree.insertParent]
    refine ⟨_, _, rfl, ⟨?_, ?_⟩, ?_, ?_⟩
    · simp only [Tree.insert]
      refine ⟨rfl, _, Function.update_same _ _ _, rfl, ?_, ?_⟩
      · simpa [Shape] using hl0
      · simpa [Shape] using hr0
    · simp [Tree.insert, Tree.inorder]
    · intro b hb
      have : b ≠ z := by rintro rfl; rw [hz] at hb; cases hb
      rw [Function.update_noteq this]
      exact hb
    · intro b s hb
      by_cases e : b = z
      · subst e
        rw [hz] at hb
        cases hb
        exact ⟨_, Function.update_same _ _ _, rfl, rfl, rfl, rfl, rfl⟩
      · exact ⟨s, by rw [Function.update_noteq e]; exact hb, rfl, rfl, rfl, rfl, rfl⟩
  | node l a r =>
    obtain ⟨ya, hya, hmem⟩ := Tree.insertParent_mem m sz.distance (.node l a r) none
      (by simp)
    obtain ⟨sy, hsy⟩ := hI.1.alloc_of ya hmem
    have hyz : ya ≠ z := fun e => hzt (e ▸ hmem)
    have hm1 : Function.update m z (some { sz with parent := some ya }) ya = some sy := by
      rw [Function.update_noteq hyz]; exact hsy
    have hlink : linkAt m sz.distance z sz ya
        = Function.update (Function.update m z (some { sz with parent := some ya })) ya
            (some (if sz.distance < sy.distance then { sy with left := some z }
                   else { sy with right := some z })) := by
      unfold linkAt
      simp only [hm1, Option.map_some']
    have hshape := linkAt_shape m sz.distance z sz hl0 hr0 (.node l a r) T.root none hI.1
      (by simp) hI.nodup hzt ya hya
    have hres : ∃ m' T', (match (some ya : Option Nat) with
        | none => (Except.ok (Function.update m z (some { sz with parent := some ya }),
            { T with root := some z }) : Except Fault (Heap × bst_t))
        | some _ =>
          match load (Function.update m z (some { sz with parent := some ya })) (some ya) with
          | .error e => .error e
          | .ok sy =>
            if sz.distance < sy.distance then
              match modify (Function.update m z (some { sz with parent := some ya }))
                  (some ya) (fun s => { s with left := some z }) with
              | .error e => .error e
              | .ok m2 => .ok (m2, T)
            else
              match modify (Function.update m z (some { sz with parent := some ya }))
                  (some ya) (fun s => { s with right := some z }) with
              | .error e => .error e
              | .ok m2 => .ok (m2, T)) = .ok (m', T') ∧
        m' = linkAt m sz.distance z sz ya ∧ T' = T := by
      simp only [load_some hm1, modify_some hm1]
      by_cases hc : sz.distance < sy.distance
      · exact ⟨_, _, by rw [if_pos hc], by rw [hlink, if_pos hc], rfl⟩
      · exact ⟨_, _, by rw [if_neg hc], by rw [hlink, if_neg hc], rfl⟩
    obtain ⟨m', T', hrun, rfl, rfl⟩ := hres
    rw [hya]
    refine ⟨_, _, hrun, ⟨hshape, ?_⟩, ?_, ?_⟩
    · refine Tree.insert_sorted m sz.distance z _ ?_ _ hI.2 hne ?_
      · simp [distanceOf, linkAt_z m sz.distance z sz ya hyz]
      · intro b hb
        have hbz : b ≠ z := fun e => hzt (e ▸ hb)
        by_cases e : b = ya
        · subst e
          rw [distanceOf, linkAt_ya m sz.distance z sz b hyz hsy, distanceOf, hsy]
          by_cases hc : sz.distance < sy.distance <;> simp [hc]
        · rw [distanceOf, linkAt_other m sz.distance z sz ya b hbz e]
          rfl
    · intro b hb
      have h1 : b ≠ z := by rintro rfl; rw [hz] at hb; cases hb
      have h2 : b ≠ ya := by rintro rfl; rw [hsy] at hb; cases hb
      rw [linkAt_other m sz.distance z sz ya b h1 h2]
      exact hb
    · intro b s hb
      by_cases e : b = z
      · have hs : s = sz := by rw [e, hz] at hb; exact (Option.some.inj hb).symm
        rw [e, hs]
        exact ⟨_, linkAt_z m sz.distance z sz ya hyz, rfl, rfl, rfl, rfl, rfl⟩
      · by_cases e2 : b = ya
        · have hs : s = sy := by rw [e2, hsy] at hb; exact (Option.some.inj hb).symm
          rw [e2, hs]
          refine ⟨_, linkAt_ya m sz.distance z sz ya hyz hsy, ?_⟩
          by_cases hc : sz.distance < sy.distance <;> simp [hc, SameData]
        · exact ⟨s, by rw [linkAt_other m sz.distance z sz ya b e e2]; exact hb,
            rfl, rfl, rfl, rfl, rfl⟩

theorem Tree.inorder_removeMin :
    ∀ (t : Tree), t.inorder = (match t.inorder.head? with
      | some y => y :: t.removeMin.inorder
      | none => []) := by
  intro t
  induction t with
  | nil => rfl
  | node l a r ihl _ =>
    cases l with
    | nil => simp [Tree.inorder, Tree.removeMin]
    | node ll b lr =>
      have := ihl
      cases h : (Tree.node ll b lr).inorder.head? with
      | none => simp [Tree.inorder] at h
      | some y =>
        rw [h] at this
        simp only [Tree.removeMin]
        have e : (Tree.node (Tree.node ll b lr) a r).inorder
            = (Tree.node ll b lr).inorder ++ a :: r.inorder := rfl
        rw [e, this]
        simp [Tree.inorder]

theorem Tree.inorder_join (l r : Tree) : (Tree.join l r).inorder = l.inorder ++ r.inorder := by
  cases l with
  | nil => simp [Tree.join, Tree.inorder]
  | node ll b lr =>
    cases r with
    | nil => simp [Tree.join, Tree.inorder]
    | node rl c rr =>
      have := Tree.inorder_removeMin (.node rl c rr)
      simp only [Tree.join]
      cases h : (Tree.node rl c rr).inorder.head? with
      | none => simp [Tree.inorder] at h
      | some y =>
        rw [h] at this
        simp only []
        conv_rhs => rw [this]
        rfl

theorem Tree.inorder_remove (z : Nat) :
    ∀ (t : Tree), t.inorder.Nodup → (Tree.remove z t).inorder = t.inorder.erase z := by
  intro t
  induction t with
  | nil => intro _; rfl
  | node l a r ihl ihr =>
    intro nd
    simp only [Tree.inorder] at nd
    have ndl : l.inorder.Nodup := (List.nodup_append.1 nd).1
    have ndxr : (a :: r.inorder).Nodup := (List.nodup_append.1 nd).2.1
    have ndr : r.inorder.Nodup := (List.nodup_cons.1 ndxr).2
    have hdisj : ∀ b, b ∈ l.inorder → b ∈ a :: r.inorder → False := fun b h1 h2 =>
      (List.nodup_append.1 nd).2.2 h1 h2
    simp only [Tree.remove]
    by_cases e : a = z
    · subst e
      have hal : a ∉ l.inorder := fun h => hdisj a h (by simp)
      simp only [if_true, Tree.inorder_join, Tree.inorder]
      rw [List.erase_append_right _ hal]
      simp
    · by_cases hz : z ∈ l.inorder
      · simp only [e, if_false, hz, if_true, Tree.inorder, ihl ndl]
        rw [List.erase_append_left _ hz]
      · simp only [e, if_false, hz, Tree.inorder, ihr ndr]
        rw [List.erase_append_right _ hz, List.erase_cons_tail]
        simpa using e

theorem setParent_other (m : Heap) (v par : Option Nat) (b : Nat) (h : v ≠ some b) :
    setParent m v par b = m b := by
  cases v with
  | none => rfl
  | some va =>
    have : b ≠ va := fun e => h (by rw [e])
    simp [setParent, Function.update_noteq this]

theorem setParent_same (m : Heap) (va : Nat) (par : Option Nat) :
    setParent m (some va) par va = (m va).map (fun s => { s with parent := par }) := by
  simp [setParent]

theorem setChild_other (m : Heap) (pa : Nat) (u v : Option Nat) (b : Nat) (h : b ≠ pa) :
    setChild m pa u v b = m b := by
  simp [setChild, Function.update_noteq h]

theorem setChild_same (m : Heap) (pa : Nat) (u v : Option Nat) :
    setChild m pa u v pa
      = (m pa).map (fun s => if u = s.left then { s with left := v }
                             else { s with right := v }) := by
  simp [setChild]

/-- Effect of `TransplantBST` when `u` is the root. -/
theorem TransplantBST_root {m : Heap} {T : bst_t} {u : Nat} {su : station_t}
    (hu : m u = some su) (hp : su.parent = none) (v : Option Nat)
    (hv : ∀ va, v = some va → ∃ sv, m va = some sv) :
    TransplantBST m T (some u) v = .ok (setParent m v none, { T with root := v }) := by
  unfold TransplantBST
  simp only [load_some hu, hp]
  cases v with
  | none => rfl
  | some va =>
    obtain ⟨sv, hsv⟩ := hv va rfl
    simp only [load_some hu, hp, modify_some hsv, setParent, hsv, Option.map_some']

/-- Effect of `TransplantBST` when `u` hangs under `pa`. -/
theorem TransplantBST_child {m : Heap} {T : bst_t} {u pa : Nat} {su spa : station_t}
    (hu : m u = some su) (hp : su.parent = some pa) (hpa : m pa = some spa) (hne : u ≠ pa)
    (v : Option Nat) (hv : ∀ va, v = some va → ∃ sv, m va = some sv) :
    TransplantBST m T (some u) v
      = .ok (setParent (setChild m pa (some u) v) v (some pa), T) := by
  have hc : setChild m pa (some u) v
      = Function.update m pa (some (if some u = spa.left then { spa with left := v }
          else { spa with right := v })) := by
    simp [setChild, hpa]
  unfold TransplantBST
  simp only [load_some hu, hp, load_some hpa, modify_some hpa]
  have hu1 : ∀ x, Function.update m pa (some x) u = some su := fun x => by
    rw [Function.update_noteq hne]; exact hu
  by_cases hl : some u = spa.left
  · rw [hc]
    simp only [if_pos hl]
    cases v with
    | none => rfl
    | some va =>
      obtain ⟨sv, hsv⟩ := hv va rfl
      have hva : ∃ sv', Function.update m pa (some { spa with left := some va }) va
          = some sv' := by
        by_cases e : va = pa
        · subst e; exact ⟨_, Function.update_same _ _ _⟩
        · exact ⟨sv, by rw [Function.update_noteq e]; exact hsv⟩
      obtain ⟨sv', hsv'⟩ := hva
      simp only [load_some (hu1 _), hp, modify_some hsv', setParent, hsv', Option.map_some']
  · rw [hc]
    simp only [if_neg hl]
    cases v with
    | none => rfl
    | some va =>
      obtain ⟨sv, hsv⟩ := hv va rfl
      have hva : ∃ sv', Function.update m pa (some { spa with right := some va }) va
          = some sv' := by
        by_cases e : va = pa
        · subst e; exact ⟨_, Function.update_same _ _ _⟩
        · exact ⟨sv, by rw [Function.update_noteq e]; exact hsv⟩
      obtain ⟨sv', hsv'⟩ := hva
      simp only [load_some (hu1 _), hp, modify_some hsv', setParent, hsv', Option.map_some']

/-- The root of a tree can be given another parent. -/
theorem Shape.reparent {m : Heap} {t : Tree} {p par : Option Nat} (h : Shape m t p par)
    (nd : t.inorder.Nodup) (par' : Option Nat) : Shape (setParent m p par') t p par' := by
  cases t with
  | nil =>
    simp only [Shape] at h
    subst h
    simp [Shape]
  | node l a r =>
    obtain ⟨h1, s, hs, _, hl, hr⟩ := h
    subst h1
    simp only [Tree.inorder] at nd
    have hal : a ∉ l.inorder := fun h =>
      (List.nodup_append.1 nd).2.2 h (by simp)
    have har : a ∉ r.inorder := (List.nodup_cons.1 (List.nodup_append.1 nd).2.1).1
    refine ⟨rfl, { s with parent := par' }, by simp [setParent, hs], rfl, ?_, ?_⟩
    · exact Shape.frame (fun b hb => setParent_other m _ _ b (by
        intro e; cases e; exact hal hb)) hl
    · exact Shape.frame (fun b hb => setParent_other m _ _ b (by
        intro e; cases e; exact har hb)) hr

theorem Shape.rootPtr_eq {m : Heap} {t : Tree} {p par : Option Nat} (h : Shape m t p par) :
    p = t.rootPtr := by
  cases t with
  | nil => exact h
  | node l a r => exact h.1

theorem setParent_unlink (m : Heap) (v par : Option Nat) (b : Nat) :
    (setParent m v par b).map unlink = (m b).map unlink := by
  cases v with
  | none => rfl
  | some va =>
    by_cases e : b = va
    · subst e
      rw [setParent_same]
      cases m b <;> rfl
    · rw [setParent_other m _ _ b (fun h => e (Option.some.inj h).symm)]

theorem setChild_unlink (m : Heap) (pa : Nat) (u v : Option Nat) (b : Nat) :
    (setChild m pa u v b).map unlink = (m b).map unlink := by
  by_cases e : b = pa
  · subst e
    rw [setChild_same]
    cases hb : m b with
    | none => rfl
    | some s =>
      simp only [Option.map_some', Option.some.injEq]
      by_cases h : u = s.left <;> simp [h, unlink]
  · rw [setChild_other m pa u v b e]

/-- Unlinking the leftmost node `y` of a tree whose root has a left child, the way
`TransplantBST(T, y, y->right)` does it. -/
theorem spine_transplant (m : Heap) (T : bst_t) :
    ∀ (rl : Tree) (rx : Nat) (rr : Tree) (parr : Option Nat), rl ≠ .nil →
      Shape m (.node rl rx rr) (some rx) parr → (Tree.node rl rx rr).inorder.Nodup →
      ∃ y sy py m1, (Tree.node rl rx rr).inorder.head? = some y ∧ m y = some sy ∧
        sy.left = none ∧ sy.parent = some py ∧ py ∈ (Tree.node rl rx rr).inorder ∧ y ≠ rx ∧
        TransplantBST m T (some y) sy.right = .ok (m1, T) ∧
        Shape m1 (Tree.node rl rx rr).removeMin (some rx) parr ∧ m1 y = some sy ∧
        (∀ b, b ∉ (Tree.node rl rx rr).inorder → m1 b = m b) ∧
        (∀ b, (m1 b).map unlink = (m b).map unlink) := by
  intro rl
  induction rl with
  | nil => intro rx rr parr h; exact absurd rfl h
  | node rll b rlr ihl _ =>
    intro rx rr parr _ h nd
    obtain ⟨_, srx, hsrx, hparr, hl, hr⟩ := h
    have hl' := hl
    obtain ⟨hb, sb, hsb, hbpar, hbl, hbr⟩ := hl'
    simp only [Tree.inorder] at nd
    have ndl : (rll.inorder ++ b :: rlr.inorder).Nodup := (List.nodup_append.1 nd).1
    have ndxr : (rx :: rr.inorder).Nodup := (List.nodup_append.1 nd).2.1
    have hxr : rx ∉ rr.inorder := (List.nodup_cons.1 ndxr).1
    have hdisj : ∀ c, c ∈ rll.inorder ++ b :: rlr.inorder → c ∈ rx :: rr.inorder → False :=
      fun c h1 h2 => (List.nodup_append.1 nd).2.2 h1 h2
    have hbrx : b ≠ rx := fun e => hdisj b (by simp) (by simp [e])
    cases rll with
    | nil =>
      -- `b` is the leftmost node and the left child of the root
      simp only [Shape] at hbl
      simp only [Tree.inorder, List.nil_append] at ndl hdisj
      have hbr' : b ∉ rlr.inorder := (List.nodup_cons.1 ndl).1
      have ndr : rlr.inorder.Nodup := (List.nodup_cons.1 ndl).2
      have hv : ∀ va, sb.right = some va → ∃ sv, m va = some sv := by
        intro va hva
        rw [hva] at hbr
        exact hbr.alloc_of va ((shape_ptr hbr).2 va rfl)
      have hvmem : ∀ va, sb.right = some va → va ∈ rlr.inorder := by
        intro va hva
        rw [hva] at hbr
        exact (shape_ptr hbr).2 va rfl
      have htr := TransplantBST_child (T := T) hsb hbpar hsrx hbrx sb.right hv
      have hrxne : sb.right ≠ some rx := fun e =>
        hdisj rx (List.mem_cons_of_mem _ (hvmem rx e)) (by simp)
      have hbne : sb.right ≠ some b := fun e => hbr' (hvmem b e)
      refine ⟨b, sb, rx, _, by simp [Tree.inorder], hsb, hbl, hbpar, by simp [Tree.inorder],
        hbrx, htr, ?_, ?_, ?_, ?_⟩
      · -- shape of the rest
        simp only [Tree.removeMin]
        refine ⟨rfl, { srx with left := sb.right }, ?_, hparr, ?_, ?_⟩
        · rw [setParent_other _ _ _ rx hrxne, setChild_same, hsrx]
          simp [hb]
        · have h1 : Shape (setChild m rx (some b) sb.right) rlr sb.right (some b) :=
            Shape.frame (fun c hc => setChild_other m rx _ _ c (fun e =>
              hdisj rx (List.mem_cons_of_mem _ (e ▸ hc)) (by simp))) hbr
          exact h1.reparent ndr (some rx)
        · refine Shape.frame (fun c hc => ?_) hr
          rw [setParent_other _ _ _ c (fun e =>
              hdisj c (List.mem_cons_of_mem _ (hvmem c e)) (List.mem_cons_of_mem _ hc)),
            setChild_other m rx _ _ c (fun e => hxr (e ▸ hc))]
      · rw [setParent_other _ _ _ b hbne, setChild_other m rx _ _ b hbrx]
        exact hsb
      · intro c hc
        simp only [Tree.inorder, List.nil_append, List.cons_append, List.mem_cons,
          List.mem_append, not_or] at hc
        rw [setParent_other _ _ _ c (fun e => hc.2.1 (hvmem c e)),
          setChild_other m rx _ _ c hc.2.2.1]
      · intro c
        rw [setParent_unlink, setChild_unlink]
    | node rlll c rllr =>
      obtain ⟨y, sy, py, m1, h1, h2, h3, h4, hpy, h5, h6, h7, h8, h9, h10⟩ :=
        ihl b rlr (some rx) (by simp) (hb ▸ hl) ndl
      have hyl : y ∈ (Tree.node (.node rlll c rllr) b rlr).inorder :=
        List.mem_of_mem_head? h1
      refine ⟨y, sy, py, m1, ?_, h2, h3, h4, List.mem_append_left _ hpy, ?_, h6, ?_, h8, ?_,
        h10⟩
      · simp only [Tree.inorder] at h1 ⊢
        simp only [List.append_assoc, List.cons_append] at h1 ⊢
        cases hc : rlll.inorder with
        | nil => simp [hc] at h1 ⊢; exact h1
        | cons q qs => simp [hc] at h1 ⊢; exact h1
      · rintro rfl
        exact hdisj y hyl (by simp)
      · simp only [Tree.removeMin]
        refine ⟨rfl, srx, ?_, hparr, ?_, ?_⟩
        · rw [h9 rx (fun h => hdisj rx h (by simp))]
          exact hsrx
        · rw [hb]
          exact h7
        · exact Shape.frame (fun q hq => h9 q (fun h =>
            hdisj q h (List.mem_cons_of_mem _ hq))) hr
      · intro q hq
        apply h9
        intro h
        exact hq (by simp only [Tree.inorder] at h ⊢; exact List.mem_append_left _ h)

theorem TransplantBST_hang {m : Heap} {T : bst_t} {z : Nat} {sz : station_t}
    {par : Option Nat} {sub : List Nat} (hz : m z = some sz) (hp : sz.parent = par)
    (hzs : z ∈ sub) (hctx : Hanging m par sub) (v : Option Nat)
    (hv : ∀ va, v = some va → ∃ sv, m va = some sv) :
    TransplantBST m T (some z) v = .ok (hang m T par z v) := by
  cases par with
  | none => exact TransplantBST_root hz hp v hv
  | some pa =>
    obtain ⟨hpa, spa, hspa⟩ := hctx pa rfl
    exact TransplantBST_child hz hp hspa (fun e => hpa (e ▸ hzs)) v hv

theorem hang_other (m : Heap) (T : bst_t) (par : Option Nat) (z : Nat) (v : Option Nat)
    (b : Nat) (h1 : v ≠ some b) (h2 : par ≠ some b) : (hang m T par z v).1 b = m b := by
  cases par with
  | none => exact setParent_other m v none b h1
  | some pa =>
    simp only [hang]
    rw [setParent_other _ v _ b h1, setChild_other m pa _ _ b (fun e => h2 (by rw [e]))]

theorem hang_unlink (m : Heap) (T : bst_t) (par : Option Nat) (z : Nat) (v : Option Nat)
    (b : Nat) : ((hang m T par z v).1 b).map unlink = (m b).map unlink := by
  cases par with
  | none => exact setParent_unlink m v none b
  | some pa =>
    simp only [hang]
    rw [setParent_unlink, setChild_unlink]

theorem hang_parent (m : Heap) (T : bst_t) (pa : Nat) (z : Nat) (v : Option Nat)
    (h1 : v ≠ some pa) :
    (hang m T (some pa) z v).1 pa
      = (m pa).map (fun s => if some z = s.left then { s with left := v }
                             else { s with right := v }) := by
  simp only [hang]
  rw [setParent_other _ v _ pa h1, setChild_same]

theorem hang_shape {m : Heap} {T : bst_t} {par : Option Nat} {z : Nat} {v : Option Nat}
    {tv : Tree} {q : Option Nat} (h : Shape m tv v q) (nd : tv.inorder.Nodup)
    (hpar : ∀ pa, par = some pa → pa ∉ tv.inorder) :
    Shape (hang m T par z v).1 tv v par := by
  cases par with
  | none => exact h.reparent nd none
  | some pa =>
    simp only [hang]
    have h1 : Shape (setChild m pa (some z) v) tv v q :=
      Shape.frame (fun c hc => setChild_other m pa _ _ c (fun e => hpar pa rfl (e ▸ hc))) h
    exact h1.reparent nd (some pa)

theorem free_some {m : Heap} {a : Nat} {s : station_t} (h : m a = some s) :
    free m (some a) = .ok (Function.update m a none) := by
  simp [free, load, h]

/-- Cases of `DemolishStationBST` in which `z` has at most one child `v`: the subtree `tv`
of `v` takes the place of `z`. -/
theorem splice_spec {m : Heap} {T : bst_t} {z : Nat} {sz : station_t} {par : Option Nat}
    {sub : List Nat} (hz : m z = some sz) (hp : sz.parent = par) (hzs : z ∈ sub)
    (hctx : Hanging m par sub) (v : Option Nat) (tv : Tree)
    (hs : Shape m tv v (some z)) (nd : tv.inorder.Nodup) (hsub : ∀ c ∈ tv.inorder, c ∈ sub)
    (hzt : z ∉ tv.inorder) :
    ∃ m' T', TransplantBST m T (some z) v = .ok (hang m T par z v) ∧
      free (hang m T par z v).1 (some z) = .ok m' ∧ T' = (hang m T par z v).2 ∧
      Shape m' tv tv.rootPtr par ∧ Removed m m' T T' z sub par tv.rootPtr := by
  have hv : ∀ va, v = some va → ∃ sv, m va = some sv := by
    intro va hva
    subst hva
    exact hs.alloc_of va ((shape_ptr hs).2 va rfl)
  have hvmem : ∀ va, v = some va → va ∈ tv.inorder := fun va hva =>
    (shape_ptr hs).2 va hva
  have hvz : v ≠ some z := fun e => hzt (hvmem z e)
  have hparz : par ≠ some z := fun e => (hctx z e).1 hzs
  have hz1 : (hang m T par z v).1 z = some sz := by
    rw [hang_other m T par z v z hvz hparz]; exact hz
  have hroot : v = tv.rootPtr := hs.rootPtr_eq
  refine ⟨_, _, TransplantBST_hang hz hp hzs hctx v hv, free_some hz1, rfl, ?_, ?_⟩
  · rw [← hroot]
    refine Shape.frame (fun c hc => ?_)
      (hang_shape (T := T) (z := z) hs nd (fun pa hpa hc => (hctx pa hpa).1 (hsub pa hc)))
    have hcz : c ≠ z := fun e => hzt (e ▸ hc)
    exact Function.update_noteq hcz _ _
  · refine ⟨Function.update_same _ _ _, ?_, ?_, ?_, ?_⟩
    · intro b hb
      rw [Function.update_noteq hb, hang_unlink]
    · intro b hb hpb
      have hbz : b ≠ z := fun e => hb (e ▸ hzs)
      rw [Function.update_noteq hbz]
      exact hang_other m T par z v b (fun e => hb (hsub b (hvmem b e))) hpb
    · intro hpar
      subst hpar
      rw [← hroot]
      rfl
    · intro pa hpa
      subst hpa
      have hpaz : pa ≠ z := fun e => hparz (by rw [e])
      refine ⟨rfl, ?_⟩
      rw [Function.update_noteq hpaz, ← hroot]
      exact hang_parent m T pa z v (fun e => (hctx pa rfl).1 (hsub pa (hvmem pa e)))

theorem hang_self (m : Heap) (T : bst_t) (par : Option Nat) (z va : Nat)
    (h : par ≠ some va) :
    (hang m T par z (some va)).1 va = (m va).map (fun s => { s with parent := par }) := by
  cases par with
  | none => exact setParent_same m va none
  | some pa =>
    simp only [hang]
    have : va ≠ pa := fun e => h (by rw [e])
    rw [setParent_same, setChild_other m pa _ _ va this]

/-- Last statements of `DemolishStationBST` for a node `z` with two children: the node
`y`, already detached and with the right subtree `u` under it, takes the place of `z` and
receives the left subtree `l` of `z`. -/
theorem graft_spec {m3 : Heap} {T : bst_t} {z y lx : Nat} {sz q : station_t}
    {par : Option Nat} {sub : List Nat} {l u : Tree}
    (hz : m3 z = some sz) (hp : sz.parent = par) (hzl : sz.left = some lx)
    (hzs : z ∈ sub) (hctx : Hanging m3 par sub)
    (hy : m3 y = some q) (hys : y ∈ sub) (hyz : y ≠ z)
    (hl : Shape m3 l (some lx) (some z)) (ndl : l.inorder.Nodup)
    (hlsub : ∀ c ∈ l.inorder, c ∈ sub) (hzl' : z ∉ l.inorder) (hyl : y ∉ l.inorder)
    (htr : Shape m3 u q.right (some y)) (htrsub : ∀ c ∈ u.inorder, c ∈ sub)
    (hztr : z ∉ u.inorder) (hytr : y ∉ u.inorder)
    (hdisj : ∀ c, c ∈ l.inorder → c ∉ u.inorder) :
    ∃ m4 T2 m5 sy5 m6 m7,
      TransplantBST m3 T (some z) (some y) = .ok (m4, T2) ∧
      load m4 (some z) = .ok sz ∧
      modify m4 (some y) (fun s => { s with left := sz.left }) = .ok m5 ∧
      load m5 (some y) = .ok sy5 ∧ sy5.left = some lx ∧
      modify m5 (some lx) (fun s => { s with parent := some y }) = .ok m6 ∧
      free m6 (some z) = .ok m7 ∧
      Shape m7 (.node l y u) (some y) par ∧
      Removed m3 m7 T T2 z sub par (some y) := by
  have hparz : par ≠ some z := fun e => (hctx z e).1 hzs
  have hpary : par ≠ some y := fun e => (hctx y e).1 hys
  have hlxl : lx ∈ l.inorder := (shape_ptr hl).2 lx rfl
  have hlxz : lx ≠ z := fun e => hzl' (e ▸ hlxl)
  have hlxy : lx ≠ y := fun e => hyl (e ▸ hlxl)
  have hparlx : par ≠ some lx := fun e => (hctx lx e).1 (hlsub lx hlxl)
  obtain ⟨slx, hslx⟩ := hl.alloc_of lx hlxl
  -- the memory after each statement
  have h4z : (hang m3 T par z (some y)).1 z = some sz := by
    rw [hang_other m3 T par z _ z (fun e => hyz (Option.some.inj e)) hparz]; exact hz
  have h4y : (hang m3 T par z (some y)).1 y = some { q with parent := par } := by
    rw [hang_self m3 T par z y hpary, hy]; rfl
  have h4lx : (hang m3 T par z (some y)).1 lx = some slx := by
    rw [hang_other m3 T par z _ lx (fun e => hlxy (Option.some.inj e).symm) hparlx]
    exact hslx
  have h5y : Function.update (hang m3 T par z (some y)).1 y
      (some { q with parent := par, left := sz.left }) y
      = some { q with parent := par, left := sz.left } := Function.update_same _ _ _
  have h5lx : Function.update (hang m3 T par z (some y)).1 y
      (some { q with parent := par, left := sz.left }) lx = some slx := by
    rw [Function.update_noteq hlxy]; exact h4lx
  have h6z : Function.update (Function.update (hang m3 T par z (some y)).1 y
      (some { q with parent := par, left := sz.left })) lx
      (some { slx with parent := some y }) z = some sz := by
    rw [Function.update_noteq hlxz.symm, Function.update_noteq hyz.symm]; exact h4z
  refine ⟨_, _, _, _, _, _,
    TransplantBST_hang hz hp hzs hctx (some y) (fun va hva => by
      cases hva; exact ⟨_, hy⟩),
    load_some h4z, modify_some h4y _, load_some h5y, hzl, modify_some h5lx _,
    free_some h6z, ?_, ?_⟩
  · -- the shape under `y`
    refine ⟨rfl, { q with parent := par, left := sz.left }, ?_, rfl, ?_, ?_⟩
    · rw [Function.update_noteq hyz, Function.update_noteq hlxy.symm]
      exact h5y
    · simp only [hzl]
      refine Shape.frame (fun c hc => ?_) (hl.reparent ndl (some y))
      have hcz : c ≠ z := fun e => hzl' (e ▸ hc)
      have hcy : c ≠ y := fun e => hyl (e ▸ hc)
      rw [Function.update_noteq hcz]
      by_cases e : c = lx
      · subst e
        rw [Function.update_same, setParent_same, hslx]
        rfl
      · rw [Function.update_noteq e, Function.update_noteq hcy,
          setParent_other _ _ _ c (fun h => e (Option.some.inj h).symm)]
        exact hang_other m3 T par z _ c (fun h => hcy (Option.some.inj h).symm)
          (fun h => (hctx c h).1 (hlsub c hc))
    · refine Shape.frame (fun c hc => ?_) htr
      have hcz : c ≠ z := fun e => hztr (e ▸ hc)
      have hcy : c ≠ y := fun e => hytr (e ▸ hc)
      have hclx : c ≠ lx := fun e => hdisj lx hlxl (e ▸ hc)
      rw [Function.update_noteq hcz, Function.update_noteq hclx, Function.update_noteq hcy]
      exact hang_other m3 T par z _ c (fun h => hcy (Option.some.inj h).symm)
        (fun h => (hctx c h).1 (htrsub c hc))
  · refine ⟨Function.update_same _ _ _, ?_, ?_, ?_, ?_⟩
    · intro b hb
      rw [Function.update_noteq hb]
      by_cases e : b = lx
      · subst e
        rw [Function.update_same, ← hang_unlink m3 T par z (some y) b, h4lx]
        rfl
      · rw [Function.update_noteq e]
        by_cases e2 : b = y
        · subst e2
          rw [Function.update_same, ← hang_unlink m3 T par z (some b) b, h4y]
          rfl
        · rw [Function.update_noteq e2, hang_unlink]
    · intro b hb hpb
      have hbz : b ≠ z := fun e => hb (e ▸ hzs)
      have hby : b ≠ y := fun e => hb (e ▸ hys)
      have hblx : b ≠ lx := fun e => hb (e ▸ hlsub lx hlxl)
      rw [Function.update_noteq hbz, Function.update_noteq hblx, Function.update_noteq hby]
      exact hang_other m3 T par z _ b (fun h => hby (Option.some.inj h).symm) hpb
    · intro hpar
      subst hpar
      rfl
    · intro pa hpa
      subst hpa
      have hpaz : pa ≠ z := fun e => hparz (by rw [e])
      have hpay : pa ≠ y := fun e => hpary (by rw [e])
      have hpalx : pa ≠ lx := fun e => hparlx (by rw [e])
      refine ⟨rfl, ?_⟩
      rw [Function.update_noteq hpaz, Function.update_noteq hpalx, Function.update_noteq hpay]
      exact hang_parent m3 T pa z _ (fun h => hpay (Option.some.inj h).symm)

theorem Removed.of_eq {m m' : Heap} {T T' T'' : bst_t} {z : Nat} {sub : List Nat}
    {par p' p'' : Option Nat} (h : Removed m m' T T' z sub par p') (hT : T'' = T')
    (hp : p'' = p') : Removed m m' T T'' z sub par p'' := by
  subst hT hp
  exact h

/-- `DemolishStationBST(T, z)` on the node `z` of a tree: the subtree of `z`, with subtrees
`l` and `r`, is replaced by `Tree.join l r`. -/
theorem DemolishStationBST_at {m : Heap} {T : bst_t} {z : Nat} {l r : Tree}
    {par : Option Nat} (h : Shape m (.node l z r) (some z) par)
    (nd : (Tree.node l z r).inorder.Nodup)
    (hctx : Hanging m par (Tree.node l z r).inorder) (fuel : Nat) (hf : r.size ≤ fuel) :
    ∃ m' T', DemolishStationBST fuel m T (some z) = .ok (m', T') ∧
      Shape m' (Tree.join l r) (Tree.join l r).rootPtr par ∧
      Removed m m' T T' z (Tree.node l z r).inorder par (Tree.join l r).rootPtr := by
  obtain ⟨_, sz, hsz, hpar, hl, hr⟩ := h
  have hzs : z ∈ (Tree.node l z r).inorder := by simp [Tree.inorder]
  have nd' := nd
  simp only [Tree.inorder] at nd'
  have ndl : l.inorder.Nodup := (List.nodup_append.1 nd').1
  have ndxr : (z :: r.inorder).Nodup := (List.nodup_append.1 nd').2.1
  have ndr : r.inorder.Nodup := (List.nodup_cons.1 ndxr).2
  have hzr : z ∉ r.inorder := (List.nodup_cons.1 ndxr).1
  have hdisj : ∀ c, c ∈ l.inorder → c ∈ z :: r.inorder → False := fun c h1 h2 =>
    (List.nodup_append.1 nd').2.2 h1 h2
  have hzl : z ∉ l.inorder := fun h => hdisj z h (by simp)
  have hlsub : ∀ c ∈ l.inorder, c ∈ (Tree.node l z r).inorder := fun c hc =>
    List.mem_append_left _ hc
  have hrsub : ∀ c ∈ r.inorder, c ∈ (Tree.node l z r).inorder := fun c hc =>
    List.mem_append_right _ (List.mem_cons_of_mem _ hc)
  unfold DemolishStationBST
  simp only [load_some hsz]
  cases l with
  | nil =>
    have hleft : sz.left = none := hl
    obtain ⟨m', T', h1, h2, h3, h4, h5⟩ :=
      splice_spec (T := T) hsz hpar hzs hctx sz.right r hr ndr hrsub hzr
    simp only [hleft, h1, h2]
    exact ⟨m', _, rfl, h4, h5.of_eq h3.symm rfl⟩
  | node ll lx lr =>
    have hleft : sz.left = some lx := hl.1
    cases r with
    | nil =>
      have hright : sz.right = none := hr
      obtain ⟨m', T', h1, h2, h3, h4, h5⟩ :=
        splice_spec (T := T) hsz hpar hzs hctx sz.left (.node ll lx lr) hl ndl hlsub hzl
      simp only [hleft, hright]
      rw [hleft] at h1 h2 h3
      simp only [h1, h2]
      exact ⟨m', _, rfl, h4, h5.of_eq h3.symm rfl⟩
    | node rl rx rr =>
      have hright : sz.right = some rx := hr.1
      have hmin := MinimumBST_spec m (.node rl rx rr) rx (some z) (hright ▸ hr) fuel hf
      have hl' : Shape m (.node ll lx lr) (some lx) (some z) := hleft ▸ hl
      have hr' : Shape m (.node rl rx rr) (some rx) (some z) := hright ▸ hr
      simp only [hleft, hright, hmin]
      cases rl with
      | nil =>
        -- the leftmost node of `r` is its root
        obtain ⟨_, srx, hsrx, hrxpar, hrxl, hrxr⟩ := hr'
        have hrxs : rx ∈ (Tree.node (.node ll lx lr) z (.node .nil rx rr)).inorder :=
          hrsub rx (by simp [Tree.inorder])
        have hrxz : rx ≠ z := fun e => hzr (by simp [Tree.inorder, e])
        have ndr' := ndr
        simp only [Tree.inorder, List.nil_append] at ndr'
        have hrxrr : rx ∉ rr.inorder := (List.nodup_cons.1 ndr').1
        obtain ⟨m4, T2, m5, sy5, m6, m7, g1, g2, g3, g4, g5, g6, g7, g8, g9⟩ :=
          graft_spec (T := T) (u := rr) hsz hpar hleft hzs hctx hsrx hrxs hrxz hl' ndl
            hlsub hzl (fun h => hdisj rx h (by simp [Tree.inorder])) hrxr
            (fun c hc => hrsub c (by simp [Tree.inorder, hc]))
            (fun h => hzr (by simp [Tree.inorder, h])) hrxrr
            (fun c hc h => hdisj c hc (by simp [Tree.inorder, h]))
        simp only [Tree.inorder, List.nil_append, List.head?_cons, load_some hsrx, hrxpar,
          ne_eq, not_true_eq_false, if_false, g1, g2, g3, g4, g5, g6, g7]
        exact ⟨m7, T2, rfl, by simpa [Tree.join, Tree.inorder, Tree.removeMin] using g8,
          by simpa [Tree.join, Tree.inorder, Tree.removeMin, Tree.rootPtr] using g9⟩
      | node rll b rlr =>
        -- the leftmost node of `r` lies deeper: it is unlinked first
        obtain ⟨y, sy, py, m1, hhead, hsy, _, hsypar, hpy, hyrx, htrans, hsh1, hm1y, hfr1,
          hun1⟩ := spine_transplant m T (.node rll b rlr) rx rr (some z) (by simp) hr' ndr
        have hyr : y ∈ (Tree.node (.node rll b rlr) rx rr).inorder :=
          List.mem_of_mem_head? hhead
        have hinr := Tree.inorder_removeMin (.node (.node rll b rlr) rx rr)
        rw [hhead] at hinr
        simp only [] at hinr
        have ndr' := ndr
        rw [hinr] at ndr'
        have hyrm : y ∉ (Tree.node (.node rll b rlr) rx rr).removeMin.inorder :=
          (List.nodup_cons.1 ndr').1
        have hrmsub : ∀ c ∈ (Tree.node (.node rll b rlr) rx rr).removeMin.inorder,
            c ∈ (Tree.node (.node rll b rlr) rx rr).inorder := fun c hc => by
          rw [hinr]; exact List.mem_cons_of_mem _ hc
        have hyz : y ≠ z := fun e => hzr (e ▸ hyr)
        have hpyz : py ≠ z := fun e => hzr (e ▸ hpy)
        have hrxz : rx ≠ z := fun e => hzr (by simp [Tree.inorder, ← e])
        have hm1z : m1 z = some sz := by rw [hfr1 z hzr]; exact hsz
        have hsh1' := hsh1
        obtain ⟨_, srx1, hsrx1, _, _, _⟩ := hsh1
        have hm2rx : Function.update m1 y (some { sy with right := some rx }) rx
            = some srx1 := by
          rw [Function.update_noteq hyrx.symm]; exact hsrx1
        -- the memory before the last statements
        have hm3 : ∀ c, c ≠ rx → c ≠ y →
            Function.update (Function.update m1 y (some { sy with right := some rx })) rx
              (some { srx1 with parent := some y }) c = m1 c := fun c h1 h2 => by
          rw [Function.update_noteq h1, Function.update_noteq h2]
        have hm3y : Function.update (Function.update m1 y (some { sy with right := some rx }))
            rx (some { srx1 with parent := some y }) y
            = some { sy with right := some rx } := by
          rw [Function.update_noteq hyrx, Function.update_same]
        have hctx3 : Hanging (Function.update (Function.update m1 y
            (some { sy with right := some rx })) rx (some { srx1 with parent := some y }))
            par (Tree.node (.node ll lx lr) z (.node (.node rll b rlr) rx rr)).inorder := by
          intro pa hpa
          obtain ⟨h1, spa, hspa⟩ := hctx pa hpa
          refine ⟨h1, spa, ?_⟩
          rw [hm3 pa (fun e => h1 (e ▸ hrsub rx (by simp [Tree.inorder])))
            (fun e => h1 (e ▸ hrsub y hyr)), hfr1 pa (fun h => h1 (hrsub pa h))]
          exact hspa
        have hl3 : Shape (Function.update (Function.update m1 y
            (some { sy with right := some rx })) rx (some { srx1 with parent := some y }))
            (.node ll lx lr) (some lx) (some z) := by
          refine Shape.frame (fun c hc => ?_) hl'
          rw [hm3 c (fun e => hdisj c hc (by simp [Tree.inorder, e]))
            (fun e => hdisj c hc (List.mem_cons_of_mem _ (e ▸ hyr)))]
          exact hfr1 c (fun h => hdisj c hc (List.mem_cons_of_mem _ h))
        have htr3 : Shape (Function.update (Function.update m1 y
            (some { sy with right := some rx })) rx (some { srx1 with parent := some y }))
            (Tree.node (.node rll b rlr) rx rr).removeMin (some rx) (some y) := by
          have h2 : Shape (Function.update m1 y (some { sy with right := some rx }))
              (Tree.node (.node rll b rlr) rx rr).removeMin (some rx) (some z) :=
            Shape.frame (fun c hc => by
              have hcy : c ≠ y := fun e => hyrm (e ▸ hc)
              exact Function.update_noteq hcy _ _) hsh1'
          refine Shape.frame (fun c hc => ?_)
            (h2.reparent (List.nodup_cons.1 ndr').2 (some y))
          by_cases e : c = rx
          · subst e
            rw [Function.update_same, setParent_same, hm2rx]
            rfl
          · rw [Function.update_noteq e,
              setParent_other _ _ _ c (fun h => e (Option.some.inj h).symm)]
        obtain ⟨m4, T2, m5, sy5, m6, m7, g1, g2, g3, g4, g5, g6, g7, g8, g9⟩ :=
          graft_spec (T := T) (q := { sy with right := some rx })
            (u := (Tree.node (.node rll b rlr) rx rr).removeMin)
            (by rw [hm3 z hrxz.symm hyz.symm]; exact hm1z) hpar hleft hzs hctx3 hm3y
            (hrsub y hyr) hyz hl3 ndl hlsub hzl
            (fun h => hdisj y h (List.mem_cons_of_mem _ hyr)) htr3
            (fun c hc => hrsub c (hrmsub c hc)) (fun h => hzr (hrmsub z h)) hyrm
            (fun c hc h => hdisj c hc (List.mem_cons_of_mem _ (hrmsub c h)))
        have hcond : sy.parent ≠ some z := by
          rw [hsypar]
          exact fun e => hpyz (Option.some.inj e)
        have hm2y : Function.update m1 y (some { sy with right := some rx }) y
            = some { sy with right := some rx } := Function.update_same _ _ _
        simp only [hhead, load_some hsy, hcond, ne_eq, not_false_eq_true, if_true, htrans,
          load_some hm1z, modify_some hm1y, hright, load_some hm2y, modify_some hm2rx]
        simp only [g1, g2, g3, g4, g5, g6, g7]
        refine ⟨m7, T2, rfl, ?_, ?_⟩
        · simpa [Tree.join, hhead] using g8
        · have hrel : Removed m m7 T T2 z
              (Tree.node (.node ll lx lr) z (.node (.node rll b rlr) rx rr)).inorder par
              (some y) := by
            refine ⟨g9.freed, ?_, ?_, g9.root, ?_⟩
            · intro c hc
              rw [g9.data c hc, ← hun1 c]
              by_cases e : c = rx
              · subst e
                rw [Function.update_same, hsrx1]
                rfl
              · rw [Function.update_noteq e]
                by_cases e2 : c = y
                · subst e2
                  rw [Function.update_same, hm1y]
                  rfl
                · rw [Function.update_noteq e2]
            · intro c hc hpc
              rw [g9.frame c hc hpc, hm3 c (fun e => hc (e ▸ hrsub rx (by simp [Tree.inorder])))
                (fun e => hc (e ▸ hrsub y hyr)), hfr1 c (fun h => hc (hrsub c h))]
            · intro pa hpa
              obtain ⟨h1, h2⟩ := g9.link pa hpa
              refine ⟨h1, ?_⟩
              have hpas := (hctx pa hpa).1
              rw [h2, hm3 pa (fun e => hpas (e ▸ hrsub rx (by simp [Tree.inorder])))
                (fun e => hpas (e ▸ hrsub y hyr)), hfr1 pa (fun h => hpas (hrsub pa h))]
          simpa [Tree.join, hhead, Tree.rootPtr] using hrel

theorem unlink_distanceOf {m m' : Heap} {b : Nat}
    (h : (m' b).map unlink = (m b).map unlink) : distanceOf m' b = distanceOf m b := by
  unfold distanceOf
  cases h1 : m b <;> cases h2 : m' b <;> simp [h1, h2, unlink] at h ⊢
  exact h.1

/-- `DemolishStationBST(T, z)` for a node `z` below the root of the subtree `t`. -/
theorem DemolishStationBST_in (m : Heap) (T : bst_t) (z : Nat) (fuel : Nat) :
    ∀ (t : Tree) (p par : Option Nat), Shape m t p par → t.inorder.Nodup →
      z ∈ t.inorder → p ≠ some z → t.size ≤ fuel →
      ∃ m', DemolishStationBST fuel m T (some z) = .ok (m', T) ∧
        Shape m' (Tree.remove z t) p par ∧ m' z = none ∧
        (∀ b, b ≠ z → (m' b).map unlink = (m b).map unlink) ∧
        (∀ b, b ∉ t.inorder → m' b = m b) := by
  intro t
  induction t with
  | nil => intro p par _ _ h; simp [Tree.inorder] at h
  | node l a r ihl ihr =>
    intro p par h nd hz hpz hf
    obtain ⟨h1, s, hs, hpar, hl, hr⟩ := h
    subst h1
    have haz : a ≠ z := fun e => hpz (by rw [e])
    simp only [Tree.inorder] at nd hz
    simp only [Tree.size] at hf
    have ndl : l.inorder.Nodup := (List.nodup_append.1 nd).1
    have ndxr : (a :: r.inorder).Nodup := (List.nodup_append.1 nd).2.1
    have ndr : r.inorder.Nodup := (List.nodup_cons.1 ndxr).2
    have har : a ∉ r.inorder := (List.nodup_cons.1 ndxr).1
    have hdisj : ∀ c, c ∈ l.inorder → c ∈ a :: r.inorder → False := fun c h1 h2 =>
      (List.nodup_append.1 nd).2.2 h1 h2
    have hal : a ∉ l.inorder := fun h => hdisj a h (by simp)
    simp only [Tree.remove, haz, if_false]
    by_cases hzl : z ∈ l.inorder
    · simp only [hzl, if_true]
      by_cases hroot : s.left = some z
      · -- `z` is the left child of `a`
        obtain ⟨ll, lr, rfl⟩ := shape_root_mem (hroot ▸ hl)
        have hctx : Hanging m (some a) (Tree.node ll z lr).inorder := by
          intro pa hpa
          cases hpa
          exact ⟨hal, s, hs⟩
        obtain ⟨m', T', hrun, hsh, hrem⟩ :=
          DemolishStationBST_at (T := T) (hroot ▸ hl) ndl hctx fuel
            (by simp only [Tree.size] at hf ⊢; omega)
        obtain ⟨hT, hpa⟩ := hrem.link a rfl
        subst hT
        refine ⟨m', hrun, ⟨rfl, { s with left := (Tree.join ll lr).rootPtr }, ?_, hpar, ?_,
          ?_⟩, hrem.freed, hrem.data, ?_⟩
        · rw [hpa, hs]
          simp [hroot]
        · simpa [Tree.remove] using hsh
        · refine Shape.frame (fun c hc => ?_) hr
          exact hrem.frame c (fun h => hdisj c h (List.mem_cons_of_mem _ hc))
            (fun e => har ((Option.some.inj e) ▸ hc))
        · intro c hc
          simp only [Tree.inorder, List.mem_append, List.mem_cons, not_or] at hc
          exact hrem.frame c (by simpa [Tree.inorder] using hc.1)
            (fun e => hc.2.1 (Option.some.inj e).symm)
      · obtain ⟨m', hrun, hsh, hfreed, hdata, hframe⟩ :=
          ihl s.left (some a) hl ndl hzl hroot (by omega)
        refine ⟨m', hrun, ⟨rfl, s, ?_, hpar, hsh, ?_⟩, hfreed, hdata, ?_⟩
        · rw [hframe a hal]; exact hs
        · exact Shape.frame (fun c hc => hframe c (fun h =>
            hdisj c h (List.mem_cons_of_mem _ hc))) hr
        · intro c hc
          simp only [Tree.inorder, List.mem_append, List.mem_cons, not_or] at hc
          exact hframe c hc.1
    · have hzr : z ∈ r.inorder := by
        rcases List.mem_append.1 hz with h | h
        · exact absurd h hzl
        · rcases List.mem_cons.1 h with h | h
          · exact absurd h.symm haz
          · exact h
      have hleft : s.left ≠ some z := fun e => hzl ((shape_ptr hl).2 z e)
      simp only [hzl, if_false]
      by_cases hroot : s.right = some z
      · -- `z` is the right child of `a`
        obtain ⟨rl, rr, rfl⟩ := shape_root_mem (hroot ▸ hr)
        have hctx : Hanging m (some a) (Tree.node rl z rr).inorder := by
          intro pa hpa
          cases hpa
          exact ⟨har, s, hs⟩
        obtain ⟨m', T', hrun, hsh, hrem⟩ :=
          DemolishStationBST_at (T := T) (hroot ▸ hr) ndr hctx fuel
            (by simp only [Tree.size] at hf ⊢; omega)
        obtain ⟨hT, hpa⟩ := hrem.link a rfl
        subst hT
        refine ⟨m', hrun, ⟨rfl, { s with right := (Tree.join rl rr).rootPtr }, ?_, hpar, ?_,
          ?_⟩, hrem.freed, hrem.data, ?_⟩
        · rw [hpa, hs]
          have hne : ¬ (some z = s.left) := fun e => hleft e.symm
          simp only [Option.map_some', if_neg hne]
        · refine Shape.frame (fun c hc => ?_) hl
          exact hrem.frame c (fun h => hdisj c hc (List.mem_cons_of_mem _ h))
            (fun e => hal ((Option.some.inj e) ▸ hc))
        · simpa [Tree.remove] using hsh
        · intro c hc
          simp only [Tree.inorder, List.mem_append, List.mem_cons, not_or] at hc
          exact hrem.frame c (by simpa [Tree.inorder] using hc.2.2)
            (fun e => hc.2.1 (Option.some.inj e).symm)
      · obtain ⟨m', hrun, hsh, hfreed, hdata, hframe⟩ :=
          ihr s.right (some a) hr ndr hzr hroot (by omega)
        refine ⟨m', hrun, ⟨rfl, s, ?_, hpar, ?_, hsh⟩, hfreed, hdata, ?_⟩
        · rw [hframe a har]; exact hs
        · exact Shape.frame (fun c hc => hframe c (fun h =>
            hdisj c hc (List.mem_cons_of_mem _ h))) hl
        · intro c hc
          simp only [Tree.inorder, List.mem_append, List.mem_cons, not_or] at hc
          exact hframe c hc.2.2

/-- `DemolishStationBST` on a station of an index leaves an index without that station;
the data of the other stations is kept. -/
theorem DemolishStationBST_spec {m : Heap} {T : bst_t} {t : Tree} (hI : IsIndex m T.root t)
    {z : Nat} (hz : z ∈ t.inorder) (fuel : Nat) (hf : t.size ≤ fuel) :
    ∃ m' T', DemolishStationBST fuel m T (some z) = .ok (m', T') ∧
      IsIndex m' T'.root (Tree.remove z t) ∧ m' z = none ∧
      (∀ b, b ≠ z → (m' b).map unlink = (m b).map unlink) ∧
      (∀ b, b ∉ t.inorder → m' b = m b) := by
  have nd := hI.nodup
  have hsorted : ∀ m' : Heap, (∀ b, b ≠ z → (m' b).map unlink = (m b).map unlink) →
      ((Tree.remove z t).inorder.map (distanceOf m')).Pairwise (· < ·) := by
    intro m' hdata
    rw [Tree.inorder_remove z t nd]
    have h1 : ((t.inorder.erase z).map (distanceOf m)).Pairwise (· < ·) :=
      hI.2.sublist ((List.erase_sublist z t.inorder).map _)
    have h2 : (t.inorder.erase z).map (distanceOf m') = (t.inorder.erase z).map (distanceOf m) :=
      List.map_congr_left (fun b hb =>
        unlink_distanceOf (hdata b (fun e => (List.Nodup.mem_erase_iff nd).1 hb |>.1 e)))
    rw [h2]
    exact h1
  by_cases hroot : T.root = some z
  · obtain ⟨l, r, rfl⟩ := shape_root_mem (hroot ▸ hI.1)
    have hctx : Hanging m none (Tree.node l z r).inorder := fun pa hpa => by cases hpa
    obtain ⟨m', T', hrun, hsh, hrem⟩ :=
      DemolishStationBST_at (T := T) (hroot ▸ hI.1) nd hctx fuel
        (by simp only [Tree.size] at hf ⊢; omega)
    have hT := hrem.root rfl
    refine ⟨m', T', hrun, ⟨?_, hsorted m' hrem.data⟩, hrem.freed, hrem.data, ?_⟩
    · rw [hT]
      simpa [Tree.remove] using hsh
    · intro b hb
      exact hrem.frame b hb (by simp)
  · obtain ⟨m', hrun, hsh, hfreed, hdata, hframe⟩ :=
      DemolishStationBST_in m T z fuel t T.root none hI.1 nd hz hroot hf
    exact ⟨m', T, hrun, ⟨hsh, hsorted m' hdata⟩, hfreed, hdata, hframe⟩

theorem CarMaximumAutonomy.loop_max :
    ∀ (l : List Int) (x : Int), 0 ≤ x → CarMaximumAutonomy.loop x l = max x (fleetMax l) := by
  intro l
  induction l with
  | nil => intro x hx; simp [CarMaximumAutonomy.loop, fleetMax, hx]
  | cons c rest ih =>
    intro x hx
    simp only [CarMaximumAutonomy.loop, fleetMax, List.foldr_cons]
    by_cases h : c > x
    · rw [if_pos h, ih c (by omega)]
      simp only [fleetMax]
      omega
    · rw [if_neg h, ih x hx]
      simp only [fleetMax]
      omega

theorem fleetMax_nonneg (l : List Int) : 0 ≤ fleetMax l := by
  induction l with
  | nil => simp [fleetMax]
  | cons c rest ih =>
    simp only [fleetMax, List.foldr_cons] at ih ⊢
    omega

theorem CarMaximumAutonomy_eq (l : List Int) : CarMaximumAutonomy l = fleetMax l := by
  rw [CarMaximumAutonomy, CarMaximumAutonomy.loop_max l 0 (le_refl 0)]
  have := fleetMax_nonneg l
  omega

theorem fleetMax_ge (l : List Int) : ∀ c ∈ l, c ≤ fleetMax l := by
  induction l with
  | nil => intro c h; simp at h
  | cons a rest ih =>
    intro c hc
    simp only [fleetMax, List.foldr_cons] at ih ⊢
    rcases List.mem_cons.1 hc with rfl | h
    · omega
    · have := ih c h
      omega

theorem fleetMax_mem (l : List Int) (hne : l ≠ []) (hpos : ∀ c ∈ l, 0 ≤ c) :
    fleetMax l ∈ l := by
  induction l with
  | nil => exact absurd rfl hne
  | cons a rest ih =>
    simp only [fleetMax, List.foldr_cons]
    by_cases hr : rest = []
    · subst hr
      have := hpos a (by simp)
      simp only [List.foldr_nil, List.mem_singleton]
      omega
    · have h1 := ih hr (fun c hc => hpos c (List.mem_cons_of_mem _ hc))
      simp only [fleetMax] at h1
      rcases le_total a (List.foldr max 0 rest) with h | h
      · rw [max_eq_right h]
        exact List.mem_cons_of_mem _ h1
      · rw [max_eq_left h]
        simp

theorem ScrapCar_fst (l : List Int) (c : Int) : (ScrapCar l c).1 = l.erase c := by
  induction l with
  | nil => rfl
  | cons a rest ih =>
    by_cases h : a = c
    · subst h
      simp [ScrapCar]
    · have h' : (a == c) = false := by simpa using h
      simp [ScrapCar, h, ih, List.erase_cons, h']

theorem ScrapCar_snd (l : List Int) (c : Int) : (ScrapCar l c).2 = true ↔ c ∈ l := by
  induction l with
  | nil => simp [ScrapCar]
  | cons a rest ih =>
    by_cases h : a = c
    · subst h
      simp [ScrapCar]
    · have : c ≠ a := fun e => h e.symm
      simp [ScrapCar, h, ih, this]

theorem fleetMax_erase_le (l : List Int) (c : Int) : fleetMax (l.erase c) ≤ fleetMax l := by
  induction l with
  | nil => simp
  | cons a rest ih =>
    by_cases h : a = c
    · subst h
      simp only [List.erase_cons_head, fleetMax, List.foldr_cons]
      omega
    · have h' : (a == c) = false := by simpa using h
      simp only [List.erase_cons, h', fleetMax, List.foldr_cons] at ih ⊢
      simp only [Bool.false_eq_true, if_false, List.foldr_cons]
      omega

theorem fleetMax_erase (l : List Int) (c : Int) (hc : c ∈ l) (hne : c ≠ fleetMax l) :
    fleetMax (l.erase c) = fleetMax l := by
  induction l with
  | nil => simp at hc
  | cons a rest ih =>
    by_cases h : a = c
    · subst h
      simp only [List.erase_cons_head, fleetMax, List.foldr_cons] at hne ⊢
      omega
    · have h' : (a == c) = false := by simpa using h
      have hcr : c ∈ rest := by
        rcases List.mem_cons.1 hc with e | e
        · exact absurd e.symm h
        · exact e
      have hle := fleetMax_erase_le rest c
      have hge := fleetMax_ge rest c hcr
      simp only [List.erase_cons, h', Bool.false_eq_true, if_false, fleetMax,
        List.foldr_cons] at hne hle hge ih ⊢
      by_cases h2 : c = List.foldr max 0 rest
      · omega
      · have := ih hcr h2
        omega

theorem AddStation.loop_fleet :
    ∀ (vs : List Int) (stat : station_t),
      (AddStation.loop stat vs).list_cars = vs.reverse ++ stat.list_cars ∧
      (0 ≤ stat.max_car →
        (AddStation.loop stat vs).max_car = max stat.max_car (fleetMax vs)) ∧
      (AddStation.loop stat vs).distance = stat.distance ∧
      (AddStation.loop stat vs).left = stat.left ∧
      (AddStation.loop stat vs).right = stat.right ∧
      (AddStation.loop stat vs).parent = stat.parent ∧
      (AddStation.loop stat vs).color = stat.color ∧
      (AddStation.loop stat vs).pi = stat.pi := by
  intro vs
  induction vs with
  | nil =>
    intro stat
    simp [AddStation.loop, fleetMax]
  | cons v rest ih =>
    intro stat
    simp only [AddStation.loop, AddCar]
    by_cases h : v > stat.max_car
    · rw [if_pos h]
      obtain ⟨h1, h2, h3⟩ := ih { stat with list_cars := v :: stat.list_cars, max_car := v }
      refine ⟨by simp [h1], ?_, h3⟩
      intro h0
      rw [h2 (by simp only []; omega)]
      simp only [fleetMax, List.foldr_cons]
      omega
    · rw [if_neg h]
      obtain ⟨h1, h2, h3⟩ := ih { stat with list_cars := v :: stat.list_cars }
      refine ⟨by simp [h1], ?_, h3⟩
      intro h0
      rw [h2 h0]
      simp only [fleetMax, List.foldr_cons]
      omega

theorem Shape.update_data {m : Heap} {t : Tree} {p par : Option Nat} (h : Shape m t p par)
    {a : Nat} {s s' : station_t} (hs : m a = some s) (hl : s'.left = s.left)
    (hr : s'.right = s.right) (hp : s'.parent = s.parent) :
    Shape (Function.update m a (some s')) t p par := by
  induction t generalizing p par with
  | nil => exact h
  | node l x r ihl ihr =>
    obtain ⟨h1, sx, hsx, hpar, hl', hr'⟩ := h
    by_cases e : x = a
    · subst e
      rw [hs] at hsx
      cases hsx
      exact ⟨h1, s', Function.update_same _ _ _, hp.trans hpar, hl ▸ ihl hl', hr ▸ ihr hr'⟩
    · exact ⟨h1, sx, by rw [Function.update_noteq e]; exact hsx, hpar, ihl hl', ihr hr'⟩

theorem IsIndex.update_cell {m : Heap} {root : Option Nat} {t : Tree}
    (h : IsIndex m root t) {a : Nat} {s s' : station_t} (hs : m a = some s)
    (hl : s'.left = s.left) (hr : s'.right = s.right) (hp : s'.parent = s.parent)
    (hd : s'.distance = s.distance) :
    IsIndex (Function.update m a (some s')) root t := by
  refine ⟨h.1.update_data hs hl hr hp, ?_⟩
  have : t.inorder.map (distanceOf (Function.update m a (some s')))
      = t.inorder.map (distanceOf m) := by
    refine List.map_congr_left (fun b _ => ?_)
    by_cases e : b = a
    · subst e
      simp [distanceOf, hs, hd]
    · simp [distanceOf, Function.update_noteq e]
  rw [this]
  exact h.2

theorem IsIndex.frame_index {m m' : Heap} {root : Option Nat} {t : Tree}
    (h : IsIndex m root t) (hf : ∀ a ∈ t.inorder, m' a = m a) : IsIndex m' root t := by
  refine ⟨Shape.frame hf h.1, ?_⟩
  have : t.inorder.map (distanceOf m') = t.inorder.map (distanceOf m) :=
    List.map_congr_left (fun b hb => by simp [distanceOf, hf b hb])
  rw [this]
  exact h.2

theorem SameData.of_unlink {s s' : station_t} (h : unlink s' = unlink s) : SameData s s' := by
  have e := station_t.mk.inj h
  simp only [unlink] at e
  obtain ⟨e1, e2, e3, _, _, _, e7, e8⟩ := e
  exact ⟨e1, e2, e8, e3, e7⟩

theorem SameData.of_map_unlink {m m' : Heap} {b : Nat} {s' : station_t}
    (h : (m' b).map unlink = (m b).map unlink) (hs' : m' b = some s') :
    ∃ s, m b = some s ∧ SameData s s' := by
  rw [hs'] at h
  cases hb : m b with
  | none => simp [hb] at h
  | some s =>
    rw [hb] at h
    simp only [Option.map_some', Option.some.injEq] at h
    exact ⟨s, rfl, SameData.of_unlink h⟩

theorem Cached.of_same {s s' : station_t} (h : SameData s s') (hs : Cached s) :
    Cached s' := by
  obtain ⟨_, e2, e3, _, _⟩ := h
  unfold Cached at *
  rw [e2, e3]
  exact hs

theorem NonNeg.of_same_fleet {s s' : station_t} (h : SameData s s') (hs : NonNeg s) :
    NonNeg s' := by
  obtain ⟨_, _, e3, _, _⟩ := h
  unfold NonNeg at *
  rw [e3]
  exact hs

theorem IsMaxOf.of_fleetMax {l : List Int} (h : ∀ c ∈ l, 0 ≤ c) : IsMaxOf (fleetMax l) l :=
  ⟨fun e => by rw [e]; rfl, fun hne => ⟨fleetMax_mem l hne h, fun c hc => fleetMax_ge l c hc⟩⟩

theorem Tree.size_insert (m : Heap) (zd : Int) (z : Nat) :
    ∀ t : Tree, (Tree.insert m zd z t).size = t.size + 1 := by
  intro t
  induction t with
  | nil => simp [Tree.insert, Tree.size]
  | node l a r ihl ihr =>
    simp only [Tree.insert]
    by_cases h : zd < distanceOf m a
    · simp only [h, if_true, Tree.size, ihl]; omega
    · simp only [h, if_false, Tree.size, ihr]; omega

theorem Tree.size_remove (z : Nat) (t : Tree) (nd : t.inorder.Nodup) :
    (Tree.remove z t).size ≤ t.size := by
  rw [← inorder_length, ← inorder_length, Tree.inorder_remove z t nd]
  exact (List.erase_sublist z t.inorder).length_le

theorem fleetMax_perm {l l' : List Int} (h : l.Perm l') : fleetMax l = fleetMax l' := by
  induction h with
  | nil => rfl
  | cons x _ ih => simp only [fleetMax, List.foldr_cons] at ih ⊢; rw [ih]
  | swap x y l => simp only [fleetMax, List.foldr_cons]; omega
  | trans _ _ ih1 ih2 => exact ih1.trans ih2

theorem Inv.not_mem_brk {w : State} {t : Tree} (hI : Inv w t) :
    ∀ a, w.brk ≤ a → a ∉ t.inorder := by
  intro a ha hmem
  obtain ⟨s, hs⟩ := hI.index.1.alloc_of a hmem
  rw [hI.fresh a ha] at hs
  cases hs

/-- Command `add-station` on a well-formed state. -/
theorem add_station_step {w : State} {t : Tree} (hI : Inv w t) (d : Int) (cars : List Int)
    (fuel : Nat) (hf : t.size < fuel) :
    ((∃ a ∈ t.inorder, distanceOf w.mem a = d) →
      main.step fuel w (.add_station d cars) = .ok (w, .not_added)) ∧
    ((∀ a ∈ t.inorder, distanceOf w.mem a ≠ d) →
      ∃ w' t', main.step fuel w (.add_station d cars) = .ok (w', .added) ∧ Inv w' t' ∧
        t'.size = t.size + 1 ∧ (∀ x, x ∈ t'.inorder ↔ x = w.brk ∨ x ∈ t.inorder) ∧
        (∃ s, w'.mem w.brk = some s ∧ s.distance = d ∧ s.list_cars = cars.reverse ∧
          s.max_car = fleetMax cars) ∧
        (∀ b, b ≠ w.brk → (w.mem b = none → w'.mem b = none) ∧
          ∀ s, w.mem b = some s → ∃ s', w'.mem b = some s' ∧ SameData s s')) := by
  obtain ⟨res, hres, hsome, hnone⟩ := SearchStationBST_spec hI.index d fuel hf
  constructor
  · rintro ⟨a, ha, hd⟩
    cases res with
    | none => exact absurd hd (hnone rfl a ha)
    | some b => simp [main.step, hres]
  · intro habs
    cases res with
    | some b =>
      obtain ⟨hb, hd⟩ := hsome b rfl
      exact absurd hd (habs b hb)
    | none =>
      have hbrk : w.mem w.brk = none := hI.fresh w.brk (le_refl _)
      have hbt : w.brk ∉ t.inorder := hI.not_mem_brk w.brk (le_refl _)
      obtain ⟨l1, l2, l3, l4, l5, l6, l7, l8⟩ :=
        AddStation.loop_fleet cars (InitialiseStation d)
      have hm0 : Function.update w.mem w.brk (some (InitialiseStation d)) w.brk
          = some (InitialiseStation d) := Function.update_same _ _ _
      have hm1 : Function.update (Function.update w.mem w.brk (some (InitialiseStation d)))
          w.brk (some (AddStation.loop (InitialiseStation d) cars)) w.brk
          = some (AddStation.loop (InitialiseStation d) cars) := Function.update_same _ _ _
      have hm1o : ∀ b, b ≠ w.brk →
          Function.update (Function.update w.mem w.brk (some (InitialiseStation d)))
            w.brk (some (AddStation.loop (InitialiseStation d) cars)) b = w.mem b :=
        fun b hb => by rw [Function.update_noteq hb, Function.update_noteq hb]
      have hI1 : IsIndex (Function.update (Function.update w.mem w.brk
          (some (InitialiseStation d))) w.brk
          (some (AddStation.loop (InitialiseStation d) cars))) w.T.root t :=
        hI.index.frame_index (fun a ha => hm1o a (fun e => hbt (e ▸ ha)))
      obtain ⟨m', T', hins, hidx, hnone', hdata⟩ :=
        InsertStationBST_spec hI1 hm1 (by rw [l4]; rfl) (by rw [l5]; rfl) hbt
          (fun a ha => by
            rw [l3]
            have : distanceOf (Function.update (Function.update w.mem w.brk
                (some (InitialiseStation d))) w.brk
                (some (AddStation.loop (InitialiseStation d) cars))) a = distanceOf w.mem a := by
              simp [distanceOf, hm1o a (fun e => hbt (e ▸ ha))]
            rw [this]
            exact habs a ha) fuel hf
      obtain ⟨sb, hsb, hsd⟩ := hdata w.brk _ hm1
      refine ⟨{ mem := m', T := T', brk := w.brk + 1 }, _, ?_, ⟨hidx, ?_⟩,
        Tree.size_insert _ _ _ t, Tree.insert_mem _ _ _ t, ⟨sb, hsb, ?_, ?_, ?_⟩, ?_⟩
      · simp only [main.step, hres, AddStation, modify_some hm0, hins]
      · intro a ha0
        have ha : w.brk + 1 ≤ a := ha0
        apply hnone'
        rw [hm1o a (by omega)]
        exact hI.fresh a (by omega)
      · rw [hsd.1, l3]; rfl
      · rw [hsd.2.2.1, l1]; simp [InitialiseStation]
      · rw [hsd.2.1, l2 (le_refl _)]
        have := fleetMax_nonneg cars
        simp only [InitialiseStation]
        omega
      · intro b hb
        refine ⟨fun h => hnone' b (by rw [hm1o b hb]; exact h), fun s hs => ?_⟩
        exact hdata b s (by rw [hm1o b hb]; exact hs)

theorem IsIndex.mem_unique {m : Heap} {root : Option Nat} {t : Tree}
    (hI : IsIndex m root t) {a b : Nat} (ha : a ∈ t.inorder) (hb : b ∈ t.inorder)
    (h : distanceOf m a = distanceOf m b) : a = b := by
  obtain ⟨i, hi⟩ := List.mem_iff_getElem?.1 ha
  obtain ⟨j, hj⟩ := List.mem_iff_getElem?.1 hb
  have hR := hI.road
  rcases Nat.lt_trichotomy i j with h1 | h1 | h1
  · have := hR.dist_lt hi hj h1; omega
  · subst h1; rw [hi] at hj; exact Option.some.inj hj
  · have := hR.dist_lt hj hi h1; omega

/-- Lookup of a distance on a well-formed state. -/
theorem Inv.search {w : State} {t : Tree} (hI : Inv w t) (d : Int) (fuel : Nat)
    (hf : t.size < fuel) :
    ((∀ a ∈ t.inorder, distanceOf w.mem a ≠ d) →
      SearchStationBST fuel w.mem w.T d = .ok none) ∧
    (∀ z ∈ t.inorder, distanceOf w.mem z = d →
      SearchStationBST fuel w.mem w.T d = .ok (some z)) := by
  obtain ⟨res, hres, hsome, hnone⟩ := SearchStationBST_spec hI.index d fuel hf
  constructor
  · intro habs
    cases res with
    | none => exact hres
    | some b =>
      obtain ⟨hb, hd⟩ := hsome b rfl
      exact absurd hd (habs b hb)
  · intro z hz hd
    cases res with
    | none => exact absurd hd (hnone rfl z hz)
    | some b =>
      obtain ⟨hb, hbd⟩ := hsome b rfl
      rw [hres, hI.index.mem_unique hb hz (hbd.trans hd.symm)]

/-- Command `demolish-station` on a well-formed state. -/
theorem demolish_station_step {w : State} {t : Tree} (hI : Inv w t) (d : Int)
    (fuel : Nat) (hf : t.size < fuel) :
    ((∀ a ∈ t.inorder, distanceOf w.mem a ≠ d) →
      main.step fuel w (.demolish_station d) = .ok (w, .not_demolished)) ∧
    (∀ z ∈ t.inorder, distanceOf w.mem z = d →
      ∃ w', main.step fuel w (.demolish_station d) = .ok (w', .demolished) ∧
        Inv w' (Tree.remove z t) ∧ w'.brk = w.brk ∧ w'.mem z = none ∧
        (∀ b, b ≠ z → (w'.mem b).map unlink = (w.mem b).map unlink)) := by
  obtain ⟨h0, h1⟩ := hI.search d fuel hf
  constructor
  · intro habs
    simp [main.step, h0 habs]
  · intro z hz hd
    obtain ⟨m', T', hrun, hidx, hfreed, hdata, hframe⟩ :=
      DemolishStationBST_spec hI.index hz fuel (by omega)
    refine ⟨{ w with mem := m', T := T' }, ?_, ⟨hidx, ?_⟩, rfl, hfreed, hdata⟩
    · simp only [main.step, h1 z hz hd, hrun]
    · intro a ha
      have : m' a = w.mem a := hframe a (hI.not_mem_brk a ha)
      exact this.trans (hI.fresh a ha)

/-- Command `add-car` on a well-formed state. -/
theorem add_car_step {w : State} {t : Tree} (hI : Inv w t) (d c : Int)
    (fuel : Nat) (hf : t.size < fuel) :
    ((∀ a ∈ t.inorder, distanceOf w.mem a ≠ d) →
      main.step fuel w (.add_car d c) = .ok (w, .not_added)) ∧
    (∀ z ∈ t.inorder, distanceOf w.mem z = d →
      ∃ s, w.mem z = some s ∧
        main.step fuel w (.add_car d c)
          = .ok ({ w with mem := Function.update w.mem z (some { s with
                  list_cars := c :: s.list_cars,
                  max_car := if c > s.max_car then c else s.max_car }) }, .added) ∧
        Inv { w with mem := Function.update w.mem z (some { s with
                  list_cars := c :: s.list_cars,
                  max_car := if c > s.max_car then c else s.max_car }) } t) := by
  obtain ⟨h0, h1⟩ := hI.search d fuel hf
  constructor
  · intro habs
    simp [main.step, h0 habs]
  · intro b hb hd
    obtain ⟨s, hs⟩ := hI.index.1.alloc_of b hb
    refine ⟨s, hs, ?_, ⟨hI.index.update_cell hs rfl rfl rfl rfl, ?_⟩⟩
    · simp only [main.step, h1 b hb hd, modify_some hs, AddCar]
      by_cases h : c > s.max_car <;> simp [h]
    · intro a ha
      have hab : a ≠ b := fun e => hI.not_mem_brk a ha (e ▸ hb)
      show Function.update w.mem b _ a = none
      rw [Function.update_noteq hab]
      exact hI.fresh a ha

/-- Command `scrap-car` on a well-formed state. -/
theorem scrap_car_step {w : State} {t : Tree} (hI : Inv w t) (d c : Int)
    (fuel : Nat) (hf : t.size < fuel) :
    ((∀ a ∈ t.inorder, distanceOf w.mem a ≠ d) →
      main.step fuel w (.scrap_car d c) = .ok (w, .not_scrapped)) ∧
    (∀ z ∈ t.inorder, distanceOf w.mem z = d →
      ∃ s, w.mem z = some s ∧
        (c ∉ s.list_cars → main.step fuel w (.scrap_car d c) = .ok (w, .not_scrapped)) ∧
        (c ∈ s.list_cars →
          main.step fuel w (.scrap_car d c)
            = .ok ({ w with mem := Function.update w.mem z (some { s with
                  list_cars := s.list_cars.erase c,
                  max_car := if c = s.max_car then fleetMax (s.list_cars.erase c)
                    else s.max_car }) }, .scrapped) ∧
          Inv { w with mem := Function.update w.mem z (some { s with
                  list_cars := s.list_cars.erase c,
                  max_car := if c = s.max_car then fleetMax (s.list_cars.erase c)
                    else s.max_car }) } t)) := by
  obtain ⟨h0, h1⟩ := hI.search d fuel hf
  constructor
  · intro habs
    simp [main.step, h0 habs]
  · intro b hb hd
    obtain ⟨s, hs⟩ := hI.index.1.alloc_of b hb
    refine ⟨s, hs, ?_, ?_⟩
    · intro hcn
      have : (ScrapCar s.list_cars c).2 = false := by
        cases h : (ScrapCar s.list_cars c).2 with
        | false => rfl
        | true => exact absurd ((ScrapCar_snd _ _).1 h) hcn
      simp [main.step, h1 b hb hd, load_some hs, this]
    · intro hcm
      have h2 : (ScrapCar s.list_cars c).2 = true := (ScrapCar_snd _ _).2 hcm
      refine ⟨?_, ⟨hI.index.update_cell hs rfl rfl rfl rfl, ?_⟩⟩
      · simp only [main.step, h1 b hb hd, load_some hs, h2, if_true, modify_some hs,
          ScrapCar_fst, CarMaximumAutonomy_eq]
        by_cases h : c = s.max_car <;> simp [h]
      · intro a ha
        have hab : a ≠ b := fun e => hI.not_mem_brk a ha (e ▸ hb)
        show Function.update w.mem b _ a = none
        rw [Function.update_noteq hab]
        exact hI.fresh a ha

theorem cells_update {P : station_t → Prop} {m : Heap} {a : Nat} {s' : station_t}
    (hP : ∀ b x, m b = some x → P x) (hs' : P s') :
    ∀ b x, Function.update m a (some s') b = some x → P x := by
  intro b x hx
  by_cases e : b = a
  · rw [e, Function.update_same] at hx
    cases hx
    exact hs'
  · rw [Function.update_noteq e] at hx
    exact hP b x hx

theorem cells_sameData {P : station_t → Prop} {m m' : Heap}
    (hsd : ∀ s s', SameData s s' → P s → P s') (hP : ∀ b x, m b = some x → P x)
    (hfr : ∀ b x, m' b = some x → P x ∨ ∃ s, m b = some s ∧ SameData s x) :
    ∀ b x, m' b = some x → P x := by
  intro b x hx
  rcases hfr b x hx with h | ⟨s, hs, h⟩
  · exact h
  · exact hsd s x h (hP b s hs)

/-- Every command but `plan-route` returns on a well-formed state and leaves a
well-formed state, in which the caches are right if they were, and the fleets hold no
negative autonomy if none was there and none is added. -/
theorem step_update {w : State} {t : Tree} (hI : Inv w t) (cmd : Command)
    (hu : cmd.isUpdate) (fuel : Nat) (hf : t.size < fuel) :
    ∃ w' t' line, main.step fuel w cmd = .ok (w', line) ∧ Inv w' t' ∧
      t'.size ≤ t.size + 1 ∧
      ((∀ a s, w.mem a = some s → Cached s) → ∀ a s, w'.mem a = some s → Cached s) ∧
      (cmd.nonneg → (∀ a s, w.mem a = some s → NonNeg s) →
        ∀ a s, w'.mem a = some s → NonNeg s) := by
  cases cmd with
  | plan_route s f => exact absurd hu (by simp [Command.isUpdate])
  | add_station d cars =>
    obtain ⟨h0, h1⟩ := add_station_step hI d cars fuel hf
    by_cases h : ∃ a ∈ t.inorder, distanceOf w.mem a = d
    · exact ⟨w, t, _, h0 h, hI, by omega, fun x => x, fun _ x => x⟩
    · have h' : ∀ a ∈ t.inorder, distanceOf w.mem a ≠ d := fun a ha e => h ⟨a, ha, e⟩
      obtain ⟨w', t', hrun, hI', hsz, _, ⟨sn, hsn, _, hcars, hmax⟩, hfr⟩ := h1 h'
      have hfr' : ∀ (P : station_t → Prop), P sn → ∀ b x, w'.mem b = some x →
          P x ∨ ∃ s, w.mem b = some s ∧ SameData s x := by
        intro P hPn b x hx
        by_cases e : b = w.brk
        · rw [e, hsn] at hx
          cases hx
          exact Or.inl hPn
        · cases hb : w.mem b with
          | none => rw [(hfr b e).1 hb] at hx; cases hx
          | some s =>
            obtain ⟨s', hs', hsd⟩ := (hfr b e).2 s hb
            rw [hs'] at hx
            cases hx
            exact Or.inr ⟨s, rfl, hsd⟩
      refine ⟨w', t', _, hrun, hI', by omega, fun hC => ?_, fun hn hN => ?_⟩
      · refine cells_sameData (fun _ _ => Cached.of_same) hC (hfr' Cached ?_)
        unfold Cached
        rw [hmax, hcars]
        exact fleetMax_perm (List.reverse_perm cars).symm
      · refine cells_sameData (fun _ _ => NonNeg.of_same_fleet) hN (hfr' NonNeg ?_)
        intro c hc
        rw [hcars] at hc
        exact hn c (List.mem_reverse.1 hc)
  | demolish_station d =>
    obtain ⟨h0, h1⟩ := demolish_station_step hI d fuel hf
    by_cases h : ∃ a ∈ t.inorder, distanceOf w.mem a = d
    · obtain ⟨z, hz, hd⟩ := h
      obtain ⟨w', hrun, hI', _, hfreed, hdata⟩ := h1 z hz hd
      have hfr' : ∀ (P : station_t → Prop) b x, w'.mem b = some x →
          P x ∨ ∃ s, w.mem b = some s ∧ SameData s x := by
        intro P b x hx
        by_cases e : b = z
        · rw [e, hfreed] at hx
          cases hx
        · exact Or.inr (SameData.of_map_unlink (hdata b e) hx)
      exact ⟨w', _, _, hrun, hI',
        (Tree.size_remove z t hI.index.nodup).trans (Nat.le_succ _),
        fun hC => cells_sameData (fun _ _ => Cached.of_same) hC (hfr' Cached),
        fun _ hN => cells_sameData (fun _ _ => NonNeg.of_same_fleet) hN (hfr' NonNeg)⟩
    · have h' : ∀ a ∈ t.inorder, distanceOf w.mem a ≠ d := fun a ha e => h ⟨a, ha, e⟩
      exact ⟨w, t, _, h0 h', hI, by omega, fun x => x, fun _ x => x⟩
  | add_car d c =>
    obtain ⟨h0, h1⟩ := add_car_step hI d c fuel hf
    by_cases h : ∃ a ∈ t.inorder, distanceOf w.mem a = d
    · obtain ⟨z, hz, hd⟩ := h
      obtain ⟨s, hs, hrun, hI'⟩ := h1 z hz hd
      refine ⟨_, t, _, hrun, hI', by omega, fun hC => cells_update hC ?_,
        fun hn hN => cells_update hN ?_⟩
      · have hc := hC z s hs
        unfold Cached at hc ⊢
        simp only [fleetMax, List.foldr_cons]
        simp only [fleetMax] at hc
        rw [← hc]
        by_cases h : c > s.max_car
        · rw [if_pos h]; omega
        · rw [if_neg h]; omega
      · intro x hx
        rcases List.mem_cons.1 hx with rfl | hx
        · exact hn
        · exact hN z s hs x hx
    · have h' : ∀ a ∈ t.inorder, distanceOf w.mem a ≠ d := fun a ha e => h ⟨a, ha, e⟩
      exact ⟨w, t, _, h0 h', hI, by omega, fun x => x, fun _ x => x⟩
  | scrap_car d c =>
    obtain ⟨h0, h1⟩ := scrap_car_step hI d c fuel hf
    by_cases h : ∃ a ∈ t.inorder, distanceOf w.mem a = d
    · obtain ⟨z, hz, hd⟩ := h
      obtain ⟨s, hs, hno, hyes⟩ := h1 z hz hd
      by_cases hc : c ∈ s.list_cars
      · obtain ⟨hrun, hI'⟩ := hyes hc
        refine ⟨_, t, _, hrun, hI', by omega, fun hC => cells_update hC ?_,
          fun _ hN => cells_update hN ?_⟩
        · have hcs := hC z s hs
          unfold Cached at hcs ⊢
          show (if c = s.max_car then fleetMax (s.list_cars.erase c) else s.max_car)
            = fleetMax (s.list_cars.erase c)
          by_cases e : c = s.max_car
          · rw [if_pos e]
          · rw [if_neg e, hcs]
            exact (fleetMax_erase _ _ hc (by rw [← hcs]; exact e)).symm
        · intro x hx
          exact hN z s hs x (List.mem_of_mem_erase hx)
      · exact ⟨w, t, _, hno hc, hI, by omega, fun x => x, fun _ x => x⟩
    · have h' : ∀ a ∈ t.inorder, distanceOf w.mem a ≠ d := fun a ha e => h ⟨a, ha, e⟩
      exact ⟨w, t, _, h0 h', hI, by omega, fun x => x, fun _ x => x⟩

/-- A sequence of commands without `plan-route` runs to its end on a well-formed state
when the fuel exceeds the number of stations that can be present. -/
theorem run_update : ∀ (cmds : List Command) {w : State} {t : Tree}, Inv w t →
    (∀ c ∈ cmds, c.isUpdate) → ∀ fuel, t.size + cmds.length ≤ fuel →
    ∃ w' t' lines, main.run fuel w cmds = .ok (w', lines) ∧ Inv w' t' ∧
      lines.length = cmds.length ∧
      ((∀ a s, w.mem a = some s → Cached s) → ∀ a s, w'.mem a = some s → Cached s) ∧
      ((∀ c ∈ cmds, c.nonneg) → (∀ a s, w.mem a = some s → NonNeg s) →
        ∀ a s, w'.mem a = some s → NonNeg s) := by
  intro cmds
  induction cmds with
  | nil =>
    intro w t hI _ fuel _
    exact ⟨w, t, [], rfl, hI, rfl, fun x => x, fun _ x => x⟩
  | cons c cs ih =>
    intro w t hI hu fuel hf
    simp only [List.length_cons] at hf
    obtain ⟨w1, t1, line, hstep, hI1, hsz, hC1, hN1⟩ :=
      step_update hI c (hu c (List.mem_cons_self _ _)) fuel (by omega)
    obtain ⟨w2, t2, lines, hrun, hI2, hlen, hC2, hN2⟩ :=
      ih hI1 (fun x hx => hu x (List.mem_cons_of_mem _ hx)) fuel (by omega)
    refine ⟨w2, t2, line :: lines, ?_, hI2, by simp [hlen], fun h => hC2 (hC1 h),
      fun hn h => hN2 (fun x hx => hn x (List.mem_cons_of_mem _ hx))
        (hN1 (hn c (List.mem_cons_self _ _)) h)⟩
    simp only [main.run, hstep, hrun]

theorem Inv.init : Inv State.init Tree.nil := by
  refine ⟨⟨?_, List.Pairwise.nil⟩, fun _ _ => rfl⟩
  simp [State.init, InitialiseBST, Shape]

theorem Shape.unique {m : Heap} : ∀ {t t' : Tree} {p par par' : Option Nat},
    Shape m t p par → Shape m t' p par' → t' = t := by
  intro t
  induction t with
  | nil =>
    intro t' p par par' h h'
    cases t' with
    | nil => rfl
    | node l a r =>
      have h0 : p = none := h
      rw [h0] at h'
      exact absurd h'.1 (by simp)
  | node l a r ihl ihr =>
    intro t' p par par' h h'
    obtain ⟨hp, s, hs, _, hl, hr⟩ := h
    cases t' with
    | nil =>
      have h0 : p = none := h'
      rw [h0] at hp
      cases hp
    | node l' a' r' =>
      obtain ⟨hp', s', hs', _, hl', hr'⟩ := h'
      rw [hp] at hp'
      cases hp'
      rw [hs] at hs'
      cases hs'
      rw [ihl hl hl', ihr hr hr']

theorem IsMaxOf.eq_fleetMax {x : Int} {l : List Int} (h : IsMaxOf x l)
    (hn : ∀ c ∈ l, 0 ≤ c) : x = fleetMax l := by
  by_cases e : l = []
  · rw [h.1 e, e]; rfl
  · obtain ⟨h1, h2⟩ := h.2 e
    have h3 := fleetMax_mem l e hn
    have h4 := fleetMax_ge l x h1
    have h5 := h2 _ h3
    omega

theorem stateA_inv : Inv stateA scenarioA_tree := by
  refine ⟨scenarioA_index, fun a ha => ?_⟩
  have h4 : 4 ≤ a := ha
  show scenarioA a = none
  unfold scenarioA
  split <;> first | omega | rfl

/-- C8 (ordering invariant): from the empty index, every finite sequence of commands
other than `plan-route` (in particular every sequence of `add-station` and
`demolish-station`) runs to its end, the memory then holds exactly one tree at
`T->root`, and the distances met by its symmetric-order walk increase strictly. -/
theorem ordering_invariant (cmds : List Command) (hu : ∀ c ∈ cmds, c.isUpdate)
    (fuel : Nat) (hf : cmds.length ≤ fuel) :
    ∃ w lines t, main.run fuel State.init cmds = .ok (w, lines) ∧
      Shape w.mem t w.T.root none ∧
      (∀ t', Shape w.mem t' w.T.root none → t' = t) ∧
      (t.inorder.map (distanceOf w.mem)).Pairwise (· < ·) := by
  obtain ⟨w, t, lines, hrun, hI, _, _, _⟩ :=
    run_update cmds Inv.init hu fuel (by simp [Tree.size]; exact hf)
  exact ⟨w, lines, t, hrun, hI.index.1, fun t' h' => Shape.unique hI.index.1 h', hI.index.2⟩

theorem ordering_invariant_witness :
    (∀ c ∈ ordering_cmds, c.isUpdate) ∧ ordering_cmds.length ≤ 7 ∧
    (main.run 7 State.init ordering_cmds).map Prod.snd
      = .ok [.added, .added, .not_added, .added, .demolished, .added, .not_demolished] ∧
    ∃ w lines t, main.run 7 State.init ordering_cmds = .ok (w, lines) ∧
      Shape w.mem t w.T.root none ∧
      (∀ t', Shape w.mem t' w.T.root none → t' = t) ∧
      (t.inorder.map (distanceOf w.mem)).Pairwise (· < ·) :=
  have hu : ∀ c ∈ ordering_cmds, c.isUpdate := by
    intro c hc
    simp only [ordering_cmds, List.mem_cons, List.mem_singleton, List.not_mem_nil,
      or_false] at hc
    rcases hc with rfl | rfl | rfl | rfl | rfl | rfl | rfl <;> trivial
  ⟨hu, by decide, rfl, ordering_invariant ordering_cmds hu 7 (by decide)⟩

/-- C9 (add/find round trip): on a station index without a station at distance `d`,
`add-station d fleet` with non-negative autonomies prints `added`; afterwards
`SearchStationBST` finds at `d` a station of distance `d` whose `max_car` is the maximum
of `fleet` (`0` for the empty fleet) and whose list of cars is a permutation of `fleet`;
and every distance at which a station was found before is found at the same station. -/
theorem add_find_round_trip {w : State} {t : Tree} (hI : Inv w t) (d : Int)
    (fleet : List Int) (hd : ∀ a ∈ t.inorder, distanceOf w.mem a ≠ d)
    (hfleet : ∀ c ∈ fleet, 0 ≤ c) (fuel : Nat) (hf : t.size + 1 < fuel) :
    ∃ w' z s, main.step fuel w (.add_station d fleet) = .ok (w', .added) ∧
      SearchStationBST fuel w'.mem w'.T d = .ok (some z) ∧
      w'.mem z = some s ∧ s.distance = d ∧ IsMaxOf s.max_car fleet ∧
      s.list_cars.Perm fleet ∧
      ∀ e a, SearchStationBST fuel w.mem w.T e = .ok (some a) →
        SearchStationBST fuel w'.mem w'.T e = .ok (some a) := by
  obtain ⟨w', t', hrun, hI', hsz, hmem, ⟨s, hs, hsd, hcars, hmax⟩, hfr⟩ :=
    (add_station_step hI d fleet fuel (by omega)).2 hd
  have hdist : distanceOf w'.mem w.brk = d := by simp [distanceOf, hs, hsd]
  refine ⟨w', w.brk, s, hrun, ?_, hs, hsd, ?_, ?_, ?_⟩
  · exact (hI'.search d fuel (by omega)).2 w.brk ((hmem _).2 (Or.inl rfl)) hdist
  · rw [hmax]
    exact IsMaxOf.of_fleetMax hfleet
  · rw [hcars]
    exact List.reverse_perm fleet
  · intro e a ha
    obtain ⟨res, hres, hsome, _⟩ := SearchStationBST_spec hI.index e fuel (by omega)
    rw [hres] at ha
    cases ha
    obtain ⟨hat, hae⟩ := hsome a rfl
    have hab : a ≠ w.brk := fun h => hI.not_mem_brk w.brk (le_refl _) (h ▸ hat)
    obtain ⟨sa, hsa⟩ := hI.index.1.alloc_of a hat
    obtain ⟨sa', hsa', hsame⟩ := (hfr a hab).2 sa hsa
    refine (hI'.search e fuel (by omega)).2 a ((hmem _).2 (Or.inr hat)) ?_
    rw [← hae]
    simp [distanceOf, hsa, hsa', hsame.1]

theorem add_find_round_trip_witness :
    (∀ a ∈ scenarioA_tree.inorder, distanceOf stateA.mem a ≠ 3) ∧
    (∀ c ∈ [5, 1, 5], (0 : Int) ≤ c) ∧ scenarioA_tree.size + 1 < 6 ∧
    ∃ w' z s, main.step 6 stateA (.add_station 3 [5, 1, 5]) = .ok (w', .added) ∧
      SearchStationBST 6 w'.mem w'.T 3 = .ok (some z) ∧
      w'.mem z = some s ∧ s.distance = 3 ∧ IsMaxOf s.max_car [5, 1, 5] ∧
      s.list_cars.Perm [5, 1, 5] ∧
      ∀ e a, SearchStationBST 6 stateA.mem stateA.T e = .ok (some a) →
        SearchStationBST 6 w'.mem w'.T e = .ok (some a) :=
  have hd : ∀ a ∈ scenarioA_tree.inorder, distanceOf stateA.mem a ≠ 3 := by
    intro a ha
    simp only [scenarioA_tree, Tree.inorder, List.nil_append, List.cons_append,
      List.mem_cons, List.mem_singleton, List.not_mem_nil, or_false] at ha
    rcases ha with rfl | rfl | rfl | rfl <;> simp [distanceOf, stateA, scenarioA]
  have hfl : ∀ c ∈ [5, 1, 5], (0 : Int) ≤ c := by decide
  ⟨hd, hfl, by decide, add_find_round_trip stateA_inv 3 [5, 1, 5] hd hfl 6 (by decide)⟩

/-- C10 (cache of the maximum autonomy): on a station index in which every `max_car` is
the maximum of the station's fleet (`0` when it is empty) and no autonomy is negative,
every sequence of commands other than `plan-route` that adds no negative autonomy (in
particular every sequence of `add-car` and `scrap-car` at one station, with repeated
maxima and with removals of absent autonomies) runs to its end, and after each of its
commands every station has again `max_car` equal to the maximum of its surviving fleet,
`0` when the fleet is empty. -/
theorem max_range_cache_consistent {w : State} {t : Tree} (hI : Inv w t)
    (hC : ∀ a s, w.mem a = some s → IsMaxOf s.max_car s.list_cars ∧ NonNeg s)
    (cmds : List Command) (hu : ∀ c ∈ cmds, c.isUpdate ∧ c.nonneg) (fuel : Nat)
    (hf : t.size + cmds.length ≤ fuel) (n : Nat) :
    ∃ w' lines, main.run fuel w (cmds.take n) = .ok (w', lines) ∧
      ∀ a s, w'.mem a = some s → IsMaxOf s.max_car s.list_cars ∧ NonNeg s := by
  have hlen : (cmds.take n).length ≤ cmds.length := by
    rw [List.length_take]; exact Nat.min_le_right _ _
  obtain ⟨w', _, lines, hrun, _, _, hC', hN'⟩ :=
    run_update (cmds.take n) hI (fun c hc => (hu c (List.mem_of_mem_take hc)).1) fuel
      (by omega)
  have hN := hN' (fun c hc => (hu c (List.mem_of_mem_take hc)).2) (fun a s hs => (hC a s hs).2)
  have hCa := hC' (fun a s hs => (hC a s hs).1.eq_fleetMax (hC a s hs).2)
  refine ⟨w', lines, hrun, fun a s hs => ⟨?_, hN a s hs⟩⟩
  have h1 : s.max_car = fleetMax s.list_cars := hCa a s hs
  rw [h1]
  exact IsMaxOf.of_fleetMax (hN a s hs)

theorem max_range_cache_consistent_witness :
    (∀ a s, stateA.mem a = some s → IsMaxOf s.max_car s.list_cars ∧ NonNeg s) ∧
    (∀ c ∈ cache_cmds, c.isUpdate ∧ c.nonneg) ∧
    scenarioA_tree.size + cache_cmds.length ≤ 11 ∧
    (main.run 11 stateA cache_cmds).map Prod.snd
      = .ok [.added, .scrapped, .scrapped, .not_scrapped, .not_added, .scrapped, .added] ∧
    ∃ w' lines, main.run 11 stateA (cache_cmds.take 3) = .ok (w', lines) ∧
      ∀ a s, w'.mem a = some s → IsMaxOf s.max_car s.list_cars ∧ NonNeg s :=
  have hC : ∀ a s, stateA.mem a = some s → IsMaxOf s.max_car s.list_cars ∧ NonNeg s := by
    intro a s hs
    have hs' : scenarioA a = some s := hs
    unfold scenarioA at hs'
    split at hs' <;> first
      | (cases hs'; exact ⟨⟨by simp, fun _ => ⟨by simp, by simp⟩⟩, by simp [NonNeg]⟩)
      | cases hs'
  have hu : ∀ c ∈ cache_cmds, c.isUpdate ∧ c.nonneg := by
    intro c hc
    simp only [cache_cmds, List.mem_cons, List.mem_singleton, List.not_mem_nil,
      or_false] at hc
    rcases hc with rfl | rfl | rfl | rfl | rfl | rfl | rfl <;>
      exact ⟨trivial, by simp [Command.nonneg]⟩
  ⟨hC, hu, by decide, rfl,
    max_range_cache_consistent stateA_inv hC cache_cmds hu 11 (by decide) 3⟩

/-- Lookup of a distance in a station index. -/
theorem IsIndex.find {m : Heap} {T : bst_t} {t : Tree} (hI : IsIndex m T.root t) (d : Int)
    (fuel : Nat) (hf : t.size < fuel) :
    ((∀ a ∈ t.inorder, distanceOf m a ≠ d) → SearchStationBST fuel m T d = .ok none) ∧
    (∀ z ∈ t.inorder, distanceOf m z = d → SearchStationBST fuel m T d = .ok (some z)) := by
  obtain ⟨res, hres, hsome, hnone⟩ := SearchStationBST_spec hI d fuel hf
  constructor
  · intro habs
    cases res with
    | none => exact hres
    | some b =>
      obtain ⟨hb, hd⟩ := hsome b rfl
      exact absurd hd (habs b hb)
  · intro z hz hd
    cases res with
    | none => exact absurd hd (hnone rfl z hz)
    | some b =>
      obtain ⟨hb, hbd⟩ := hsome b rfl
      rw [hres, hI.mem_unique hb hz (hbd.trans hd.symm)]

/-- Distances of the stations that `DemolishStationBST` leaves. -/
theorem distanceOf_of_unlink {m m' : Heap} {b : Nat}
    (h : (m' b).map unlink = (m b).map unlink) : distanceOf m' b = distanceOf m b := by
  unfold distanceOf
  cases h1 : m' b with
  | none =>
    cases h2 : m b with
    | none => rfl
    | some s => rw [h1, h2] at h; simp at h
  | some s' =>
    obtain ⟨s, hs, hsd⟩ := SameData.of_map_unlink h h1
    rw [hs]
    exact hsd.1

/-- Symmetric-order distances after a removal: those before, without the distance of the
station removed. -/
theorem distances_remove {m m' : Heap} {root : Option Nat} {t : Tree}
    (hI : IsIndex m root t) {z : Nat} (hz : z ∈ t.inorder)
    (hdata : ∀ b, b ≠ z → (m' b).map unlink = (m b).map unlink) :
    (Tree.remove z t).inorder.map (distanceOf m')
      = (t.inorder.map (distanceOf m)).erase (distanceOf m z) := by
  rw [Tree.inorder_remove z t hI.nodup]
  have hinj : ∀ a ∈ t.inorder, distanceOf m a = distanceOf m z → a = z :=
    fun a ha e => hI.mem_unique ha hz e
  have hnd := hI.nodup
  generalize t.inorder = L at hinj hnd
  induction L with
  | nil => rfl
  | cons a rest ih =>
    have hnd' := List.nodup_cons.1 hnd
    by_cases e : a = z
    · subst e
      simp only [List.erase_cons_head, List.map_cons]
      refine List.map_congr_left (fun b hb => ?_)
      exact distanceOf_of_unlink (hdata b (fun h => hnd'.1 (h ▸ hb)))
    · have hne : distanceOf m a ≠ distanceOf m z :=
        fun h => e (hinj a (List.mem_cons_self _ _) h)
      rw [List.erase_cons_tail (by simpa using e), List.map_cons, List.map_cons,
        List.erase_cons_tail (by simpa using hne), distanceOf_of_unlink (hdata a e),
        ih (fun b hb => hinj b (List.mem_cons_of_mem _ hb)) hnd'.2]

/-- C11 (idempotent removal): on a station index with a station `z` at distance `d`,
`demolish-station d` prints `demolished` and leaves a station index whose distances are
those before without `d`; `SearchStationBST` then finds nothing at `d`, and a second
`demolish-station d` prints `not demolished` and returns the state that the first one
left, unchanged. -/
theorem idempotent_removal {w : State} {t : Tree} (hI : IsIndex w.mem w.T.root t)
    (d : Int) (z : Nat) (hz : z ∈ t.inorder) (hd : distanceOf w.mem z = d) (fuel : Nat)
    (hf : t.size < fuel) :
    ∃ w1 t1, main.step fuel w (.demolish_station d) = .ok (w1, .demolished) ∧
      IsIndex w1.mem w1.T.root t1 ∧
      t1.inorder.map (distanceOf w1.mem) = (t.inorder.map (distanceOf w.mem)).erase d ∧
      SearchStationBST fuel w1.mem w1.T d = .ok none ∧
      main.step fuel w1 (.demolish_station d) = .ok (w1, .not_demolished) := by
  obtain ⟨m', T', hrun, hidx, hfreed, hdata, _⟩ :=
    DemolishStationBST_spec hI hz fuel (by omega)
  have hsz : (Tree.remove z t).size < fuel :=
    lt_of_le_of_lt (Tree.size_remove z t hI.nodup) hf
  have hdist := distances_remove hI hz hdata
  rw [hd] at hdist
  have habs : ∀ a ∈ (Tree.remove z t).inorder, distanceOf m' a ≠ d := by
    intro a ha
    rw [Tree.inorder_remove z t hI.nodup] at ha
    have haz : a ≠ z := fun h => (List.Nodup.mem_erase_iff hI.nodup).1 (h ▸ ha) |>.1 rfl
    have hat : a ∈ t.inorder := List.mem_of_mem_erase ha
    rw [distanceOf_of_unlink (hdata a haz), ← hd]
    exact fun h => haz (hI.mem_unique hat hz h)
  have hfind : SearchStationBST fuel m' T' d = .ok none :=
    (IsIndex.find (T := T') hidx d fuel hsz).1 habs
  refine ⟨{ w with mem := m', T := T' }, Tree.remove z t, ?_, hidx, hdist, hfind, ?_⟩
  · simp only [main.step, (hI.find d fuel hf).2 z hz hd, hrun]
  · simp only [main.step, hfind]

theorem idempotent_removal_witness :
    (2 : Nat) ∈ scenarioA_tree.inorder ∧ distanceOf stateA.mem 2 = 4 ∧
    scenarioA_tree.size < 5 ∧
    (main.run 5 stateA [.demolish_station 4, .demolish_station 4]).map Prod.snd
      = .ok [.demolished, .not_demolished] ∧
    ∃ w1 t1, main.step 5 stateA (.demolish_station 4) = .ok (w1, .demolished) ∧
      IsIndex w1.mem w1.T.root t1 ∧
      t1.inorder.map (distanceOf w1.mem)
        = (scenarioA_tree.inorder.map (distanceOf stateA.mem)).erase 4 ∧
      SearchStationBST 5 w1.mem w1.T 4 = .ok none ∧
      main.step 5 w1 (.demolish_station 4) = .ok (w1, .not_demolished) :=
  ⟨by decide, rfl, by decide, rfl,
    idempotent_removal (w := stateA) scenarioA_index 4 2 (by decide) rfl 5 (by decide)⟩

/-- C12 (rejected operations do not mutate): on a station index, `add-station` at a
distance that a station has prints `not added`; `demolish-station`, `add-car` and
`scrap-car` at a distance that no station has print `not demolished`, `not added` and
`not scrapped`; `scrap-car` with an autonomy that the fleet of the station does not hold
prints `not scrapped`; and each of them returns the state it was given: the same memory
(stations, links, fleets, `max_car`), the same root. -/
theorem rejected_operations_do_not_mutate {w : State} {t : Tree}
    (hI : IsIndex w.mem w.T.root t) (fuel : Nat) (hf : t.size < fuel) :
    (∀ d cars, (∃ a ∈ t.inorder, distanceOf w.mem a = d) →
      main.step fuel w (.add_station d cars) = .ok (w, .not_added)) ∧
    (∀ d, (∀ a ∈ t.inorder, distanceOf w.mem a ≠ d) →
      main.step fuel w (.demolish_station d) = .ok (w, .not_demolished)) ∧
    (∀ d c, (∀ a ∈ t.inorder, distanceOf w.mem a ≠ d) →
      main.step fuel w (.add_car d c) = .ok (w, .not_added)) ∧
    (∀ d c, (∀ a ∈ t.inorder, distanceOf w.mem a ≠ d) →
      main.step fuel w (.scrap_car d c) = .ok (w, .not_scrapped)) ∧
    (∀ d c z s, z ∈ t.inorder → w.mem z = some s → s.distance = d → c ∉ s.list_cars →
      main.step fuel w (.scrap_car d c) = .ok (w, .not_scrapped)) := by
  refine ⟨?_, ?_, ?_, ?_, ?_⟩
  · rintro d cars ⟨a, ha, hd⟩
    simp only [main.step, (hI.find d fuel hf).2 a ha hd]
  · intro d habs
    simp only [main.step, (hI.find d fuel hf).1 habs]
  · intro d c habs
    simp only [main.step, (hI.find d fuel hf).1 habs]
  · intro d c habs
    simp only [main.step, (hI.find d fuel hf).1 habs]
  · intro d c z s hz hs hd hc
    have hdz : distanceOf w.mem z = d := by simp [distanceOf, hs, hd]
    have h2 : (ScrapCar s.list_cars c).2 = false := by
      cases h : (ScrapCar s.list_cars c).2 with
      | false => rfl
      | true => exact absurd ((ScrapCar_snd _ _).1 h) hc
    simp [main.step, (hI.find d fuel hf).2 z hz hdz, load_some hs, h2]

theorem rejected_operations_do_not_mutate_witness :
    scenarioA_tree.size < 5 ∧
    main.step 5 stateA (.add_station 4 [7, 7]) = .ok (stateA, .not_added) ∧
    main.step 5 stateA (.demolish_station 3) = .ok (stateA, .not_demolished) ∧
    main.step 5 stateA (.add_car 3 1) = .ok (stateA, .not_added) ∧
    main.step 5 stateA (.scrap_car 3 1) = .ok (stateA, .not_scrapped) ∧
    main.step 5 stateA (.scrap_car 4 3) = .ok (stateA, .not_scrapped) :=
  have h := rejected_operations_do_not_mutate (w := stateA) scenarioA_index 5 (by decide)
  have habs : ∀ a ∈ scenarioA_tree.inorder, distanceOf stateA.mem a ≠ 3 := by
    intro a ha
    simp only [scenarioA_tree, Tree.inorder, List.nil_append, List.cons_append,
      List.mem_cons, List.mem_singleton, List.not_mem_nil, or_false] at ha
    rcases ha with rfl | rfl | rfl | rfl <;> simp [distanceOf, stateA, scenarioA]
  ⟨by decide, h.1 4 [7, 7] ⟨2, by decide, rfl⟩, h.2.1 3 habs, h.2.2.1 3 1 habs,
    h.2.2.2.1 3 1 habs, h.2.2.2.2 4 3 2 _ (by decide) rfl rfl (by decide)⟩

/-- C13 (planner teardown): on a station index in which every station is white without
`pi` link, for two of its stations at different distances, `BfsDirect` (start before
end) and `BfsReverse` (start after end) return, route or no route, a memory equal to the
one they were given: every station is again white without `pi` link, and links,
distances, fleets and `max_car` are as before. -/
theorem planner_teardown (m : Heap) (root : Option Nat) (t : Tree) (sp sa : Nat)
    (fuel : Nat) (hI : IsIndex m root t) (hC : Clean m t.inorder) (hsp : sp ∈ t.inorder)
    (hsa : sa ∈ t.inorder) (hf : t.size < fuel) :
    (distanceOf m sp < distanceOf m sa →
      ∃ m' line, BfsDirect fuel m (some sp) (some sa) = .ok (m', line) ∧ m' = m ∧
        Clean m' t.inorder ∧ IsIndex m' root t) ∧
    (distanceOf m sa < distanceOf m sp →
      ∃ m' line, BfsReverse fuel m (some sp) (some sa) = .ok (m', line) ∧ m' = m ∧
        Clean m' t.inorder ∧ IsIndex m' root t) := by
  have hlen : t.inorder.length < fuel := by rw [inorder_length]; exact hf
  constructor
  · intro hlt
    obtain ⟨i, j, hij, hi, hj⟩ := hI.positions hsp hsa hlt
    obtain ⟨line, hrun, _⟩ := BfsDirect_road hI.road hC i j hij sp sa hi hj fuel hlen
    exact ⟨m, line, hrun, rfl, hC, hI⟩
  · intro hlt
    obtain ⟨i, j, hij, hi, hj⟩ := hI.positions hsa hsp hlt
    obtain ⟨line, hrun, _⟩ := BfsReverse_road hI.road hC i j hij sp sa hj hi fuel hlen
    exact ⟨m, line, hrun, rfl, hC, hI⟩

theorem planner_teardown_witness :
    BfsDirect 5 scenarioA (some 1) (some 3) = .ok (scenarioA, .route [0, 4, 6]) ∧
    BfsReverse 5 scenarioA (some 3) (some 1) = .ok (scenarioA, .route [6, 4, 0]) ∧
    (∃ m' line, BfsDirect 4 scenarioB (some 0) (some 2) = .ok (m', line) ∧
      m' = scenarioB ∧ Clean m' scenarioB_tree.inorder ∧
      IsIndex m' (some 0) scenarioB_tree) :=
  have hA := planner_teardown scenarioA (some 0) scenarioA_tree 1 3 5 scenarioA_index
    scenarioA_clean (by decide) (by decide) (by decide)
  have hA2 := planner_teardown scenarioA (some 0) scenarioA_tree 3 1 5 scenarioA_index
    scenarioA_clean (by decide) (by decide) (by decide)
  have hB := planner_teardown scenarioB (some 0) scenarioB_tree 0 2 4 scenarioB_index
    scenarioB_clean (by decide) (by decide) (by decide)
  have e1 : (BfsDirect 5 scenarioA (some 1) (some 3)).map Prod.snd = .ok (.route [0, 4, 6]) :=
    rfl
  have e2 : (BfsReverse 5 scenarioA (some 3) (some 1)).map Prod.snd
      = .ok (.route [6, 4, 0]) := rfl
  ⟨by
    obtain ⟨m', line, hrun, hm, _⟩ := hA.1 (by decide)
    rw [hrun] at e1 ⊢
    cases e1
    rw [hm],
   by
    obtain ⟨m', line, hrun, hm, _⟩ := hA2.2 (by decide)
    rw [hrun] at e2 ⊢
    cases e2
    rw [hm],
   hB.1 (by decide)⟩

theorem scenarioD_index : IsIndex scenarioD (some 0) scenarioD_tree := by
  refine ⟨?_, ?_⟩
  · simp [Shape, scenarioD_tree, scenarioD]
  · simp [scenarioD_tree, Tree.inorder, distanceOf, scenarioD]

/-- C14 (removal preserves every other station): on a station index, `DemolishStationBST`
of a station `z` of the index returns; the memory then holds at the new root a tree with
consistent `parent` links whose symmetric-order walk is the one before without `z`, so
that its distances are those before with the distance of `z` deleted, still strictly
increasing; the cell of `z` is freed, and every other station keeps its distance, its
fleet, its `max_car` and its search fields. -/
theorem removal_preserves_other_stations {m : Heap} {T : bst_t} {t : Tree}
    (hI : IsIndex m T.root t) (z : Nat) (hz : z ∈ t.inorder) (fuel : Nat)
    (hf : t.size ≤ fuel) :
    ∃ m' T' t', DemolishStationBST fuel m T (some z) = .ok (m', T') ∧
      Shape m' t' T'.root none ∧ t'.inorder = t.inorder.erase z ∧
      t'.inorder.map (distanceOf m') = (t.inorder.map (distanceOf m)).erase (distanceOf m z) ∧
      (t'.inorder.map (distanceOf m')).Pairwise (· < ·) ∧ m' z = none ∧
      ∀ b s, b ≠ z → m b = some s → ∃ s', m' b = some s' ∧ s'.distance = s.distance ∧
        s'.list_cars = s.list_cars ∧ s'.max_car = s.max_car ∧ s'.color = s.color ∧
        s'.pi = s.pi := by
  obtain ⟨m', T', hrun, hidx, hfreed, hdata, _⟩ := DemolishStationBST_spec hI hz fuel hf
  refine ⟨m', T', Tree.remove z t, hrun, hidx.1, Tree.inorder_remove z t hI.nodup,
    distances_remove hI hz hdata, hidx.2, hfreed, ?_⟩
  intro b s hb hs
  have h := hdata b hb
  cases h' : m' b with
  | none => rw [h', hs] at h; simp at h
  | some s' =>
    obtain ⟨s0, hs0, hsd⟩ := SameData.of_map_unlink h h'
    rw [hs] at hs0
    cases hs0
    exact ⟨s', rfl, hsd.1, hsd.2.2.1, hsd.2.1, hsd.2.2.2.1, hsd.2.2.2.2⟩

theorem removal_preserves_other_stations_witness :
    (0 : Nat) ∈ scenarioD_tree.inorder ∧ scenarioD_tree.size ≤ 7 ∧
    (DemolishStationBST 7 scenarioD { root := some 0 } (some 0)).map (fun r => r.2.root)
      = .ok (some 3) ∧
    ∃ m' T' t', DemolishStationBST 7 scenarioD { root := some 0 } (some 0) = .ok (m', T') ∧
      Shape m' t' T'.root none ∧ t'.inorder = scenarioD_tree.inorder.erase 0 ∧
      t'.inorder.map (distanceOf m')
        = (scenarioD_tree.inorder.map (distanceOf scenarioD)).erase (distanceOf scenarioD 0) ∧
      (t'.inorder.map (distanceOf m')).Pairwise (· < ·) ∧ m' 0 = none ∧
      ∀ b s, b ≠ 0 → scenarioD b = some s → ∃ s', m' b = some s' ∧
        s'.distance = s.distance ∧ s'.list_cars = s.list_cars ∧ s'.max_car = s.max_car ∧
        s'.color = s.color ∧ s'.pi = s.pi :=
  ⟨by decide, by decide, rfl,
    removal_preserves_other_stations (T := { root := some 0 }) scenarioD_index 0 (by decide)
      7 (by decide)⟩

/-- C15 (in-order neighbours): on a station index (with consistent `parent` links) and
for a station `s` of it, `SuccessorBST` returns the station of least distance among those
strictly further than `s`, and `NULL` exactly when no station is further than `s`;
`PredecessorBST` returns the station of greatest distance among those strictly nearer
than `s`, and `NULL` exactly when no station is nearer. -/
theorem inorder_neighbours {m : Heap} {root : Option Nat} {t : Tree}
    (hI : IsIndex m root t) (s : Nat) (hs : s ∈ t.inorder) (fuel : Nat)
    (hf : t.size < fuel) :
    (∃ r, SuccessorBST fuel m (some s) = .ok r ∧
      (∀ y, r = some y → y ∈ t.inorder ∧ distanceOf m s < distanceOf m y ∧
        ∀ x ∈ t.inorder, distanceOf m s < distanceOf m x →
          distanceOf m y ≤ distanceOf m x) ∧
      (r = none ↔ ∀ x ∈ t.inorder, distanceOf m x ≤ distanceOf m s)) ∧
    (∃ r, PredecessorBST fuel m (some s) = .ok r ∧
      (∀ y, r = some y → y ∈ t.inorder ∧ distanceOf m y < distanceOf m s ∧
        ∀ x ∈ t.inorder, distanceOf m x < distanceOf m s →
          distanceOf m x ≤ distanceOf m y) ∧
      (r = none ↔ ∀ x ∈ t.inorder, distanceOf m s ≤ distanceOf m x)) := by
  have hR := hI.road
  have hlen : t.inorder.length < fuel := by rw [inorder_length]; exact hf
  obtain ⟨i, hi⟩ := List.mem_iff_getElem?.1 hs
  have hil : i < t.inorder.length := (List.getElem?_eq_some.1 hi).1
  constructor
  · refine ⟨_, hR.succ m (SameTree.refl m) i s hi fuel hlen, ?_, ?_⟩
    · intro y hy
      have hym : y ∈ t.inorder := List.mem_iff_getElem?.2 ⟨i + 1, hy⟩
      refine ⟨hym, hR.dist_lt hi hy (by omega), fun x hx hlt => ?_⟩
      obtain ⟨j, hj⟩ := List.mem_iff_getElem?.1 hx
      have := hR.pos_lt hi hj hlt
      exact hR.dist_le hy hj (by omega)
    · constructor
      · intro hnone x hx
        obtain ⟨j, hj⟩ := List.mem_iff_getElem?.1 hx
        have hjl : j < t.inorder.length := (List.getElem?_eq_some.1 hj).1
        have := List.getElem?_eq_none_iff.1 hnone
        exact hR.dist_le hj hi (by omega)
      · intro hall
        by_contra hne
        obtain ⟨y, hy⟩ := Option.ne_none_iff_exists'.1 hne
        have hym : y ∈ t.inorder := List.mem_iff_getElem?.2 ⟨i + 1, hy⟩
        have h1 := hR.dist_lt hi hy (by omega)
        have h2 := hall y hym
        omega
  · refine ⟨_, hR.pred m (SameTree.refl m) i s hi fuel hlen, ?_, ?_⟩
    · intro y hy
      have hi0 : i ≠ 0 := by
        intro h0
        rw [if_pos h0] at hy
        cases hy
      rw [if_neg hi0] at hy
      have hym : y ∈ t.inorder := List.mem_iff_getElem?.2 ⟨i - 1, hy⟩
      refine ⟨hym, hR.dist_lt hy hi (by omega), fun x hx hlt => ?_⟩
      obtain ⟨j, hj⟩ := List.mem_iff_getElem?.1 hx
      have := hR.pos_lt hj hi hlt
      exact hR.dist_le hj hy (by omega)
    · constructor
      · intro hnone x hx
        obtain ⟨j, hj⟩ := List.mem_iff_getElem?.1 hx
        by_cases hi0 : i = 0
        · exact hR.dist_le hi hj (by omega)
        · rw [if_neg hi0] at hnone
          have := List.getElem?_eq_none_iff.1 hnone
          omega
      · intro hall
        by_cases hi0 : i = 0
        · rw [if_pos hi0]
        · exfalso
          have hil' : i - 1 < t.inorder.length := by omega
          have hy : t.inorder[i - 1]? = some (t.inorder[i - 1]) := List.getElem?_eq_getElem hil'
          have hym : t.inorder[i - 1] ∈ t.inorder := List.getElem_mem hil'
          have h1 := hR.dist_lt hy hi (by omega)
          have h2 := hall _ hym
          omega

theorem inorder_neighbours_witness :
    (3 : Nat) ∈ scenarioD_tree.inorder ∧ scenarioD_tree.size < 7 ∧
    SuccessorBST 7 scenarioD (some 3) = .ok (some 5) ∧
    PredecessorBST 7 scenarioD (some 3) = .ok (some 0) ∧
    SuccessorBST 7 scenarioD (some 4) = .ok none ∧
    PredecessorBST 7 scenarioD (some 1) = .ok none ∧
    ((∃ r, SuccessorBST 7 scenarioD (some 3) = .ok r ∧
      (∀ y, r = some y → y ∈ scenarioD_tree.inorder ∧
        distanceOf scenarioD 3 < distanceOf scenarioD y ∧
        ∀ x ∈ scenarioD_tree.inorder, distanceOf scenarioD 3 < distanceOf scenarioD x →
          distanceOf scenarioD y ≤ distanceOf scenarioD x) ∧
      (r = none ↔ ∀ x ∈ scenarioD_tree.inorder,
        distanceOf scenarioD x ≤ distanceOf scenarioD 3)) ∧
    (∃ r, PredecessorBST 7 scenarioD (some 3) = .ok r ∧
      (∀ y, r = some y → y ∈ scenarioD_tree.inorder ∧
        distanceOf scenarioD y < distanceOf scenarioD 3 ∧
        ∀ x ∈ scenarioD_tree.inorder, distanceOf scenarioD x < distanceOf scenarioD 3 →
          distanceOf scenarioD x ≤ distanceOf scenarioD y) ∧
      (r = none ↔ ∀ x ∈ scenarioD_tree.inorder,
        distanceOf scenarioD 3 ≤ distanceOf scenarioD x))) :=
  ⟨by decide, by decide, rfl, rfl, rfl, rfl,
    inorder_neighbours scenarioD_index 3 (by decide) 7 (by decide)⟩

/-- C16 (vehicle removal removes exactly one vehicle): `ScrapCar` returns true exactly
when the autonomy `r` occurs in the list; then the list it leaves is the one before
without the first occurrence of `r` from the head (where `AddCar` puts the newest car),
every other car, later copies of `r` included, staying in place; when it returns false
the list is the one before. In particular a car just added is the one removed. -/
theorem scrap_car_removes_one (l : List Int) (r : Int) :
    ((ScrapCar l r).2 = true ↔ r ∈ l) ∧
    (r ∈ l → ∃ pre post, l = pre ++ r :: post ∧ r ∉ pre ∧
      ScrapCar l r = (pre ++ post, true)) ∧
    (r ∉ l → ScrapCar l r = (l, false)) ∧
    ScrapCar (AddCar l r) r = (l, true) := by
  refine ⟨ScrapCar_snd l r, ?_, ?_, by simp [AddCar, ScrapCar]⟩
  · intro h
    induction l with
    | nil => simp at h
    | cons a rest ih =>
      by_cases e : a = r
      · subst e
        exact ⟨[], rest, rfl, by simp, by simp [ScrapCar]⟩
      · have hr : r ∈ rest := by
          rcases List.mem_cons.1 h with h1 | h1
          · exact absurd h1.symm e
          · exact h1
        obtain ⟨pre, post, h1, h2, h3⟩ := ih hr
        refine ⟨a :: pre, post, by rw [h1]; rfl, ?_, ?_⟩
        · simp only [List.mem_cons, not_or]
          exact ⟨fun h => e h.symm, h2⟩
        · simp only [ScrapCar, ne_eq, e, not_false_eq_true, if_true, h3]
          rfl
  · intro h
    induction l with
    | nil => rfl
    | cons a rest ih =>
      have hne : a ≠ r := fun e => h (e ▸ List.mem_cons_self _ _)
      have hr : r ∉ rest := fun h1 => h (List.mem_cons_of_mem _ h1)
      simp only [ScrapCar, ne_eq, hne, not_false_eq_true, if_true, ih hr]

theorem BfsDirect.walkLog_erase (fuel : Nat) (s_a curr : Option Nat) :
    ∀ n m q ex r log,
      (BfsDirect.walkLog fuel s_a curr n m q ex r log).map dropLog
        = BfsDirect.walk fuel s_a curr n m q ex r := by
  intro n
  induction n with
  | zero => intros; rfl
  | succ n ih =>
    intro m q ex r log
    simp only [BfsDirect.walkLog, BfsDirect.walk]
    by_cases hex : ex = true
    · simp only [hex, if_true]; rfl
    · simp only [hex, if_false]
      cases h1 : load m curr with
      | error e => rfl
      | ok sc =>
        cases h2 : load m r with
        | error e => rfl
        | ok sr =>
          simp only []
          by_cases hin : sc.max_car ≥ wrap32 (sr.distance - sc.distance)
          · simp only [hin, if_true]
            by_cases hw : sr.color = 'w'
            · simp only [hw, if_true]
              cases h3 : modify m r (fun s => { s with color := 'g', pi := curr }) with
              | error e => rfl
              | ok m1 =>
                simp only []
                cases h4 : load m1 s_a with
                | error e => rfl
                | ok sa =>
                  simp only []
                  by_cases hd : sr.distance = sa.distance
                  · simp only [hd, if_true]
                    exact ih _ _ _ _ _
                  · simp only [hd, if_false]
                    cases h5 : SuccessorBST fuel m1 r with
                    | error e => rfl
                    | ok r1 => exact ih _ _ _ _ _
            · simp only [hw, if_false]
              cases h4 : load m s_a with
              | error e => rfl
              | ok sa =>
                simp only []
                by_cases hd : sr.distance = sa.distance
                · simp only [hd, if_true]
                  exact ih _ _ _ _ _
                · simp only [hd, if_false]
                  cases h5 : SuccessorBST fuel m r with
                  | error e => rfl
                  | ok r1 => exact ih _ _ _ _ _
          · simp only [hin, if_false]; rfl

theorem BfsDirect.searchLog_erase (fuel : Nat) (s_a : Option Nat) :
    ∀ n m q ex log,
      (BfsDirect.searchLog fuel s_a n m q ex log).map dropLog
        = BfsDirect.search fuel s_a n m q ex := by
  intro n
  induction n with
  | zero => intros; rfl
  | succ n ih =>
    intro m q ex log
    simp only [BfsDirect.searchLog, BfsDirect.search]
    by_cases hc : ex = false ∧ q ≠ []
    · simp only [hc, if_true, ne_eq, not_false_eq_true, and_self]
      cases h1 : Dequeue q with
      | error e => rfl
      | ok cq =>
        obtain ⟨c, q1⟩ := cq
        simp only []
        cases h2 : SuccessorBST fuel m c with
        | error e => rfl
        | ok r =>
          simp only []
          have he := BfsDirect.walkLog_erase fuel s_a c fuel m q1 false r log
          cases h3 : BfsDirect.walkLog fuel s_a c fuel m q1 false r log with
          | error e =>
            rw [h3] at he
            simp only [hc.1] at he ⊢
            rw [← he]; rfl
          | ok res =>
            obtain ⟨m1, q2, ex1, log1⟩ := res
            rw [h3] at he
            simp only [hc.1] at he ⊢
            rw [← he]
            exact ih _ _ _ _
    · simp only [hc, if_false]; rfl

theorem BfsReverse.visitLog_erase (s_p curr : Option Nat) (m : Heap) (q : queue_t)
    (ex : Bool) (r : Option Nat) (log : List (Option Nat)) :
    (BfsReverse.visitLog s_p curr m q ex r log).map dropLog
      = BfsReverse.visit s_p curr m q ex r := by
  simp only [BfsReverse.visitLog, BfsReverse.visit]
  cases h2 : load m r with
  | error e => rfl
  | ok sr =>
    cases h1 : load m curr with
    | error e => rfl
    | ok sc =>
      simp only []
      by_cases hin : sr.max_car ≥ wrap32 (sr.distance - sc.distance)
      · simp only [hin, if_true]
        by_cases hw : sr.color = 'w'
        · simp only [hw, if_true]
          cases h3 : modify m r (fun s => { s with color := 'g', pi := curr }) with
          | error e => rfl
          | ok m1 =>
            simp only []
            cases h4 : load m1 s_p with
            | error e => rfl
            | ok sp =>
              simp only []
              by_cases hd : sr.distance = sp.distance
              · simp only [hd, if_true]; rfl
              · simp only [hd, if_false]; rfl
        · simp only [hw, if_false]
          cases h4 : load m s_p with
          | error e => rfl
          | ok sp =>
            simp only []
            by_cases hd : sr.distance = sp.distance
            · simp only [hd, if_true]; rfl
            · simp only [hd, if_false]; rfl
      · simp only [hin, if_false]; rfl

theorem BfsReverse.walkLog_erase_rev (fuel : Nat) (s_p curr : Option Nat) :
    ∀ n m q ex r log,
      (BfsReverse.walkLog fuel s_p curr n m q ex r log).map dropLog
        = BfsReverse.walk fuel s_p curr n m q ex r := by
  intro n
  induction n with
  | zero => intros; rfl
  | succ n ih =>
    intro m q ex r log
    simp only [BfsReverse.walkLog, BfsReverse.walk]
    cases ex with
    | true => rfl
    | false =>
      simp only [Bool.false_eq_true, if_false]
      have he := BfsReverse.visitLog_erase s_p curr m q false r log
      cases h3 : BfsReverse.visitLog s_p curr m q false r log with
      | error e =>
        rw [h3] at he
        rw [← he]; rfl
      | ok res =>
        obtain ⟨m1, q1, ex1, log1⟩ := res
        rw [h3] at he
        rw [← he]
        simp only [Except.map, dropLog]
        cases h4 : SuccessorBST fuel m1 r with
        | error e => rfl
        | ok nx =>
          cases nx with
          | none => rfl
          | some next =>
            simp only []
            cases h5 : load m1 (some next) with
            | error e => rfl
            | ok sn =>
              simp only []
              cases h6 : load m1 s_p with
              | error e => rfl
              | ok sp =>
                simp only []
                by_cases hd : sn.distance > sp.distance
                · simp only [hd, if_true]
                · simp only [hd, if_false]
                  exact ih _ _ _ _ _

theorem BfsReverse.searchLog_erase_rev (fuel : Nat) (s_p : Option Nat) :
    ∀ n m q ex log,
      (BfsReverse.searchLog fuel s_p n m q ex log).map dropLog
        = BfsReverse.search fuel s_p n m q ex := by
  intro n
  induction n with
  | zero => intros; rfl
  | succ n ih =>
    intro m q ex log
    simp only [BfsReverse.searchLog, BfsReverse.search]
    by_cases hc : ex = false ∧ q ≠ []
    · simp only [hc, if_true, ne_eq, not_false_eq_true, and_self]
      cases h1 : Dequeue q with
      | error e => rfl
      | ok cq =>
        obtain ⟨c, q1⟩ := cq
        simp only []
        cases h2 : SuccessorBST fuel m c with
        | error e => rfl
        | ok r =>
          simp only []
          have he := BfsReverse.walkLog_erase_rev fuel s_p c fuel m q1 false r log
          cases h3 : BfsReverse.walkLog fuel s_p c fuel m q1 false r log with
          | error e =>
            rw [h3] at he
            simp only [hc.1] at he ⊢
            rw [← he]; rfl
          | ok res =>
            obtain ⟨m1, q2, ex1, log1⟩ := res
            rw [h3] at he
            simp only [hc.1] at he ⊢
            rw [← he]
            exact ih _ _ _ _
    · simp only [hc, if_false]; rfl

/-- A call of `Enqueue` in the searches: the station is white before and gray after, so
it is not among the stations recorded so far. -/
theorem Marked.enqueue {m m1 : Heap} {reach curr : Option Nat} {sr : station_t}
    {log : List (Option Nat)} (hl : load m reach = .ok sr) (hw : sr.color = 'w')
    (hm : modify m reach (fun s => { s with color := 'g', pi := curr }) = .ok m1)
    (hM : ∀ x ∈ log, Marked m x) (hN : log.Nodup) :
    (∀ x ∈ log ++ [reach], Marked m1 x) ∧ (log ++ [reach]).Nodup := by
  cases reach with
  | none => simp [load] at hl
  | some a =>
    have hs : m a = some sr := by
      cases h : m a with
      | none => simp [load, h] at hl
      | some s => simp [load, h] at hl; rw [hl]
    rw [modify_some hs] at hm
    cases hm
    have hnot : some a ∉ log := by
      intro hin
      obtain ⟨b, s, hb, hsb, hc⟩ := hM _ hin
      cases hb
      rw [hs] at hsb
      cases hsb
      exact hc hw
    constructor
    · intro x hx
      rcases List.mem_append.1 hx with h | h
      · obtain ⟨b, s, hb, hsb, hc⟩ := hM x h
        have hba : b ≠ a := by
          rintro rfl
          rw [hs] at hsb
          cases hsb
          exact hc hw
        exact ⟨b, s, hb, by rw [Function.update_noteq hba]; exact hsb, hc⟩
      · rw [List.mem_singleton.1 h]
        exact ⟨a, _, rfl, Function.update_same _ _ _, by simp⟩
    · rw [List.nodup_append]
      refine ⟨hN, List.nodup_singleton _, ?_⟩
      intro x hx hx'
      rw [List.mem_singleton.1 hx'] at hx
      exact hnot hx

theorem BfsDirect.walkLog_nodup (fuel : Nat) (s_a curr : Option Nat) :
    ∀ n m q ex r log m' q' ex' log',
      BfsDirect.walkLog fuel s_a curr n m q ex r log = .ok (m', q', ex', log') →
      (∀ x ∈ log, Marked m x) → log.Nodup → (∀ x ∈ log', Marked m' x) ∧ log'.Nodup := by
  intro n
  induction n with
  | zero => intro m q ex r log m' q' ex' log' h; cases h
  | succ n ih =>
    intro m q ex r log m' q' ex' log' h hM hN
    simp only [BfsDirect.walkLog] at h
    cases ex with
    | true =>
      simp only [if_true] at h
      cases h
      exact ⟨hM, hN⟩
    | false =>
      simp only [Bool.false_eq_true, if_false] at h
      cases h1 : load m curr with
      | error e => rw [h1] at h; cases h
      | ok sc =>
        cases h2 : load m r with
        | error e => rw [h1, h2] at h; cases h
        | ok sr =>
          rw [h1, h2] at h
          simp only [] at h
          by_cases hin : sc.max_car ≥ wrap32 (sr.distance - sc.distance)
          · simp only [hin, if_true] at h
            by_cases hw : sr.color = 'w'
            · simp only [hw, if_true] at h
              cases h3 : modify m r (fun s => { s with color := 'g', pi := curr }) with
              | error e => rw [h3] at h; cases h
              | ok m1 =>
                rw [h3] at h
                simp only [] at h
                obtain ⟨hM1, hN1⟩ := Marked.enqueue h2 hw h3 hM hN
                cases h4 : load m1 s_a with
                | error e => rw [h4] at h; cases h
                | ok sa =>
                  rw [h4] at h
                  simp only [] at h
                  by_cases hd : sr.distance = sa.distance
                  · simp only [hd, if_true] at h
                    exact ih _ _ _ _ _ _ _ _ _ h hM1 hN1
                  · simp only [hd, if_false] at h
                    cases h5 : SuccessorBST fuel m1 r with
                    | error e => rw [h5] at h; cases h
                    | ok r1 =>
                      rw [h5] at h
                      exact ih _ _ _ _ _ _ _ _ _ h hM1 hN1
            · simp only [hw, if_false] at h
              cases h4 : load m s_a with
              | error e => rw [h4] at h; cases h
              | ok sa =>
                rw [h4] at h
                simp only [] at h
                by_cases hd : sr.distance = sa.distance
                · simp only [hd, if_true] at h
                  exact ih _ _ _ _ _ _ _ _ _ h hM hN
                · simp only [hd, if_false] at h
                  cases h5 : SuccessorBST fuel m r with
                  | error e => rw [h5] at h; cases h
                  | ok r1 =>
                    rw [h5] at h
                    exact ih _ _ _ _ _ _ _ _ _ h hM hN
          · simp only [hin, if_false] at h
            cases h
            exact ⟨hM, hN⟩

theorem BfsDirect.searchLog_nodup (fuel : Nat) (s_a : Option Nat) :
    ∀ n m q ex log m' q' ex' log',
      BfsDirect.searchLog fuel s_a n m q ex log = .ok (m', q', ex', log') →
      (∀ x ∈ log, Marked m x) → log.Nodup → (∀ x ∈ log', Marked m' x) ∧ log'.Nodup := by
  intro n
  induction n with
  | zero => intro m q ex log m' q' ex' log' h; cases h
  | succ n ih =>
    intro m q ex log m' q' ex' log' h hM hN
    simp only [BfsDirect.searchLog] at h
    by_cases hc : ex = false ∧ q ≠ []
    · simp only [hc, if_true, ne_eq, not_false_eq_true, and_self] at h
      cases h1 : Dequeue q with
      | error e => rw [h1] at h; cases h
      | ok cq =>
        obtain ⟨c, q1⟩ := cq
        rw [h1] at h
        simp only [] at h
        cases h2 : SuccessorBST fuel m c with
        | error e => rw [h2] at h; cases h
        | ok r =>
          rw [h2] at h
          simp only [] at h
          cases h3 : BfsDirect.walkLog fuel s_a c fuel m q1 false r log with
          | error e => rw [h3] at h; cases h
          | ok res =>
            obtain ⟨m1, q2, ex1, log1⟩ := res
            rw [h3] at h
            obtain ⟨hM1, hN1⟩ := BfsDirect.walkLog_nodup fuel s_a c _ _ _ _ _ _ _ _ _ _ h3 hM hN
            exact ih _ _ _ _ _ _ _ _ h hM1 hN1
    · simp only [hc, if_false] at h
      cases h
      exact ⟨hM, hN⟩

theorem BfsReverse.visitLog_nodup (s_p curr : Option Nat) (m : Heap) (q : queue_t)
    (ex : Bool) (r : Option Nat) (log : List (Option Nat)) (m' : Heap) (q' : queue_t)
    (ex' : Bool) (log' : List (Option Nat))
    (h : BfsReverse.visitLog s_p curr m q ex r log = .ok (m', q', ex', log'))
    (hM : ∀ x ∈ log, Marked m x) (hN : log.Nodup) :
    (∀ x ∈ log', Marked m' x) ∧ log'.Nodup := by
  simp only [BfsReverse.visitLog] at h
  cases h2 : load m r with
  | error e => rw [h2] at h; cases h
  | ok sr =>
    cases h1 : load m curr with
    | error e => rw [h2, h1] at h; cases h
    | ok sc =>
      rw [h2, h1] at h
      simp only [] at h
      by_cases hin : sr.max_car ≥ wrap32 (sr.distance - sc.distance)
      · simp only [hin, if_true] at h
        by_cases hw : sr.color = 'w'
        · simp only [hw, if_true] at h
          cases h3 : modify m r (fun s => { s with color := 'g', pi := curr }) with
          | error e => rw [h3] at h; cases h
          | ok m1 =>
            rw [h3] at h
            simp only [] at h
            obtain ⟨hM1, hN1⟩ := Marked.enqueue h2 hw h3 hM hN
            cases h4 : load m1 s_p with
            | error e => rw [h4] at h; cases h
            | ok sp =>
              rw [h4] at h
              simp only [] at h
              by_cases hd : sr.distance = sp.distance
              · simp only [hd, if_true] at h
                cases h
                exact ⟨hM1, hN1⟩
              · simp only [hd, if_false] at h
                cases h
                exact ⟨hM1, hN1⟩
        · simp only [hw, if_false] at h
          cases h4 : load m s_p with
          | error e => rw [h4] at h; cases h
          | ok sp =>
            rw [h4] at h
            simp only [] at h
            by_cases hd : sr.distance = sp.distance
            · simp only [hd, if_true] at h
              cases h
              exact ⟨hM, hN⟩
            · simp only [hd, if_false] at h
              cases h
              exact ⟨hM, hN⟩
      · simp only [hin, if_false] at h
        cases h
        exact ⟨hM, hN⟩

theorem BfsReverse.walkLog_nodup_rev (fuel : Nat) (s_p curr : Option Nat) :
    ∀ n m q ex r log m' q' ex' log',
      BfsReverse.walkLog fuel s_p curr n m q ex r log = .ok (m', q', ex', log') →
      (∀ x ∈ log, Marked m x) → log.Nodup → (∀ x ∈ log', Marked m' x) ∧ log'.Nodup := by
  intro n
  induction n with
  | zero => intro m q ex r log m' q' ex' log' h; cases h
  | succ n ih =>
    intro m q ex r log m' q' ex' log' h hM hN
    simp only [BfsReverse.walkLog] at h
    cases ex with
    | true =>
      simp only [if_true] at h
      cases h
      exact ⟨hM, hN⟩
    | false =>
      simp only [Bool.false_eq_true, if_false] at h
      cases h3 : BfsReverse.visitLog s_p curr m q false r log with
      | error e => rw [h3] at h; cases h
      | ok res =>
        obtain ⟨m1, q1, ex1, log1⟩ := res
        rw [h3] at h
        simp only [] at h
        obtain ⟨hM1, hN1⟩ := BfsReverse.visitLog_nodup _ _ _ _ _ _ _ _ _ _ _ h3 hM hN
        cases h4 : SuccessorBST fuel m1 r with
        | error e => rw [h4] at h; cases h
        | ok nx =>
          rw [h4] at h
          cases nx with
          | none =>
            simp only [] at h
            cases h
            exact ⟨hM1, hN1⟩
          | some next =>
            simp only [] at h
            cases h5 : load m1 (some next) with
            | error e => rw [h5] at h; cases h
            | ok sn =>
              rw [h5] at h
              simp only [] at h
              cases h6 : load m1 s_p with
              | error e => rw [h6] at h; cases h
              | ok sp =>
                rw [h6] at h
                simp only [] at h
                by_cases hd : sn.distance > sp.distance
                · simp only [hd, if_true] at h
                  cases h
                  exact ⟨hM1, hN1⟩
                · simp only [hd, if_false] at h
                  exact ih _ _ _ _ _ _ _ _ _ h hM1 hN1

theorem BfsReverse.searchLog_nodup_rev (fuel : Nat) (s_p : Option Nat) :
    ∀ n m q ex log m' q' ex' log',
      BfsReverse.searchLog fuel s_p n m q ex log = .ok (m', q', ex', log') →
      (∀ x ∈ log, Marked m x) → log.Nodup → (∀ x ∈ log', Marked m' x) ∧ log'.Nodup := by
  intro n
  induction n with
  | zero => intro m q ex log m' q' ex' log' h; cases h
  | succ n ih =>
    intro m q ex log m' q' ex' log' h hM hN
    simp only [BfsReverse.searchLog] at h
    by_cases hc : ex = false ∧ q ≠ []
    · simp only [hc, if_true, ne_eq, not_false_eq_true, and_self] at h
      cases h1 : Dequeue q with
      | error e => rw [h1] at h; cases h
      | ok cq =>
        obtain ⟨c, q1⟩ := cq
        rw [h1] at h
        simp only [] at h
        cases h2 : SuccessorBST fuel m c with
        | error e => rw [h2] at h; cases h
        | ok r =>
          rw [h2] at h
          simp only [] at h
          cases h3 : BfsReverse.walkLog fuel s_p c fuel m q1 false r log with
          | error e => rw [h3] at h; cases h
          | ok res =>
            obtain ⟨m1, q2, ex1, log1⟩ := res
            rw [h3] at h
            obtain ⟨hM1, hN1⟩ :=
              BfsReverse.walkLog_nodup_rev fuel s_p c _ _ _ _ _ _ _ _ _ _ h3 hM hN
            exact ih _ _ _ _ _ _ _ _ h hM1 hN1
    · simp only [hc, if_false] at h
      cases h
      exact ⟨hM, hN⟩

/-- A loop that returns without its record returns with some record. -/
theorem ok_of_erase {r : Except Fault (Heap × queue_t × Bool × List (Option Nat))}
    {m : Heap} {q : queue_t} {ex : Bool} (h : r.map dropLog = .ok (m, q, ex)) :
    ∃ log, r = .ok (m, q, ex, log) := by
  cases r with
  | error e => cases h
  | ok res =>
    obtain ⟨m1, q1, ex1, log1⟩ := res
    simp only [Except.map, dropLog, Except.ok.injEq, Prod.mk.injEq] at h
    obtain ⟨rfl, rfl, rfl⟩ := h
    exact ⟨log1, rfl⟩

/-- Search loop of `BfsDirect` on a clean index, from the station at position `p` to the
one at position `e`: it returns, having discovered the stations at positions `p..hi`. -/
theorem BfsDirect.search_phase {m0 : Heap} {L : List Nat} (hR : Road m0 L) (hC : Clean m0 L)
    (p e : Nat) (hpe : p < e) (sp sa : Nat) (hsp : L[p]? = some sp) (hsa : L[e]? = some sa)
    (f : Nat) (hf : L.length < f) :
    ∃ s0 m2 q2 hi, m0 sp = some s0 ∧
      BfsDirect.search f (some sa) f (Function.update m0 sp (some { s0 with color := 'g' }))
        (Enqueue [] (some sp)) false = .ok (m2, q2, decide (hi = e)) ∧
      p ≤ hi ∧ hi ≤ e ∧ DInv m0 m2 L p hi := by
  have hel : e < L.length := (List.getElem?_eq_some.1 hsa).1
  obtain ⟨s0, hs0⟩ := hR.alloc sp (List.mem_iff_getElem?.2 ⟨p, hsp⟩)
  have hD0 : DInv m0 (Function.update m0 sp (some { s0 with color := 'g' })) L p p := by
    refine ⟨?_, ?_, ?_⟩
    · intro a ha
      have hne : a ≠ sp := by
        rintro rfl
        have := ha p hsp
        omega
      rw [Function.update_noteq hne]
    · intro a s hp' hs
      rw [hsp] at hp'
      cases hp'
      rw [hs0] at hs
      cases hs
      rw [Function.update_same]
    · intro i a s h1 h2
      omega
  have hq : Enqueue [] (some sp) = seg L p (p + 1) := by
    rw [seg_cons _ p (p + 1) (by omega), seg_nil _ (p + 1) (p + 1) (le_refl _), hsp]
    rfl
  obtain ⟨m2, q2, hi, hsearch, h1, h2, hD, _⟩ :=
    BfsDirect.search_direct hR hC p e hel f hf f _ p p hD0 (le_refl _) (by omega) hpe
      (fun k b j x hk1 hk2 => by omega) (by omega)
  rw [hsa, ← hq] at hsearch
  exact ⟨s0, m2, q2, hi, hs0, hsearch, h1, h2, hD⟩

/-- Search loop of `BfsReverse` on a clean index, from the end station at position `lo`
towards the start station at position `hi`: it returns, having discovered the stations
at the positions `D` and `qs`. -/
theorem BfsReverse.search_phase_rev {m0 : Heap} {L : List Nat} (hR : Road m0 L)
    (hC : Clean m0 L) (lo hi : Nat) (hlohi : lo < hi) (sp sa : Nat)
    (hsp : L[hi]? = some sp) (hsa : L[lo]? = some sa) (f : Nat) (hf : L.length < f) :
    ∃ s0 m2 D qs lvl ex, m0 sa = some s0 ∧
      BfsReverse.search f (some sp) f (Function.update m0 sa (some { s0 with color := 'g' }))
        (Enqueue [] (some sa)) false = .ok (m2, qs.map (fun i => L[i]?), ex) ∧
      RInv m0 m2 L lo hi D qs lvl ∧ hi ∉ D ∧
      ((ex = true ∧ hi ∈ qs) ∨ (ex = false ∧ qs = [])) := by
  have hhi : hi < L.length := (List.getElem?_eq_some.1 hsp).1
  obtain ⟨s0, hs0⟩ := hR.alloc sa (List.mem_iff_getElem?.2 ⟨lo, hsa⟩)
  have hI0 : RInv m0 (Function.update m0 sa (some { s0 with color := 'g' })) L lo hi [] [lo]
      (fun _ => 0) := by
    refine ⟨?_, ?_, by simp, ?_, by simp, rfl, ?_, by simp, by simp⟩
    · intro a ha
      have hne : a ≠ sa := by
        rintro rfl
        have := (ha lo hsa).2
        simp at this
      rw [Function.update_noteq hne]
    · intro i hi'
      simp at hi'
      omega
    · intro a s hp hs
      rw [hsa] at hp
      cases hp
      rw [hs0] at hs
      cases hs
      rw [Function.update_same]
    · intro i a s h1 h2
      simp at h1
      exact absurd h1 h2
  have hq : Enqueue [] (some sa) = List.map (fun i => L[i]?) [lo] := by
    simp [Enqueue, hsa]
  obtain ⟨m2, D, qs, lvl, ex, hsearch, hI, _, hhD, hex⟩ :=
    BfsReverse.search_reverse hR hC lo hi hhi f hf f _ [] [lo] (fun _ => 0) hI0 (by simp)
      (by simp; omega) (by simp) (by simp) (by simp; omega)
  rw [hsp, ← hq] at hsearch
  exact ⟨s0, m2, D, qs, lvl, ex, hs0, hsearch, hI, hhD, hex⟩

/-- Walk along `pi` after a direct search: from a discovered station the links lead,
through stations of strictly decreasing distance, to the start station, whose link is
`NULL`. -/
theorem DInv.piPath {m0 m : Heap} {L : List Nat} {p hi : Nat} (hR : Road m0 L)
    (hC : Clean m0 L) (h : DInv m0 m L p hi) {sp : Nat} (hsp : L[p]? = some sp) :
    ∀ i, p ≤ i → i ≤ hi → ∀ a, L[i]? = some a →
      ∃ xs, xs.head? = some a ∧ xs.getLast? = some sp ∧ PiPath m xs ∧
        (xs.map (distanceOf m0)).Pairwise (· > ·) ∧ (∀ x ∈ xs, x ∈ L) ∧
        ∃ s, m sp = some s ∧ s.pi = none := by
  intro i
  induction i using Nat.strong_induction_on with
  | _ i ih =>
    intro hpi hihi a hia
    have ha : a ∈ L := List.mem_iff_getElem?.2 ⟨i, hia⟩
    obtain ⟨s0, hs0⟩ := hR.alloc a ha
    rcases Nat.eq_or_lt_of_le hpi with e | e
    · subst e
      rw [hsp] at hia
      cases hia
      refine ⟨[sp], rfl, rfl, List.chain'_singleton _, by simp, by simpa using ha, _,
        h.src sp s0 hsp hs0, (hC sp ha s0 hs0).2⟩
    · obtain ⟨k, b, hkb, hpk, hki, hm, _, _⟩ := h.disc i a s0 e hihi hia hs0
      obtain ⟨xs, h1, h2, h3, h4, h5, h6⟩ := ih k hki hpk (by omega) b hkb
      refine ⟨a :: xs, rfl, ?_, ?_, ?_, ?_, h6⟩
      · cases xs with
        | nil => simp at h1
        | cons x rest => simpa using h2
      · cases xs with
        | nil => exact List.chain'_singleton _
        | cons x rest =>
          simp only [List.head?_cons, Option.some.injEq] at h1
          subst h1
          exact List.Chain'.cons ⟨_, hm, rfl⟩ h3
      · rw [List.map_cons, List.pairwise_cons]
        refine ⟨?_, h4⟩
        intro d hd
        obtain ⟨x, hx, rfl⟩ := List.mem_map.1 hd
        -- every station of `xs` is at most as far as its head `b`
        have hb : distanceOf m0 x ≤ distanceOf m0 b := by
          cases xs with
          | nil => simp at hx
          | cons y rest =>
            simp only [List.head?_cons, Option.some.injEq] at h1
            subst h1
            rcases List.mem_cons.1 hx with rfl | hx'
            · exact le_refl _
            · rw [List.map_cons, List.pairwise_cons] at h4
              exact le_of_lt (h4.1 _ (List.mem_map.2 ⟨x, hx', rfl⟩))
        have := hR.dist_lt hkb hia hki
        omega
      · intro x hx
        rcases List.mem_cons.1 hx with rfl | hx'
        · exact ha
        · exact h5 x hx'

/-- Walk along `pi` after a reverse search: from a discovered station the links lead,
through stations of strictly decreasing distance, to the end station, whose link is
`NULL`. -/
theorem RInv.piPath_rev {m0 m : Heap} {L : List Nat} {lo hi : Nat} {D qs : List Nat}
    {lvl : Nat → Nat} (hR : Road m0 L) (hC : Clean m0 L) (h : RInv m0 m L lo hi D qs lvl)
    {sa : Nat} (hsa : L[lo]? = some sa) :
    ∀ i, i ∈ D ∨ i ∈ qs → ∀ a, L[i]? = some a →
      ∃ xs, xs.head? = some a ∧ xs.getLast? = some sa ∧ PiPath m xs ∧
        (xs.map (distanceOf m0)).Pairwise (· > ·) ∧ (∀ x ∈ xs, x ∈ L) ∧
        ∃ s, m sa = some s ∧ s.pi = none := by
  intro i
  induction i using Nat.strong_induction_on with
  | _ i ih =>
    intro hG a hia
    have ha : a ∈ L := List.mem_iff_getElem?.2 ⟨i, hia⟩
    obtain ⟨s0, hs0⟩ := hR.alloc a ha
    by_cases e : i = lo
    · subst e
      rw [hsa] at hia
      cases hia
      refine ⟨[sa], rfl, rfl, List.chain'_singleton _, by simp, by simpa using ha, _,
        h.src sa s0 hsa hs0, (hC sa ha s0 hs0).2⟩
    · obtain ⟨k, b, hkb, hkD, hki, hm, _, _⟩ := h.disc i a s0 hG e hia hs0
      obtain ⟨xs, h1, h2, h3, h4, h5, h6⟩ := ih k hki (Or.inl hkD) b hkb
      refine ⟨a :: xs, rfl, ?_, ?_, ?_, ?_, h6⟩
      · cases xs with
        | nil => simp at h1
        | cons x rest => simpa using h2
      · cases xs with
        | nil => exact List.chain'_singleton _
        | cons x rest =>
          simp only [List.head?_cons, Option.some.injEq] at h1
          subst h1
          exact List.Chain'.cons ⟨_, hm, rfl⟩ h3
      · rw [List.map_cons, List.pairwise_cons]
        refine ⟨?_, h4⟩
        intro d hd
        obtain ⟨x, hx, rfl⟩ := List.mem_map.1 hd
        have hb : distanceOf m0 x ≤ distanceOf m0 b := by
          cases xs with
          | nil => simp at hx
          | cons y rest =>
            simp only [List.head?_cons, Option.some.injEq] at h1
            subst h1
            rcases List.mem_cons.1 hx with rfl | hx'
            · exact le_refl _
            · rw [List.map_cons, List.pairwise_cons] at h4
              exact le_of_lt (h4.1 _ (List.mem_map.2 ⟨x, hx', rfl⟩))
        have := hR.dist_lt hkb hia hki
        omega
      · intro x hx
        rcases List.mem_cons.1 hx with rfl | hx'
        · exact ha
        · exact h5 x hx'

/-- Stations recorded by a search that are not white lie between the positions that the
invariant of the direct search allows. -/
theorem DInv.marked {m0 m : Heap} {L : List Nat} {p hi : Nat} (hR : Road m0 L)
    (hC : Clean m0 L) (h : DInv m0 m L p hi) {i a : Nat} (hia : L[i]? = some a)
    (hM : Marked m (some a)) : p ≤ i ∧ i ≤ hi := by
  obtain ⟨b, s, hb, hs, hc⟩ := hM
  cases hb
  obtain ⟨_, s', _, hs', _, _, hw, _⟩ := h.load hR hC hia
  rw [hs] at hs'
  cases hs'
  by_contra hcon
  exact hc (hw.2 (by omega))

theorem RInv.marked_rev {m0 m : Heap} {L : List Nat} {lo hi : Nat} {D qs : List Nat}
    {lvl : Nat → Nat} (hR : Road m0 L) (hC : Clean m0 L) (h : RInv m0 m L lo hi D qs lvl)
    {i a : Nat} (hia : L[i]? = some a) (hM : Marked m (some a)) : lo ≤ i ∧ i ≤ hi := by
  obtain ⟨b, s, hb, hs, hc⟩ := hM
  cases hb
  obtain ⟨_, s', _, hs', _, _, hw, _⟩ := h.load_rev hR hC hia
  rw [hs] at hs'
  cases hs'
  by_cases hG : i ∈ D ∨ i ∈ qs
  · exact h.rng i hG
  · exact absurd (hw.2 (by tauto)) hc

theorem nodup_of_decreasing {m : Heap} {xs : List Nat}
    (h : (xs.map (distanceOf m)).Pairwise (· > ·)) : xs.Nodup := by
  have h1 : (xs.map (distanceOf m)).Nodup := h.imp (fun hab => ne_of_gt hab)
  exact List.Nodup.of_map _ h1

/-- C17 (planner termination): on a station index with clean search state and two of its
stations, with fuel above the number of stations (so every loop, the inner walks
included, ends within that many iterations), the search loop of `BfsDirect` (start
before end) returns and no station is passed to `Enqueue` twice; the walk along `pi`
from the end station passes through distinct stations and stops at a station whose `pi`
is `NULL`, which is the start station when the search reached the end and the end
station itself (no step) otherwise; and `BfsDirect` returns. The same holds for
`BfsReverse` (start after end), where the walk along `pi` leaves from the start station
and stops at the end station, the origin of that search. -/
theorem planner_termination (m : Heap) (root : Option Nat) (t : Tree) (sp sa : Nat)
    (fuel : Nat) (hI : IsIndex m root t) (hC : Clean m t.inorder) (hsp : sp ∈ t.inorder)
    (hsa : sa ∈ t.inorder) (hf : t.size < fuel) :
    (distanceOf m sp < distanceOf m sa →
      ∃ m1 m2 q ex log m' line,
        modify m (some sp) (fun s => { s with color := 'g' }) = .ok m1 ∧
        BfsDirect.search fuel (some sa) fuel m1 (Enqueue [] (some sp)) false
          = .ok (m2, q, ex) ∧
        BfsDirect.searchLog fuel (some sa) fuel m1 (Enqueue [] (some sp)) false [some sp]
          = .ok (m2, q, ex, log) ∧
        log.Nodup ∧
        (∃ xs z s, xs.head? = some sa ∧ xs.getLast? = some z ∧ PiPath m2 xs ∧ xs.Nodup ∧
          m2 z = some s ∧ s.pi = none ∧ (ex = true → z = sp) ∧ (ex = false → xs = [sa])) ∧
        BfsDirect fuel m (some sp) (some sa) = .ok (m', line)) ∧
    (distanceOf m sa < distanceOf m sp →
      ∃ m1 m2 q ex log m' line,
        modify m (some sa) (fun s => { s with color := 'g' }) = .ok m1 ∧
        BfsReverse.search fuel (some sp) fuel m1 (Enqueue [] (some sa)) false
          = .ok (m2, q, ex) ∧
        BfsReverse.searchLog fuel (some sp) fuel m1 (Enqueue [] (some sa)) false [some sa]
          = .ok (m2, q, ex, log) ∧
        log.Nodup ∧
        (∃ xs z s, xs.head? = some sp ∧ xs.getLast? = some z ∧ PiPath m2 xs ∧ xs.Nodup ∧
          m2 z = some s ∧ s.pi = none ∧ (ex = true → z = sa) ∧ (ex = false → xs = [sp])) ∧
        BfsReverse fuel m (some sp) (some sa) = .ok (m', line)) := by
  have hR := hI.road
  have hlen : t.inorder.length < fuel := by rw [inorder_length]; exact hf
  constructor
  · intro hlt
    obtain ⟨p, e, hpe, hp, he⟩ := hI.positions hsp hsa hlt
    obtain ⟨s0, m2, q2, hi, hs0, hsearch, hphi, hhie, hD⟩ :=
      BfsDirect.search_phase hR hC p e hpe sp sa hp he fuel hlen
    obtain ⟨log, hlog⟩ := ok_of_erase
      ((BfsDirect.searchLog_erase fuel (some sa) fuel _ _ false [some sp]).trans hsearch)
    have hM0 : ∀ x ∈ [some sp],
        Marked (Function.update m sp (some { s0 with color := 'g' })) x := by
      intro x hx
      rw [List.mem_singleton.1 hx]
      exact ⟨sp, _, rfl, Function.update_same _ _ _, by simp⟩
    obtain ⟨_, hnd⟩ := BfsDirect.searchLog_nodup fuel (some sa) _ _ _ _ _ _ _ _ _ hlog hM0
      (List.nodup_singleton _)
    obtain ⟨line, hrun, _⟩ := BfsDirect_road hR hC p e hpe sp sa hp he fuel hlen
    refine ⟨_, m2, q2, _, log, m, line, modify_some hs0 _, hsearch, hlog, hnd, ?_, hrun⟩
    by_cases hie : hi = e
    · subst hie
      obtain ⟨xs, h1, h2, h3, h4, _, s, h6, h7⟩ := hD.piPath hR hC hp hi hphi (le_refl _) sa he
      exact ⟨xs, sp, s, h1, h2, h3, nodup_of_decreasing h4, h6, h7, fun _ => rfl,
        fun h => by simp at h⟩
    · obtain ⟨sa0, hsa0⟩ := hR.alloc sa hsa
      have hout : m2 sa = m sa := hD.out sa (fun j hj => by
        have := hR.pos_unique he hj
        omega)
      refine ⟨[sa], sa, sa0, rfl, rfl, List.chain'_singleton _, List.nodup_singleton _,
        hout.trans hsa0, (hC sa hsa sa0 hsa0).2, fun h => ?_, fun _ => rfl⟩
      simp [hie] at h
  · intro hlt
    obtain ⟨lo, hi, hlohi, hlo, hhi⟩ := hI.positions hsa hsp hlt
    obtain ⟨s0, m2, D, qs, lvl, ex, hs0, hsearch, hRI, hhD, hex⟩ :=
      BfsReverse.search_phase_rev hR hC lo hi hlohi sp sa hhi hlo fuel hlen
    obtain ⟨log, hlog⟩ := ok_of_erase
      ((BfsReverse.searchLog_erase_rev fuel (some sp) fuel _ _ false [some sa]).trans hsearch)
    have hM0 : ∀ x ∈ [some sa],
        Marked (Function.update m sa (some { s0 with color := 'g' })) x := by
      intro x hx
      rw [List.mem_singleton.1 hx]
      exact ⟨sa, _, rfl, Function.update_same _ _ _, by simp⟩
    obtain ⟨_, hnd⟩ := BfsReverse.searchLog_nodup_rev fuel (some sp) _ _ _ _ _ _ _ _ _ hlog
      hM0 (List.nodup_singleton _)
    obtain ⟨line, hrun, _⟩ := BfsReverse_road hR hC lo hi hlohi sp sa hhi hlo fuel hlen
    refine ⟨_, m2, _, ex, log, m, line, modify_some hs0 _, hsearch, hlog, hnd, ?_, hrun⟩
    rcases hex with ⟨hex1, hq⟩ | ⟨hex1, hq⟩
    · obtain ⟨xs, h1, h2, h3, h4, _, s, h6, h7⟩ :=
        hRI.piPath_rev hR hC hlo hi (Or.inr hq) sp hhi
      exact ⟨xs, sa, s, h1, h2, h3, nodup_of_decreasing h4, h6, h7, fun _ => rfl,
        fun h => by rw [hex1] at h; cases h⟩
    · obtain ⟨sp0, hsp0⟩ := hR.alloc sp hsp
      have hout : m2 sp = m sp := hRI.out sp (fun j hj => by
        have := hR.pos_unique hhi hj
        subst this
        exact ⟨hhD, by rw [hq]; simp⟩)
      refine ⟨[sp], sp, sp0, rfl, rfl, List.chain'_singleton _, List.nodup_singleton _,
        hout.trans hsp0, (hC sp hsp sp0 hsp0).2, fun h => ?_, fun _ => rfl⟩
      rw [hex1] at h
      cases h

theorem planner_termination_witness :
    (1 : Nat) ∈ scenarioA_tree.inorder ∧ (3 : Nat) ∈ scenarioA_tree.inorder ∧
    scenarioA_tree.size < 5 ∧ distanceOf scenarioA 1 < distanceOf scenarioA 3 ∧
    (∃ m1 m2 q ex log m' line,
      modify scenarioA (some 1) (fun s => { s with color := 'g' }) = .ok m1 ∧
      BfsDirect.search 5 (some 3) 5 m1 (Enqueue [] (some 1)) false = .ok (m2, q, ex) ∧
      BfsDirect.searchLog 5 (some 3) 5 m1 (Enqueue [] (some 1)) false [some 1]
        = .ok (m2, q, ex, log) ∧
      log.Nodup ∧
      (∃ xs z s, xs.head? = some 3 ∧ xs.getLast? = some z ∧ PiPath m2 xs ∧ xs.Nodup ∧
        m2 z = some s ∧ s.pi = none ∧ (ex = true → z = 1) ∧ (ex = false → xs = [3])) ∧
      BfsDirect 5 scenarioA (some 1) (some 3) = .ok (m', line)) ∧
    (∃ m1 m2 q ex log m' line,
      modify scenarioA (some 1) (fun s => { s with color := 'g' }) = .ok m1 ∧
      BfsReverse.search 5 (some 3) 5 m1 (Enqueue [] (some 1)) false = .ok (m2, q, ex) ∧
      BfsReverse.searchLog 5 (some 3) 5 m1 (Enqueue [] (some 1)) false [some 1]
        = .ok (m2, q, ex, log) ∧
      log.Nodup ∧
      (∃ xs z s, xs.head? = some 3 ∧ xs.getLast? = some z ∧ PiPath m2 xs ∧ xs.Nodup ∧
        m2 z = some s ∧ s.pi = none ∧ (ex = true → z = 1) ∧ (ex = false → xs = [3])) ∧
      BfsReverse 5 scenarioA (some 3) (some 1) = .ok (m', line)) :=
  ⟨by decide, by decide, by decide, by decide,
    (planner_termination scenarioA (some 0) scenarioA_tree 1 3 5 scenarioA_index
      scenarioA_clean (by decide) (by decide) (by decide)).1 (by decide),
    (planner_termination scenarioA (some 0) scenarioA_tree 3 1 5 scenarioA_index
      scenarioA_clean (by decide) (by decide) (by decide)).2 (by decide)⟩

/-- C18 (no missing-successor access during search): a `NULL` candidate `reach` at the
head of the inner walk of `BfsDirect` or at the first step of the inner walk of
`BfsReverse`, and `Dequeue` on an empty queue, are faults of the embedding; on a station
index with clean search state and two of its stations, the search loop of `BfsDirect`
(start before end) and of `BfsReverse` (start after end) returns, so none of them
happens; every station of the index passed to `Enqueue` lies between the two endpoints,
and every station beyond the further endpoint is left as it was. -/
theorem no_missing_successor_access (m : Heap) (root : Option Nat) (t : Tree)
    (sp sa : Nat) (fuel : Nat) (hI : IsIndex m root t) (hC : Clean m t.inorder)
    (hsp : sp ∈ t.inorder) (hsa : sa ∈ t.inorder) (hf : t.size < fuel) :
    (∀ s_a curr n mm q res,
      BfsDirect.walk fuel s_a curr (n + 1) mm q false none ≠ .ok res) ∧
    (∀ s_p curr n mm q, BfsReverse.walk fuel s_p curr (n + 1) mm q false none
      = .error .null) ∧
    Dequeue [] = .error .null ∧
    (distanceOf m sp < distanceOf m sa →
      ∃ m1 m2 q ex log,
        modify m (some sp) (fun s => { s with color := 'g' }) = .ok m1 ∧
        BfsDirect.searchLog fuel (some sa) fuel m1 (Enqueue [] (some sp)) false [some sp]
          = .ok (m2, q, ex, log) ∧
        (∀ a ∈ t.inorder, some a ∈ log →
          distanceOf m sp ≤ distanceOf m a ∧ distanceOf m a ≤ distanceOf m sa) ∧
        (∀ a ∈ t.inorder, distanceOf m sa < distanceOf m a → m2 a = m a)) ∧
    (distanceOf m sa < distanceOf m sp →
      ∃ m1 m2 q ex log,
        modify m (some sa) (fun s => { s with color := 'g' }) = .ok m1 ∧
        BfsReverse.searchLog fuel (some sp) fuel m1 (Enqueue [] (some sa)) false [some sa]
          = .ok (m2, q, ex, log) ∧
        (∀ a ∈ t.inorder, some a ∈ log →
          distanceOf m sa ≤ distanceOf m a ∧ distanceOf m a ≤ distanceOf m sp) ∧
        (∀ a ∈ t.inorder, distanceOf m sp < distanceOf m a → m2 a = m a)) := by
  have hR := hI.road
  have hlen : t.inorder.length < fuel := by rw [inorder_length]; exact hf
  refine ⟨?_, ?_, rfl, ?_, ?_⟩
  · intro s_a curr n mm q res h
    simp only [BfsDirect.walk, Bool.false_eq_true, if_false] at h
    cases h1 : load mm curr with
    | error e => rw [h1] at h; cases h
    | ok sc =>
      rw [h1] at h
      simp [load] at h
  · intro s_p curr n mm q
    simp [BfsReverse.walk, BfsReverse.visit, load]
  · intro hlt
    obtain ⟨p, e, hpe, hp, he⟩ := hI.positions hsp hsa hlt
    obtain ⟨s0, m2, q2, hi, hs0, hsearch, hphi, hhie, hD⟩ :=
      BfsDirect.search_phase hR hC p e hpe sp sa hp he fuel hlen
    obtain ⟨log, hlog⟩ := ok_of_erase
      ((BfsDirect.searchLog_erase fuel (some sa) fuel _ _ false [some sp]).trans hsearch)
    have hM0 : ∀ x ∈ [some sp],
        Marked (Function.update m sp (some { s0 with color := 'g' })) x := by
      intro x hx
      rw [List.mem_singleton.1 hx]
      exact ⟨sp, _, rfl, Function.update_same _ _ _, by simp⟩
    obtain ⟨hM, _⟩ := BfsDirect.searchLog_nodup fuel (some sa) _ _ _ _ _ _ _ _ _ hlog hM0
      (List.nodup_singleton _)
    refine ⟨_, m2, q2, _, log, modify_some hs0 _, hlog, ?_, ?_⟩
    · intro a ha hal
      obtain ⟨i, hia⟩ := List.mem_iff_getElem?.1 ha
      obtain ⟨h1, h2⟩ := hD.marked hR hC hia (hM _ hal)
      exact ⟨hR.dist_le hp hia h1, hR.dist_le hia he (by omega)⟩
    · intro a ha hfar
      refine hD.out a (fun j hj => ?_)
      have := hR.pos_lt he hj hfar
      omega
  · intro hlt
    obtain ⟨lo, hi, hlohi, hlo, hhi⟩ := hI.positions hsa hsp hlt
    obtain ⟨s0, m2, D, qs, lvl, ex, hs0, hsearch, hRI, hhD, hex⟩ :=
      BfsReverse.search_phase_rev hR hC lo hi hlohi sp sa hhi hlo fuel hlen
    obtain ⟨log, hlog⟩ := ok_of_erase
      ((BfsReverse.searchLog_erase_rev fuel (some sp) fuel _ _ false [some sa]).trans hsearch)
    have hM0 : ∀ x ∈ [some sa],
        Marked (Function.update m sa (some { s0 with color := 'g' })) x := by
      intro x hx
      rw [List.mem_singleton.1 hx]
      exact ⟨sa, _, rfl, Function.update_same _ _ _, by simp⟩
    obtain ⟨hM, _⟩ := BfsReverse.searchLog_nodup_rev fuel (some sp) _ _ _ _ _ _ _ _ _ hlog
      hM0 (List.nodup_singleton _)
    refine ⟨_, m2, _, ex, log, modify_some hs0 _, hlog, ?_, ?_⟩
    · intro a ha hal
      obtain ⟨i, hia⟩ := List.mem_iff_getElem?.1 ha
      obtain ⟨h1, h2⟩ := hRI.marked_rev hR hC hia (hM _ hal)
      exact ⟨hR.dist_le hlo hia h1, hR.dist_le hia hhi h2⟩
    · intro a ha hfar
      refine hRI.out a (fun j hj => ?_)
      have hjhi := hR.pos_lt hhi hj hfar
      constructor
      · intro hd
        have := hRI.rng j (Or.inl hd)
        omega
      · intro hd
        have := hRI.rng j (Or.inr hd)
        omega

theorem no_missing_successor_access_witness :
    (1 : Nat) ∈ scenarioA_tree.inorder ∧ (2 : Nat) ∈ scenarioA_tree.inorder ∧
    scenarioA_tree.size < 5 ∧ distanceOf scenarioA 1 < distanceOf scenarioA 2 ∧
    (∃ m1 m2 q ex log,
      modify scenarioA (some 1) (fun s => { s with color := 'g' }) = .ok m1 ∧
      BfsDirect.searchLog 5 (some 2) 5 m1 (Enqueue [] (some 1)) false [some 1]
        = .ok (m2, q, ex, log) ∧
      (∀ a ∈ scenarioA_tree.inorder, some a ∈ log →
        distanceOf scenarioA 1 ≤ distanceOf scenarioA a ∧
          distanceOf scenarioA a ≤ distanceOf scenarioA 2) ∧
      (∀ a ∈ scenarioA_tree.inorder, distanceOf scenarioA 2 < distanceOf scenarioA a →
        m2 a = scenarioA a)) ∧
    (∃ m1 m2 q ex log,
      modify scenarioA (some 1) (fun s => { s with color := 'g' }) = .ok m1 ∧
      BfsReverse.searchLog 5 (some 2) 5 m1 (Enqueue [] (some 1)) false [some 1]
        = .ok (m2, q, ex, log) ∧
      (∀ a ∈ scenarioA_tree.inorder, some a ∈ log →
        distanceOf scenarioA 1 ≤ distanceOf scenarioA a ∧
          distanceOf scenarioA a ≤ distanceOf scenarioA 2) ∧
      (∀ a ∈ scenarioA_tree.inorder, distanceOf scenarioA 2 < distanceOf scenarioA a →
        m2 a = scenarioA a)) :=
  ⟨by decide, by decide, by decide, by decide,
    (no_missing_successor_access scenarioA (some 0) scenarioA_tree 1 2 5 scenarioA_index
      scenarioA_clean (by decide) (by decide) (by decide)).2.2.2.1 (by decide),
    (no_missing_successor_access scenarioA (some 0) scenarioA_tree 2 1 5 scenarioA_index
      scenarioA_clean (by decide) (by decide) (by decide)).2.2.2.2 (by decide)⟩

theorem SamePos.getElem {L1 L2 : List Nat} (hlen : L1.length = L2.length) (i : Nat) :
    SamePos L1 L2 L1[i]? L2[i]? := by
  by_cases hi : i < L1.length
  · have hi2 : i < L2.length := hlen ▸ hi
    exact Or.inr ⟨i, L1[i], L2[i], List.getElem?_eq_getElem hi, List.getElem?_eq_getElem hi2,
      List.getElem?_eq_getElem hi, List.getElem?_eq_getElem hi2⟩
  · have hi2 : ¬ i < L2.length := hlen ▸ hi
    exact Or.inl ⟨List.getElem?_eq_none (by omega), List.getElem?_eq_none (by omega)⟩

theorem Twins.load_twin {m01 m02 : Heap} {L1 L2 : List Nat} {m1 m2 : Heap}
    (h : Twins m01 m02 L1 L2 m1 m2) {p q : Option Nat} (hp : SamePos L1 L2 p q) :
    Both (CellRel L1 L2) (load m1 p) (load m2 q) := by
  rcases hp with ⟨rfl, rfl⟩ | ⟨i, a, b, ha, hb, rfl, rfl⟩
  · exact Or.inl ⟨.null, rfl, rfl⟩
  · obtain ⟨s1, s2, h1, h2, hr⟩ := h.cell i a b ha hb
    exact Or.inr ⟨s1, s2, load_some h1, load_some h2, hr⟩

theorem Twins.modify {m01 m02 : Heap} {L1 L2 : List Nat} {m1 m2 : Heap}
    (h : Twins m01 m02 L1 L2 m1 m2) {p q : Option Nat} (hp : SamePos L1 L2 p q)
    (g1 g2 : station_t → station_t)
    (hg : ∀ s1 s2, CellRel L1 L2 s1 s2 → CellRel L1 L2 (g1 s1) (g2 s2))
    (hs1 : ∀ s, strip (g1 s) = strip s) (hs2 : ∀ s, strip (g2 s) = strip s) :
    Both (fun x y => Twins m01 m02 L1 L2 x y) (modify m1 p g1) (modify m2 q g2) := by
  rcases hp with ⟨rfl, rfl⟩ | ⟨i, a, b, ha, hb, rfl, rfl⟩
  · exact Or.inl ⟨.null, rfl, rfl⟩
  · obtain ⟨s1, s2, h1, h2, hr⟩ := h.cell i a b ha hb
    refine Or.inr ⟨_, _, modify_some h1 g1, modify_some h2 g2,
      ⟨h.road1, h.road2, h.len, ?_, ?_, ?_⟩⟩
    · intro c
      by_cases e : c = a
      · rw [e, Function.update_same, ← h.same1 a, h1]
        simp only [Option.map_some', hs1]
      · rw [Function.update_noteq e]
        exact h.same1 c
    · intro c
      by_cases e : c = b
      · rw [e, Function.update_same, ← h.same2 b, h2]
        simp only [Option.map_some', hs2]
      · rw [Function.update_noteq e]
        exact h.same2 c
    · intro j a' b' ha' hb'
      by_cases e : j = i
      · subst e
        rw [ha] at ha'
        rw [hb] at hb'
        cases ha'
        cases hb'
        exact ⟨_, _, Function.update_same _ _ _, Function.update_same _ _ _, hg s1 s2 hr⟩
      · have hna : a' ≠ a := fun e' => e (h.road1.pos_unique ha' (e' ▸ ha))
        have hnb : b' ≠ b := fun e' => e (h.road2.pos_unique hb' (e' ▸ hb))
        rw [Function.update_noteq hna, Function.update_noteq hnb]
        exact h.cell j a' b' ha' hb'

theorem SuccessorBST_null (f : Nat) (m : Heap) : SuccessorBST f m none = .error .null := by
  simp [SuccessorBST, load]

theorem PredecessorBST_null (f : Nat) (m : Heap) : PredecessorBST f m none = .error .null := by
  simp [PredecessorBST, load]

theorem Twins.succ {m01 m02 : Heap} {L1 L2 : List Nat} {m1 m2 : Heap}
    (h : Twins m01 m02 L1 L2 m1 m2) {p q : Option Nat} (hp : SamePos L1 L2 p q) (f : Nat)
    (hf : L1.length < f) :
    Both (SamePos L1 L2) (SuccessorBST f m1 p) (SuccessorBST f m2 q) := by
  rcases hp with ⟨rfl, rfl⟩ | ⟨i, a, b, ha, hb, rfl, rfl⟩
  · exact Or.inl ⟨.null, SuccessorBST_null f m1, SuccessorBST_null f m2⟩
  · exact Or.inr ⟨_, _, h.road1.succ m1 h.same1 i a ha f hf,
      h.road2.succ m2 h.same2 i b hb f (h.len ▸ hf), SamePos.getElem h.len (i + 1)⟩

theorem Twins.pred {m01 m02 : Heap} {L1 L2 : List Nat} {m1 m2 : Heap}
    (h : Twins m01 m02 L1 L2 m1 m2) {p q : Option Nat} (hp : SamePos L1 L2 p q) (f : Nat)
    (hf : L1.length < f) :
    Both (SamePos L1 L2) (PredecessorBST f m1 p) (PredecessorBST f m2 q) := by
  rcases hp with ⟨rfl, rfl⟩ | ⟨i, a, b, ha, hb, rfl, rfl⟩
  · exact Or.inl ⟨.null, PredecessorBST_null f m1, PredecessorBST_null f m2⟩
  · refine Or.inr ⟨_, _, h.road1.pred m1 h.same1 i a ha f hf,
      h.road2.pred m2 h.same2 i b hb f (h.len ▸ hf), ?_⟩
    by_cases e : i = 0
    · simp only [e, if_true]
      exact Or.inl ⟨rfl, rfl⟩
    · simp only [e, if_false]
      exact SamePos.getElem h.len (i - 1)

theorem Dequeue_twin {L1 L2 : List Nat} {q1 q2 : queue_t}
    (hq : List.Forall₂ (SamePos L1 L2) q1 q2) :
    Both (fun x y => SamePos L1 L2 x.1 y.1 ∧ List.Forall₂ (SamePos L1 L2) x.2 y.2)
      (Dequeue q1) (Dequeue q2) := by
  cases hq with
  | nil => exact Or.inl ⟨.null, rfl, rfl⟩
  | cons h t => exact Or.inr ⟨_, _, rfl, rfl, h, t⟩

theorem Enqueue_twin {L1 L2 : List Nat} {q1 q2 : queue_t} {p q : Option Nat}
    (hq : List.Forall₂ (SamePos L1 L2) q1 q2) (hp : SamePos L1 L2 p q) :
    List.Forall₂ (SamePos L1 L2) (Enqueue q1 p) (Enqueue q2 q) := by
  unfold Enqueue
  exact List.rel_append hq (List.Forall₂.cons hp List.Forall₂.nil)

theorem CellRel.paint {L1 L2 : List Nat} {c1 c2 : Option Nat} (hc : SamePos L1 L2 c1 c2)
    (k : Char) (s1 s2 : station_t) (h : CellRel L1 L2 s1 s2) :
    CellRel L1 L2 { s1 with color := k, pi := c1 } { s2 with color := k, pi := c2 } :=
  ⟨h.1, h.2.1, rfl, hc⟩

theorem BfsDirect.walk_twin {m01 m02 : Heap} {L1 L2 : List Nat} (f : Nat)
    (hf : L1.length < f) {sa1 sa2 c1 c2 : Option Nat} (hsa : SamePos L1 L2 sa1 sa2)
    (hc : SamePos L1 L2 c1 c2) :
    ∀ n m1 m2 q1 q2 ex r1 r2, Twins m01 m02 L1 L2 m1 m2 →
      List.Forall₂ (SamePos L1 L2) q1 q2 → SamePos L1 L2 r1 r2 →
      Both (fun x y => Twins m01 m02 L1 L2 x.1 y.1 ∧
          List.Forall₂ (SamePos L1 L2) x.2.1 y.2.1 ∧ x.2.2 = y.2.2)
        (BfsDirect.walk f sa1 c1 n m1 q1 ex r1) (BfsDirect.walk f sa2 c2 n m2 q2 ex r2) := by
  intro n
  induction n with
  | zero => intros; exact Or.inl ⟨.fuel, rfl, rfl⟩
  | succ n ih =>
    intro m1 m2 q1 q2 ex r1 r2 h hq hr
    simp only [BfsDirect.walk]
    cases ex with
    | true => exact Or.inr ⟨_, _, rfl, rfl, h, hq, rfl⟩
    | false =>
      simp only [Bool.false_eq_true, if_false]
      rcases h.load_twin hc with ⟨e, h1, h2⟩ | ⟨sc1, sc2, h1, h2, hcd, hcm, _, _⟩
      · rw [h1, h2]; exact Or.inl ⟨e, rfl, rfl⟩
      rw [h1, h2]
      simp only []
      rcases h.load_twin hr with ⟨e, h3, h4⟩ | ⟨sr1, sr2, h3, h4, hrd, hrm, hrc, hrp⟩
      · rw [h3, h4]; exact Or.inl ⟨e, rfl, rfl⟩
      rw [h3, h4]
      simp only []
      rw [hcd, hcm, hrd, hrc]
      by_cases hin : sc2.max_car ≥ wrap32 (sr2.distance - sc2.distance)
      · simp only [hin, if_true]
        by_cases hw : sr2.color = 'w'
        · simp only [hw, if_true]
          rcases h.modify hr (fun s => { s with color := 'g', pi := c1 })
              (fun s => { s with color := 'g', pi := c2 }) (CellRel.paint hc 'g')
              (fun _ => rfl) (fun _ => rfl) with ⟨e, h5, h6⟩ | ⟨m1', m2', h5, h6, h'⟩
          · rw [h5, h6]; exact Or.inl ⟨e, rfl, rfl⟩
          rw [h5, h6]
          simp only []
          rcases h'.load_twin hsa with ⟨e, h7, h8⟩ | ⟨a1, a2, h7, h8, had, _, _, _⟩
          · rw [h7, h8]; exact Or.inl ⟨e, rfl, rfl⟩
          rw [h7, h8]
          simp only []
          rw [had]
          by_cases hd : sr2.distance = a2.distance
          · simp only [hd, if_true]
            exact ih _ _ _ _ true _ _ h' (Enqueue_twin hq hr) hr
          · simp only [hd, if_false]
            rcases h'.succ hr f hf with ⟨e, h9, h10⟩ | ⟨x1, x2, h9, h10, hx⟩
            · rw [h9, h10]; exact Or.inl ⟨e, rfl, rfl⟩
            rw [h9, h10]
            exact ih _ _ _ _ false _ _ h' (Enqueue_twin hq hr) hx
        · simp only [hw, if_false]
          rcases h.load_twin hsa with ⟨e, h7, h8⟩ | ⟨a1, a2, h7, h8, had, _, _, _⟩
          · rw [h7, h8]; exact Or.inl ⟨e, rfl, rfl⟩
          rw [h7, h8]
          simp only []
          rw [had]
          by_cases hd : sr2.distance = a2.distance
          · simp only [hd, if_true]
            exact ih _ _ _ _ true _ _ h hq hr
          · simp only [hd, if_false]
            rcases h.succ hr f hf with ⟨e, h9, h10⟩ | ⟨x1, x2, h9, h10, hx⟩
            · rw [h9, h10]; exact Or.inl ⟨e, rfl, rfl⟩
            rw [h9, h10]
            exact ih _ _ _ _ false _ _ h hq hx
      · simp only [hin, if_false]
        exact Or.inr ⟨_, _, rfl, rfl, h, hq, rfl⟩

theorem BfsDirect.search_twin {m01 m02 : Heap} {L1 L2 : List Nat} (f : Nat)
    (hf : L1.length < f) {sa1 sa2 : Option Nat} (hsa : SamePos L1 L2 sa1 sa2) :
    ∀ n m1 m2 q1 q2 ex, Twins m01 m02 L1 L2 m1 m2 →
      List.Forall₂ (SamePos L1 L2) q1 q2 →
      Both (fun x y => Twins m01 m02 L1 L2 x.1 y.1 ∧
          List.Forall₂ (SamePos L1 L2) x.2.1 y.2.1 ∧ x.2.2 = y.2.2)
        (BfsDirect.search f sa1 n m1 q1 ex) (BfsDirect.search f sa2 n m2 q2 ex) := by
  intro n
  induction n with
  | zero => intros; exact Or.inl ⟨.fuel, rfl, rfl⟩
  | succ n ih =>
    intro m1 m2 q1 q2 ex h hq
    simp only [BfsDirect.search]
    cases ex with
    | true => exact Or.inr ⟨_, _, rfl, rfl, h, hq, rfl⟩
    | false =>
      cases hq with
      | nil => exact Or.inr ⟨_, _, rfl, rfl, h, List.Forall₂.nil, rfl⟩
      | cons hc ht =>
        simp only [ne_eq, reduceCtorEq, not_false_eq_true, and_self, if_true, Dequeue]
        rcases h.succ hc f hf with ⟨e, h1, h2⟩ | ⟨r1, r2, h1, h2, hr⟩
        · rw [h1, h2]; exact Or.inl ⟨e, rfl, rfl⟩
        rw [h1, h2]
        simp only []
        rcases BfsDirect.walk_twin f hf hsa hc f _ _ _ _ false _ _ h ht hr with
          ⟨e, h3, h4⟩ | ⟨x, y, h3, h4, h', hq', hex⟩
        · rw [h3, h4]; exact Or.inl ⟨e, rfl, rfl⟩
        obtain ⟨m1', q1', e1⟩ := x
        obtain ⟨m2', q2', e2⟩ := y
        rw [h3, h4]
        simp only [] at hex ⊢
        subst hex
        exact ih _ _ _ _ _ h' hq'

theorem BfsDirect.collect_twin {m01 m02 : Heap} {L1 L2 : List Nat} {m1 m2 : Heap}
    (h : Twins m01 m02 L1 L2 m1 m2) :
    ∀ n p q route, SamePos L1 L2 p q →
      Both (fun x y => x = y) (BfsDirect.collect n m1 p route)
        (BfsDirect.collect n m2 q route) := by
  intro n
  induction n with
  | zero => intros; exact Or.inl ⟨.fuel, rfl, rfl⟩
  | succ n ih =>
    intro p q route hp
    simp only [BfsDirect.collect]
    rcases h.load_twin hp with ⟨e, h1, h2⟩ | ⟨s1, s2, h1, h2, hd, _, _, hpi⟩
    · rw [h1, h2]; exact Or.inl ⟨e, rfl, rfl⟩
    rw [h1, h2]
    simp only []
    rcases hpi with ⟨e1, e2⟩ | ⟨i, a, b, ha, hb, e1, e2⟩
    · rw [e1, e2]
      exact Or.inr ⟨_, _, rfl, rfl, rfl⟩
    · have := ih (some a) (some b) (s1.distance :: route) (Or.inr ⟨i, a, b, ha, hb, rfl, rfl⟩)
      rw [e1, e2, ← hd]
      exact this

theorem CellRel.whiten {L1 L2 : List Nat} (s1 s2 : station_t) (h : CellRel L1 L2 s1 s2) :
    CellRel L1 L2 { s1 with color := 'w', pi := none } { s2 with color := 'w', pi := none } :=
  ⟨h.1, h.2.1, rfl, Or.inl ⟨rfl, rfl⟩⟩

theorem BfsDirect.reset_twin {m01 m02 : Heap} {L1 L2 : List Nat} (f : Nat)
    (hf : L1.length < f) {sa1 sa2 : Option Nat} (hsa : SamePos L1 L2 sa1 sa2) :
    ∀ n m1 m2 p q, Twins m01 m02 L1 L2 m1 m2 → SamePos L1 L2 p q →
      Both (fun x y => Twins m01 m02 L1 L2 x y) (BfsDirect.reset f sa1 n m1 p)
        (BfsDirect.reset f sa2 n m2 q) := by
  intro n
  induction n with
  | zero => intros; exact Or.inl ⟨.fuel, rfl, rfl⟩
  | succ n ih =>
    intro m1 m2 p q h hp
    simp only [BfsDirect.reset]
    rcases h.load_twin hp with ⟨e, h1, h2⟩ | ⟨s1, s2, h1, h2, hd, _, _, _⟩
    · rw [h1, h2]; exact Or.inl ⟨e, rfl, rfl⟩
    rw [h1, h2]
    simp only []
    rcases h.load_twin hsa with ⟨e, h3, h4⟩ | ⟨a1, a2, h3, h4, had, _, _, _⟩
    · rw [h3, h4]; exact Or.inl ⟨e, rfl, rfl⟩
    rw [h3, h4]
    simp only []
    rw [hd, had]
    by_cases hle : s2.distance ≤ a2.distance
    · simp only [hle, if_true]
      rcases h.modify hp (fun s => { s with color := 'w', pi := none })
          (fun s => { s with color := 'w', pi := none }) CellRel.whiten
          (fun _ => rfl) (fun _ => rfl) with ⟨e, h5, h6⟩ | ⟨m1', m2', h5, h6, h'⟩
      · rw [h5, h6]; exact Or.inl ⟨e, rfl, rfl⟩
      rw [h5, h6]
      simp only []
      rcases h'.succ hp f hf with ⟨e, h7, h8⟩ | ⟨x1, x2, h7, h8, hx⟩
      · rw [h7, h8]; exact Or.inl ⟨e, rfl, rfl⟩
      rw [h7, h8]
      rcases hx with ⟨e1, e2⟩ | ⟨i, a, b, ha, hb, e1, e2⟩
      · rw [e1, e2]
        exact Or.inr ⟨_, _, rfl, rfl, h'⟩
      · rw [e1, e2]
        exact ih _ _ _ _ h' (Or.inr ⟨i, a, b, ha, hb, rfl, rfl⟩)
    · simp only [hle, if_false]
      exact Or.inr ⟨_, _, rfl, rfl, h⟩

theorem CellRel.gray {L1 L2 : List Nat} (s1 s2 : station_t) (h : CellRel L1 L2 s1 s2) :
    CellRel L1 L2 { s1 with color := 'g' } { s2 with color := 'g' } :=
  ⟨h.1, h.2.1, rfl, h.2.2.2⟩

theorem BfsDirect_twin {m01 m02 : Heap} {L1 L2 : List Nat} {m1 m2 : Heap} (f : Nat)
    (hf : L1.length < f) (h : Twins m01 m02 L1 L2 m1 m2) {sp1 sp2 sa1 sa2 : Option Nat}
    (hsp : SamePos L1 L2 sp1 sp2) (hsa : SamePos L1 L2 sa1 sa2) :
    Both (fun x y => Twins m01 m02 L1 L2 x.1 y.1 ∧ x.2 = y.2)
      (BfsDirect f m1 sp1 sa1) (BfsDirect f m2 sp2 sa2) := by
  simp only [BfsDirect]
  rcases h.modify hsp (fun s => { s with color := 'g' }) (fun s => { s with color := 'g' })
      CellRel.gray (fun _ => rfl) (fun _ => rfl) with ⟨e, h1, h2⟩ | ⟨m1a, m2a, h1, h2, ha⟩
  · rw [h1, h2]; exact Or.inl ⟨e, rfl, rfl⟩
  rw [h1, h2]
  simp only []
  rcases BfsDirect.search_twin f hf hsa f _ _ _ _ false ha
      (Enqueue_twin List.Forall₂.nil hsp) with ⟨e, h3, h4⟩ | ⟨x, y, h3, h4, hb, _, _⟩
  · rw [h3, h4]; exact Or.inl ⟨e, rfl, rfl⟩
  obtain ⟨m1b, q1b, e1⟩ := x
  obtain ⟨m2b, q2b, e2⟩ := y
  rw [h3, h4]
  simp only [] at hb ⊢
  rcases BfsDirect.collect_twin hb f _ _ [] hsa with ⟨e, h5, h6⟩ | ⟨r1, r2, h5, h6, hr⟩
  · rw [h5, h6]; exact Or.inl ⟨e, rfl, rfl⟩
  rw [h5, h6]
  simp only []
  subst hr
  rcases hb.load_twin hsp with ⟨e, h7, h8⟩ | ⟨s1, s2, h7, h8, hd, _, _, _⟩
  · rw [h7, h8]; exact Or.inl ⟨e, rfl, rfl⟩
  rw [h7, h8]
  simp only []
  rcases hb.load_twin hsa with ⟨e, h9, h10⟩ | ⟨a1, a2, h9, h10, had, _, _, _⟩
  · rw [h9, h10]; exact Or.inl ⟨e, rfl, rfl⟩
  rw [h9, h10]
  simp only []
  rcases BfsDirect.reset_twin f hf hsa f _ _ _ _ hb hsp with ⟨e, h11, h12⟩ | ⟨m1c, m2c, h11, h12, hc⟩
  · rw [h11, h12]; exact Or.inl ⟨e, rfl, rfl⟩
  rw [h11, h12]
  exact Or.inr ⟨_, _, rfl, rfl, hc, by rw [hd, had]⟩

theorem BfsReverse.visit_twin {m01 m02 : Heap} {L1 L2 : List Nat} {m1 m2 : Heap}
    (h : Twins m01 m02 L1 L2 m1 m2) {sp1 sp2 c1 c2 r1 r2 : Option Nat}
    (hsp : SamePos L1 L2 sp1 sp2) (hc : SamePos L1 L2 c1 c2) (hr : SamePos L1 L2 r1 r2)
    {q1 q2 : queue_t} (hq : List.Forall₂ (SamePos L1 L2) q1 q2) (ex : Bool) :
    Both (fun x y => Twins m01 m02 L1 L2 x.1 y.1 ∧
        List.Forall₂ (SamePos L1 L2) x.2.1 y.2.1 ∧ x.2.2 = y.2.2)
      (BfsReverse.visit sp1 c1 m1 q1 ex r1) (BfsReverse.visit sp2 c2 m2 q2 ex r2) := by
  simp only [BfsReverse.visit]
  rcases h.load_twin hr with ⟨e, h3, h4⟩ | ⟨sr1, sr2, h3, h4, hrd, hrm, hrc, hrp⟩
  · rw [h3, h4]; exact Or.inl ⟨e, rfl, rfl⟩
  rw [h3, h4]
  simp only []
  rcases h.load_twin hc with ⟨e, h1, h2⟩ | ⟨sc1, sc2, h1, h2, hcd, hcm, _, _⟩
  · rw [h1, h2]; exact Or.inl ⟨e, rfl, rfl⟩
  rw [h1, h2]
  simp only []
  rw [hcd, hrm, hrd, hrc]
  by_cases hin : sr2.max_car ≥ wrap32 (sr2.distance - sc2.distance)
  · simp only [hin, if_true]
    by_cases hw : sr2.color = 'w'
    · simp only [hw, if_true]
      rcases h.modify hr (fun s => { s with color := 'g', pi := c1 })
          (fun s => { s with color := 'g', pi := c2 }) (CellRel.paint hc 'g')
          (fun _ => rfl) (fun _ => rfl) with ⟨e, h5, h6⟩ | ⟨m1', m2', h5, h6, h'⟩
      · rw [h5, h6]; exact Or.inl ⟨e, rfl, rfl⟩
      rw [h5, h6]
      simp only []
      rcases h'.load_twin hsp with ⟨e, h7, h8⟩ | ⟨a1, a2, h7, h8, had, _, _, _⟩
      · rw [h7, h8]; exact Or.inl ⟨e, rfl, rfl⟩
      rw [h7, h8]
      simp only []
      rw [had]
      by_cases hd : sr2.distance = a2.distance
      · simp only [hd, if_true]
        exact Or.inr ⟨_, _, rfl, rfl, h', Enqueue_twin hq hr, rfl⟩
      · simp only [hd, if_false]
        exact Or.inr ⟨_, _, rfl, rfl, h', Enqueue_twin hq hr, rfl⟩
    · simp only [hw, if_false]
      rcases h.load_twin hsp with ⟨e, h7, h8⟩ | ⟨a1, a2, h7, h8, had, _, _, _⟩
      · rw [h7, h8]; exact Or.inl ⟨e, rfl, rfl⟩
      rw [h7, h8]
      simp only []
      rw [had]
      by_cases hd : sr2.distance = a2.distance
      · simp only [hd, if_true]
        exact Or.inr ⟨_, _, rfl, rfl, h, hq, rfl⟩
      · simp only [hd, if_false]
        exact Or.inr ⟨_, _, rfl, rfl, h, hq, rfl⟩
  · simp only [hin, if_false]
    exact Or.inr ⟨_, _, rfl, rfl, h, hq, rfl⟩

theorem BfsReverse.walk_twin_rev {m01 m02 : Heap} {L1 L2 : List Nat} (f : Nat)
    (hf : L1.length < f) {sp1 sp2 c1 c2 : Option Nat} (hsp : SamePos L1 L2 sp1 sp2)
    (hc : SamePos L1 L2 c1 c2) :
    ∀ n m1 m2 q1 q2 ex r1 r2, Twins m01 m02 L1 L2 m1 m2 →
      List.Forall₂ (SamePos L1 L2) q1 q2 → SamePos L1 L2 r1 r2 →
      Both (fun x y => Twins m01 m02 L1 L2 x.1 y.1 ∧
          List.Forall₂ (SamePos L1 L2) x.2.1 y.2.1 ∧ x.2.2 = y.2.2)
        (BfsReverse.walk f sp1 c1 n m1 q1 ex r1) (BfsReverse.walk f sp2 c2 n m2 q2 ex r2) := by
  intro n
  induction n with
  | zero => intros; exact Or.inl ⟨.fuel, rfl, rfl⟩
  | succ n ih =>
    intro m1 m2 q1 q2 ex r1 r2 h hq hr
    simp only [BfsReverse.walk]
    cases ex with
    | true => exact Or.inr ⟨_, _, rfl, rfl, h, hq, rfl⟩
    | false =>
      simp only [Bool.false_eq_true, if_false]
      rcases BfsReverse.visit_twin h hsp hc hr hq false with
        ⟨e, h1, h2⟩ | ⟨x, y, h1, h2, h', hq', hex⟩
      · rw [h1, h2]; exact Or.inl ⟨e, rfl, rfl⟩
      obtain ⟨m1', q1', e1⟩ := x
      obtain ⟨m2', q2', e2⟩ := y
      rw [h1, h2]
      simp only [] at hex h' hq' ⊢
      subst hex
      rcases h'.succ hr f hf with ⟨e, h3, h4⟩ | ⟨x1, x2, h3, h4, hx⟩
      · rw [h3, h4]; exact Or.inl ⟨e, rfl, rfl⟩
      rw [h3, h4]
      rcases hx with ⟨rfl, rfl⟩ | ⟨i, a, b, ha, hb, rfl, rfl⟩
      · exact Or.inr ⟨_, _, rfl, rfl, h', hq', rfl⟩
      · have hn : SamePos L1 L2 (some a) (some b) := Or.inr ⟨i, a, b, ha, hb, rfl, rfl⟩
        simp only []
        rcases h'.load_twin hn with ⟨e, h5, h6⟩ | ⟨n1, n2, h5, h6, hnd, _, _, _⟩
        · rw [h5, h6]; exact Or.inl ⟨e, rfl, rfl⟩
        rw [h5, h6]
        simp only []
        rcases h'.load_twin hsp with ⟨e, h7, h8⟩ | ⟨a1, a2, h7, h8, had, _, _, _⟩
        · rw [h7, h8]; exact Or.inl ⟨e, rfl, rfl⟩
        rw [h7, h8]
        simp only []
        rw [hnd, had]
        by_cases hd : n2.distance > a2.distance
        · simp only [hd, if_true]
          exact Or.inr ⟨_, _, rfl, rfl, h', hq', rfl⟩
        · simp only [hd, if_false]
          exact ih _ _ _ _ _ _ _ h' hq' hn

theorem BfsReverse.search_twin_rev {m01 m02 : Heap} {L1 L2 : List Nat} (f : Nat)
    (hf : L1.length < f) {sp1 sp2 : Option Nat} (hsp : SamePos L1 L2 sp1 sp2) :
    ∀ n m1 m2 q1 q2 ex, Twins m01 m02 L1 L2 m1 m2 →
      List.Forall₂ (SamePos L1 L2) q1 q2 →
      Both (fun x y => Twins m01 m02 L1 L2 x.1 y.1 ∧
          List.Forall₂ (SamePos L1 L2) x.2.1 y.2.1 ∧ x.2.2 = y.2.2)
        (BfsReverse.search f sp1 n m1 q1 ex) (BfsReverse.search f sp2 n m2 q2 ex) := by
  intro n
  induction n with
  | zero => intros; exact Or.inl ⟨.fuel, rfl, rfl⟩
  | succ n ih =>
    intro m1 m2 q1 q2 ex h hq
    simp only [BfsReverse.search]
    cases ex with
    | true => exact Or.inr ⟨_, _, rfl, rfl, h, hq, rfl⟩
    | false =>
      cases hq with
      | nil => exact Or.inr ⟨_, _, rfl, rfl, h, List.Forall₂.nil, rfl⟩
      | cons hc ht =>
        simp only [ne_eq, reduceCtorEq, not_false_eq_true, and_self, if_true, Dequeue]
        rcases h.succ hc f hf with ⟨e, h1, h2⟩ | ⟨r1, r2, h1, h2, hr⟩
        · rw [h1, h2]; exact Or.inl ⟨e, rfl, rfl⟩
        rw [h1, h2]
        simp only []
        rcases BfsReverse.walk_twin_rev f hf hsp hc f _ _ _ _ false _ _ h ht hr with
          ⟨e, h3, h4⟩ | ⟨x, y, h3, h4, h', hq', hex⟩
        · rw [h3, h4]; exact Or.inl ⟨e, rfl, rfl⟩
        obtain ⟨m1', q1', e1⟩ := x
        obtain ⟨m2', q2', e2⟩ := y
        rw [h3, h4]
        simp only [] at hex ⊢
        subst hex
        exact ih _ _ _ _ _ h' hq'

theorem BfsReverse.print_twin {m01 m02 : Heap} {L1 L2 : List Nat} {m1 m2 : Heap}
    (h : Twins m01 m02 L1 L2 m1 m2) :
    ∀ n p q acc, SamePos L1 L2 p q →
      Both (fun x y => x = y) (BfsReverse.print n m1 p acc) (BfsReverse.print n m2 q acc) := by
  intro n
  induction n with
  | zero => intros; exact Or.inl ⟨.fuel, rfl, rfl⟩
  | succ n ih =>
    intro p q acc hp
    simp only [BfsReverse.print]
    rcases h.load_twin hp with ⟨e, h1, h2⟩ | ⟨s1, s2, h1, h2, hd, _, _, hpi⟩
    · rw [h1, h2]; exact Or.inl ⟨e, rfl, rfl⟩
    rw [h1, h2]
    simp only []
    rcases hpi with ⟨e1, e2⟩ | ⟨i, a, b, ha, hb, e1, e2⟩
    · rw [e1, e2, hd]
      exact Or.inr ⟨_, _, rfl, rfl, rfl⟩
    · have := ih (some a) (some b) (acc ++ [s1.distance])
        (Or.inr ⟨i, a, b, ha, hb, rfl, rfl⟩)
      rw [e1, e2, ← hd]
      exact this

theorem BfsReverse.reset_twin_rev {m01 m02 : Heap} {L1 L2 : List Nat} (f : Nat)
    (hf : L1.length < f) {sa1 sa2 : Option Nat} (hsa : SamePos L1 L2 sa1 sa2) :
    ∀ n m1 m2 p q, Twins m01 m02 L1 L2 m1 m2 → SamePos L1 L2 p q →
      Both (fun x y => Twins m01 m02 L1 L2 x y) (BfsReverse.reset f sa1 n m1 p)
        (BfsReverse.reset f sa2 n m2 q) := by
  intro n
  induction n with
  | zero => intros; exact Or.inl ⟨.fuel, rfl, rfl⟩
  | succ n ih =>
    intro m1 m2 p q h hp
    simp only [BfsReverse.reset]
    rcases h.load_twin hp with ⟨e, h1, h2⟩ | ⟨s1, s2, h1, h2, hd, _, _, _⟩
    · rw [h1, h2]; exact Or.inl ⟨e, rfl, rfl⟩
    rw [h1, h2]
    simp only []
    rcases h.load_twin hsa with ⟨e, h3, h4⟩ | ⟨a1, a2, h3, h4, had, _, _, _⟩
    · rw [h3, h4]; exact Or.inl ⟨e, rfl, rfl⟩
    rw [h3, h4]
    simp only []
    rw [hd, had]
    by_cases hle : s2.distance ≥ a2.distance
    · simp only [hle, if_true]
      rcases h.modify hp (fun s => { s with color := 'w', pi := none })
          (fun s => { s with color := 'w', pi := none }) CellRel.whiten
          (fun _ => rfl) (fun _ => rfl) with ⟨e, h5, h6⟩ | ⟨m1', m2', h5, h6, h'⟩
      · rw [h5, h6]; exact Or.inl ⟨e, rfl, rfl⟩
      rw [h5, h6]
      simp only []
      rcases h'.pred hp f hf with ⟨e, h7, h8⟩ | ⟨x1, x2, h7, h8, hx⟩
      · rw [h7, h8]; exact Or.inl ⟨e, rfl, rfl⟩
      rw [h7, h8]
      rcases hx with ⟨e1, e2⟩ | ⟨i, a, b, ha, hb, e1, e2⟩
      · rw [e1, e2]
        exact Or.inr ⟨_, _, rfl, rfl, h'⟩
      · rw [e1, e2]
        exact ih _ _ _ _ h' (Or.inr ⟨i, a, b, ha, hb, rfl, rfl⟩)
    · simp only [hle, if_false]
      exact Or.inr ⟨_, _, rfl, rfl, h⟩

theorem BfsReverse_twin {m01 m02 : Heap} {L1 L2 : List Nat} {m1 m2 : Heap} (f : Nat)
    (hf : L1.length < f) (h : Twins m01 m02 L1 L2 m1 m2) {sp1 sp2 sa1 sa2 : Option Nat}
    (hsp : SamePos L1 L2 sp1 sp2) (hsa : SamePos L1 L2 sa1 sa2) :
    Both (fun x y => Twins m01 m02 L1 L2 x.1 y.1 ∧ x.2 = y.2)
      (BfsReverse f m1 sp1 sa1) (BfsReverse f m2 sp2 sa2) := by
  simp only [BfsReverse]
  rcases h.modify hsa (fun s => { s with color := 'g' }) (fun s => { s with color := 'g' })
      CellRel.gray (fun _ => rfl) (fun _ => rfl) with ⟨e, h1, h2⟩ | ⟨m1a, m2a, h1, h2, ha⟩
  · rw [h1, h2]; exact Or.inl ⟨e, rfl, rfl⟩
  rw [h1, h2]
  simp only []
  rcases BfsReverse.search_twin_rev f hf hsp f _ _ _ _ false ha
      (Enqueue_twin List.Forall₂.nil hsa) with ⟨e, h3, h4⟩ | ⟨x, y, h3, h4, hb, _, _⟩
  · rw [h3, h4]; exact Or.inl ⟨e, rfl, rfl⟩
  obtain ⟨m1b, q1b, e1⟩ := x
  obtain ⟨m2b, q2b, e2⟩ := y
  rw [h3, h4]
  simp only [] at hb ⊢
  rcases hb.load_twin hsp with ⟨e, h7, h8⟩ | ⟨s1, s2, h7, h8, hd, _, _, hpi⟩
  · rw [h7, h8]; exact Or.inl ⟨e, rfl, rfl⟩
  rw [h7, h8]
  simp only []
  rcases hpi with ⟨e1, e2⟩ | ⟨i, a, b, ha', hb', e1, e2⟩
  · rw [e1, e2]
    simp only []
    rcases BfsReverse.reset_twin_rev f hf hsa f _ _ _ _ hb hsp with
      ⟨e, h11, h12⟩ | ⟨m1c, m2c, h11, h12, hc⟩
    · rw [h11, h12]; exact Or.inl ⟨e, rfl, rfl⟩
    rw [h11, h12]
    exact Or.inr ⟨_, _, rfl, rfl, hc, rfl⟩
  · rw [e1, e2]
    simp only []
    rcases BfsReverse.print_twin hb f _ _ [] hsp with ⟨e, h5, h6⟩ | ⟨r1, r2, h5, h6, hr⟩
    · rw [h5, h6]; exact Or.inl ⟨e, rfl, rfl⟩
    rw [h5, h6]
    simp only []
    subst hr
    rcases BfsReverse.reset_twin_rev f hf hsa f _ _ _ _ hb hsp with
      ⟨e, h11, h12⟩ | ⟨m1c, m2c, h11, h12, hc⟩
    · rw [h11, h12]; exact Or.inl ⟨e, rfl, rfl⟩
    rw [h11, h12]
    exact Or.inr ⟨_, _, rfl, rfl, hc, rfl⟩

/-- Two lists of pairs, each in strictly increasing order of the first component, that
have the same elements are equal. -/
theorem eq_of_same_pairs {l1 l2 : List (Int × Int)}
    (h1 : l1.Pairwise (fun x y => x.1 < y.1)) (h2 : l2.Pairwise (fun x y => x.1 < y.1))
    (h : ∀ x, x ∈ l1 ↔ x ∈ l2) : l1 = l2 := by
  haveI : IsAntisymm (Int × Int) (fun x y => x.1 < y.1) :=
    ⟨fun a b hab hba => absurd hab (not_lt_of_gt hba)⟩
  have n1 : l1.Nodup := h1.imp (fun hab e => by rw [e] at hab; exact lt_irrefl _ hab)
  have n2 : l2.Nodup := h2.imp (fun hab e => by rw [e] at hab; exact lt_irrefl _ hab)
  exact List.eq_of_perm_of_sorted ((List.perm_ext_iff_of_nodup n1 n2).2 h) h1 h2

/-- Two station indexes with the same set of pairs (distance, `max_car`) hold them at the
same positions of their symmetric-order walks. -/
theorem same_positions {m1 m2 : Heap} {root1 root2 : Option Nat} {t1 t2 : Tree}
    (hI1 : IsIndex m1 root1 t1) (hI2 : IsIndex m2 root2 t2)
    (hsame : ∀ d r, (∃ a ∈ t1.inorder, distanceOf m1 a = d ∧ maxCarOf m1 a = r) ↔
      (∃ b ∈ t2.inorder, distanceOf m2 b = d ∧ maxCarOf m2 b = r)) :
    t1.inorder.length = t2.inorder.length ∧
    ∀ i a b : Nat, t1.inorder[i]? = some a → t2.inorder[i]? = some b →
      distanceOf m1 a = distanceOf m2 b ∧ maxCarOf m1 a = maxCarOf m2 b := by
  have key : t1.inorder.map (fun a => (distanceOf m1 a, maxCarOf m1 a))
      = t2.inorder.map (fun b => (distanceOf m2 b, maxCarOf m2 b)) := by
    refine eq_of_same_pairs ?_ ?_ ?_
    · rw [List.pairwise_map]
      have := hI1.2
      rw [List.pairwise_map] at this
      exact this
    · rw [List.pairwise_map]
      have := hI2.2
      rw [List.pairwise_map] at this
      exact this
    · intro x
      simp only [List.mem_map]
      constructor
      · rintro ⟨a, ha, rfl⟩
        obtain ⟨b, hb, e1, e2⟩ := (hsame _ _).1 ⟨a, ha, rfl, rfl⟩
        exact ⟨b, hb, by rw [e1, e2]⟩
      · rintro ⟨b, hb, rfl⟩
        obtain ⟨a, ha, e1, e2⟩ := (hsame _ _).2 ⟨b, hb, rfl, rfl⟩
        exact ⟨a, ha, by rw [e1, e2]⟩
  constructor
  · have := congrArg List.length key
    simpa using this
  · intro i a b ha hb
    have := congrArg (fun l => l[i]?) key
    simp only [List.getElem?_map, ha, hb, Option.map_some', Option.some.injEq,
      Prod.mk.injEq] at this
    exact this

theorem Twins.start {m1 m2 : Heap} {root1 root2 : Option Nat} {t1 t2 : Tree}
    (hI1 : IsIndex m1 root1 t1) (hI2 : IsIndex m2 root2 t2)
    (hC1 : Clean m1 t1.inorder) (hC2 : Clean m2 t2.inorder)
    (hsame : ∀ d r, (∃ a ∈ t1.inorder, distanceOf m1 a = d ∧ maxCarOf m1 a = r) ↔
      (∃ b ∈ t2.inorder, distanceOf m2 b = d ∧ maxCarOf m2 b = r)) :
    Twins m1 m2 t1.inorder t2.inorder m1 m2 := by
  obtain ⟨hlen, hpos⟩ := same_positions hI1 hI2 hsame
  refine ⟨hI1.road, hI2.road, hlen, SameTree.refl _, SameTree.refl _, ?_⟩
  intro i a b ha hb
  have ha' : a ∈ t1.inorder := List.mem_iff_getElem?.2 ⟨i, ha⟩
  have hb' : b ∈ t2.inorder := List.mem_iff_getElem?.2 ⟨i, hb⟩
  obtain ⟨s1, hs1⟩ := hI1.1.alloc_of a ha'
  obtain ⟨s2, hs2⟩ := hI2.1.alloc_of b hb'
  obtain ⟨e1, e2⟩ := hpos i a b ha hb
  simp only [distanceOf, maxCarOf, hs1, hs2] at e1 e2
  have c1 := hC1 a ha' s1 hs1
  have c2 := hC2 b hb' s2 hs2
  exact ⟨s1, s2, hs1, hs2, e1, e2, c1.1.trans c2.1.symm, Or.inl ⟨c1.2, c2.2⟩⟩

theorem scenarioC_index : IsIndex scenarioC (some 0) scenarioC_tree := by
  refine ⟨?_, ?_⟩
  · simp [Shape, scenarioC_tree, scenarioC]
  · simp [scenarioC_tree, Tree.inorder, distanceOf, scenarioC]

theorem scenarioC_clean : Clean scenarioC scenarioC_tree.inorder := by
  intro a ha s hs
  simp [scenarioC_tree, Tree.inorder] at ha
  rcases ha with rfl | rfl | rfl | rfl <;> simp [scenarioC] at hs <;> subst hs <;> simp

/-- C19 (route output is independent of tree shape): for two station indexes with clean
search state, of any shapes, that hold the same set of pairs (distance, `max_car`), and
two distances of stations of the index, `plan-route` returns on both, leaves both states
unchanged, and prints the same line on both: the same route or `no route`. -/
theorem route_independent_of_tree_shape {v w : State} {t1 t2 : Tree}
    (hI1 : IsIndex v.mem v.T.root t1) (hI2 : IsIndex w.mem w.T.root t2)
    (hC1 : Clean v.mem t1.inorder) (hC2 : Clean w.mem t2.inorder)
    (hsame : ∀ d r, (∃ a ∈ t1.inorder, distanceOf v.mem a = d ∧ maxCarOf v.mem a = r) ↔
      (∃ b ∈ t2.inorder, distanceOf w.mem b = d ∧ maxCarOf w.mem b = r))
    (d1 d2 : Int) (hd1 : ∃ a ∈ t1.inorder, distanceOf v.mem a = d1)
    (hd2 : ∃ a ∈ t1.inorder, distanceOf v.mem a = d2) (fuel : Nat)
    (hf : t1.size < fuel) :
    ∃ line, main.step fuel v (.plan_route d1 d2) = .ok (v, line) ∧
      main.step fuel w (.plan_route d1 d2) = .ok (w, line) := by
  obtain ⟨hlen, hpos⟩ := same_positions hI1 hI2 hsame
  have hT := Twins.start hI1 hI2 hC1 hC2 hsame
  have hf1 : t1.inorder.length < fuel := by rw [inorder_length]; exact hf
  have hf2 : t2.inorder.length < fuel := hlen ▸ hf1
  have hs2 : t2.size < fuel := by rw [← inorder_length]; exact hf2
  obtain ⟨a1, ha1, hda1⟩ := hd1
  obtain ⟨a2, ha2, hda2⟩ := hd2
  obtain ⟨i1, hi1⟩ := List.mem_iff_getElem?.1 ha1
  obtain ⟨i2, hi2⟩ := List.mem_iff_getElem?.1 ha2
  have hl1 : i1 < t2.inorder.length := hlen ▸ (List.getElem?_eq_some.1 hi1).1
  have hl2 : i2 < t2.inorder.length := hlen ▸ (List.getElem?_eq_some.1 hi2).1
  have hj1 : t2.inorder[i1]? = some t2.inorder[i1] := List.getElem?_eq_getElem hl1
  have hj2 : t2.inorder[i2]? = some t2.inorder[i2] := List.getElem?_eq_getElem hl2
  have hb1 : t2.inorder[i1] ∈ t2.inorder := List.getElem_mem hl1
  have hb2 : t2.inorder[i2] ∈ t2.inorder := List.getElem_mem hl2
  have hdb1 : distanceOf w.mem t2.inorder[i1] = d1 := by
    rw [← (hpos i1 a1 _ hi1 hj1).1, hda1]
  have hdb2 : distanceOf w.mem t2.inorder[i2] = d2 := by
    rw [← (hpos i2 a2 _ hi2 hj2).1, hda2]
  have hS1 : SamePos t1.inorder t2.inorder (some a1) (some t2.inorder[i1]) :=
    Or.inr ⟨i1, a1, _, hi1, hj1, rfl, rfl⟩
  have hS2 : SamePos t1.inorder t2.inorder (some a2) (some t2.inorder[i2]) :=
    Or.inr ⟨i2, a2, _, hi2, hj2, rfl, rfl⟩
  have e1 : ({ v with mem := v.mem } : State) = v := rfl
  have e2 : ({ w with mem := w.mem } : State) = w := rfl
  simp only [main.step, (hI1.find d1 fuel hf).2 a1 ha1 hda1,
    (hI1.find d2 fuel hf).2 a2 ha2 hda2, (hI2.find d1 fuel hs2).2 _ hb1 hdb1,
    (hI2.find d2 fuel hs2).2 _ hb2 hdb2]
  by_cases heq : d1 = d2
  · simp only [heq, if_true]
    exact ⟨_, rfl, rfl⟩
  · simp only [heq, if_false]
    by_cases hlt : d1 < d2
    · simp only [hlt, if_true]
      have hp1 : i1 < i2 := hI1.road.pos_lt hi1 hi2 (by rw [hda1, hda2]; exact hlt)
      obtain ⟨l1, hr1, _⟩ := BfsDirect_road hI1.road hC1 i1 i2 hp1 a1 a2 hi1 hi2 fuel hf1
      obtain ⟨l2, hr2, _⟩ := BfsDirect_road hI2.road hC2 i1 i2 hp1 _ _ hj1 hj2 fuel hf2
      rcases BfsDirect_twin fuel hf1 hT hS1 hS2 with ⟨e, h1, _⟩ | ⟨x, y, h1, h2, _, hxy⟩
      · rw [hr1] at h1
        cases h1
      · rw [hr1] at h1
        rw [hr2] at h2
        cases h1
        cases h2
        simp only [] at hxy
        subst hxy
        simp only [hr1, hr2, e1, e2]
        exact ⟨_, rfl, rfl⟩
    · simp only [hlt, if_false]
      have hgt : d2 < d1 := by omega
      have hp1 : i2 < i1 := hI1.road.pos_lt hi2 hi1 (by rw [hda1, hda2]; exact hgt)
      obtain ⟨l1, hr1, _⟩ := BfsReverse_road hI1.road hC1 i2 i1 hp1 a1 a2 hi1 hi2 fuel hf1
      obtain ⟨l2, hr2, _⟩ := BfsReverse_road hI2.road hC2 i2 i1 hp1 _ _ hj1 hj2 fuel hf2
      rcases BfsReverse_twin fuel hf1 hT hS1 hS2 with ⟨e, h1, _⟩ | ⟨x, y, h1, h2, _, hxy⟩
      · rw [hr1] at h1
        cases h1
      · rw [hr1] at h1
        rw [hr2] at h2
        cases h1
        cases h2
        simp only [] at hxy
        subst hxy
        simp only [hr1, hr2, e1, e2]
        exact ⟨_, rfl, rfl⟩

theorem route_independent_of_tree_shape_witness :
    (∀ d r, (∃ a ∈ scenarioA_tree.inorder,
        distanceOf stateA.mem a = d ∧ maxCarOf stateA.mem a = r) ↔
      (∃ b ∈ scenarioC_tree.inorder,
        distanceOf stateC.mem b = d ∧ maxCarOf stateC.mem b = r)) ∧
    scenarioA_tree ≠ scenarioC_tree ∧
    main.step 5 stateA (.plan_route 0 6) = .ok (stateA, .route [0, 4, 6]) ∧
    main.step 5 stateC (.plan_route 0 6) = .ok (stateC, .route [0, 4, 6]) ∧
    (∃ line, main.step 5 stateA (.plan_route 6 0) = .ok (stateA, line) ∧
      main.step 5 stateC (.plan_route 6 0) = .ok (stateC, line)) :=
  have hsame : ∀ d r, (∃ a ∈ scenarioA_tree.inorder,
        distanceOf stateA.mem a = d ∧ maxCarOf stateA.mem a = r) ↔
      (∃ b ∈ scenarioC_tree.inorder,
        distanceOf stateC.mem b = d ∧ maxCarOf stateC.mem b = r) := by
    intro d r
    constructor
    · rintro ⟨a, ha, rfl, rfl⟩
      simp only [scenarioA_tree, Tree.inorder, List.nil_append, List.cons_append,
        List.mem_cons, List.mem_singleton, List.not_mem_nil, or_false] at ha
      rcases ha with rfl | rfl | rfl | rfl
      · exact ⟨0, by decide, rfl, rfl⟩
      · exact ⟨1, by decide, rfl, rfl⟩
      · exact ⟨2, by decide, rfl, rfl⟩
      · exact ⟨3, by decide, rfl, rfl⟩
    · rintro ⟨b, hb, rfl, rfl⟩
      simp only [scenarioC_tree, Tree.inorder, List.nil_append, List.cons_append,
        List.mem_cons, List.mem_singleton, List.not_mem_nil, or_false] at hb
      rcases hb with rfl | rfl | rfl | rfl
      · exact ⟨1, by decide, rfl, rfl⟩
      · exact ⟨0, by decide, rfl, rfl⟩
      · exact ⟨2, by decide, rfl, rfl⟩
      · exact ⟨3, by decide, rfl, rfl⟩
  have h06 := route_independent_of_tree_shape (v := stateA) (w := stateC) scenarioA_index
    scenarioC_index scenarioA_clean scenarioC_clean hsame 0 6 ⟨1, by decide, rfl⟩
    ⟨3, by decide, rfl⟩ 5 (by decide)
  have h60 := route_independent_of_tree_shape (v := stateA) (w := stateC) scenarioA_index
    scenarioC_index scenarioA_clean scenarioC_clean hsame 6 0 ⟨3, by decide, rfl⟩
    ⟨1, by decide, rfl⟩ 5 (by decide)
  have e : (main.step 5 stateA (.plan_route 0 6)).map Prod.snd = .ok (.route [0, 4, 6]) := rfl
  ⟨hsame, by decide, by
    obtain ⟨line, h1, h2⟩ := h06
    rw [h1] at e ⊢
    cases e
    rfl, by
    obtain ⟨line, h1, h2⟩ := h06
    rw [h1] at e
    cases e
    exact h2, h60⟩

end RouteFinder
